import Mathlib

/-!
# Quazaa G2 host cache

A shallow embedding of `src/Quazaa/HostCache/hostcache.cpp` (class `G2HostCache`) and of the
value object declared in `src/Quazaa/HostCache/hostcachehost.h`.

* `std::list<SharedG2HostPtr>` is a list of nodes.  Every node carries the identity of its list
  cell (`Node.id`): a `std::list` iterator is the identity of a cell and stays valid while other
  cells are inserted or erased.  `m_pFailures` is the array of such iterators.
* `quint8` / `quint32` values are natural numbers; wrap-around is written out where the source
  computes (`tNow - 60`, `--nFailures`, the `quint8` loop counters).
* Collaborators that are not part of the cache (end point validity, the security manager, the
  settings, the clock, the snapshot file) are inputs of the operations.
-/

namespace Quazaa

/-! ## Data model -/

/-- An end point: IP address and port. -/
structure CEndPoint where
  ip : Nat
  port : Nat
deriving DecidableEq, Repr

/-- The fields of `G2HostCacheHost` (hostcachehost.h) that the cache reads or writes.  The GUI id
and the stored back-iterator are not modelled: the back-iterator of a host is the identity of the
node that holds it. -/
structure G2HostCacheHost where
  m_oAddress : CEndPoint
  m_tTimestamp : Nat
  m_nQueryKey : Nat
  m_oKeyHost : CEndPoint
  m_nKeyTime : Nat
  m_tAck : Nat
  m_tLastQuery : Nat
  m_tRetryAfter : Nat
  m_tLastConnect : Nat
  m_nFailures : Nat
  m_bConnectable : Bool
deriving DecidableEq, Repr

/-- A cell of `m_lHosts`: `host = none` is a NULL pointer, that is an access point. -/
structure Node where
  id : Nat
  host : Option G2HostCacheHost
deriving DecidableEq, Repr

/-- The members of `G2HostCache`.  `m_nNextNode` is the allocator of list cells and
`bSecondAttempt` is the function-local static of `getConnectable`. -/
structure G2HostCache where
  m_lHosts : List Node
  m_pFailures : List Nat
  m_oLokalAddress : CEndPoint
  m_tLastSave : Nat
  m_nMaxFailures : Nat
  m_nSizeAtomic : Int
  m_nNextNode : Nat
  bSecondAttempt : Bool
deriving DecidableEq, Repr

/-- Properties of end points that the cache asks of the networking layer, and the two parsers
used by `asyncAddXTry`. -/
structure World where
  isValid : CEndPoint → Bool
  isFirewalled : CEndPoint → Bool
  country : CEndPoint → String
  parseEndPoint : String → CEndPoint
  parseTimeStamp : String → Option Nat

/-- The settings read by the cache (`quazaaSettings`). -/
structure Settings where
  FailureLimit : Nat
  FailurePenalty : Nat
  ConnectThrottle : Nat
  HostCacheSize : Nat
  HostExpire : Nat
  QueryHostDeadline : Nat
deriving DecidableEq, Repr

/-- One record of the snapshot file. -/
structure HostRecord where
  oAddress : CEndPoint
  nFailures : Nat
  tTimeStamp : Nat
  tLastConnect : Nat
deriving DecidableEq, Repr

/-- The snapshot file as `load` reads it: version, count, the records that follow, and the
record that the stream yields once it is exhausted. -/
structure HostFile where
  nVersion : Nat
  nCount : Nat
  records : List HostRecord
  pastEnd : HostRecord

/-- Subtraction of `quint32` values. -/
def subU32 (a b : Nat) : Nat := (a % 4294967296 + 4294967296 - b % 4294967296) % 4294967296

/-- Modelled from the spec: the constructor `G2HostCacheHost(address, timestamp, failures)`
(hostcachehost.cpp is not part of the excerpt) builds an entry from the three values; the other
fields start empty. -/
def G2HostCacheHost.create (oAddress : CEndPoint) (tTimestamp nFailures : Nat) :
    G2HostCacheHost :=
  { m_oAddress := oAddress, m_tTimestamp := tTimestamp, m_nQueryKey := 0,
    m_oKeyHost := ⟨0, 0⟩, m_nKeyTime := 0, m_tAck := 0, m_tLastQuery := 0, m_tRetryAfter := 0,
    m_tLastConnect := 0, m_nFailures := nFailures, m_bConnectable := false }

/-- Modelled from the spec: the constructor `G2HostCacheHost(oHost, timestamp, failures)`
(hostcachehost.cpp is not part of the excerpt) clones an entry with a new timestamp and a new
failure count. -/
def G2HostCacheHost.clone (oHost : G2HostCacheHost) (tTimestamp nFailures : Nat) :
    G2HostCacheHost :=
  { oHost with m_tTimestamp := tTimestamp, m_nFailures := nFailures }

/-- Modelled from the spec: `setKey(nKey, tNow, pHost)` (hostcachehost.cpp is not part of the
excerpt) attaches the query key, its time and the key host. -/
def G2HostCacheHost.setKey (h : G2HostCacheHost) (nKey tNow : Nat) (pHost : Option CEndPoint) :
    G2HostCacheHost :=
  { h with m_nQueryKey := nKey, m_nKeyTime := tNow, m_oKeyHost := pHost.getD h.m_oKeyHost }

/-! ## List cells and iterators -/

/-- Whether a cell holds a host. -/
def Node.isHost (n : Node) : Bool := n.host.isSome

/-- Whether a cell is an access point. -/
def Node.isAP (n : Node) : Bool := n.host.isNone

/-- The cells before the cell an iterator points to. -/
def nodesBefore (it : Nat) (l : List Node) : List Node := l.takeWhile (fun n => n.id != it)

/-- The cells from the cell an iterator points to up to the end of the list. -/
def nodesFrom (it : Nat) (l : List Node) : List Node := l.dropWhile (fun n => n.id != it)

/-- The member `std::list::erase(it)`. -/
def eraseNode (it : Nat) (l : List Node) : List Node := l.eraseP (fun n => n.id == it)

/-- Dereferences an iterator. -/
def derefNode (it : Nat) (l : List Node) : Option Node := l.find? (fun n => n.id == it)

/-- Applies a setter to the host an iterator points to. -/
def modifyHost (it : Nat) (f : G2HostCacheHost → G2HostCacheHost) (l : List Node) : List Node :=
  l.map (fun n => if n.id = it then { n with host := n.host.map f } else n)

namespace G2HostCache

/-- The state built by the constructor `G2HostCache::G2HostCache`. -/
def ctor : G2HostCache :=
  { m_lHosts := [], m_pFailures := [], m_oLokalAddress := ⟨0, 0⟩, m_tLastSave := 0,
    m_nMaxFailures := 0, m_nSizeAtomic := 0, m_nNextNode := 0, bSecondAttempt := false }

/-- The slots of the sequence: `none` for an access point, `some h` for a host. -/
def slots (s : G2HostCache) : List (Option G2HostCacheHost) := s.m_lHosts.map Node.host

/-- The hosts of the cache in sequence order. -/
def hosts (s : G2HostCache) : List G2HostCacheHost := s.m_lHosts.filterMap Node.host

/-- The member `count()`. -/
def count (s : G2HostCache) : Int := s.m_nSizeAtomic

/-- The loop of `find(const CEndPoint&)`: the first cell whose host has the address. -/
def findNode (oHost : CEndPoint) : List Node → Option Node
  | [] => none
  | n :: r =>
    match n.host with
    | some h => if h.m_oAddress = oHost then some n else findNode oHost r
    | none => findNode oHost r

/-- The member `find(const CEndPoint&)`; `none` is `m_lHosts.end()`. -/
def find (s : G2HostCache) (oHost : CEndPoint) : Option Node := findNode oHost s.m_lHosts

/-- The member `get(const CEndPoint&)`. -/
def get (s : G2HostCache) (oHost : CEndPoint) : Option G2HostCacheHost :=
  match s.find oHost with
  | some n => n.host
  | none => none

/-- The walk of `insert`: advance past the hosts with a higher timestamp, then insert before
the cell reached (at the end of the list if the walk runs off it). -/
def insertWalk (pNew : Node) (ts : Nat) : List Node → List Node
  | [] => [pNew]
  | y :: r =>
    match y.host with
    | some h => if h.m_tTimestamp > ts then y :: insertWalk pNew ts r else pNew :: y :: r
    | none => pNew :: y :: r

/-- The member `insert(pNew)`: start at `m_pFailures[pNew->failures()]`, step over it, walk,
insert, count.  The new cell gets the identity `m_nNextNode`. -/
def insert (s : G2HostCache) (pNew : G2HostCacheHost) : G2HostCache :=
  match s.m_pFailures[pNew.m_nFailures]? with
  | none => s
  | some ap =>
    match nodesFrom ap s.m_lHosts with
    | [] => s
    | a :: r =>
      { s with
        m_lHosts := nodesBefore ap s.m_lHosts ++
          a :: insertWalk ⟨s.m_nNextNode, some pNew⟩ pNew.m_tTimestamp r
        m_nSizeAtomic := s.m_nSizeAtomic + 1
        m_nNextNode := s.m_nNextNode + 1 }

/-- The member `remove(G2HostCacheIterator&)`. -/
def remove (s : G2HostCache) (itHost : Nat) : G2HostCache :=
  { s with m_nSizeAtomic := s.m_nSizeAtomic - 1, m_lHosts := eraseNode itHost s.m_lHosts }

/-- The member `update(itHost, tTimeStamp, nFailures)`; `pHost` is `*itHost`.  Returns the new
state and the iterator of the new entry (`none` for a NULL pointer). -/
def update (s : G2HostCache) (itHost : Nat) (pHost : G2HostCacheHost)
    (tTimeStamp nFailures : Nat) : G2HostCache × Option Nat :=
  let s1 : G2HostCache :=
    { s with m_nSizeAtomic := s.m_nSizeAtomic - 1, m_lHosts := eraseNode itHost s.m_lHosts }
  if nFailures ≤ s.m_nMaxFailures then
    (s1.insert (pHost.clone tTimeStamp (nFailures % 256)), some s1.m_nNextNode)
  else
    (s1, none)

/-- The member `addSyncHelper(oHostIP, tTimeStamp, tNow, nFailures)`.  Returns the new state
and the iterator of the entry (`none` for a NULL pointer). -/
def addSyncHelper (W : World) (isDenied : CEndPoint → Bool) (s : G2HostCache)
    (oHostIP : CEndPoint) (tTimeStamp tNow nFailures : Nat) : G2HostCache × Option Nat :=
  if !W.isValid oHostIP then (s, none)
  else if W.isFirewalled oHostIP then (s, none)
  else if nFailures > s.m_nMaxFailures then (s, none)
  else if isDenied oHostIP then (s, none)
  else if oHostIP = s.m_oLokalAddress then (s, none)
  else
    let tTimeStamp := if tTimeStamp > tNow then subU32 tNow 60 else tTimeStamp
    match s.find oHostIP with
    | some itPrevious =>
      match itPrevious.host with
      | some pHost => s.update itPrevious.id pHost tTimeStamp nFailures
      | none => (s, none)
    | none =>
      (s.insert (G2HostCacheHost.create oHostIP tTimeStamp (nFailures % 256)),
        some s.m_nNextNode)

/-- The member `addSync(host, tTimeStamp, bLock)`; `tNow` is the clock reading. -/
def addSync (W : World) (isDenied : CEndPoint → Bool) (s : G2HostCache) (host : CEndPoint)
    (tTimeStamp tNow : Nat) : G2HostCache × Option Nat :=
  s.addSyncHelper W isDenied host tTimeStamp tNow 0

/-- The member `addSyncKey(host, tTimeStamp, pKeyHost, nKey, tNow, bLock)`. -/
def addSyncKey (W : World) (isDenied : CEndPoint → Bool) (s : G2HostCache) (host : CEndPoint)
    (tTimeStamp : Nat) (pKeyHost : Option CEndPoint) (nKey tNow : Nat) :
    G2HostCache × Option Nat :=
  let r := s.addSyncHelper W isDenied host tTimeStamp tNow 0
  match r.2 with
  | some it =>
    ({ r.1 with m_lHosts := modifyHost it (fun h => h.setKey nKey tNow pKeyHost) r.1.m_lHosts },
      some it)
  | none => r

/-- The member `addSyncAck(host, tTimeStamp, tAck, tNow, bLock)`. -/
def addSyncAck (W : World) (isDenied : CEndPoint → Bool) (s : G2HostCache) (host : CEndPoint)
    (tTimeStamp tAck tNow : Nat) : G2HostCache × Option Nat :=
  let r := s.addSyncHelper W isDenied host tTimeStamp tNow 0
  match r.2 with
  | some it =>
    ({ r.1 with m_lHosts := modifyHost it (fun h => { h with m_tAck := tAck }) r.1.m_lHosts },
      some it)
  | none => r

/-- The member `removeSync(oHost)`. -/
def removeSync (s : G2HostCache) (oHost : CEndPoint) : G2HostCache :=
  match s.find oHost with
  | some it => s.remove it.id
  | none => s

/-- The member `sanityCheck()`: the forward loop erases every host whose address is newly
denied; the counter is decremented once per erased cell. -/
def sanityCheck (isNewlyDenied : CEndPoint → Bool) (s : G2HostCache) : G2HostCache :=
  let l := s.m_lHosts.filter (fun n =>
    match n.host with
    | some h => !isNewlyDenied h.m_oAddress
    | none => true)
  { s with m_lHosts := l, m_nSizeAtomic := s.m_nSizeAtomic - (s.m_lHosts.length - l.length : Nat) }

/-- The loop of `pruneOldHosts`, on the cells from `--m_lHosts.end()` back to `begin()`: an
access point or a host with `timestamp > tExpire` is stepped over, any other cell is erased;
the loop stops at `begin()` without looking at it. -/
def pruneOldWalk (tExpire : Nat) : List Node → List Node
  | [] => []
  | [b] => [b]
  | x :: y :: r =>
    match x.host with
    | none => x :: pruneOldWalk tExpire (y :: r)
    | some h =>
      if h.m_tTimestamp > tExpire then x :: pruneOldWalk tExpire (y :: r)
      else pruneOldWalk tExpire (y :: r)

/-- The member `pruneOldHosts(tNow)`; the counter is decremented once per erased cell. -/
def pruneOldHosts (cfg : Settings) (s : G2HostCache) (tNow : Nat) : G2HostCache :=
  let tExpire := subU32 tNow cfg.HostExpire
  let l := (pruneOldWalk tExpire s.m_lHosts.reverse).reverse
  { s with m_lHosts := l, m_nSizeAtomic := s.m_nSizeAtomic - (s.m_lHosts.length - l.length : Nat) }

/-- The member `pruneByQueryAck(tNow)`; the counter is decremented once per erased cell. -/
def pruneByQueryAck (cfg : Settings) (s : G2HostCache) (tNow : Nat) : G2HostCache :=
  let tAckExpire := subU32 tNow cfg.QueryHostDeadline
  let l := s.m_lHosts.filter (fun n =>
    match n.host with
    | some h => !(h.m_tAck != 0 && h.m_tAck < tAckExpire)
    | none => true)
  { s with m_lHosts := l, m_nSizeAtomic := s.m_nSizeAtomic - (s.m_lHosts.length - l.length : Nat) }

/-- The member `clear()`. -/
def clear (s : G2HostCache) : G2HostCache :=
  { s with m_lHosts := s.m_lHosts.filter Node.isAP, m_nSizeAtomic := 0 }

/-- The member `requestHostInfo()`: the number of `hostInfo` signals emitted. -/
def requestHostInfo (s : G2HostCache) : Nat := (s.m_lHosts.filter Node.isHost).length

/-- The walk of `removeWorst`, on the cells from the iterator back to `begin()`.  Access points
are stepped over while the iterator is not `begin()`, each step decrementing the `quint8`
`nFailures`; a host that is reached is erased.  Returns the remaining cells, `nFailures`, and
whether a host was erased. -/
def removeWorstWalk : List Node → Nat → List Node × Nat × Bool
  | [], nFailures => ([], nFailures, false)
  | x :: r, nFailures =>
    match x.host with
    | some _ => (r, nFailures, true)
    | none =>
      match r with
      | [] => ([x], nFailures, false)
      | _ :: _ =>
        let w := removeWorstWalk r ((nFailures + 255) % 256)
        (x :: w.1, w.2.1, w.2.2)

/-- The member `removeWorst(nFailures)`; the second component is the value left in the
reference parameter. -/
def removeWorst (s : G2HostCache) (nFailures : Nat) : G2HostCache × Nat :=
  let nFailures := if nFailures > s.m_nMaxFailures then s.m_nMaxFailures else nFailures
  match s.m_pFailures[nFailures + 1]? with
  | none => (s, nFailures)
  | some ap =>
    let w := removeWorstWalk (nodesBefore ap s.m_lHosts).reverse nFailures
    ({ s with
       m_lHosts := w.1.reverse ++ nodesFrom ap s.m_lHosts
       m_nSizeAtomic := if w.2.2 then s.m_nSizeAtomic - 1 else s.m_nSizeAtomic }, w.2.1)

/-- The loop `while ( nFailure > nNewMaxFailures ) removeWorst( nFailure )` of
`maintainInternal`; `none` when the fuel runs out. -/
def evictAbove (nNewMaxFailures : Nat) : Nat → G2HostCache → Nat → Option G2HostCache
  | 0, _, _ => none
  | fuel + 1, s, nFailure =>
    if nFailure > nNewMaxFailures then
      evictAbove nNewMaxFailures fuel (s.removeWorst nFailure).1 (s.removeWorst nFailure).2
    else some s

/-- The loop `while ( size > nMax ) removeWorst( nFailure )` of `maintainInternal`; `none` when
the fuel runs out. -/
def evictDownTo (nMax : Nat) : Nat → G2HostCache → Nat → Option G2HostCache
  | 0, _, _ => none
  | fuel + 1, s, nFailure =>
    if (s.m_nSizeAtomic % 4294967296).toNat > nMax then
      evictDownTo nMax fuel (s.removeWorst nFailure).1 (s.removeWorst nFailure).2
    else some s

/-- The member `save(tNow)`; `bWritten` tells whether the secured save succeeded, in which case
it returns the count written by `writeToFile`. -/
def save (s : G2HostCache) (tNow : Nat) (bWritten : Bool) : G2HostCache :=
  let nCount := if bWritten then (s.m_nSizeAtomic % 4294967296).toNat else 0
  if nCount ≠ 0 then { s with m_tLastSave := tNow } else s

/-- The first part of `maintainInternal`: the access points follow a changed `FailureLimit`.
The `quint8` counters of the copy loops never reach `nNewMaxFailures + 2` when that exceeds 255:
the result is then `none`. -/
def reshape (nNewMaxFailures : Nat) (s : G2HostCache) : Option G2HostCache :=
  if s.m_nMaxFailures = nNewMaxFailures then some s
  else if s.m_nMaxFailures > nNewMaxFailures then
    match evictAbove nNewMaxFailures (s.m_lHosts.length + s.m_nMaxFailures + 1) s
        s.m_nMaxFailures with
    | none => none
    | some s1 =>
      if nNewMaxFailures + 2 > 255 then none
      else
        some { s1 with
          m_pFailures := s1.m_pFailures.take (nNewMaxFailures + 2)
          m_lHosts := s1.m_lHosts.take (s1.m_lHosts.length - (s.m_nMaxFailures - nNewMaxFailures))
          m_nMaxFailures := nNewMaxFailures }
  else
    if nNewMaxFailures + 2 > 255 then none
    else
      let fresh := List.range' s.m_nNextNode (nNewMaxFailures - s.m_nMaxFailures)
      some { s with
        m_pFailures := s.m_pFailures.take (s.m_nMaxFailures + 2) ++ fresh
        m_lHosts := s.m_lHosts ++ fresh.map (fun i => ⟨i, none⟩)
        m_nNextNode := s.m_nNextNode + (nNewMaxFailures - s.m_nMaxFailures)
        m_nMaxFailures := nNewMaxFailures }

/-- The last loop of `maintainInternal`: hosts that are not connectable are re-evaluated against
the running throttle, which grows by the penalty at every access point.  The sum
`lastConnect + tThrottle` is a `quint32`. -/
def updateConnectable (tNow tFailurePenalty : Nat) : Int → List Node → List Node
  | _, [] => []
  | tThrottle, n :: r =>
    match n.host with
    | some h =>
      let bConnectable : Bool :=
        decide (tNow > (((h.m_tLastConnect : Int) + tThrottle) % 4294967296).toNat)
      (if h.m_bConnectable then n
       else { n with host := some { h with m_bConnectable := bConnectable } })
        :: updateConnectable tNow tFailurePenalty tThrottle r
    | none => n :: updateConnectable tNow tFailurePenalty (tThrottle + tFailurePenalty) r

/-- The member `maintainInternal()`: `tNow` is the clock reading, `bWritten` the outcome of the
secured save if one is attempted.  `none` when one of its loops does not end. -/
def maintainInternal (cfg : Settings) (tNow : Nat) (bWritten : Bool) (s : G2HostCache) :
    Option G2HostCache :=
  match reshape (cfg.FailureLimit % 256) s with
  | none => none
  | some s1 =>
    let nMaxSize := cfg.HostCacheSize % 4294967296
    let s2 : Option G2HostCache :=
      if nMaxSize ≠ 0 ∧ (s1.m_nSizeAtomic % 4294967296).toNat > nMaxSize then
        match evictDownTo (nMaxSize - nMaxSize / 4) (s1.m_lHosts.length + s1.m_nMaxFailures + 1)
            s1 s1.m_nMaxFailures with
        | none => none
        | some s2 => some (s2.save tNow bWritten)
      else if tNow > (s1.m_tLastSave + 600) % 4294967296 then some (s1.save tNow bWritten)
      else some s1
    match s2 with
    | none => none
    | some s2 =>
      let tFailurePenalty := cfg.FailurePenalty % 65536
      let tThrottle : Int := Int.ofNat cfg.ConnectThrottle - Int.ofNat tFailurePenalty
      some { s2 with m_lHosts := updateConnectable tNow tFailurePenalty tThrottle s2.m_lHosts }

/-- The member `maintain()`. -/
def maintain (cfg : Settings) (tNow : Nat) (bWritten : Bool) (s : G2HostCache) :
    Option G2HostCache :=
  s.maintainInternal cfg tNow bWritten

/-- The member `localAddressChanged()`; `oLocal` is `Network.getLocalAddress()`. -/
def localAddressChanged (s : G2HostCache) (oLocal : CEndPoint) : G2HostCache :=
  { s with m_oLokalAddress := oLocal }

/-- The member `asyncUpdateFailures(oAddress, nNewFailures)`. -/
def asyncUpdateFailures (s : G2HostCache) (oAddress : CEndPoint) (nNewFailures : Nat) :
    G2HostCache :=
  match s.find oAddress with
  | some itHost =>
    match itHost.host with
    | some pHost =>
      let s1 := s.remove itHost.id
      if nNewFailures ≤ s1.m_nMaxFailures then
        s1.insert (pHost.clone pHost.m_tTimestamp (nNewFailures % 256))
      else s1
    | none => s
  | none => s

/-- The member `asyncOnFailure(addr)`. -/
def asyncOnFailure (s : G2HostCache) (addr : CEndPoint) : G2HostCache :=
  match s.find addr with
  | some itHost =>
    match itHost.host with
    | some pHost =>
      let s1 := s.remove itHost.id
      let nFailures := pHost.m_nFailures
      if nFailures < s1.m_nMaxFailures then
        s1.insert (pHost.clone pHost.m_tTimestamp ((nFailures + 1) % 256))
      else s1
    | none => s
  | none => s

/-- The body of the loop of `asyncAddXTry` for one comma-separated item. -/
def addXTryEntry (W : World) (isDenied : CEndPoint → Bool) (tNow : Nat) (s : G2HostCache)
    (sEntry : String) : G2HostCache :=
  match sEntry.splitOn " " with
  | [sAddress, sTime] =>
    let oAddress := W.parseEndPoint sAddress
    if !W.isValid oAddress || isDenied oAddress then s
    else
      let tTimeStamp := match W.parseTimeStamp sTime with
        | some t => t
        | none => tNow
      (s.addSyncHelper W isDenied oAddress tTimeStamp tNow 0).1
  | _ => s

/-- The member `asyncAddXTry(sHeader)`. -/
def asyncAddXTry (W : World) (isDenied : CEndPoint → Bool) (tNow : Nat) (s : G2HostCache)
    (sHeader : String) : G2HostCache :=
  (sHeader.splitOn ",").foldl (addXTryEntry W isDenied tNow) s

/-- One pass of the loop of `load` for a record that is not skipped: the timestamp was already
clamped by the caller. -/
def loadRecord (W : World) (isDenied : CEndPoint → Bool) (tNow : Nat) (s : G2HostCache)
    (r : HostRecord) (tTimeStamp : Nat) : G2HostCache :=
  let a := s.addSyncHelper W isDenied r.oAddress tTimeStamp tNow r.nFailures
  match a.2 with
  | some it =>
    let tLastConnect := if r.tLastConnect > tNow then subU32 tNow 60 else r.tLastConnect
    let l := modifyHost it (fun h => { h with m_tLastConnect := tLastConnect }) a.1.m_lHosts
    { a.1 with m_lHosts := l }
  | none => a.1

/-- The timestamp test at the head of the loop of `load`: `tTimeStamp - tNow > 0` on `quint32`
values. -/
def loadClamp (tTimeStamp tNow : Nat) : Nat :=
  if subU32 tTimeStamp tNow > 0 then subU32 tNow 60 else tTimeStamp

/-- The loop of `load` once the stream is exhausted: every read yields `pastEnd`.  A denied
address is skipped without counting down, so the loop does not end: `none`. -/
def loadPastEnd (W : World) (isDenied : CEndPoint → Bool) (tNow : Nat) (pastEnd : HostRecord) :
    Nat → G2HostCache → Option G2HostCache
  | 0, s => some s
  | n + 1, s =>
    if isDenied pastEnd.oAddress then none
    else loadPastEnd W isDenied tNow pastEnd n
      (loadRecord W isDenied tNow s pastEnd (loadClamp pastEnd.tTimeStamp tNow))

/-- The loop `while ( nCount )` of `load`.  A record with a denied address is skipped by
`continue`, which does not count down. -/
def loadLoop (W : World) (isDenied : CEndPoint → Bool) (tNow : Nat) (pastEnd : HostRecord) :
    List HostRecord → Nat → G2HostCache → Option G2HostCache
  | _, 0, s => some s
  | [], n + 1, s => loadPastEnd W isDenied tNow pastEnd (n + 1) s
  | r :: rs, n + 1, s =>
    if isDenied r.oAddress then loadLoop W isDenied tNow pastEnd rs (n + 1) s
    else loadLoop W isDenied tNow pastEnd rs n
      (loadRecord W isDenied tNow s r (loadClamp r.tTimeStamp tNow))

/-- The member `load()`: `file = none` when the snapshot is missing or cannot be opened;
`nCodeVersion` is `HOST_CACHE_CODE_VERSION`. -/
def load (W : World) (isDenied : CEndPoint → Bool) (cfg : Settings) (nCodeVersion tNow : Nat)
    (file : Option HostFile) (s : G2HostCache) : Option G2HostCache :=
  match file with
  | none => some s
  | some f =>
    let s1 : Option G2HostCache :=
      if f.nVersion = nCodeVersion then loadLoop W isDenied tNow f.pastEnd f.records f.nCount s
      else some s
    match s1 with
    | none => none
    | some s1 => some (s1.pruneOldHosts cfg tNow)

/-- The access points built by `asyncStartUpHelper` before it calls `load` and `maintain`.  The
`quint8` counter of its loop never reaches `m_nMaxFailures + 2` when that exceeds 255: the
result is then `none`. -/
def startUpSkeleton (cfg : Settings) (s : G2HostCache) : Option G2HostCache :=
  let nMaxFailures := cfg.FailureLimit % 256
  if nMaxFailures + 2 > 255 then none
  else
    let fresh := List.range' s.m_nNextNode (nMaxFailures + 2)
    some { s with
      m_nMaxFailures := nMaxFailures
      m_pFailures := fresh
      m_lHosts := s.m_lHosts ++ fresh.map (fun i => ⟨i, none⟩)
      m_nNextNode := s.m_nNextNode + (nMaxFailures + 2) }

/-- The member `asyncStartUpHelper()`. -/
def asyncStartUpHelper (W : World) (isDenied : CEndPoint → Bool) (cfg : Settings)
    (nCodeVersion tNow : Nat) (file : Option HostFile) (bWritten : Bool) (s : G2HostCache) :
    Option G2HostCache :=
  match startUpSkeleton cfg s with
  | none => none
  | some s1 =>
    match load W isDenied cfg nCodeVersion tNow file s1 with
    | none => none
    | some s2 => s2.maintain cfg tNow bWritten

/-- The scan of `getConnectable` over `m_lHosts`; `oExcept` holds the excepted entries by the
identity of their cells. -/
def scanConnectable (W : World) (oExcept : List Nat) (bCountry : Bool) (sCountry : String) :
    List Node → Option Node
  | [] => none
  | n :: r =>
    match n.host with
    | some h =>
      if bCountry && W.country h.m_oAddress != sCountry then
        scanConnectable W oExcept bCountry sCountry r
      else if h.m_bConnectable && !oExcept.contains n.id then some n
      else scanConnectable W oExcept bCountry sCountry r
    | none => scanConnectable W oExcept bCountry sCountry r

/-- The body of `getConnectable(oExcept, sCountry)`; the recursive call passes the default
country, which the comment at the call gives as ignoring the country.  `none` when the fuel runs
out or the maintenance pass does not end. -/
def getConnectableAux (W : World) (cfg : Settings) (tNow : Nat) (bWritten : Bool) :
    Nat → G2HostCache → List Nat → String → Option (G2HostCache × Option Node)
  | 0, _, _, _ => none
  | fuel + 1, s, oExcept, sCountry =>
    let bCountry := sCountry != "ZZ"
    if s.m_nSizeAtomic = 0 then some (s, none)
    else
      match scanConnectable W oExcept bCountry sCountry s.m_lHosts with
      | some n => some (s, some n)
      | none =>
        if s.bSecondAttempt then some ({ s with bSecondAttempt := false }, none)
        else
          match s.maintainInternal cfg tNow bWritten with
          | none => none
          | some s1 =>
            getConnectableAux W cfg tNow bWritten fuel { s1 with bSecondAttempt := true }
              oExcept "ZZ"

/-- The member `getConnectable(oExcept, sCountry)`. -/
def getConnectable (W : World) (cfg : Settings) (tNow : Nat) (bWritten : Bool)
    (s : G2HostCache) (oExcept : List Nat) (sCountry : String) :
    Option (G2HostCache × Option Node) :=
  getConnectableAux W cfg tNow bWritten 3 s oExcept sCountry

/-- The hosts that lie between the access points `m_pFailures[k]` and `m_pFailures[k + 1]`,
in sequence order. -/
def bucket (s : G2HostCache) (k : Nat) : List G2HostCacheHost :=
  match s.m_pFailures[k]?, s.m_pFailures[k + 1]? with
  | some a, some b => (nodesBefore b (nodesFrom a s.m_lHosts).tail).filterMap Node.host
  | _, _ => []

/-- The hosts that follow the last access point. -/
def hostsAfterLast (s : G2HostCache) : List G2HostCacheHost :=
  match s.m_pFailures.getLast? with
  | some a => ((nodesFrom a s.m_lHosts).tail).filterMap Node.host
  | none => s.hosts

end G2HostCache

/-! ## Reachable states and the invariant -/

/-- What the position of a host in the sequence depends on. -/
structure HostKey where
  address : CEndPoint
  timestamp : Nat
  failures : Nat
deriving DecidableEq, Repr

/-- The key of a host. -/
def G2HostCacheHost.key (h : G2HostCacheHost) : HostKey :=
  ⟨h.m_oAddress, h.m_tTimestamp, h.m_nFailures⟩

/-- The key of a cell; `none` for an access point. -/
def Node.key (n : Node) : Option HostKey := n.host.map G2HostCacheHost.key

/-- The keys of the cells of a list. -/
def keys (l : List Node) : List (Option HostKey) := l.map Node.key

/-- The identities of the cells of a list. -/
def ids (l : List Node) : List Nat := l.map Node.id

/-- The identities of the access points of a list, in sequence order. -/
def apIds (l : List Node) : List Nat := (l.filter Node.isAP).map Node.id

/-- Every host stands behind `failures + 1` access points, `k` of which precede the list. -/
def bucketsFrom : Nat → List (Option HostKey) → Prop
  | _, [] => True
  | k, none :: r => bucketsFrom (k + 1) r
  | k, some h :: r => h.failures + 1 = k ∧ bucketsFrom k r

/-- Two slots in sequence order: hosts with equal failures are in non-increasing timestamp
order. -/
def sortRel (x y : Option HostKey) : Prop :=
  ∀ a b, x = some a → y = some b → a.failures = b.failures → b.timestamp ≤ a.timestamp

/-- Two slots do not hold the same address. -/
def addrRel (x y : Option HostKey) : Prop :=
  ∀ a b, x = some a → y = some b → a.address ≠ b.address

/-- The invariant of the cache. -/
structure Inv (s : G2HostCache) : Prop where
  ids_nodup : (ids s.m_lHosts).Nodup
  ids_lt : ∀ i ∈ ids s.m_lHosts, i < s.m_nNextNode
  ap_eq : s.m_pFailures = apIds s.m_lHosts
  ap_len : s.m_pFailures.length = s.m_nMaxFailures + 2
  max_le : s.m_nMaxFailures ≤ 253
  buckets : bucketsFrom 0 (keys s.m_lHosts)
  fail_le : ∀ h, some h ∈ keys s.m_lHosts → h.failures ≤ s.m_nMaxFailures
  sorted : (keys s.m_lHosts).Pairwise sortRel
  addr_nodup : (keys s.m_lHosts).Pairwise addrRel
  size_eq : s.m_nSizeAtomic = ((s.m_lHosts.filter Node.isHost).length : Nat)

/-- The states the cache can be in: the access points built at start-up, followed by any
sequence of operations with any inputs.  (`asyncStartUpHelper` itself is the start-up step
followed by `load` and `maintain`.) -/
inductive Reachable (W : World) (nCodeVersion : Nat) : G2HostCache → Prop
  | startUp (cfg : Settings) (s : G2HostCache) :
      G2HostCache.startUpSkeleton cfg G2HostCache.ctor = some s → Reachable W nCodeVersion s
  | load (isDenied : CEndPoint → Bool) (cfg : Settings) (tNow : Nat) (file : Option HostFile)
      (s t : G2HostCache) : Reachable W nCodeVersion s →
      s.load W isDenied cfg nCodeVersion tNow file = some t → Reachable W nCodeVersion t
  | maintain (cfg : Settings) (tNow : Nat) (bWritten : Bool) (s t : G2HostCache) :
      Reachable W nCodeVersion s → s.maintain cfg tNow bWritten = some t →
      Reachable W nCodeVersion t
  | add (isDenied : CEndPoint → Bool) (host : CEndPoint) (tTimeStamp tNow : Nat)
      (s : G2HostCache) : Reachable W nCodeVersion s →
      Reachable W nCodeVersion (s.addSync W isDenied host tTimeStamp tNow).1
  | addKey (isDenied : CEndPoint → Bool) (host : CEndPoint) (tTimeStamp : Nat)
      (pKeyHost : Option CEndPoint) (nKey tNow : Nat) (s : G2HostCache) :
      Reachable W nCodeVersion s →
      Reachable W nCodeVersion (s.addSyncKey W isDenied host tTimeStamp pKeyHost nKey tNow).1
  | addAck (isDenied : CEndPoint → Bool) (host : CEndPoint) (tTimeStamp tAck tNow : Nat)
      (s : G2HostCache) : Reachable W nCodeVersion s →
      Reachable W nCodeVersion (s.addSyncAck W isDenied host tTimeStamp tAck tNow).1
  | addXTry (isDenied : CEndPoint → Bool) (tNow : Nat) (sHeader : String) (s : G2HostCache) :
      Reachable W nCodeVersion s →
      Reachable W nCodeVersion (s.asyncAddXTry W isDenied tNow sHeader)
  | updateFailures (oAddress : CEndPoint) (nNewFailures : Nat) (s : G2HostCache) :
      Reachable W nCodeVersion s →
      Reachable W nCodeVersion (s.asyncUpdateFailures oAddress nNewFailures)
  | onFailure (addr : CEndPoint) (s : G2HostCache) : Reachable W nCodeVersion s →
      Reachable W nCodeVersion (s.asyncOnFailure addr)
  | remove (oHost : CEndPoint) (s : G2HostCache) : Reachable W nCodeVersion s →
      Reachable W nCodeVersion (s.removeSync oHost)
  | sanityCheck (isNewlyDenied : CEndPoint → Bool) (s : G2HostCache) :
      Reachable W nCodeVersion s → Reachable W nCodeVersion (s.sanityCheck isNewlyDenied)
  | pruneOldHosts (cfg : Settings) (tNow : Nat) (s : G2HostCache) :
      Reachable W nCodeVersion s → Reachable W nCodeVersion (s.pruneOldHosts cfg tNow)
  | pruneByQueryAck (cfg : Settings) (tNow : Nat) (s : G2HostCache) :
      Reachable W nCodeVersion s → Reachable W nCodeVersion (s.pruneByQueryAck cfg tNow)
  | removeWorst (nFailures : Nat) (s : G2HostCache) : Reachable W nCodeVersion s →
      Reachable W nCodeVersion (s.removeWorst nFailures).1
  | clear (s : G2HostCache) : Reachable W nCodeVersion s → Reachable W nCodeVersion s.clear
  | localAddressChanged (oLocal : CEndPoint) (s : G2HostCache) :
      Reachable W nCodeVersion s → Reachable W nCodeVersion (s.localAddressChanged oLocal)
  | getConnectable (cfg : Settings) (tNow : Nat) (bWritten : Bool) (oExcept : List Nat)
      (sCountry : String) (s t : G2HostCache) (r : Option Node) :
      Reachable W nCodeVersion s →
      s.getConnectable W cfg tNow bWritten oExcept sCountry = some (t, r) →
      Reachable W nCodeVersion t


/-! ## A concrete cache -/

/-- A world in which every end point with a non-zero port is valid and none is firewalled. -/
def exWorld : World :=
  { isValid := fun a => a.port != 0
    isFirewalled := fun _ => false
    country := fun _ => "ZZ"
    parseEndPoint := fun _ => ⟨0, 0⟩
    parseTimeStamp := fun _ => none }

/-- Settings with a failure limit of 3. -/
def exSettings : Settings :=
  { FailureLimit := 3, FailurePenalty := 10, ConnectThrottle := 20, HostCacheSize := 8,
    HostExpire := 1000, QueryHostDeadline := 100 }

/-- A security manager that denies nothing. -/
def exDenied : CEndPoint → Bool := fun _ => false

/-- The cache after start-up with `exSettings`: five access points. -/
def exStart : G2HostCache :=
  (G2HostCache.startUpSkeleton exSettings G2HostCache.ctor).getD G2HostCache.ctor

/-- The cache after two hosts were added at time 1000, with timestamps 300 and 400. -/
def exCache : G2HostCache :=
  ((exStart.addSync exWorld exDenied ⟨1, 6346⟩ 300 1000).1.addSync exWorld exDenied
    ⟨2, 6346⟩ 400 1000).1

/-- The cache after host A = 7:6346 was added with timestamp 100 (failure limit 3). -/
def exCacheA : G2HostCache := (exStart.addSync exWorld exDenied ⟨7, 6346⟩ 100 1000).1

/-- The cache `exCacheA` after `onFailure(A)`: A has one failure. -/
def exCacheA1 : G2HostCache := exCacheA.asyncOnFailure ⟨7, 6346⟩

/-- The cache `exCacheA` after three `onFailure(A)`: A is at the failure limit. -/
def exCacheA3 : G2HostCache :=
  ((exCacheA.asyncOnFailure ⟨7, 6346⟩).asyncOnFailure ⟨7, 6346⟩).asyncOnFailure ⟨7, 6346⟩

/-! ## Candidates of `getConnectable`, the header of `getXTry` -/

namespace G2HostCache

/-- The conditions of a match of `getConnectable(oExcept, sCountry)` as the specification words
them: a real entry that is flagged connectable, is not in the except set and, unless the country
is "ZZ", has the requested country. -/
def isCandidate (W : World) (oExcept : List Nat) (sCountry : String) (n : Node) : Bool :=
  match n.host with
  | none => false
  | some h =>
    h.m_bConnectable && !oExcept.contains n.id &&
      (sCountry == "ZZ" || W.country h.m_oAddress == sCountry)

/-- The text `getXTry` appends for one host: address with port, a blank, the formatted
timestamp and a comma.  `toStringWithPort` and `toTimeString` stand for
`CEndPoint::toStringWithPort` and the `QDateTime` formatting. -/
def xTryAppend (toStringWithPort : CEndPoint → String) (toTimeString : Nat → String)
    (sReturn : String) (h : G2HostCacheHost) : String :=
  ((sReturn ++ (toStringWithPort h.m_oAddress ++ " ")) ++ toTimeString h.m_tTimestamp) ++ ","

/-- The loop of `getXTry` over `m_lHosts`: `nCount` counts the hosts appended, `nFailures` is
the `char` that starts at -1 and is incremented at an access point unless it is zero, in which
case the loop stops. -/
def getXTryWalk (toStringWithPort : CEndPoint → String) (toTimeString : Nat → String) :
    List Node → Nat → Int → String → String
  | [], _, _, sReturn => sReturn
  | n :: r, nCount, nFailures, sReturn =>
    match n.host with
    | some h =>
      if nCount + 1 = 10 then xTryAppend toStringWithPort toTimeString sReturn h
      else getXTryWalk toStringWithPort toTimeString r (nCount + 1) nFailures
        (xTryAppend toStringWithPort toTimeString sReturn h)
    | none =>
      if nFailures = 0 then sReturn
      else getXTryWalk toStringWithPort toTimeString r nCount (nFailures + 1) sReturn

/-- The member `getXTry()`. -/
def getXTry (toStringWithPort : CEndPoint → String) (toTimeString : Nat → String)
    (s : G2HostCache) : String :=
  if s.m_nSizeAtomic = 0 then ""
  else
    let sReturn := getXTryWalk toStringWithPort toTimeString s.m_lHosts 0 (-1) ""
    if sReturn.isEmpty then ""
    else "X-Try-Hubs: " ++ String.mk sReturn.data.dropLast

/-- The hosts the loop of `getXTry` appends an item for, in the order of the items. -/
def xTryHosts : List Node → Nat → Int → List G2HostCacheHost
  | [], _, _ => []
  | n :: r, nCount, nFailures =>
    match n.host with
    | some h => if nCount + 1 = 10 then [h] else h :: xTryHosts r (nCount + 1) nFailures
    | none => if nFailures = 0 then [] else xTryHosts r nCount (nFailures + 1)

/-- One item of the header as the specification words it: address, a blank, timestamp. -/
def xTryItem (toStringWithPort : CEndPoint → String) (toTimeString : Nat → String)
    (h : G2HostCacheHost) : String :=
  toStringWithPort h.m_oAddress ++ " " ++ toTimeString h.m_tTimestamp

end G2HostCache

/-- An address formatter for the examples: decimal address, colon, decimal port. -/
def exToStringWithPort (a : CEndPoint) : String := toString a.ip ++ ":" ++ toString a.port

/-- A timestamp formatter for the examples: the decimal number of seconds. -/
def exToTimeString (t : Nat) : String := toString t

/-- The cache `exCache` after `onFailure(1:6346)`: one host in bucket 0, one in bucket 1. -/
def exCacheB : G2HostCache := exCache.asyncOnFailure ⟨1, 6346⟩

/-- The cache `exCache` after `getConnectable(∅, "US")` at time 2000. -/
def exCacheG : G2HostCache :=
  ((exCache.getConnectable exWorld exSettings 2000 true [] "US").getD (exCache, none)).1

/-! ## The snapshot written by `writeToFile` -/

namespace G2HostCache

/-- The four values `writeToFile` puts on the stream for one host: address, failures,
timestamp, last connect. -/
def toRecord (h : G2HostCacheHost) : HostRecord :=
  ⟨h.m_oAddress, h.m_nFailures, h.m_tTimestamp, h.m_tLastConnect⟩

/-- The member `writeToFile`: the version (a `quint16`), the count `(quint32) m_nSizeAtomic`,
which is also the return value, and, if the count is not zero, one record per host of
`m_lHosts`. -/
def writeToFile (nCodeVersion : Nat) (s : G2HostCache) : Nat × Nat × List HostRecord :=
  let nVersion := nCodeVersion % 65536
  let nCount := (s.m_nSizeAtomic % 4294967296).toNat
  (nVersion, nCount,
    if nCount ≠ 0 then s.m_lHosts.filterMap (fun n => n.host.map toRecord) else [])

/-- The stream written by `writeToFile` as `load` reads it back; `pastEnd` is what a read
beyond the last record yields. -/
def fileOf (w : Nat × Nat × List HostRecord) (pastEnd : HostRecord) : HostFile :=
  { nVersion := w.1, nCount := w.2.1, records := w.2.2, pastEnd := pastEnd }

/-- The entry `load` stores at time `tNow` for a record that `addSyncHelper` accepts as a new
host: the timestamp passes the test of `load` and then the test of `addSyncHelper`, the last
connect is clamped and set afterwards. -/
def loadedHost (tNow : Nat) (r : HostRecord) : G2HostCacheHost :=
  { G2HostCacheHost.create r.oAddress
      (if loadClamp r.tTimeStamp tNow > tNow then subU32 tNow 60 else loadClamp r.tTimeStamp tNow)
      r.nFailures with
    m_tLastConnect := if r.tLastConnect > tNow then subU32 tNow 60 else r.tLastConnect }

end G2HostCache

/-- Every host of the list has an address that `addSyncHelper` accepts: valid and not
firewalled. -/
def AddrOK (W : World) (l : List Node) : Prop :=
  ∀ k, some k ∈ keys l → W.isValid k.address = true ∧ W.isFirewalled k.address = false

/-- A snapshot with one record: host 1:6346, no failure, timestamp 2000, last connect 1050. -/
def exFile : HostFile :=
  { nVersion := 0, nCount := 1, records := [⟨⟨1, 6346⟩, 0, 2000, 1050⟩],
    pastEnd := ⟨⟨0, 0⟩, 0, 0, 0⟩ }

/-- The cache after `exFile` was loaded at time 1060: the host has timestamp 1000 and last
connect 1050. -/
def exCacheL : G2HostCache :=
  (exStart.load exWorld exDenied exSettings 0 1060 (some exFile)).getD exStart

/-! ## The connectable flag after a maintenance pass; more concrete caches -/

namespace G2HostCache

/-- The value the last loop of `maintainInternal` leaves in a host: a host that is flagged
connectable is left alone; for any other host the throttle started at
`ConnectThrottle - FailurePenalty` and grew by `FailurePenalty` at each of the
`m_nFailures + 1` access points before the host, and the sum with `m_tLastConnect` is a
`quint32`. -/
def updatedHost (cfg : Settings) (tNow : Nat) (h : G2HostCacheHost) : G2HostCacheHost :=
  if h.m_bConnectable then h
  else
    { h with
      m_bConnectable := decide (tNow > (((h.m_tLastConnect : Int) +
        ((Int.ofNat cfg.ConnectThrottle - Int.ofNat (cfg.FailurePenalty % 65536)) +
          ((h.m_nFailures + 1 : Nat) : Int) * Int.ofNat (cfg.FailurePenalty % 65536))) %
            4294967296).toNat) }

end G2HostCache

/-- Ten addresses `1:6346` to `10:6346` with the timestamps 101 to 110. -/
def exTen : List (CEndPoint × Nat) := (List.range 10).map (fun i => (⟨i + 1, 6346⟩, 101 + i))

/-- The cache after the ten hosts of `exTen` were added at time 1000: ten hosts without
failures, under a failure limit of 3. -/
def exCacheT : G2HostCache :=
  exTen.foldl (fun t a => (t.addSync exWorld exDenied a.1 a.2 1000).1) exStart

/-- The cache `exCacheT` after `onFailure(1:6346)` and `onFailure(2:6346)`: eight hosts in
bucket 0 and two in bucket 1. -/
def exCacheT2 : G2HostCache :=
  (exCacheT.asyncOnFailure ⟨1, 6346⟩).asyncOnFailure ⟨2, 6346⟩

/-- The settings `exSettings` with the failure limit lowered to 0. -/
def exSettingsLow : Settings := { exSettings with FailureLimit := 0 }

/-- The settings `exSettings` with the failure limit raised to 5. -/
def exSettingsHigh : Settings := { exSettings with FailureLimit := 5 }

/-- The cache `exCache` after the local address changed to `1:6346`, the address of one of its
hosts. -/
def exCacheLoc : G2HostCache := exCache.localAddressChanged ⟨1, 6346⟩

/-- A security manager that denies the address `1:6346` and nothing else. -/
def exDenyOne : CEndPoint → Bool := fun a => a == ⟨1, 6346⟩

/-- The cache after `1:6346` and then `2:6346` were added at time 1000, both with timestamp
300. -/
def exCacheE : G2HostCache :=
  ((exStart.addSync exWorld exDenied ⟨1, 6346⟩ 300 1000).1.addSync exWorld exDenied
    ⟨2, 6346⟩ 300 1000).1

/-- A world for the header example: the texts "5.6.7.8:1" and "9.9.9.9:2" are the end points
5.6.7.8:1 and 9.9.9.9:2, any other text is the invalid end point `0:0`; the text
"2010-02-23T16:17Z" is the time 1266941820 and no other text is a time.  Every end point with
a non-zero port is valid and none is firewalled. -/
def exWorldX : World :=
  { isValid := fun a => a.port != 0
    isFirewalled := fun _ => false
    country := fun _ => "ZZ"
    parseEndPoint := fun t =>
      if t = "5.6.7.8:1" then ⟨84281096, 1⟩
      else if t = "9.9.9.9:2" then ⟨151587081, 2⟩
      else ⟨0, 0⟩
    parseTimeStamp := fun t => if t = "2010-02-23T16:17Z" then some 1266941820 else none }

/-- The world `exWorldX` with every end point firewalled. -/
def exWorldXF : World := { exWorldX with isFirewalled := fun _ => true }

/-- The header of the example. -/
def exHeader : String := "5.6.7.8:1 2010-02-23T16:17Z, bad 2010, 9.9.9.9:2"

/-- The cache `exCache` after `addSyncAck(3:6346, 350, 950, 1000)`: the host `3:6346` was
acknowledged at time 950, the two other hosts never. -/
def exCacheQ : G2HostCache := (exCache.addSyncAck exWorld exDenied ⟨3, 6346⟩ 350 950 1000).1

namespace G2HostCache

/-- The cell at which the loop of `insert` stops, `while ( it != m_lHosts.end() && *it &&
(*it)->timestamp() > pNew->timestamp() ) ++it`, on the cells behind the access point: the first
cell that is an access point or a host whose timestamp is not above `ts`; `none` is
`m_lHosts.end()`. -/
def insertStop (ts : Nat) : List Node → Option Node
  | [] => none
  | y :: r =>
    match y.host with
    | some h => if h.m_tTimestamp > ts then insertStop ts r else some y
    | none => some y

/-- The assertions of `insert`: `Q_ASSERT( !(*it) )` for `it = m_pFailures[ failures ]`, and
after the walk `Q_ASSERT( it != m_lHosts.begin() && it != m_lHosts.end() )`. -/
def insertAsserts (s : G2HostCache) (pNew : G2HostCacheHost) : Bool :=
  match s.m_pFailures[pNew.m_nFailures]? with
  | none => false
  | some ap =>
    match nodesFrom ap s.m_lHosts with
    | [] => false
    | a :: r =>
      a.host.isNone &&
        match insertStop pNew.m_tTimestamp r with
        | none => false
        | some y => s.m_lHosts.head?.map Node.id != some y.id

end G2HostCache

/-- The skeleton of access points: the cells have distinct identities, `m_pFailures` holds the
access points of the list in sequence order, there are `m_nMaxFailures + 2` of them, and the
first cell of the list is one. -/
structure Skeleton (s : G2HostCache) : Prop where
  ids_nodup : (ids s.m_lHosts).Nodup
  ap_eq : s.m_pFailures = apIds s.m_lHosts
  ap_len : s.m_pFailures.length = s.m_nMaxFailures + 2
  first : s.slots.head? = some none

/-- What one call of `getConnectable` has done: the scans of `m_lHosts`, the calls of
`maintainInternal` and the recursive calls. -/
structure ConnectCost where
  nScans : Nat
  nMaintain : Nat
  nRecursive : Nat
  deriving DecidableEq, Repr

namespace G2HostCache

/-- The body of `getConnectable(oExcept, sCountry)` as in `getConnectableAux`, counting the
scans of `m_lHosts`, the calls of `maintainInternal` and the recursive calls.  `none` when the
fuel runs out or the maintenance pass does not end. -/
def getConnectableCost (W : World) (cfg : Settings) (tNow : Nat) (bWritten : Bool) :
    Nat → G2HostCache → List Nat → String → Option (G2HostCache × Option Node × ConnectCost)
  | 0, _, _, _ => none
  | fuel + 1, s, oExcept, sCountry =>
    let bCountry := sCountry != "ZZ"
    if s.m_nSizeAtomic = 0 then some (s, none, ⟨0, 0, 0⟩)
    else
      match scanConnectable W oExcept bCountry sCountry s.m_lHosts with
      | some n => some (s, some n, ⟨1, 0, 0⟩)
      | none =>
        if s.bSecondAttempt then some ({ s with bSecondAttempt := false }, none, ⟨1, 0, 0⟩)
        else
          match s.maintainInternal cfg tNow bWritten with
          | none => none
          | some s1 =>
            match getConnectableCost W cfg tNow bWritten fuel { s1 with bSecondAttempt := true }
                oExcept "ZZ" with
            | none => none
            | some (t, r, c) => some (t, r, ⟨c.nScans + 1, c.nMaintain + 1, c.nRecursive + 1⟩)

end G2HostCache

namespace G2HostCache

/-- The number of reads of a record that the loop of `load` makes on the stream, reads beyond
its end included: a record with a denied address is read and skipped by `continue` without
`--nCount`.  `none` when the loop does not end. -/
def loadReads (isDenied : CEndPoint → Bool) (pastEnd : HostRecord) :
    List HostRecord → Nat → Option Nat
  | _, 0 => some 0
  | [], n + 1 => if isDenied pastEnd.oAddress then none else some (n + 1)
  | r :: rs, n + 1 =>
    if isDenied r.oAddress then (loadReads isDenied pastEnd rs (n + 1)).map (fun k => k + 1)
    else (loadReads isDenied pastEnd rs n).map (fun k => k + 1)

end G2HostCache

/-- A snapshot with one record: host 1:6346, no failure, timestamp 500, last connect 400. -/
def exFileP : HostFile :=
  { nVersion := 0, nCount := 1, records := [⟨⟨1, 6346⟩, 0, 500, 400⟩],
    pastEnd := ⟨⟨0, 0⟩, 0, 0, 0⟩ }

/-- A stream with the header count 2 and the records of the hosts 1:6346, 2:6346 and 3:6346,
all with timestamp 1000. -/
def exFileD : HostFile :=
  { nVersion := 0, nCount := 2,
    records := [⟨⟨1, 6346⟩, 0, 1000, 0⟩, ⟨⟨2, 6346⟩, 0, 1000, 0⟩, ⟨⟨3, 6346⟩, 0, 1000, 0⟩],
    pastEnd := ⟨⟨0, 0⟩, 0, 0, 0⟩ }

/-- A security manager that denies every address. -/
def exDenyAll : CEndPoint → Bool := fun _ => true

/-- The settings `exSettings` with the failure limit 254. -/
def exSettings254 : Settings := { exSettings with FailureLimit := 254 }

open G2HostCache

/-! ## Lists of cells -/

theorem keys_cons (n : Node) (l : List Node) : keys (n :: l) = n.key :: keys l := rfl

theorem keys_append (a b : List Node) : keys (a ++ b) = keys a ++ keys b := by
  simp [keys]

theorem ids_append (a b : List Node) : ids (a ++ b) = ids a ++ ids b := by
  simp [ids]

theorem apIds_append (a b : List Node) : apIds (a ++ b) = apIds a ++ apIds b := by
  simp [apIds]

theorem apIds_cons_ap (n : Node) (l : List Node) (h : n.host = none) :
    apIds (n :: l) = n.id :: apIds l := by
  simp [apIds, Node.isAP, h]

theorem apIds_cons_host (n : Node) (l : List Node) (x : G2HostCacheHost) (h : n.host = some x) :
    apIds (n :: l) = apIds l := by
  simp [apIds, Node.isAP, h]

theorem key_eq_none_iff (n : Node) : n.key = none ↔ n.host = none := by
  cases n with
  | mk i h => cases h <;> simp [Node.key]

theorem length_apIds (l : List Node) : (apIds l).length = (keys l).count none := by
  induction l with
  | nil => rfl
  | cons n l ih =>
    cases hn : n.host with
    | none =>
      have hk : n.key = none := (key_eq_none_iff n).2 hn
      rw [apIds_cons_ap n l hn, keys_cons, hk]
      simp [ih]
    | some x =>
      have hk : n.key = some x.key := by simp [Node.key, hn]
      rw [apIds_cons_host n l x hn, keys_cons, hk]
      simp [ih]

theorem length_hosts_add (l : List Node) :
    (l.filter Node.isHost).length + (apIds l).length = l.length := by
  induction l with
  | nil => rfl
  | cons n l ih =>
    cases hn : n.host with
    | none =>
      rw [apIds_cons_ap n l hn]
      simp [Node.isHost, hn]
      omega
    | some x =>
      rw [apIds_cons_host n l x hn]
      simp [Node.isHost, hn]
      omega

theorem apIds_subset_ids (l : List Node) : ∀ i ∈ apIds l, i ∈ ids l := by
  intro i hi
  simp only [apIds, ids, List.mem_map, List.mem_filter] at *
  obtain ⟨n, ⟨hn, _⟩, rfl⟩ := hi
  exact ⟨n, hn, rfl⟩

/-! ## Buckets -/

theorem bucketsFrom_none (k : Nat) (r : List (Option HostKey)) :
    bucketsFrom k (none :: r) ↔ bucketsFrom (k + 1) r := Iff.rfl

theorem bucketsFrom_some (k : Nat) (h : HostKey) (r : List (Option HostKey)) :
    bucketsFrom k (some h :: r) ↔ h.failures + 1 = k ∧ bucketsFrom k r := Iff.rfl

theorem bucketsFrom_append (a b : List (Option HostKey)) (k : Nat) :
    bucketsFrom k (a ++ b) ↔ bucketsFrom k a ∧ bucketsFrom (k + a.count none) b := by
  induction a generalizing k with
  | nil => simp [bucketsFrom]
  | cons x a ih =>
    cases x with
    | none =>
      rw [List.cons_append, bucketsFrom_none, bucketsFrom_none, ih, List.count_cons_self]
      have : k + 1 + a.count none = k + (a.count none + 1) := by omega
      rw [this]
    | some h =>
      have : (some h :: a).count none = a.count none := by simp
      rw [List.cons_append, bucketsFrom_some, bucketsFrom_some, ih, this, and_assoc]

theorem bucketsFrom_bounds (l : List (Option HostKey)) (k : Nat) (hb : bucketsFrom k l)
    (h : HostKey) (hm : some h ∈ l) : k ≤ h.failures + 1 ∧ h.failures + 1 ≤ k + l.count none := by
  induction l generalizing k with
  | nil => simp at hm
  | cons x l ih =>
    cases x with
    | none =>
      simp only [bucketsFrom] at hb
      have hm' : some h ∈ l := by simpa using hm
      have := ih (k + 1) hb hm'
      simp only [List.count_cons_self]
      omega
    | some g =>
      simp only [bucketsFrom] at hb
      have hc : (some g :: l).count none = l.count none := by simp
      rw [hc]
      rcases List.mem_cons.1 hm with he | hm'
      · cases he
        omega
      · have := ih k hb.2 hm'
        omega

theorem bucketsFrom_sublist (l' l : List (Option HostKey)) (hs : l'.Sublist l) (k : Nat)
    (hc : l'.count none = l.count none) (hb : bucketsFrom k l) : bucketsFrom k l' := by
  induction hs generalizing k with
  | slnil => trivial
  | @cons l₁ l₂ x hs ih =>
    cases x with
    | none =>
      exfalso
      have := hs.count_le none
      simp only [List.count_cons_self] at hc
      omega
    | some h =>
      have hc' : l₁.count none = l₂.count none := by simpa using hc
      exact ih k hc' hb.2
  | @cons₂ l₁ l₂ x hs ih =>
    cases x with
    | none =>
      have hc' : l₁.count none = l₂.count none := by simpa using hc
      exact ih (k + 1) hc' hb
    | some h =>
      have hc' : l₁.count none = l₂.count none := by simpa using hc
      exact ⟨hb.1, ih k hc' hb.2⟩


/-! ## The invariant under removal of hosts and under setters -/

theorem keys_length (l : List Node) : (keys l).length = l.length := by simp [keys]

theorem length_hosts_eq (l : List Node) :
    (l.filter Node.isHost).length = (keys l).length - (keys l).count none := by
  have h1 := length_hosts_add l
  rw [length_apIds] at h1
  rw [keys_length]
  omega

theorem sortRel_none_left (y : Option HostKey) : sortRel none y := by
  intro a b h
  cases h

theorem sortRel_none_right (x : Option HostKey) : sortRel x none := by
  intro a b _ h
  cases h

theorem addrRel_none_left (y : Option HostKey) : addrRel none y := by
  intro a b h
  cases h

theorem addrRel_none_right (x : Option HostKey) : addrRel x none := by
  intro a b _ h
  cases h

/-- Removing hosts, and no access point, keeps the invariant when the counter follows. -/
theorem Inv.of_sublist {s t : G2HostCache} (hi : Inv s)
    (hsub : t.m_lHosts.Sublist s.m_lHosts) (hap : apIds t.m_lHosts = apIds s.m_lHosts)
    (hpf : t.m_pFailures = s.m_pFailures) (hmax : t.m_nMaxFailures = s.m_nMaxFailures)
    (hnext : t.m_nNextNode = s.m_nNextNode)
    (hsize : t.m_nSizeAtomic =
      s.m_nSizeAtomic - ((s.m_lHosts.length - t.m_lHosts.length : Nat) : Int)) : Inv t := by
  have hks : (keys t.m_lHosts).Sublist (keys s.m_lHosts) := hsub.map _
  have hcnt : (keys t.m_lHosts).count none = (keys s.m_lHosts).count none := by
    rw [← length_apIds, ← length_apIds, hap]
  refine ⟨?_, ?_, ?_, ?_, ?_, ?_, ?_, ?_, ?_, ?_⟩
  · exact hi.ids_nodup.sublist (hsub.map _)
  · intro i hi'
    rw [hnext]
    exact hi.ids_lt i ((hsub.map Node.id).subset hi')
  · rw [hpf, hap]
    exact hi.ap_eq
  · rw [hpf, hmax]
    exact hi.ap_len
  · rw [hmax]
    exact hi.max_le
  · exact bucketsFrom_sublist _ _ hks 0 hcnt hi.buckets
  · intro h hh
    rw [hmax]
    exact hi.fail_le h (hks.subset hh)
  · exact hi.sorted.sublist hks
  · exact hi.addr_nodup.sublist hks
  · have h1 := length_hosts_add s.m_lHosts
    have h2 := length_hosts_add t.m_lHosts
    have h3 := hi.size_eq
    have h4 : (apIds t.m_lHosts).length = (apIds s.m_lHosts).length := by rw [hap]
    have h5 := hsub.length_le
    rw [hsize, h3]
    omega

/-- Setters that leave address, timestamp and failures alone keep the invariant. -/
theorem Inv.of_keys_eq {s t : G2HostCache} (hi : Inv s)
    (hk : keys t.m_lHosts = keys s.m_lHosts) (hid : ids t.m_lHosts = ids s.m_lHosts)
    (hap : apIds t.m_lHosts = apIds s.m_lHosts)
    (hpf : t.m_pFailures = s.m_pFailures) (hmax : t.m_nMaxFailures = s.m_nMaxFailures)
    (hnext : t.m_nNextNode = s.m_nNextNode)
    (hsize : t.m_nSizeAtomic = s.m_nSizeAtomic) : Inv t := by
  refine ⟨?_, ?_, ?_, ?_, ?_, ?_, ?_, ?_, ?_, ?_⟩
  · rw [hid]
    exact hi.ids_nodup
  · rw [hid, hnext]
    exact hi.ids_lt
  · rw [hpf, hap]
    exact hi.ap_eq
  · rw [hpf, hmax]
    exact hi.ap_len
  · rw [hmax]
    exact hi.max_le
  · rw [hk]
    exact hi.buckets
  · rw [hk, hmax]
    exact hi.fail_le
  · rw [hk]
    exact hi.sorted
  · rw [hk]
    exact hi.addr_nodup
  · rw [hsize, hi.size_eq, length_hosts_eq, length_hosts_eq, hk]

/-! ### Setters -/

theorem modifyHost_ids (it : Nat) (f : G2HostCacheHost → G2HostCacheHost) (l : List Node) :
    ids (modifyHost it f l) = ids l := by
  induction l with
  | nil => rfl
  | cons n l ih =>
    simp only [modifyHost, ids, List.map_cons] at ih ⊢
    rw [ih]
    by_cases h : n.id = it <;> simp [h]

theorem modifyHost_keys (it : Nat) (f : G2HostCacheHost → G2HostCacheHost)
    (hf : ∀ h, (f h).key = h.key) (l : List Node) :
    keys (modifyHost it f l) = keys l := by
  induction l with
  | nil => rfl
  | cons n l ih =>
    simp only [modifyHost, keys, List.map_cons] at ih ⊢
    rw [ih]
    by_cases h : n.id = it
    · cases hn : n.host with
      | none => simp [h, Node.key, hn]
      | some x => simp [h, Node.key, hn, hf x]
    · simp [h]

theorem modifyHost_apIds (it : Nat) (f : G2HostCacheHost → G2HostCacheHost) (l : List Node) :
    apIds (modifyHost it f l) = apIds l := by
  induction l with
  | nil => rfl
  | cons n l ih =>
    have hm : modifyHost it f (n :: l) =
        (if n.id = it then { n with host := n.host.map f } else n) :: modifyHost it f l := rfl
    rw [hm]
    cases hn : n.host with
    | none =>
      rw [apIds_cons_ap n l hn, ← ih]
      by_cases h : n.id = it
      · rw [if_pos h, apIds_cons_ap _ _ (by simp [hn])]
      · rw [if_neg h, apIds_cons_ap _ _ hn]
    | some x =>
      rw [apIds_cons_host n l x hn, ← ih]
      by_cases h : n.id = it
      · rw [if_pos h, apIds_cons_host _ _ (f x) (by simp [hn])]
      · rw [if_neg h, apIds_cons_host _ _ x hn]

theorem Inv.modifyHost {s : G2HostCache} (hi : Inv s) (it : Nat)
    (f : G2HostCacheHost → G2HostCacheHost) (hf : ∀ h, (f h).key = h.key) :
    Inv { s with m_lHosts := modifyHost it f s.m_lHosts } :=
  hi.of_keys_eq (modifyHost_keys it f hf _) (modifyHost_ids it f _) (modifyHost_apIds it f _)
    rfl rfl rfl rfl

theorem updateConnectable_ids (tNow p : Nat) (l : List Node) (t : Int) :
    ids (updateConnectable tNow p t l) = ids l := by
  induction l generalizing t with
  | nil => rfl
  | cons n l ih =>
    cases hn : n.host with
    | none =>
      simp only [updateConnectable, hn, ids, List.map_cons] at ih ⊢
      rw [ih]
    | some x =>
      simp only [updateConnectable, hn, ids, List.map_cons] at ih ⊢
      rw [ih]
      by_cases h : x.m_bConnectable <;> simp [h]

theorem updateConnectable_keys (tNow p : Nat) (l : List Node) (t : Int) :
    keys (updateConnectable tNow p t l) = keys l := by
  induction l generalizing t with
  | nil => rfl
  | cons n l ih =>
    cases hn : n.host with
    | none =>
      simp only [updateConnectable, hn, keys, List.map_cons] at ih ⊢
      rw [ih]
    | some x =>
      simp only [updateConnectable, hn, keys, List.map_cons] at ih ⊢
      rw [ih]
      by_cases h : x.m_bConnectable <;> simp [h, Node.key, hn, G2HostCacheHost.key]

theorem updateConnectable_apIds (tNow p : Nat) (l : List Node) (t : Int) :
    apIds (updateConnectable tNow p t l) = apIds l := by
  induction l generalizing t with
  | nil => rfl
  | cons n l ih =>
    cases hn : n.host with
    | none =>
      simp only [updateConnectable, hn]
      rw [apIds_cons_ap n _ hn, apIds_cons_ap n _ hn, ih]
    | some x =>
      simp only [updateConnectable, hn]
      rw [apIds_cons_host n l x hn, ← ih (t := t)]
      by_cases h : x.m_bConnectable
      · rw [if_pos h, apIds_cons_host n _ x hn]
      · rw [if_neg h, apIds_cons_host _ _ _ rfl]


/-! ### Lookup by address -/

theorem findNode_some (a : CEndPoint) (l : List Node) (n : Node) (h : findNode a l = some n) :
    n ∈ l ∧ ∃ x, n.host = some x ∧ x.m_oAddress = a := by
  induction l with
  | nil => simp [findNode] at h
  | cons m l ih =>
    cases hm : m.host with
    | none =>
      simp only [findNode, hm] at h
      exact ⟨List.mem_cons_of_mem _ (ih h).1, (ih h).2⟩
    | some x =>
      simp only [findNode, hm] at h
      by_cases hx : x.m_oAddress = a
      · rw [if_pos hx] at h
        cases h
        exact ⟨List.mem_cons_self _ _, x, hm, hx⟩
      · rw [if_neg hx] at h
        exact ⟨List.mem_cons_of_mem _ (ih h).1, (ih h).2⟩

theorem findNode_none (a : CEndPoint) (l : List Node) (h : findNode a l = none) :
    ∀ n ∈ l, ∀ x, n.host = some x → x.m_oAddress ≠ a := by
  induction l with
  | nil => simp
  | cons m l ih =>
    intro n hn x hx
    cases hm : m.host with
    | none =>
      simp only [findNode, hm] at h
      rcases List.mem_cons.1 hn with rfl | hn'
      · rw [hm] at hx
        cases hx
      · exact ih h n hn' x hx
    | some y =>
      simp only [findNode, hm] at h
      by_cases hy : y.m_oAddress = a
      · rw [if_pos hy] at h
        cases h
      · rw [if_neg hy] at h
        rcases List.mem_cons.1 hn with rfl | hn'
        · rw [hm] at hx
          cases hx
          exact hy
        · exact ih h n hn' x hx

/-- With unique addresses, the lookup finds the cell that holds the address. -/
theorem findNode_of_mem (a : CEndPoint) (l : List Node) (hu : (keys l).Pairwise addrRel)
    (n : Node) (hn : n ∈ l) (x : G2HostCacheHost) (hx : n.host = some x)
    (ha : x.m_oAddress = a) : findNode a l = some n := by
  induction l with
  | nil => cases hn
  | cons m l ih =>
    rw [keys_cons, List.pairwise_cons] at hu
    rcases List.mem_cons.1 hn with rfl | hn'
    · simp [findNode, hx, ha]
    · cases hm : m.host with
      | none =>
        simp only [findNode, hm]
        exact ih hu.2 hn'
      | some y =>
        simp only [findNode, hm]
        have hne : y.m_oAddress ≠ a := by
          have hr := hu.1 n.key (List.mem_map_of_mem _ hn') y.key x.key
            (by simp [Node.key, hm]) (by simp [Node.key, hx])
          simpa [G2HostCacheHost.key, ha] using hr
        rw [if_neg hne]
        exact ih hu.2 hn'

/-! ### Erasing one cell -/

theorem eq_of_mem_of_id_eq (l : List Node) (hn : (ids l).Nodup) (a b : Node) (ha : a ∈ l)
    (hb : b ∈ l) (h : a.id = b.id) : a = b :=
  List.inj_on_of_nodup_map hn ha hb h

theorem eraseNode_sublist (it : Nat) (l : List Node) : (eraseNode it l).Sublist l :=
  List.eraseP_sublist l

theorem eraseNode_cons_ne (it : Nat) (n : Node) (l : List Node) (h : n.id ≠ it) :
    eraseNode it (n :: l) = n :: eraseNode it l := by
  simp [eraseNode, List.eraseP_cons, h]

theorem eraseNode_cons_eq (it : Nat) (n : Node) (l : List Node) (h : n.id = it) :
    eraseNode it (n :: l) = l := by
  simp [eraseNode, List.eraseP_cons, h]

theorem eraseNode_of_not_mem (it : Nat) (l : List Node) (h : it ∉ ids l) :
    eraseNode it l = l := by
  induction l with
  | nil => rfl
  | cons n l ih =>
    simp only [ids, List.map_cons, List.mem_cons, not_or] at h
    rw [eraseNode_cons_ne it n l (fun e => h.1 e.symm), ih h.2]

/-- Erasing a host cell: the access points stay and the list gets shorter by one. -/
theorem eraseNode_host (l : List Node) (hn : (ids l).Nodup) (n : Node) (hm : n ∈ l)
    (x : G2HostCacheHost) (hx : n.host = some x) :
    apIds (eraseNode n.id l) = apIds l ∧ (eraseNode n.id l).length + 1 = l.length := by
  induction l with
  | nil => cases hm
  | cons m l ih =>
    by_cases he : m.id = n.id
    · have hmn : m = n :=
        eq_of_mem_of_id_eq (m :: l) hn m n (List.mem_cons_self _ _) hm he
      rw [eraseNode_cons_eq _ _ _ he, hmn, apIds_cons_host n l x hx]
      exact ⟨rfl, rfl⟩
    · have hm' : n ∈ l := by
        rcases List.mem_cons.1 hm with rfl | h
        · exact absurd rfl he
        · exact h
      have hn' : (ids l).Nodup := by
        simp only [ids, List.map_cons, List.nodup_cons] at hn
        exact hn.2
      rw [eraseNode_cons_ne _ _ _ he]
      obtain ⟨h1, h2⟩ := ih hn' hm'
      constructor
      · simp only [apIds, List.filter_cons] at h1 ⊢
        by_cases hap : m.isAP = true <;> simp [hap, h1]
      · simp [h2]

/-- The primitive `remove(it)` on the cell of a host keeps the invariant. -/
theorem Inv.remove {s : G2HostCache} (hi : Inv s) (n : Node) (hm : n ∈ s.m_lHosts)
    (x : G2HostCacheHost) (hx : n.host = some x) : Inv (s.remove n.id) := by
  obtain ⟨h1, h2⟩ := eraseNode_host s.m_lHosts hi.ids_nodup n hm x hx
  refine hi.of_sublist (eraseNode_sublist _ _) h1 rfl rfl rfl ?_
  show s.m_nSizeAtomic - 1 = _
  have : (s.remove n.id).m_lHosts = eraseNode n.id s.m_lHosts := rfl
  rw [this]
  omega

/-! ### Filters -/

theorem apIds_filter (p : Node → Bool) (hp : ∀ n, n.host = none → p n = true) (l : List Node) :
    apIds (l.filter p) = apIds l := by
  induction l with
  | nil => rfl
  | cons n l ih =>
    cases hn : n.host with
    | none =>
      rw [List.filter_cons_of_pos (hp n hn), apIds_cons_ap _ _ hn, apIds_cons_ap _ _ hn, ih]
    | some x =>
      rw [apIds_cons_host _ _ x hn, ← ih]
      by_cases hpn : p n = true
      · rw [List.filter_cons_of_pos hpn, apIds_cons_host _ _ x hn]
      · rw [List.filter_cons_of_neg hpn]

theorem Inv.filter {s : G2HostCache} (hi : Inv s) (p : Node → Bool)
    (hp : ∀ n, n.host = none → p n = true) :
    Inv { s with
      m_lHosts := s.m_lHosts.filter p
      m_nSizeAtomic :=
        s.m_nSizeAtomic - ((s.m_lHosts.length - (s.m_lHosts.filter p).length : Nat) : Int) } :=
  hi.of_sublist (List.filter_sublist _) (apIds_filter p hp _) rfl rfl rfl rfl

theorem Inv.sanityCheck {s : G2HostCache} (hi : Inv s) (d : CEndPoint → Bool) :
    Inv (s.sanityCheck d) :=
  hi.filter _ (fun n hn => by simp [hn])

theorem Inv.pruneByQueryAck {s : G2HostCache} (hi : Inv s) (cfg : Settings) (tNow : Nat) :
    Inv (s.pruneByQueryAck cfg tNow) :=
  hi.filter _ (fun n hn => by simp [hn])

theorem Inv.clear {s : G2HostCache} (hi : Inv s) : Inv s.clear := by
  have hap : apIds (s.m_lHosts.filter Node.isAP) = apIds s.m_lHosts :=
    apIds_filter Node.isAP (fun n hn => by simp [Node.isAP, hn]) _
  refine hi.of_sublist (List.filter_sublist _) hap rfl rfl rfl ?_
  have h1 := length_hosts_add s.m_lHosts
  have h2 : (s.m_lHosts.filter Node.isAP).length = (apIds s.m_lHosts).length := by
    simp [apIds]
  have h3 := hi.size_eq
  show (0 : Int) = _
  have : s.clear.m_lHosts = s.m_lHosts.filter Node.isAP := rfl
  rw [this, h3]
  omega

/-! ### pruneOldHosts -/

theorem pruneOldWalk_sublist (e : Nat) (l : List Node) : (pruneOldWalk e l).Sublist l := by
  induction l with
  | nil => exact List.Sublist.refl _
  | cons x r ih =>
    cases r with
    | nil => exact List.Sublist.refl _
    | cons y r =>
      cases hx : x.host with
      | none =>
        simp only [pruneOldWalk, hx]
        exact ih.cons₂ x
      | some h =>
        simp only [pruneOldWalk, hx]
        by_cases ht : h.m_tTimestamp > e
        · rw [if_pos ht]
          exact ih.cons₂ x
        · rw [if_neg ht]
          exact ih.cons x

theorem pruneOldWalk_apIds (e : Nat) (l : List Node) :
    apIds (pruneOldWalk e l) = apIds l := by
  induction l with
  | nil => rfl
  | cons x r ih =>
    cases r with
    | nil => rfl
    | cons y r =>
      cases hx : x.host with
      | none =>
        simp only [pruneOldWalk, hx]
        rw [apIds_cons_ap _ _ hx, apIds_cons_ap _ _ hx, ih]
      | some h =>
        simp only [pruneOldWalk, hx]
        by_cases ht : h.m_tTimestamp > e
        · rw [if_pos ht, apIds_cons_host _ _ h hx, apIds_cons_host _ _ h hx, ih]
        · rw [if_neg ht, apIds_cons_host _ _ h hx, ih]

theorem apIds_reverse (l : List Node) : apIds l.reverse = (apIds l).reverse := by
  simp [apIds, List.filter_reverse]

theorem Inv.pruneOldHosts {s : G2HostCache} (hi : Inv s) (cfg : Settings) (tNow : Nat) :
    Inv (s.pruneOldHosts cfg tNow) := by
  refine hi.of_sublist ?_ ?_ rfl rfl rfl rfl
  · have h := (pruneOldWalk_sublist (subU32 tNow cfg.HostExpire) s.m_lHosts.reverse).reverse
    rw [List.reverse_reverse] at h
    exact h
  · show apIds (pruneOldWalk _ s.m_lHosts.reverse).reverse = _
    rw [apIds_reverse, pruneOldWalk_apIds, apIds_reverse, List.reverse_reverse]


/-! ### Access points as iterators -/

theorem nodesBefore_cons_ne (it : Nat) (n : Node) (l : List Node) (h : n.id ≠ it) :
    nodesBefore it (n :: l) = n :: nodesBefore it l := by
  simp [nodesBefore, List.takeWhile_cons, h]

theorem nodesBefore_cons_eq (it : Nat) (n : Node) (l : List Node) (h : n.id = it) :
    nodesBefore it (n :: l) = [] := by
  simp [nodesBefore, List.takeWhile_cons, h]

theorem nodesFrom_cons_ne (it : Nat) (n : Node) (l : List Node) (h : n.id ≠ it) :
    nodesFrom it (n :: l) = nodesFrom it l := by
  simp [nodesFrom, List.dropWhile_cons, h]

theorem nodesFrom_cons_eq (it : Nat) (n : Node) (l : List Node) (h : n.id = it) :
    nodesFrom it (n :: l) = n :: l := by
  simp [nodesFrom, List.dropWhile_cons, h]

/-- The iterator stored in `m_pFailures[k]` points to the `k`-th access point of the list. -/
theorem ap_split (l : List Node) (hn : (ids l).Nodup) (k a : Nat)
    (h : (apIds l)[k]? = some a) :
    ∃ pre x post, l = pre ++ x :: post ∧ x.id = a ∧ x.host = none ∧
      nodesBefore a l = pre ∧ nodesFrom a l = x :: post ∧ (apIds pre).length = k := by
  induction l generalizing k with
  | nil => simp [apIds] at h
  | cons n l ih =>
    have hn' : (ids l).Nodup := by
      simp only [ids, List.map_cons, List.nodup_cons] at hn
      exact hn.2
    have hnot : n.id ∉ ids l := by
      simp only [ids, List.map_cons, List.nodup_cons] at hn
      exact hn.1
    have lift : ∀ k', (apIds l)[k']? = some a →
        ∃ pre x post, l = pre ++ x :: post ∧ x.id = a ∧ x.host = none ∧
          nodesBefore a (n :: l) = n :: pre ∧ nodesFrom a (n :: l) = x :: post ∧
          (apIds pre).length = k' := by
      intro k' hk'
      obtain ⟨pre, x, post, h1, h2, h3, h4, h5, h6⟩ := ih hn' k' hk'
      have hne : n.id ≠ a := by
        intro e
        apply hnot
        rw [e, ← h2, h1]
        simp [ids]
      exact ⟨pre, x, post, h1, h2, h3, by rw [nodesBefore_cons_ne _ _ _ hne, h4],
        by rw [nodesFrom_cons_ne _ _ _ hne, h5], h6⟩
    cases hh : n.host with
    | none =>
      rw [apIds_cons_ap n l hh] at h
      cases k with
      | zero =>
        simp only [List.getElem?_cons_zero, Option.some.injEq] at h
        exact ⟨[], n, l, rfl, h, hh, nodesBefore_cons_eq _ _ _ h, nodesFrom_cons_eq _ _ _ h, rfl⟩
      | succ k' =>
        simp only [List.getElem?_cons_succ] at h
        obtain ⟨pre, x, post, h1, h2, h3, h4, h5, h6⟩ := lift k' h
        exact ⟨n :: pre, x, post, by rw [h1]; rfl, h2, h3, h4, h5,
          by rw [apIds_cons_ap n pre hh, List.length_cons, h6]⟩
    | some y =>
      rw [apIds_cons_host n l y hh] at h
      obtain ⟨pre, x, post, h1, h2, h3, h4, h5, h6⟩ := lift k h
      exact ⟨n :: pre, x, post, by rw [h1]; rfl, h2, h3, h4, h5,
        by rw [apIds_cons_host n pre y hh, h6]⟩

/-! ### The walk of insert -/

/-- The walk passes the hosts with a higher timestamp and stops in front of the first cell
that is an access point or a host whose timestamp is not higher. -/
theorem insertWalk_spec (n : Node) (ts : Nat) (l : List Node) :
    ∃ p1 p2, l = p1 ++ p2 ∧ insertWalk n ts l = p1 ++ n :: p2 ∧
      (∀ m ∈ p1, ∃ h, m.host = some h ∧ ts < h.m_tTimestamp) ∧
      (∀ m h, p2.head? = some m → m.host = some h → h.m_tTimestamp ≤ ts) := by
  induction l with
  | nil => exact ⟨[], [], rfl, rfl, by simp, by simp⟩
  | cons y r ih =>
    cases hy : y.host with
    | none =>
      refine ⟨[], y :: r, rfl, by simp [insertWalk, hy], by simp, ?_⟩
      intro m h hm hh
      simp only [List.head?_cons, Option.some.injEq] at hm
      rw [← hm, hy] at hh
      cases hh
    | some g =>
      by_cases ht : g.m_tTimestamp > ts
      · obtain ⟨p1, p2, h1, h2, h3, h4⟩ := ih
        refine ⟨y :: p1, p2, by rw [h1]; rfl, by simp [insertWalk, hy, ht, h2], ?_, h4⟩
        intro m hm
        rcases List.mem_cons.1 hm with rfl | hm'
        · exact ⟨g, hy, ht⟩
        · exact h3 m hm'
      · refine ⟨[], y :: r, rfl, by simp [insertWalk, hy, ht], by simp, ?_⟩
        intro m h hm hh
        simp only [List.head?_cons, Option.some.injEq] at hm
        rw [← hm, hy] at hh
        cases hh
        omega


/-! ### insert -/

theorem count_none_keys_hosts (l : List Node) (h : ∀ m ∈ l, ∃ x, m.host = some x) :
    (keys l).count none = 0 := by
  rw [List.count_eq_zero]
  intro hm
  simp only [keys, List.mem_map] at hm
  obtain ⟨m, hm1, hm2⟩ := hm
  obtain ⟨x, hx⟩ := h m hm1
  simp [Node.key, hx] at hm2

theorem key_of_host (n : Node) (x : G2HostCacheHost) (h : n.host = some x) :
    n.key = some x.key := by
  simp [Node.key, h]

/-- Where `insert` puts the new cell: behind the access point of its failure count and the
hosts of that bucket with a higher timestamp, in front of the cell that follows them. -/
theorem insert_spec {s : G2HostCache} (hi : Inv s) (pNew : G2HostCacheHost)
    (hf : pNew.m_nFailures ≤ s.m_nMaxFailures) :
    ∃ pre x p1 p2, s.m_lHosts = pre ++ x :: (p1 ++ p2) ∧ x.host = none ∧
      s.m_pFailures[pNew.m_nFailures]? = some x.id ∧
      (apIds pre).length = pNew.m_nFailures ∧
      (∀ m ∈ p1, ∃ h, m.host = some h ∧ pNew.m_tTimestamp < h.m_tTimestamp) ∧
      (∀ m h, p2.head? = some m → m.host = some h → h.m_tTimestamp ≤ pNew.m_tTimestamp) ∧
      s.insert pNew =
        { s with
          m_lHosts := pre ++ x :: (p1 ++ ⟨s.m_nNextNode, some pNew⟩ :: p2)
          m_nSizeAtomic := s.m_nSizeAtomic + 1
          m_nNextNode := s.m_nNextNode + 1 } := by
  have hlen : pNew.m_nFailures < s.m_pFailures.length := by
    rw [hi.ap_len]
    omega
  obtain ⟨a, ha⟩ : ∃ a, s.m_pFailures[pNew.m_nFailures]? = some a :=
    ⟨_, List.getElem?_eq_getElem hlen⟩
  have ha' : (apIds s.m_lHosts)[pNew.m_nFailures]? = some a := by
    rw [← hi.ap_eq]
    exact ha
  obtain ⟨pre, x, post, h1, h2, h3, h4, h5, h6⟩ :=
    ap_split s.m_lHosts hi.ids_nodup pNew.m_nFailures a ha'
  obtain ⟨p1, p2, g1, g2, g3, g4⟩ :=
    insertWalk_spec ⟨s.m_nNextNode, some pNew⟩ pNew.m_tTimestamp post
  refine ⟨pre, x, p1, p2, by rw [h1, g1], h3, by rw [ha, h2], h6, g3, g4, ?_⟩
  simp only [G2HostCache.insert, ha, h5, h4, g2]

theorem Inv.insert {s : G2HostCache} (hi : Inv s) (pNew : G2HostCacheHost)
    (hf : pNew.m_nFailures ≤ s.m_nMaxFailures)
    (hu : ∀ h, some h ∈ keys s.m_lHosts → h.address ≠ pNew.m_oAddress) :
    Inv (s.insert pNew) := by
  obtain ⟨pre, x, p1, p2, hl, hx, _, hpre, hp1, hp2, hins⟩ := insert_spec hi pNew hf
  have hxk : x.key = none := (key_eq_none_iff x).2 hx
  have hb := hi.buckets
  rw [hl, keys_append, keys_cons, keys_append, hxk, bucketsFrom_append, bucketsFrom_none,
    bucketsFrom_append, ← length_apIds, hpre, count_none_keys_hosts p1 (fun m hm =>
      (hp1 m hm).imp fun _ h => h.1)] at hb
  simp only [Nat.zero_add, Nat.add_zero] at hb
  obtain ⟨hb1, hb2, hb3⟩ := hb
  have hs := hi.sorted
  have hadd := hi.addr_nodup
  rw [hl] at hs hadd hu
  have hidl := hi.ids_lt
  have hidn := hi.ids_nodup
  have hsz := hi.size_eq
  have hape := hi.ap_eq
  rw [hl] at hidl hidn hsz hape
  rw [hins]
  have hnewkeys : keys (pre ++ x :: (p1 ++ ⟨s.m_nNextNode, some pNew⟩ :: p2)) =
      (keys pre ++ none :: keys p1) ++ some pNew.key :: keys p2 := by
    simp [keys, Node.key, hx]
  have holdkeys : keys (pre ++ x :: (p1 ++ p2)) = (keys pre ++ none :: keys p1) ++ keys p2 := by
    simp [keys, Node.key, hx]
  have hperm : (ids (pre ++ x :: (p1 ++ ⟨s.m_nNextNode, some pNew⟩ :: p2))).Perm
      (s.m_nNextNode :: ids (pre ++ x :: (p1 ++ p2))) := by
    have e1 : ids (pre ++ x :: (p1 ++ ⟨s.m_nNextNode, some pNew⟩ :: p2)) =
        (ids pre ++ x.id :: ids p1) ++ s.m_nNextNode :: ids p2 := by simp [ids]
    have e2 : ids (pre ++ x :: (p1 ++ p2)) = (ids pre ++ x.id :: ids p1) ++ ids p2 := by
      simp [ids]
    rw [e1, e2]
    exact List.perm_middle
  have hfresh : s.m_nNextNode ∉ ids (pre ++ x :: (p1 ++ p2)) := by
    intro hm
    exact absurd (hidl _ hm) (Nat.lt_irrefl _)
  refine ⟨?_, ?_, ?_, ?_, ?_, ?_, ?_, ?_, ?_, ?_⟩
  · exact (hperm.nodup_iff).2 (List.nodup_cons.2 ⟨hfresh, hidn⟩)
  · intro i hi'
    rcases List.mem_cons.1 (hperm.subset hi') with rfl | h
    · exact Nat.lt_succ_self _
    · exact Nat.lt_succ_of_lt (hidl i h)
  · show s.m_pFailures = _
    rw [hape, apIds_append, apIds_append, apIds_cons_ap x _ hx, apIds_cons_ap x _ hx,
      apIds_append, apIds_append, apIds_cons_host _ _ pNew rfl]
  · exact hi.ap_len
  · exact hi.max_le
  · show bucketsFrom 0 (keys _)
    rw [keys_append, keys_cons, keys_append, keys_cons, hxk, bucketsFrom_append, bucketsFrom_none,
      bucketsFrom_append, ← length_apIds, hpre, count_none_keys_hosts p1 (fun m hm =>
        (hp1 m hm).imp fun _ h => h.1)]
    simp only [Nat.zero_add, Nat.add_zero]
    exact ⟨hb1, hb2, by simp [Node.key, G2HostCacheHost.key, bucketsFrom_some], hb3⟩
  · intro h hh
    show h.failures ≤ s.m_nMaxFailures
    have hh' : some h ∈ keys (pre ++ x :: (p1 ++ ⟨s.m_nNextNode, some pNew⟩ :: p2)) := hh
    rw [hnewkeys] at hh'
    rcases List.mem_append.1 hh' with h1 | h1
    · apply hi.fail_le h
      rw [hl, holdkeys]
      exact List.mem_append_left _ h1
    · rcases List.mem_cons.1 h1 with h2 | h2
      · cases h2
        exact hf
      · apply hi.fail_le h
        rw [hl, holdkeys]
        exact List.mem_append_right _ h2
  · show (keys _).Pairwise sortRel
    rw [hnewkeys]
    rw [holdkeys] at hs
    rw [List.pairwise_append] at hs ⊢
    obtain ⟨hs1, hs2, hs3⟩ := hs
    refine ⟨hs1, ?_, ?_⟩
    · rw [List.pairwise_cons]
      refine ⟨?_, hs2⟩
      intro b hb a c ha hc hfe
      cases ha
      cases hc
      cases hp : p2 with
      | nil => rw [hp] at hb; simp [keys] at hb
      | cons m rest =>
        rw [hp] at hb hb3 hs2 hp2
        cases hm : m.host with
        | none =>
          rw [keys_cons, (key_eq_none_iff m).2 hm] at hb hb3
          rw [bucketsFrom_none] at hb3
          rcases List.mem_cons.1 hb with hb' | hb'
          · cases hb'
          · have := (bucketsFrom_bounds _ _ hb3 c hb').1
            simp only [G2HostCacheHost.key] at hfe
            omega
        | some g =>
          have hg := hp2 m g rfl hm
          rw [keys_cons, key_of_host m g hm] at hb hb3 hs2
          rcases List.mem_cons.1 hb with hb' | hb'
          · cases hb'
            exact hg
          · rw [bucketsFrom_some] at hb3
            have h4 := (List.pairwise_cons.1 hs2).1 (some c) hb' g.key c rfl rfl
            simp only [G2HostCacheHost.key] at hfe hb3 h4 ⊢
            have := h4 (by omega)
            omega
    · intro a ha b hb
      rcases List.mem_cons.1 hb with hb' | hb'
      · rw [hb']
        intro u v hu' hv hfe
        cases hv
        rcases List.mem_append.1 ha with h1 | h1
        · have := (bucketsFrom_bounds _ _ hb1 u (hu' ▸ h1)).2
          rw [← length_apIds, hpre] at this
          simp only [G2HostCacheHost.key] at hfe
          omega
        · rcases List.mem_cons.1 h1 with h2 | h2
          · rw [h2] at hu'
            cases hu'
          · simp only [keys, List.mem_map] at h2
            obtain ⟨m, hm1, hm2⟩ := h2
            obtain ⟨g, hg1, hg2⟩ := hp1 m hm1
            rw [← hm2, key_of_host m g hg1] at hu'
            cases hu'
            exact Nat.le_of_lt hg2
      · exact hs3 a ha b hb'
  · show (keys _).Pairwise addrRel
    rw [hnewkeys]
    rw [holdkeys] at hadd hu
    have hsym : Symmetric addrRel := by
      intro u v huv a b ha hb e
      exact huv b a hb ha e.symm
    rw [List.pairwise_middle (fun h => hsym h), List.pairwise_cons]
    refine ⟨?_, hadd⟩
    intro b hb u v hu' hv
    cases hu'
    rw [hv] at hb
    exact (hu v hb).symm
  · show s.m_nSizeAtomic + 1 = _
    rw [hi.size_eq, hl]
    simp only [List.filter_append, List.filter_cons, Node.isHost, hx, Option.isSome_some,
      Option.isSome_none, List.length_append, List.length_cons]
    simp
    omega


/-! ### addSyncHelper -/

theorem eraseNode_append (it : Nat) (A : List Node) (n : Node) (B : List Node)
    (hA : it ∉ ids A) (hn : n.id = it) : eraseNode it (A ++ n :: B) = A ++ B := by
  induction A with
  | nil => exact eraseNode_cons_eq it n B hn
  | cons m A ih =>
    simp only [ids, List.map_cons, List.mem_cons, not_or] at hA
    rw [List.cons_append, eraseNode_cons_ne it m _ (fun e => hA.1 e.symm), ih hA.2]
    rfl

/-- Erasing a cell of a list without duplicate identities removes that cell. -/
theorem eraseNode_split (l : List Node) (hn : (ids l).Nodup) (n : Node) (hm : n ∈ l) :
    ∃ A B, l = A ++ n :: B ∧ eraseNode n.id l = A ++ B := by
  obtain ⟨A, B, hl⟩ := List.append_of_mem hm
  refine ⟨A, B, hl, ?_⟩
  rw [hl]
  apply eraseNode_append _ _ _ _ _ rfl
  rw [hl, ids_append] at hn
  have := (List.nodup_append.1 hn).2.2
  intro h
  exact this h (by simp [ids])

/-- After the cell of an address is erased, no host has that address. -/
theorem no_addr_after_erase {s : G2HostCache} (hi : Inv s) (n : Node) (hm : n ∈ s.m_lHosts)
    (x : G2HostCacheHost) (hx : n.host = some x) :
    ∀ h, some h ∈ keys (eraseNode n.id s.m_lHosts) → h.address ≠ x.m_oAddress := by
  obtain ⟨A, B, hl, he⟩ := eraseNode_split s.m_lHosts hi.ids_nodup n hm
  have hp := hi.addr_nodup
  rw [hl, keys_append, keys_cons, key_of_host n x hx] at hp
  have hsym : Symmetric addrRel := by
    intro u v huv a b ha hb e
    exact huv b a hb ha e.symm
  rw [List.pairwise_middle (fun h => hsym h), List.pairwise_cons] at hp
  intro h hh
  rw [he, keys_append] at hh
  exact (hp.1 (some h) hh x.key h rfl rfl).symm

theorem no_addr_of_find_none {s : G2HostCache} (a : CEndPoint) (hf : s.find a = none) :
    ∀ h, some h ∈ keys s.m_lHosts → h.address ≠ a := by
  intro h hh
  simp only [keys, List.mem_map] at hh
  obtain ⟨n, hn1, hn2⟩ := hh
  cases hx : n.host with
  | none => simp [Node.key, hx] at hn2
  | some x =>
    simp only [Node.key, hx, Option.map_some', Option.some.injEq] at hn2
    rw [← hn2]
    exact findNode_none a s.m_lHosts hf n hn1 x hx

/-- Each of the five guards of `addSyncHelper` returns a NULL pointer and the state as it
was. -/
theorem addSyncHelper_reject (W : World) (d : CEndPoint → Bool) (s : G2HostCache)
    (a : CEndPoint) (ts now f : Nat)
    (h : W.isValid a = false ∨ W.isFirewalled a = true ∨ f > s.m_nMaxFailures ∨ d a = true ∨
      a = s.m_oLokalAddress) :
    s.addSyncHelper W d a ts now f = (s, none) := by
  unfold addSyncHelper
  by_cases h1 : W.isValid a = false
  · simp [h1]
  by_cases h2 : W.isFirewalled a = true
  · simp [h2]
  by_cases h3 : f > s.m_nMaxFailures
  · simp [h3]
  by_cases h4 : d a = true
  · simp [h4]
  by_cases h5 : a = s.m_oLokalAddress
  · simp [h5]
  rcases h with h | h | h | h | h <;> contradiction

theorem addSyncHelper_new (W : World) (d : CEndPoint → Bool) {s : G2HostCache} (hi : Inv s)
    (a : CEndPoint) (ts now f : Nat)
    (h1 : W.isValid a = true) (h2 : W.isFirewalled a = false) (h3 : f ≤ s.m_nMaxFailures)
    (h4 : d a = false) (h5 : a ≠ s.m_oLokalAddress) (hf : s.find a = none) :
    s.addSyncHelper W d a ts now f =
      (s.insert (G2HostCacheHost.create a (if ts > now then subU32 now 60 else ts) f),
        some s.m_nNextNode) := by
  have hm := hi.max_le
  have h6 : f % 256 = f := Nat.mod_eq_of_lt (by omega)
  have h3' : ¬ f > s.m_nMaxFailures := by omega
  simp [addSyncHelper, h1, h2, h3', h4, h5, hf, h6]

theorem addSyncHelper_update (W : World) (d : CEndPoint → Bool) {s : G2HostCache} (hi : Inv s)
    (a : CEndPoint) (ts now f : Nat)
    (h1 : W.isValid a = true) (h2 : W.isFirewalled a = false) (h3 : f ≤ s.m_nMaxFailures)
    (h4 : d a = false) (h5 : a ≠ s.m_oLokalAddress) (n : Node) (x : G2HostCacheHost)
    (hf : s.find a = some n) (hx : n.host = some x) :
    s.addSyncHelper W d a ts now f =
      ((s.remove n.id).insert (x.clone (if ts > now then subU32 now 60 else ts) f),
        some s.m_nNextNode) := by
  have hm := hi.max_le
  have h6 : f % 256 = f := Nat.mod_eq_of_lt (by omega)
  have h3' : ¬ f > s.m_nMaxFailures := by omega
  simp [addSyncHelper, h1, h2, h3', h4, h5, hf, hx, h6, update, h3, G2HostCache.remove]

/-- Reinserting a cached host with a new timestamp and failure count keeps the invariant. -/
theorem Inv.reinsert {s : G2HostCache} (hi : Inv s) (n : Node) (hm : n ∈ s.m_lHosts)
    (x : G2HostCacheHost) (hx : n.host = some x) (ts f : Nat) (hf : f ≤ s.m_nMaxFailures) :
    Inv ((s.remove n.id).insert (x.clone ts f)) :=
  (hi.remove n hm x hx).insert _ hf (no_addr_after_erase hi n hm x hx)

theorem Inv.addSyncHelper {s : G2HostCache} (hi : Inv s) (W : World) (d : CEndPoint → Bool)
    (a : CEndPoint) (ts now f : Nat) : Inv (s.addSyncHelper W d a ts now f).1 := by
  by_cases h : W.isValid a = false ∨ W.isFirewalled a = true ∨ f > s.m_nMaxFailures ∨
      d a = true ∨ a = s.m_oLokalAddress
  · rw [addSyncHelper_reject W d s a ts now f h]
    exact hi
  · simp only [not_or, Bool.not_eq_false, Bool.not_eq_true, not_lt] at h
    obtain ⟨h1, h2, h3, h4, h5⟩ := h
    cases hf : s.find a with
    | none =>
      rw [addSyncHelper_new W d hi a ts now f h1 h2 h3 h4 h5 hf]
      exact hi.insert _ h3 (no_addr_of_find_none a hf)
    | some n =>
      obtain ⟨hm, x, hx, _⟩ := findNode_some a s.m_lHosts n hf
      rw [addSyncHelper_update W d hi a ts now f h1 h2 h3 h4 h5 n x hf hx]
      exact hi.reinsert n hm x hx _ f h3

theorem Inv.addSync {s : G2HostCache} (hi : Inv s) (W : World) (d : CEndPoint → Bool)
    (a : CEndPoint) (ts now : Nat) : Inv (s.addSync W d a ts now).1 :=
  hi.addSyncHelper W d a ts now 0

theorem Inv.addSyncKey {s : G2HostCache} (hi : Inv s) (W : World) (d : CEndPoint → Bool)
    (a : CEndPoint) (ts : Nat) (kh : Option CEndPoint) (key now : Nat) :
    Inv (s.addSyncKey W d a ts kh key now).1 := by
  have h := hi.addSyncHelper W d a ts now 0
  unfold G2HostCache.addSyncKey
  cases hr : (s.addSyncHelper W d a ts now 0).2 with
  | none => simpa [hr] using h
  | some it =>
    simp only [hr]
    exact h.modifyHost it _ (fun _ => rfl)

theorem Inv.addSyncAck {s : G2HostCache} (hi : Inv s) (W : World) (d : CEndPoint → Bool)
    (a : CEndPoint) (ts ack now : Nat) : Inv (s.addSyncAck W d a ts ack now).1 := by
  have h := hi.addSyncHelper W d a ts now 0
  unfold G2HostCache.addSyncAck
  cases hr : (s.addSyncHelper W d a ts now 0).2 with
  | none => simpa [hr] using h
  | some it =>
    simp only [hr]
    exact h.modifyHost it _ (fun _ => rfl)

theorem Inv.asyncUpdateFailures {s : G2HostCache} (hi : Inv s) (a : CEndPoint) (f : Nat) :
    Inv (s.asyncUpdateFailures a f) := by
  unfold G2HostCache.asyncUpdateFailures
  cases hf : s.find a with
  | none => exact hi
  | some n =>
    obtain ⟨hm, x, hx, _⟩ := findNode_some a s.m_lHosts n hf
    simp only [hx]
    have hmax : (s.remove n.id).m_nMaxFailures = s.m_nMaxFailures := rfl
    by_cases hle : f ≤ s.m_nMaxFailures
    · have hm' := hi.max_le
      have h6 : f % 256 = f := Nat.mod_eq_of_lt (by omega)
      rw [hmax, if_pos hle, h6]
      exact hi.reinsert n hm x hx _ f hle
    · rw [hmax, if_neg hle]
      exact hi.remove n hm x hx

theorem host_fail_le {s : G2HostCache} (hi : Inv s) (n : Node) (hm : n ∈ s.m_lHosts)
    (x : G2HostCacheHost) (hx : n.host = some x) : x.m_nFailures ≤ s.m_nMaxFailures := by
  apply hi.fail_le x.key
  rw [← key_of_host n x hx]
  exact List.mem_map_of_mem _ hm

theorem Inv.asyncOnFailure {s : G2HostCache} (hi : Inv s) (a : CEndPoint) :
    Inv (s.asyncOnFailure a) := by
  unfold G2HostCache.asyncOnFailure
  cases hf : s.find a with
  | none => exact hi
  | some n =>
    obtain ⟨hm, x, hx, _⟩ := findNode_some a s.m_lHosts n hf
    simp only [hx]
    have hmax : (s.remove n.id).m_nMaxFailures = s.m_nMaxFailures := rfl
    by_cases hle : x.m_nFailures < s.m_nMaxFailures
    · have hm' := hi.max_le
      have h6 : (x.m_nFailures + 1) % 256 = x.m_nFailures + 1 := Nat.mod_eq_of_lt (by omega)
      rw [hmax, if_pos hle, h6]
      exact hi.reinsert n hm x hx _ _ hle
    · rw [hmax, if_neg hle]
      exact hi.remove n hm x hx

theorem Inv.removeSync {s : G2HostCache} (hi : Inv s) (a : CEndPoint) :
    Inv (s.removeSync a) := by
  unfold G2HostCache.removeSync
  cases hf : s.find a with
  | none => exact hi
  | some n =>
    obtain ⟨hm, x, hx, _⟩ := findNode_some a s.m_lHosts n hf
    exact hi.remove n hm x hx

theorem Inv.addXTryEntry {s : G2HostCache} (hi : Inv s) (W : World) (d : CEndPoint → Bool)
    (now : Nat) (e : String) : Inv (s.addXTryEntry W d now e) := by
  unfold G2HostCache.addXTryEntry
  dsimp only
  repeat' split
  all_goals first | exact hi | exact hi.addSyncHelper W d _ _ now 0

theorem Inv.asyncAddXTry {s : G2HostCache} (hi : Inv s) (W : World) (d : CEndPoint → Bool)
    (now : Nat) (hdr : String) : Inv (s.asyncAddXTry W d now hdr) := by
  unfold G2HostCache.asyncAddXTry
  generalize hdr.splitOn "," = l
  induction l generalizing s with
  | nil => exact hi
  | cons e l ih => exact ih (hi.addXTryEntry W d now e)

theorem Inv.localAddressChanged {s : G2HostCache} (hi : Inv s) (a : CEndPoint) :
    Inv (s.localAddressChanged a) :=
  hi.of_keys_eq rfl rfl rfl rfl rfl rfl rfl

theorem Inv.loadRecord {s : G2HostCache} (hi : Inv s) (W : World) (d : CEndPoint → Bool)
    (now : Nat) (r : HostRecord) (ts : Nat) : Inv (s.loadRecord W d now r ts) := by
  have h := hi.addSyncHelper W d r.oAddress ts now r.nFailures
  unfold G2HostCache.loadRecord
  cases hr : (s.addSyncHelper W d r.oAddress ts now r.nFailures).2 with
  | none => simpa [hr] using h
  | some it =>
    simp only [hr]
    exact h.modifyHost it _ (fun _ => rfl)

theorem Inv.loadPastEnd {s t : G2HostCache} (hi : Inv s) (W : World) (d : CEndPoint → Bool)
    (now : Nat) (e : HostRecord) (n : Nat) (h : G2HostCache.loadPastEnd W d now e n s = some t) : Inv t := by
  induction n generalizing s with
  | zero =>
    simp only [G2HostCache.loadPastEnd, Option.some.injEq] at h
    exact h ▸ hi
  | succ n ih =>
    simp only [G2HostCache.loadPastEnd] at h
    by_cases hd : d e.oAddress = true
    · simp [hd] at h
    · simp only [hd, Bool.false_eq_true, if_false] at h
      exact ih (hi.loadRecord W d now e _) h

theorem Inv.loadLoop {s t : G2HostCache} (hi : Inv s) (W : World) (d : CEndPoint → Bool)
    (now : Nat) (e : HostRecord) (rs : List HostRecord) (n : Nat)
    (h : G2HostCache.loadLoop W d now e rs n s = some t) : Inv t := by
  induction rs generalizing s n with
  | nil =>
    cases n with
    | zero =>
      simp only [G2HostCache.loadLoop, Option.some.injEq] at h
      exact h ▸ hi
    | succ n =>
      simp only [G2HostCache.loadLoop] at h
      exact hi.loadPastEnd W d now e _ h
  | cons r rs ih =>
    cases n with
    | zero =>
      simp only [G2HostCache.loadLoop, Option.some.injEq] at h
      exact h ▸ hi
    | succ n =>
      simp only [G2HostCache.loadLoop] at h
      by_cases hd : d r.oAddress = true
      · simp only [hd, if_true] at h
        exact ih hi _ h
      · simp only [hd, Bool.false_eq_true, if_false] at h
        exact ih (hi.loadRecord W d now r _) _ h

theorem Inv.load {s t : G2HostCache} (hi : Inv s) (W : World) (d : CEndPoint → Bool)
    (cfg : Settings) (v now : Nat) (file : Option HostFile)
    (h : s.load W d cfg v now file = some t) : Inv t := by
  unfold G2HostCache.load at h
  cases file with
  | none =>
    simp only [Option.some.injEq] at h
    exact h ▸ hi
  | some f =>
    simp only at h
    by_cases hv : f.nVersion = v
    · simp only [hv, if_true] at h
      cases hl : G2HostCache.loadLoop W d now f.pastEnd f.records f.nCount s with
      | none => simp [hl] at h
      | some s1 =>
        simp only [hl, Option.some.injEq] at h
        exact h ▸ (hi.loadLoop W d now _ _ _ hl).pruneOldHosts cfg now
    · simp only [hv, if_false, Option.some.injEq] at h
      exact h ▸ hi.pruneOldHosts cfg now


/-! ### removeWorst -/

theorem removeWorstWalk_host (x : Node) (r : List Node) (nF : Nat) (h : G2HostCacheHost)
    (hx : x.host = some h) : removeWorstWalk (x :: r) nF = (r, nF, true) := by
  simp [removeWorstWalk, hx]

theorem removeWorstWalk_last (x : Node) (nF : Nat) (hx : x.host = none) :
    removeWorstWalk [x] nF = ([x], nF, false) := by
  simp [removeWorstWalk, hx]

theorem removeWorstWalk_ap (x y : Node) (r : List Node) (nF : Nat) (hx : x.host = none) :
    removeWorstWalk (x :: y :: r) nF =
      (x :: (removeWorstWalk (y :: r) ((nF + 255) % 256)).1,
        (removeWorstWalk (y :: r) ((nF + 255) % 256)).2.1,
        (removeWorstWalk (y :: r) ((nF + 255) % 256)).2.2) := by
  simp [removeWorstWalk, hx]

/-- The walk erases at most one cell, a host, and reports it. -/
theorem removeWorstWalk_basic (rev : List Node) (nF : Nat) :
    (removeWorstWalk rev nF).1.Sublist rev ∧
      apIds (removeWorstWalk rev nF).1 = apIds rev ∧
      rev.length = (removeWorstWalk rev nF).1.length +
        (if (removeWorstWalk rev nF).2.2 then 1 else 0) := by
  induction rev generalizing nF with
  | nil => exact ⟨List.Sublist.refl _, rfl, rfl⟩
  | cons x r ih =>
    cases hx : x.host with
    | some h =>
      rw [removeWorstWalk_host x r nF h hx]
      exact ⟨List.sublist_cons_self x r, (apIds_cons_host x r h hx).symm, rfl⟩
    | none =>
      cases r with
      | nil =>
        rw [removeWorstWalk_last x nF hx]
        exact ⟨List.Sublist.refl _, rfl, rfl⟩
      | cons y r =>
        rw [removeWorstWalk_ap x y r nF hx]
        obtain ⟨h1, h2, h3⟩ := ih ((nF + 255) % 256)
        refine ⟨h1.cons₂ x, ?_, ?_⟩
        · rw [apIds_cons_ap x _ hx, apIds_cons_ap x _ hx, h2]
        · simp only [List.length_cons] at h3 ⊢
          omega

theorem nodes_split (it : Nat) (l : List Node) : nodesBefore it l ++ nodesFrom it l = l :=
  List.takeWhile_append_dropWhile _ l

theorem Inv.removeWorst {s : G2HostCache} (hi : Inv s) (nF : Nat) :
    Inv (s.removeWorst nF).1 := by
  unfold G2HostCache.removeWorst
  dsimp only
  generalize (if nF > s.m_nMaxFailures then s.m_nMaxFailures else nF) = nF'
  split
  · exact hi
  · rename_i ap hap
    obtain ⟨h1, h2, h3⟩ := removeWorstWalk_basic (nodesBefore ap s.m_lHosts).reverse nF'
    have hsplit := nodes_split ap s.m_lHosts
    refine hi.of_sublist ?_ ?_ rfl rfl rfl ?_
    · show (_ ++ nodesFrom ap s.m_lHosts).Sublist s.m_lHosts
      have := h1.reverse
      rw [List.reverse_reverse] at this
      have h4 := this.append (List.Sublist.refl (nodesFrom ap s.m_lHosts))
      rw [hsplit] at h4
      exact h4
    · show apIds (_ ++ nodesFrom ap s.m_lHosts) = apIds s.m_lHosts
      rw [apIds_append, apIds_reverse, h2, apIds_reverse, List.reverse_reverse, ← apIds_append,
        hsplit]
    · have hlen : s.m_lHosts.length =
          (nodesBefore ap s.m_lHosts).length + (nodesFrom ap s.m_lHosts).length := by
        rw [← List.length_append, hsplit]
      rw [List.length_reverse] at h3
      have key : ∀ (b : Bool) (z : Int) (n m k : Nat), n = m + (if b = true then 1 else 0) →
          (if b = true then z - 1 else z) = z - ((n + k - (m + k) : Nat) : Int) := by
        intro b z n m k h
        cases b
        · simp only [Bool.false_eq_true, if_false] at h ⊢
          omega
        · simp only [if_true] at h ⊢
          omega
      have := key _ s.m_nSizeAtomic _ _ (nodesFrom ap s.m_lHosts).length h3
      rw [← hlen, ← List.length_reverse (removeWorstWalk _ nF').1, ← List.length_append] at this
      exact this

/-- The walk under the invariant: it steps over access points `S`, each step decrementing
`nFailures`, and then either erases the host it reaches or stands on `begin()`. -/
theorem removeWorstWalk_spec (rev : List Node) (nF : Nat) (hcount : (apIds rev).length = nF + 1)
    (hnF : nF ≤ 255) (hlast : ∃ b, rev.getLast? = some b ∧ b.host = none) :
    ∃ S T, rev = S ++ T ∧ (∀ m ∈ S, m.host = none) ∧
      (removeWorstWalk rev nF).2.1 + S.length = nF ∧
      ((∃ x h T', T = x :: T' ∧ x.host = some h ∧
          (removeWorstWalk rev nF).1 = S ++ T' ∧ (removeWorstWalk rev nF).2.2 = true) ∨
        (∃ b, T = [b] ∧ b.host = none ∧
          (removeWorstWalk rev nF).1 = rev ∧ (removeWorstWalk rev nF).2.2 = false)) := by
  induction rev generalizing nF with
  | nil => simp [apIds] at hcount
  | cons x r ih =>
    cases hx : x.host with
    | some h =>
      rw [removeWorstWalk_host x r nF h hx]
      exact ⟨[], x :: r, rfl, by simp, rfl, Or.inl ⟨x, h, r, rfl, hx, rfl, rfl⟩⟩
    | none =>
      cases r with
      | nil =>
        rw [removeWorstWalk_last x nF hx]
        exact ⟨[], [x], rfl, by simp, rfl, Or.inr ⟨x, rfl, hx, rfl, rfl⟩⟩
      | cons y r =>
        rw [removeWorstWalk_ap x y r nF hx]
        have hlast' : ∃ b, (y :: r).getLast? = some b ∧ b.host = none := by
          obtain ⟨b, hb1, hb2⟩ := hlast
          rw [List.getLast?_cons_cons] at hb1
          exact ⟨b, hb1, hb2⟩
        rw [apIds_cons_ap x _ hx, List.length_cons] at hcount
        have hpos : 1 ≤ (apIds (y :: r)).length := by
          obtain ⟨b, hb1, hb2⟩ := hlast'
          have hb : b ∈ y :: r := List.mem_of_getLast?_eq_some hb1
          have : b.id ∈ apIds (y :: r) := by
            simp only [apIds, List.mem_map, List.mem_filter]
            exact ⟨b, ⟨hb, by simp [Node.isAP, hb2]⟩, rfl⟩
          exact List.length_pos_of_mem this
        have hmod : (nF + 255) % 256 = nF - 1 := by omega
        rw [hmod]
        obtain ⟨S, T, h1, h2, h3, h4⟩ := ih (nF - 1) (by omega) (by omega) hlast'
        refine ⟨x :: S, T, by rw [h1]; rfl, ?_, ?_, ?_⟩
        · intro m hm
          rcases List.mem_cons.1 hm with rfl | hm'
          · exact hx
          · exact h2 m hm'
        · simp only [List.length_cons]
          omega
        · rcases h4 with ⟨x', h', T', e1, e2, e3, e4⟩ | ⟨b, e1, e2, e3, e4⟩
          · exact Or.inl ⟨x', h', T', e1, e2, by rw [e3]; rfl, e4⟩
          · exact Or.inr ⟨b, e1, e2, by rw [e3], e4⟩


theorem head_is_ap (n : Node) (l : List Node) (hb : bucketsFrom 0 (keys (n :: l))) :
    n.host = none := by
  cases hn : n.host with
  | none => rfl
  | some x =>
    rw [keys_cons, key_of_host n x hn, bucketsFrom_some] at hb
    omega

theorem apIds_all_ap (l : List Node) (h : ∀ m ∈ l, m.host = none) :
    (apIds l).length = l.length := by
  induction l with
  | nil => rfl
  | cons n l ih =>
    rw [apIds_cons_ap n l (h n (List.mem_cons_self _ _)), List.length_cons, List.length_cons,
      ih (fun m hm => h m (List.mem_cons_of_mem _ hm))]

theorem not_mem_keys_all_ap (l : List Node) (h : ∀ m ∈ l, m.host = none) (k : HostKey) :
    some k ∉ keys l := by
  intro hk
  simp only [keys, List.mem_map] at hk
  obtain ⟨m, hm1, hm2⟩ := hk
  rw [(key_eq_none_iff m).2 (h m hm1)] at hm2
  cases hm2

theorem keys_reverse (l : List Node) : keys l.reverse = (keys l).reverse := by
  simp [keys]

/-- One call of `removeWorst` inside the eviction loops: when no host has more failures than
`nFailures`, the call erases the last host of the cache and leaves its failure count in
`nFailures`, or the cache holds no host and nothing changes. -/
theorem removeWorst_step {s : G2HostCache} (hi : Inv s) (nF : Nat) (hle : nF ≤ s.m_nMaxFailures)
    (hall : ∀ h, some h ∈ keys s.m_lHosts → h.failures ≤ nF) :
    (s.removeWorst nF).2 ≤ nF ∧
      (∀ h, some h ∈ keys (s.removeWorst nF).1.m_lHosts → h.failures ≤ (s.removeWorst nF).2) ∧
      (((s.removeWorst nF).1.m_lHosts.length + 1 = s.m_lHosts.length) ∨
        ((s.removeWorst nF).1.m_lHosts = s.m_lHosts ∧ (s.removeWorst nF).2 = 0 ∧
          ∀ h, some h ∉ keys s.m_lHosts)) := by
  have hlen : nF + 1 < s.m_pFailures.length := by
    rw [hi.ap_len]
    omega
  obtain ⟨a, ha⟩ : ∃ a, s.m_pFailures[nF + 1]? = some a := ⟨_, List.getElem?_eq_getElem hlen⟩
  have ha' : (apIds s.m_lHosts)[nF + 1]? = some a := by
    rw [← hi.ap_eq]
    exact ha
  obtain ⟨pre, x, post, h1, h2, h3, h4, h5, h6⟩ := ap_split s.m_lHosts hi.ids_nodup (nF + 1) a ha'
  have hmax := hi.max_le
  have hb := hi.buckets
  rw [h1, keys_append, bucketsFrom_append, ← length_apIds, h6, keys_cons,
    (key_eq_none_iff x).2 h3, bucketsFrom_none] at hb
  obtain ⟨hb1, hb2⟩ := hb
  -- no host behind the access point
  have hpost : ∀ k, some k ∉ keys post := by
    intro k hk
    have e1 := (bucketsFrom_bounds _ _ hb2 k hk).1
    have e2 := hall k (by rw [h1, keys_append, keys_cons]; simp [hk])
    omega
  have hlast : ∃ b, pre.reverse.getLast? = some b ∧ b.host = none := by
    cases hp : pre with
    | nil => rw [hp] at h6; simp [apIds] at h6
    | cons b r =>
      refine ⟨b, by simp, ?_⟩
      rw [hp] at hb1
      exact head_is_ap b r hb1
  obtain ⟨S, T, g1, g2, g3, g4⟩ := removeWorstWalk_spec pre.reverse nF
    (by rw [apIds_reverse, List.length_reverse, h6]) (by omega) hlast
  have hpre : pre = T.reverse ++ S.reverse := by
    have := congrArg List.reverse g1
    rw [List.reverse_reverse, List.reverse_append] at this
    exact this
  have hun : s.removeWorst nF =
      ({ s with
          m_lHosts := (removeWorstWalk pre.reverse nF).1.reverse ++ x :: post
          m_nSizeAtomic := if (removeWorstWalk pre.reverse nF).2.2 then s.m_nSizeAtomic - 1
            else s.m_nSizeAtomic },
        (removeWorstWalk pre.reverse nF).2.1) := by
    have hnot : ¬ nF > s.m_nMaxFailures := by omega
    simp only [G2HostCache.removeWorst, if_neg hnot, ha, h4, h5]
  rw [hun]
  refine ⟨by omega, ?_, ?_⟩
  · intro k hk
    rcases g4 with ⟨x', h', T', e1, e2, e3, e4⟩ | ⟨b, e1, e2, e3, e4⟩
    · simp only [e3, List.reverse_append, keys_append, List.mem_append, keys_cons] at hk
      rcases hk with (hk | hk) | hk
      · rw [hpre, e1, List.reverse_cons, List.append_assoc, keys_append] at hb1
        have hb1' := (bucketsFrom_append _ _ _).1 hb1
        have e5 := (bucketsFrom_bounds _ _ hb1'.1 k hk).2
        rw [← length_apIds] at e5
        have e6 : (apIds pre).length = (apIds T'.reverse).length + S.length := by
          rw [hpre, e1, List.reverse_cons, apIds_append, apIds_append, List.length_append,
            List.length_append, apIds_reverse S, List.length_reverse, apIds_all_ap S g2]
          have : apIds [x'] = [] := apIds_cons_host x' [] h' e2
          rw [this]
          rfl
        show k.failures ≤ (removeWorstWalk pre.reverse nF).2.1
        omega
      · exact absurd hk (not_mem_keys_all_ap _ (fun m hm => g2 m (List.mem_reverse.1 hm)) k)
      · rcases List.mem_cons.1 hk with hk' | hk'
        · rw [(key_eq_none_iff x).2 h3] at hk'
          cases hk'
        · exact absurd hk' (hpost k)
    · exfalso
      simp only [e3, List.reverse_reverse, keys_append, List.mem_append, keys_cons] at hk
      rcases hk with hk | hk
      · rw [hpre, e1] at hk
        refine not_mem_keys_all_ap _ ?_ k hk
        intro m hm
        rcases List.mem_append.1 hm with hm' | hm'
        · simp only [List.reverse_cons, List.reverse_nil, List.nil_append,
            List.mem_singleton] at hm'
          rw [hm']
          exact e2
        · exact g2 m (List.mem_reverse.1 hm')
      · rcases List.mem_cons.1 hk with hk' | hk'
        · rw [(key_eq_none_iff x).2 h3] at hk'
          cases hk'
        · exact absurd hk' (hpost k)
  · rcases g4 with ⟨x', h', T', e1, e2, e3, e4⟩ | ⟨b, e1, e2, e3, e4⟩
    · left
      show ((removeWorstWalk pre.reverse nF).1.reverse ++ x :: post).length + 1 = _
      rw [e3, h1, hpre, e1]
      simp only [List.length_append, List.length_reverse, List.length_cons]
      omega
    · right
      refine ⟨?_, ?_, ?_⟩
      · show (removeWorstWalk pre.reverse nF).1.reverse ++ x :: post = _
        rw [e3, List.reverse_reverse, h1]
      · show (removeWorstWalk pre.reverse nF).2.1 = 0
        have e6 : (apIds pre).length = S.length + 1 := by
          rw [hpre, e1, apIds_append, List.length_append, apIds_reverse S, List.length_reverse,
            apIds_all_ap S g2]
          have : apIds [b].reverse = [b.id] := apIds_cons_ap b [] e2
          rw [this]
          simp
          omega
        omega
      · intro k hk
        rw [h1, keys_append, keys_cons, List.mem_append] at hk
        rcases hk with hk | hk
        · rw [hpre, e1] at hk
          refine not_mem_keys_all_ap _ ?_ k hk
          intro m hm
          rcases List.mem_append.1 hm with hm' | hm'
          · simp only [List.reverse_cons, List.reverse_nil, List.nil_append,
              List.mem_singleton] at hm'
            rw [hm']
            exact e2
          · exact g2 m (List.mem_reverse.1 hm')
        · rcases List.mem_cons.1 hk with hk' | hk'
          · rw [(key_eq_none_iff x).2 h3] at hk'
            cases hk'
          · exact absurd hk' (hpost k)

theorem removeWorst_max (s : G2HostCache) (nF : Nat) :
    (s.removeWorst nF).1.m_nMaxFailures = s.m_nMaxFailures := by
  unfold G2HostCache.removeWorst
  dsimp only
  split <;> rfl


/-! ### The eviction loops of maintainInternal -/

/-- The loop `while ( nFailure > nNewMaxFailures )` ends within the fuel; afterwards no host
has more than `nNewMaxFailures` failures. -/
theorem evictAbove_spec (nNew : Nat) (fuel : Nat) {s : G2HostCache} (hi : Inv s) (nF : Nat)
    (hle : nF ≤ s.m_nMaxFailures)
    (hall : ∀ h, some h ∈ keys s.m_lHosts → h.failures ≤ nF)
    (hfuel : s.m_lHosts.length + nF < fuel) :
    ∃ t, evictAbove nNew fuel s nF = some t ∧ Inv t ∧ t.m_nMaxFailures = s.m_nMaxFailures ∧
      (∀ h, some h ∈ keys t.m_lHosts → h.failures ≤ nNew ∨ h.failures ≤ nF ∧ nF ≤ nNew) := by
  induction fuel generalizing s nF with
  | zero => omega
  | succ fuel ih =>
    by_cases hgt : nF > nNew
    · simp only [evictAbove, if_pos hgt]
      obtain ⟨h1, h2, h3⟩ := removeWorst_step hi nF hle hall
      have hmax := removeWorst_max s nF
      have hfuel' : (s.removeWorst nF).1.m_lHosts.length + (s.removeWorst nF).2 < fuel := by
        rcases h3 with h3 | ⟨h3, h4, _⟩
        · omega
        · rw [h3, h4]
          omega
      obtain ⟨t, ht1, ht2, ht3, ht4⟩ := ih (hi.removeWorst nF) (s.removeWorst nF).2
        (by rw [hmax]; omega) h2 hfuel'
      refine ⟨t, ht1, ht2, by rw [ht3, hmax], ?_⟩
      intro h hh
      rcases ht4 h hh with h5 | h5
      · exact Or.inl h5
      · exact Or.inl (by omega)
    · simp only [evictAbove, if_neg hgt]
      exact ⟨s, rfl, hi, rfl, fun h hh => Or.inr ⟨hall h hh, by omega⟩⟩

theorem exists_host_of_size_pos {s : G2HostCache} (hi : Inv s) (h : 0 < s.m_nSizeAtomic) :
    ∃ k, some k ∈ keys s.m_lHosts := by
  rw [hi.size_eq] at h
  have h' : 0 < (s.m_lHosts.filter Node.isHost).length := by omega
  obtain ⟨n, hn⟩ := List.exists_mem_of_length_pos h'
  rw [List.mem_filter] at hn
  cases hx : n.host with
  | none => simp [Node.isHost, hx] at hn
  | some x => exact ⟨x.key, by rw [← key_of_host n x hx]; exact List.mem_map_of_mem _ hn.1⟩

/-- The loop `while ( size > nMax )` ends within the fuel. -/
theorem evictDownTo_spec (nMax : Nat) (fuel : Nat) {s : G2HostCache} (hi : Inv s) (nF : Nat)
    (hle : nF ≤ s.m_nMaxFailures)
    (hall : ∀ h, some h ∈ keys s.m_lHosts → h.failures ≤ nF)
    (hfuel : s.m_lHosts.length < fuel) :
    ∃ t, evictDownTo nMax fuel s nF = some t ∧ Inv t ∧ t.m_nMaxFailures = s.m_nMaxFailures := by
  induction fuel generalizing s nF with
  | zero => omega
  | succ fuel ih =>
    by_cases hgt : (s.m_nSizeAtomic % 4294967296).toNat > nMax
    · simp only [evictDownTo, if_pos hgt]
      obtain ⟨h1, h2, h3⟩ := removeWorst_step hi nF hle hall
      have hmax := removeWorst_max s nF
      have hpos : 0 < s.m_nSizeAtomic := by
        have := hi.size_eq
        omega
      obtain ⟨k, hk⟩ := exists_host_of_size_pos hi hpos
      have hfuel' : (s.removeWorst nF).1.m_lHosts.length < fuel := by
        rcases h3 with h3 | ⟨_, _, h5⟩
        · omega
        · exact absurd hk (h5 k)
      obtain ⟨t, ht1, ht2, ht3⟩ := ih (hi.removeWorst nF) (s.removeWorst nF).2
        (by rw [hmax]; omega) h2 hfuel'
      exact ⟨t, ht1, ht2, by rw [ht3, hmax]⟩
    · simp only [evictDownTo, if_neg hgt]
      exact ⟨s, rfl, hi, rfl⟩

/-! ### Reshaping the access points -/

theorem bucketsFrom_all_none (l : List (Option HostKey)) (h : ∀ x ∈ l, x = none) (k : Nat) :
    bucketsFrom k l := by
  induction l generalizing k with
  | nil => trivial
  | cons x l ih =>
    rw [h x (List.mem_cons_self _ _), bucketsFrom_none]
    exact ih (fun y hy => h y (List.mem_cons_of_mem _ hy)) (k + 1)

theorem keys_map_ap (F : List Nat) : ∀ x ∈ keys (F.map (fun i => (⟨i, none⟩ : Node))), x = none := by
  intro x hx
  simp only [keys, List.map_map, List.mem_map] at hx
  obtain ⟨i, _, hi⟩ := hx
  rw [← hi]
  rfl

theorem ids_map_ap (F : List Nat) : ids (F.map (fun i => (⟨i, none⟩ : Node))) = F := by
  simp [ids, List.map_map, Function.comp_def]

theorem apIds_map_ap (F : List Nat) : apIds (F.map (fun i => (⟨i, none⟩ : Node))) = F := by
  induction F with
  | nil => rfl
  | cons i F ih =>
    rw [List.map_cons, apIds_cons_ap _ _ rfl, ih]

theorem hosts_map_ap (F : List Nat) :
    (F.map (fun i => (⟨i, none⟩ : Node))).filter Node.isHost = [] := by
  induction F with
  | nil => rfl
  | cons i F ih =>
    rw [List.map_cons, List.filter_cons_of_neg (by simp [Node.isHost]), ih]

/-- Appending fresh access points to a well-formed sequence gives a state that satisfies the
invariant for the larger failure limit. -/
theorem inv_append_aps (s : G2HostCache) (n M : Nat)
    (h1 : (ids s.m_lHosts).Nodup) (h2 : ∀ i ∈ ids s.m_lHosts, i < s.m_nNextNode)
    (h3 : s.m_pFailures = apIds s.m_lHosts) (h4 : s.m_pFailures.length + n = M + 2)
    (h5 : M ≤ 253) (h6 : bucketsFrom 0 (keys s.m_lHosts))
    (h7 : ∀ h, some h ∈ keys s.m_lHosts → h.failures ≤ M)
    (h8 : (keys s.m_lHosts).Pairwise sortRel) (h9 : (keys s.m_lHosts).Pairwise addrRel)
    (h10 : s.m_nSizeAtomic = ((s.m_lHosts.filter Node.isHost).length : Nat)) :
    Inv { s with
      m_pFailures := s.m_pFailures ++ List.range' s.m_nNextNode n
      m_lHosts := s.m_lHosts ++ (List.range' s.m_nNextNode n).map (fun i => ⟨i, none⟩)
      m_nNextNode := s.m_nNextNode + n
      m_nMaxFailures := M } := by
  have hk := keys_map_ap (List.range' s.m_nNextNode n)
  refine ⟨?_, ?_, ?_, ?_, h5, ?_, ?_, ?_, ?_, ?_⟩
  · show (ids (_ ++ _)).Nodup
    rw [ids_append, ids_map_ap, List.nodup_append]
    refine ⟨h1, List.nodup_range' _ _, ?_⟩
    intro i hi1 hi2
    have := h2 i hi1
    rw [List.mem_range'_1] at hi2
    omega
  · intro i hi
    have hi' : i ∈ ids (s.m_lHosts ++ (List.range' s.m_nNextNode n).map (fun i => ⟨i, none⟩)) :=
      hi
    rw [ids_append, ids_map_ap, List.mem_append] at hi'
    show i < s.m_nNextNode + n
    rcases hi' with h | h
    · have := h2 i h
      omega
    · rw [List.mem_range'_1] at h
      omega
  · show _ ++ _ = apIds (_ ++ _)
    rw [apIds_append, apIds_map_ap, h3]
  · show List.length (s.m_pFailures ++ List.range' s.m_nNextNode n) = M + 2
    rw [List.length_append, List.length_range', h4]
  · show bucketsFrom 0 (keys (_ ++ _))
    rw [keys_append, bucketsFrom_append]
    exact ⟨h6, bucketsFrom_all_none _ hk _⟩
  · intro h hh
    have hh' : some h ∈
        keys (s.m_lHosts ++ (List.range' s.m_nNextNode n).map (fun i => ⟨i, none⟩)) := hh
    rw [keys_append, List.mem_append] at hh'
    rcases hh' with h' | h'
    · exact h7 h h'
    · cases hk _ h'
  · show (keys (_ ++ _)).Pairwise sortRel
    rw [keys_append, List.pairwise_append]
    refine ⟨h8, ?_, ?_⟩
    · exact List.pairwise_of_forall_mem_list (fun a ha b _ => by
        rw [hk a ha]; exact sortRel_none_left b)
    · intro a _ b hb
      rw [hk b hb]
      exact sortRel_none_right a
  · show (keys (_ ++ _)).Pairwise addrRel
    rw [keys_append, List.pairwise_append]
    refine ⟨h9, ?_, ?_⟩
    · exact List.pairwise_of_forall_mem_list (fun a ha b _ => by
        rw [hk a ha]; exact addrRel_none_left b)
    · intro a _ b hb
      rw [hk b hb]
      exact addrRel_none_right a
  · show s.m_nSizeAtomic = ((List.filter Node.isHost (_ ++ _)).length : Nat)
    rw [List.filter_append, hosts_map_ap, List.append_nil]
    exact h10

theorem Inv.startUpSkeleton (cfg : Settings) (s : G2HostCache)
    (h : G2HostCache.startUpSkeleton cfg G2HostCache.ctor = some s) : Inv s := by
  unfold G2HostCache.startUpSkeleton at h
  dsimp only at h
  by_cases hlim : cfg.FailureLimit % 256 + 2 > 255
  · simp [hlim] at h
  · rw [if_neg hlim, Option.some.injEq] at h
    have := inv_append_aps G2HostCache.ctor (cfg.FailureLimit % 256 + 2) (cfg.FailureLimit % 256)
      List.nodup_nil (by simp [ids, G2HostCache.ctor]) rfl (by simp [G2HostCache.ctor])
      (by omega) trivial (by simp [keys, G2HostCache.ctor]) List.Pairwise.nil List.Pairwise.nil rfl
    rw [← h]
    exact this

/-- The assignments that end the branch of `maintainInternal` for a lowered limit. -/
theorem Inv.shrink {s : G2HostCache} (hi : Inv s) (nNew : Nat) (hlt : nNew < s.m_nMaxFailures)
    (hall : ∀ h, some h ∈ keys s.m_lHosts → h.failures ≤ nNew) (M : Nat)
    (hM : M = s.m_nMaxFailures) :
    Inv { s with
      m_pFailures := s.m_pFailures.take (nNew + 2)
      m_lHosts := s.m_lHosts.take (s.m_lHosts.length - (M - nNew))
      m_nMaxFailures := nNew } := by
  subst hM
  have hlen : nNew + 1 < s.m_pFailures.length := by
    rw [hi.ap_len]
    omega
  obtain ⟨a, ha⟩ : ∃ a, s.m_pFailures[nNew + 1]? = some a := ⟨_, List.getElem?_eq_getElem hlen⟩
  have ha' : (apIds s.m_lHosts)[nNew + 1]? = some a := by
    rw [← hi.ap_eq]
    exact ha
  obtain ⟨pre, x, post, h1, _, h3, _, _, h6⟩ :=
    ap_split s.m_lHosts hi.ids_nodup (nNew + 1) a ha'
  have hb := hi.buckets
  rw [h1, keys_append, bucketsFrom_append, ← length_apIds, h6, keys_cons,
    (key_eq_none_iff x).2 h3, bucketsFrom_none] at hb
  obtain ⟨hb1, hb2⟩ := hb
  have hpost : ∀ m ∈ post, m.host = none := by
    intro m hm
    cases hx : m.host with
    | none => rfl
    | some y =>
      exfalso
      have hk : some y.key ∈ keys post := by
        rw [← key_of_host m y hx]
        exact List.mem_map_of_mem _ hm
      have e1 := (bucketsFrom_bounds _ _ hb2 y.key hk).1
      have e2 := hall y.key (by rw [h1, keys_append, keys_cons]; simp [hk])
      omega
  have hcnt : post.length = s.m_nMaxFailures - nNew := by
    have e := hi.ap_len
    rw [hi.ap_eq, h1, apIds_append, apIds_cons_ap x post h3, List.length_append,
      List.length_cons, h6, apIds_all_ap post hpost] at e
    omega
  have htake : s.m_lHosts.take (s.m_lHosts.length - (s.m_nMaxFailures - nNew)) = pre ++ [x] := by
    have e : s.m_lHosts = (pre ++ [x]) ++ post := by rw [h1]; simp
    have e2 : s.m_lHosts.length - (s.m_nMaxFailures - nNew) = (pre ++ [x]).length := by
      rw [e, List.length_append, hcnt]
      omega
    rw [e2, e, List.take_left']
    rfl
  have hap : s.m_pFailures.take (nNew + 2) = apIds (pre ++ [x]) := by
    rw [hi.ap_eq, h1, apIds_append, apIds_append, apIds_cons_ap x post h3, apIds_cons_ap x [] h3]
    have e : apIds pre ++ x.id :: apIds post = (apIds pre ++ [x.id]) ++ apIds post := by simp
    rw [e, List.take_left']
    · rfl
    · rw [List.length_append, h6]
      rfl
  rw [htake, hap]
  have hsub : (pre ++ [x]).Sublist s.m_lHosts := by
    rw [h1]
    exact (List.Sublist.refl pre).append ((List.Sublist.refl [x]).trans
      (List.singleton_sublist.2 (List.mem_cons_self _ _)))
  have hks : (keys (pre ++ [x])).Sublist (keys s.m_lHosts) := hsub.map _
  refine ⟨?_, ?_, rfl, ?_, ?_, ?_, ?_, ?_, ?_, ?_⟩
  · exact hi.ids_nodup.sublist (hsub.map _)
  · intro i hi'
    exact hi.ids_lt i ((hsub.map Node.id).subset hi')
  · show (apIds (pre ++ [x])).length = nNew + 2
    rw [apIds_append, List.length_append, h6, apIds_cons_ap x [] h3]
    rfl
  · have := hi.max_le
    show nNew ≤ 253
    omega
  · show bucketsFrom 0 (keys (pre ++ [x]))
    rw [keys_append, bucketsFrom_append]
    exact ⟨hb1, bucketsFrom_all_none _ (by
      intro y hy
      simp only [keys, List.map_cons, List.map_nil, List.mem_singleton] at hy
      rw [hy]
      exact (key_eq_none_iff x).2 h3) _⟩
  · intro h hh
    exact hall h (hks.subset hh)
  · exact hi.sorted.sublist hks
  · exact hi.addr_nodup.sublist hks
  · show s.m_nSizeAtomic = ((List.filter Node.isHost (pre ++ [x])).length : Nat)
    rw [hi.size_eq, h1]
    have e : List.filter Node.isHost post = [] := by
      rw [List.filter_eq_nil_iff]
      intro m hm
      simp [Node.isHost, hpost m hm]
    simp only [List.filter_append, List.filter_cons, e, Node.isHost, h3, Option.isSome_none,
      Bool.false_eq_true, if_false, List.filter_nil, List.append_nil]


/-! ### maintainInternal -/

/-- The reshaping step ends for every limit up to 253, and its result satisfies the invariant
for the new limit. -/
theorem reshape_spec {s : G2HostCache} (hi : Inv s) (nNew : Nat) :
    (nNew ≤ 253 → ∃ t, reshape nNew s = some t) ∧
      ∀ t, reshape nNew s = some t → Inv t ∧ t.m_nMaxFailures = nNew := by
  unfold G2HostCache.reshape
  by_cases h1 : s.m_nMaxFailures = nNew
  · simp only [if_pos h1]
    refine ⟨fun _ => ⟨s, rfl⟩, ?_⟩
    intro t ht
    cases ht
    exact ⟨hi, h1⟩
  · simp only [if_neg h1]
    by_cases h2 : s.m_nMaxFailures > nNew
    · simp only [if_pos h2]
      obtain ⟨s1, e1, e2, e3, e4⟩ := evictAbove_spec nNew (s.m_lHosts.length + s.m_nMaxFailures + 1)
        hi s.m_nMaxFailures (Nat.le_refl _) hi.fail_le (by omega)
      have hall : ∀ h, some h ∈ keys s1.m_lHosts → h.failures ≤ nNew := by
        intro h hh
        rcases e4 h hh with h5 | h5
        · exact h5
        · omega
      simp only [e1]
      by_cases h3 : nNew + 2 > 255
      · have := hi.max_le
        omega
      · simp only [if_neg h3]
        refine ⟨fun _ => ⟨_, rfl⟩, ?_⟩
        intro t ht
        cases ht
        exact ⟨e2.shrink nNew (by omega) hall s.m_nMaxFailures e3.symm, rfl⟩
    · simp only [if_neg h2]
      by_cases h3 : nNew + 2 > 255
      · simp only [if_pos h3]
        refine ⟨fun h => by omega, ?_⟩
        intro t ht
        cases ht
      · simp only [if_neg h3]
        refine ⟨fun _ => ⟨_, rfl⟩, ?_⟩
        intro t ht
        cases ht
        have htake : s.m_pFailures.take (s.m_nMaxFailures + 2) = s.m_pFailures :=
          List.take_of_length_le (by rw [hi.ap_len])
        rw [htake]
        refine ⟨inv_append_aps s (nNew - s.m_nMaxFailures) nNew hi.ids_nodup hi.ids_lt hi.ap_eq
          (by rw [hi.ap_len]; omega) (by omega) hi.buckets
          (fun h hh => Nat.le_trans (hi.fail_le h hh) (by omega)) hi.sorted hi.addr_nodup
          hi.size_eq, rfl⟩

theorem Inv.save {s : G2HostCache} (hi : Inv s) (tNow : Nat) (b : Bool) :
    Inv (s.save tNow b) := by
  unfold G2HostCache.save
  dsimp only
  split_ifs
  all_goals first | exact hi | exact hi.of_keys_eq rfl rfl rfl rfl rfl rfl rfl

theorem save_max (s : G2HostCache) (tNow : Nat) (b : Bool) :
    (s.save tNow b).m_nMaxFailures = s.m_nMaxFailures := by
  unfold G2HostCache.save
  dsimp only
  split_ifs <;> rfl

/-- A maintenance pass ends whenever the configured limit is at most 253; its result satisfies
the invariant and its ceiling is the configured limit. -/
theorem maintainInternal_spec {s : G2HostCache} (hi : Inv s) (cfg : Settings) (tNow : Nat)
    (b : Bool) :
    (cfg.FailureLimit % 256 ≤ 253 → ∃ t, s.maintainInternal cfg tNow b = some t) ∧
      ∀ t, s.maintainInternal cfg tNow b = some t →
        Inv t ∧ t.m_nMaxFailures = cfg.FailureLimit % 256 := by
  obtain ⟨r1, r2⟩ := reshape_spec hi (cfg.FailureLimit % 256)
  unfold G2HostCache.maintainInternal
  cases hr : reshape (cfg.FailureLimit % 256) s with
  | none =>
    refine ⟨fun h => ?_, fun t ht => by simp at ht⟩
    obtain ⟨t, ht⟩ := r1 h
    rw [hr] at ht
    cases ht
  | some s1 =>
    obtain ⟨i1, m1⟩ := r2 s1 hr
    dsimp only
    by_cases hcap : cfg.HostCacheSize % 4294967296 ≠ 0 ∧
        (s1.m_nSizeAtomic % 4294967296).toNat > cfg.HostCacheSize % 4294967296
    · rw [if_pos hcap]
      obtain ⟨s2, e1, e2, e3⟩ := evictDownTo_spec
        (cfg.HostCacheSize % 4294967296 - cfg.HostCacheSize % 4294967296 / 4)
        (s1.m_lHosts.length + s1.m_nMaxFailures + 1) i1 s1.m_nMaxFailures (Nat.le_refl _)
        i1.fail_le (by omega)
      simp only [e1]
      refine ⟨fun _ => ⟨_, rfl⟩, ?_⟩
      intro t ht
      cases ht
      exact ⟨(e2.save tNow b).of_keys_eq (updateConnectable_keys _ _ _ _)
        (updateConnectable_ids _ _ _ _) (updateConnectable_apIds _ _ _ _) rfl rfl rfl rfl,
        by show (s2.save tNow b).m_nMaxFailures = _; rw [save_max, e3, m1]⟩
    · rw [if_neg hcap]
      by_cases hsave : tNow > (s1.m_tLastSave + 600) % 4294967296
      · rw [if_pos hsave]
        refine ⟨fun _ => ⟨_, rfl⟩, ?_⟩
        intro t ht
        cases ht
        exact ⟨(i1.save tNow b).of_keys_eq (updateConnectable_keys _ _ _ _)
          (updateConnectable_ids _ _ _ _) (updateConnectable_apIds _ _ _ _) rfl rfl rfl rfl,
          by show (s1.save tNow b).m_nMaxFailures = _; rw [save_max, m1]⟩
      · rw [if_neg hsave]
        refine ⟨fun _ => ⟨_, rfl⟩, ?_⟩
        intro t ht
        cases ht
        exact ⟨i1.of_keys_eq (updateConnectable_keys _ _ _ _)
          (updateConnectable_ids _ _ _ _) (updateConnectable_apIds _ _ _ _) rfl rfl rfl rfl, m1⟩

theorem Inv.getConnectableAux (W : World) (cfg : Settings) (tNow : Nat) (b : Bool)
    (fuel : Nat) {s t : G2HostCache} (hi : Inv s) (ex : List Nat) (c : String) (r : Option Node)
    (h : G2HostCache.getConnectableAux W cfg tNow b fuel s ex c = some (t, r)) : Inv t := by
  induction fuel generalizing s c with
  | zero => simp [G2HostCache.getConnectableAux] at h
  | succ fuel ih =>
    simp only [G2HostCache.getConnectableAux] at h
    split at h
    · cases h
      exact hi
    · split at h
      · cases h
        exact hi
      · split at h
        · cases h
          exact hi.of_keys_eq rfl rfl rfl rfl rfl rfl rfl
        · split at h
          · cases h
          · rename_i s1 hs1
            have i1 := ((maintainInternal_spec hi cfg tNow b).2 s1 hs1).1
            have i2 : Inv { s1 with bSecondAttempt := true } :=
              i1.of_keys_eq rfl rfl rfl rfl rfl rfl rfl
            exact ih i2 _ h

/-- Every reachable state satisfies the invariant. -/
theorem Reachable.inv {W : World} {v : Nat} {s : G2HostCache} (h : Reachable W v s) :
    Inv s := by
  induction h with
  | startUp cfg s h => exact Inv.startUpSkeleton cfg s h
  | load d cfg now file s t _ h ih => exact ih.load W d cfg v now file h
  | maintain cfg now b s t _ h ih => exact ((maintainInternal_spec ih cfg now b).2 t h).1
  | add d a ts now s _ ih => exact ih.addSync W d a ts now
  | addKey d a ts kh key now s _ ih => exact ih.addSyncKey W d a ts kh key now
  | addAck d a ts ack now s _ ih => exact ih.addSyncAck W d a ts ack now
  | addXTry d now hdr s _ ih => exact ih.asyncAddXTry W d now hdr
  | updateFailures a f s _ ih => exact ih.asyncUpdateFailures a f
  | onFailure a s _ ih => exact ih.asyncOnFailure a
  | remove a s _ ih => exact ih.removeSync a
  | sanityCheck d s _ ih => exact ih.sanityCheck d
  | pruneOldHosts cfg now s _ ih => exact ih.pruneOldHosts cfg now
  | pruneByQueryAck cfg now s _ ih => exact ih.pruneByQueryAck cfg now
  | removeWorst nF s _ ih => exact ih.removeWorst nF
  | clear s _ ih => exact ih.clear
  | localAddressChanged a s _ ih => exact ih.localAddressChanged a
  | getConnectable cfg now b ex c s t r _ h ih =>
    exact ih.getConnectableAux W cfg now b 3 ex c r h


/-! ## Buckets of a well-formed cache -/

theorem mem_hosts_iff (l : List Node) (e : G2HostCacheHost) :
    e ∈ l.filterMap Node.host ↔ ∃ m ∈ l, m.host = some e := by
  simp [List.mem_filterMap]

theorem key_mem_of_mem_hosts (l : List Node) (e : G2HostCacheHost)
    (h : e ∈ l.filterMap Node.host) : some e.key ∈ keys l := by
  obtain ⟨m, hm, hx⟩ := (mem_hosts_iff l e).1 h
  rw [← key_of_host m e hx]
  exact List.mem_map_of_mem _ hm

theorem hosts_append (a b : List Node) :
    (a ++ b).filterMap Node.host = a.filterMap Node.host ++ b.filterMap Node.host :=
  List.filterMap_append _ _ _

theorem hosts_cons_ap (x : Node) (l : List Node) (hx : x.host = none) :
    (x :: l).filterMap Node.host = l.filterMap Node.host := by
  rw [List.filterMap_cons, hx]

/-- The structure of the sequence around bucket `k`. -/
theorem bucket_split {s : G2HostCache} (hi : Inv s) (k : Nat) (hk : k ≤ s.m_nMaxFailures) :
    ∃ pre x mid y rest, s.m_lHosts = pre ++ x :: (mid ++ y :: rest) ∧ x.host = none ∧
      y.host = none ∧ (apIds pre).length = k ∧ (∀ m ∈ mid, ∃ e, m.host = some e) ∧
      s.bucket k = mid.filterMap Node.host := by
  have hlen1 : k < s.m_pFailures.length := by rw [hi.ap_len]; omega
  have hlen2 : k + 1 < s.m_pFailures.length := by rw [hi.ap_len]; omega
  obtain ⟨a, ha⟩ : ∃ a, s.m_pFailures[k]? = some a := ⟨_, List.getElem?_eq_getElem hlen1⟩
  obtain ⟨b, hb⟩ : ∃ b, s.m_pFailures[k + 1]? = some b := ⟨_, List.getElem?_eq_getElem hlen2⟩
  have ha' : (apIds s.m_lHosts)[k]? = some a := by rw [← hi.ap_eq]; exact ha
  have hb' : (apIds s.m_lHosts)[k + 1]? = some b := by rw [← hi.ap_eq]; exact hb
  obtain ⟨pre, x, post, h1, h2, h3, h4, h5, h6⟩ := ap_split s.m_lHosts hi.ids_nodup k a ha'
  have hb'' : (apIds post)[0]? = some b := by
    rw [h1, apIds_append, apIds_cons_ap x post h3,
      List.getElem?_append_right (by rw [h6]; omega), h6] at hb'
    simpa using hb'
  have hnd : (ids post).Nodup := by
    have hsub : post.Sublist s.m_lHosts := by
      rw [h1]
      exact (List.sublist_cons_self x post).trans (List.sublist_append_right pre _)
    exact hi.ids_nodup.sublist (hsub.map _)
  obtain ⟨mid, y, rest, g1, _, g3, g4, _, g6⟩ := ap_split post hnd 0 b hb''
  refine ⟨pre, x, mid, y, rest, by rw [h1, g1], h3, g3, h6, ?_, ?_⟩
  · intro m hm
    cases hx : m.host with
    | some e => exact ⟨e, rfl⟩
    | none =>
      exfalso
      have : m.id ∈ apIds mid := by
        simp only [apIds, List.mem_map, List.mem_filter]
        exact ⟨m, ⟨hm, by simp [Node.isAP, hx]⟩, rfl⟩
      have := List.length_pos_of_mem this
      omega
  · simp only [G2HostCache.bucket, ha, hb, h5, List.tail_cons, g4]

theorem filter_hosts_eq_nil (l : List Node) (k : Nat)
    (h : ∀ e, some e ∈ keys l → e.failures ≠ k) :
    (l.filterMap Node.host).filter (fun e => decide (e.m_nFailures = k)) = [] := by
  rw [List.filter_eq_nil_iff]
  intro e he
  have := h e.key (key_mem_of_mem_hosts l e he)
  simpa [G2HostCacheHost.key] using this

theorem filter_hosts_eq_self (l : List Node) (k : Nat)
    (h : ∀ e, some e ∈ keys l → e.failures = k) :
    (l.filterMap Node.host).filter (fun e => decide (e.m_nFailures = k)) =
      l.filterMap Node.host := by
  rw [List.filter_eq_self]
  intro e he
  have := h e.key (key_mem_of_mem_hosts l e he)
  simpa [G2HostCacheHost.key] using this

/-- Bucket `k` of a well-formed cache holds exactly the hosts with `k` failures. -/
theorem Inv.bucket_eq {s : G2HostCache} (hi : Inv s) (k : Nat) (hk : k ≤ s.m_nMaxFailures) :
    s.bucket k = s.hosts.filter (fun e => decide (e.m_nFailures = k)) := by
  obtain ⟨pre, x, mid, y, rest, h1, hx, hy, hpre, hmid, hbk⟩ := bucket_split hi k hk
  have hb := hi.buckets
  rw [h1, keys_append, keys_cons, keys_append, keys_cons, (key_eq_none_iff x).2 hx,
    (key_eq_none_iff y).2 hy, bucketsFrom_append, bucketsFrom_none, bucketsFrom_append,
    bucketsFrom_none, ← length_apIds, hpre, count_none_keys_hosts mid hmid] at hb
  simp only [Nat.zero_add, Nat.add_zero] at hb
  obtain ⟨hb1, hb2, hb3⟩ := hb
  have e1 := filter_hosts_eq_nil pre k (fun e he => by
    have := (bucketsFrom_bounds _ _ hb1 e he).2
    rw [← length_apIds, hpre] at this
    omega)
  have e2 := filter_hosts_eq_self mid k (fun e he => by
    have := bucketsFrom_bounds _ _ hb2 e he
    rw [count_none_keys_hosts mid hmid] at this
    omega)
  have e3 := filter_hosts_eq_nil rest k (fun e he => by
    have := (bucketsFrom_bounds _ _ hb3 e he).1
    omega)
  rw [hbk, G2HostCache.hosts, h1, hosts_append, hosts_cons_ap x _ hx, hosts_append,
    hosts_cons_ap y _ hy, List.filter_append, List.filter_append, e1, e2, e3]
  simp

theorem Inv.hostsAfterLast {s : G2HostCache} (hi : Inv s) : s.hostsAfterLast = [] := by
  have hlen : s.m_nMaxFailures + 1 < s.m_pFailures.length := by rw [hi.ap_len]; omega
  have hlast : s.m_pFailures.getLast? = s.m_pFailures[s.m_nMaxFailures + 1]? := by
    rw [List.getLast?_eq_getElem?, hi.ap_len]
    rfl
  obtain ⟨a, ha⟩ : ∃ a, s.m_pFailures[s.m_nMaxFailures + 1]? = some a :=
    ⟨_, List.getElem?_eq_getElem hlen⟩
  have ha' : (apIds s.m_lHosts)[s.m_nMaxFailures + 1]? = some a := by
    rw [← hi.ap_eq]; exact ha
  obtain ⟨pre, x, post, h1, _, h3, _, h5, h6⟩ :=
    ap_split s.m_lHosts hi.ids_nodup _ a ha'
  have hb := hi.buckets
  rw [h1, keys_append, bucketsFrom_append, ← length_apIds, h6, keys_cons,
    (key_eq_none_iff x).2 h3, bucketsFrom_none] at hb
  simp only [G2HostCache.hostsAfterLast, hlast, ha, h5, List.tail_cons]
  rw [List.filterMap_eq_nil_iff]
  intro m hm
  cases hx : m.host with
  | none => rfl
  | some e =>
    exfalso
    have hk : some e.key ∈ keys post := by
      rw [← key_of_host m e hx]
      exact List.mem_map_of_mem _ hm
    have e1 := (bucketsFrom_bounds _ _ hb.2 e.key hk).1
    have e2 := hi.fail_le e.key (by rw [h1, keys_append, keys_cons]; simp [hk])
    omega

theorem Inv.host_failures_le {s : G2HostCache} (hi : Inv s) (e : G2HostCacheHost)
    (he : e ∈ s.hosts) : e.m_nFailures ≤ s.m_nMaxFailures :=
  hi.fail_le e.key (key_mem_of_mem_hosts _ e he)

/-- Hosts with one failure count, taken from a sequence sorted per bucket, are in non-increasing
timestamp order. -/
theorem pairwise_timestamp_of_sorted (l : List Node) (k : Nat)
    (hs : (keys l).Pairwise sortRel) (hk : ∀ e, some e ∈ keys l → e.failures = k) :
    (l.filterMap Node.host).Pairwise (fun a b => b.m_tTimestamp ≤ a.m_tTimestamp) := by
  induction l with
  | nil => exact List.Pairwise.nil
  | cons n l ih =>
    rw [keys_cons, List.pairwise_cons] at hs
    have ih' := ih hs.2 (fun e he => hk e (by rw [keys_cons]; exact List.mem_cons_of_mem _ he))
    cases hn : n.host with
    | none =>
      rw [hosts_cons_ap n l hn]
      exact ih'
    | some x =>
      rw [List.filterMap_cons, hn, List.pairwise_cons]
      refine ⟨?_, ih'⟩
      intro e he
      have hek := key_mem_of_mem_hosts l e he
      have h1 := hk x.key (by rw [keys_cons, key_of_host n x hn]; exact List.mem_cons_self _ _)
      have h2 := hk e.key (by rw [keys_cons]; exact List.mem_cons_of_mem _ hek)
      exact hs.1 (some e.key) hek x.key e.key (key_of_host n x hn) rfl (by rw [h1, h2])

theorem Inv.bucket_sorted {s : G2HostCache} (hi : Inv s) (k : Nat) :
    (s.bucket k).Pairwise (fun a b => b.m_tTimestamp ≤ a.m_tTimestamp) := by
  by_cases hk : k ≤ s.m_nMaxFailures
  · obtain ⟨pre, x, mid, y, rest, h1, hx, hy, hpre, hmid, hbk⟩ := bucket_split hi k hk
    have hb := hi.buckets
    rw [h1, keys_append, keys_cons, keys_append, (key_eq_none_iff x).2 hx,
      bucketsFrom_append, bucketsFrom_none, bucketsFrom_append, ← length_apIds, hpre] at hb
    have hs := hi.sorted
    rw [h1, keys_append, keys_cons, keys_append] at hs
    have hs' : (keys mid).Pairwise sortRel :=
      hs.sublist ((List.sublist_append_left _ _).trans
        ((List.sublist_cons_self _ _).trans (List.sublist_append_right _ _)))
    rw [hbk]
    refine pairwise_timestamp_of_sorted mid k hs' (fun e he => ?_)
    have := bucketsFrom_bounds _ _ hb.2.1 e he
    rw [count_none_keys_hosts mid hmid] at this
    omega
  · have hnone : s.m_pFailures[k + 1]? = none := by
      rw [List.getElem?_eq_none_iff, hi.ap_len]
      omega
    have : s.bucket k = [] := by
      unfold G2HostCache.bucket
      rw [hnone]
      split <;> simp_all
    rw [this]
    exact List.Pairwise.nil

theorem Inv.addresses_nodup {s : G2HostCache} (hi : Inv s) :
    (s.hosts.map (fun e => e.m_oAddress)).Nodup := by
  have h := hi.addr_nodup
  unfold G2HostCache.hosts
  generalize s.m_lHosts = l at h
  induction l with
  | nil => exact List.nodup_nil
  | cons n l ih =>
    rw [keys_cons, List.pairwise_cons] at h
    cases hn : n.host with
    | none =>
      rw [hosts_cons_ap n l hn]
      exact ih h.2
    | some x =>
      rw [List.filterMap_cons, hn, List.map_cons, List.nodup_cons]
      refine ⟨?_, ih h.2⟩
      intro hmem
      rw [List.mem_map] at hmem
      obtain ⟨e, he1, he2⟩ := hmem
      exact h.1 (some e.key) (key_mem_of_mem_hosts l e he1) x.key e.key
        (key_of_host n x hn) rfl he2.symm

theorem slots_filter_length (l : List Node) :
    ((l.map Node.host).filter Option.isSome).length = (l.filter Node.isHost).length := by
  induction l with
  | nil => rfl
  | cons n l ih =>
    cases hn : n.host <;> simp [List.filter_cons, Node.isHost, hn, ih]


/-! ## The concrete cache is reachable -/

theorem exStart_eq : G2HostCache.startUpSkeleton exSettings G2HostCache.ctor = some exStart := by
  decide

theorem exCache_reachable : Reachable exWorld 0 exCache :=
  Reachable.add _ _ _ _ _ (Reachable.add _ _ _ _ _ (Reachable.startUp exSettings _ exStart_eq))

/-! ## Invariants of the reachable states -/

/-- C1: in every reachable state the hosts between the access points `AP[k]` and `AP[k+1]` are
exactly the hosts whose failure count is `k`, no host follows the last access point, and so
every host has between 0 and `maxFailures` failures. -/
theorem C1_buckets_hold_failures (W : World) (v : Nat) (s : G2HostCache)
    (h : Reachable W v s) :
    (∀ k, k ≤ s.m_nMaxFailures →
        s.bucket k = s.hosts.filter (fun e => decide (e.m_nFailures = k))) ∧
      s.hostsAfterLast = [] ∧
      ∀ e ∈ s.hosts, 0 ≤ e.m_nFailures ∧ e.m_nFailures ≤ s.m_nMaxFailures :=
  ⟨fun k hk => h.inv.bucket_eq k hk, h.inv.hostsAfterLast,
    fun e he => ⟨Nat.zero_le _, h.inv.host_failures_le e he⟩⟩

/-- The statement of C1 on the concrete cache `exCache`. -/
theorem C1_buckets_hold_failures_witness :
    Reachable exWorld 0 exCache ∧
      ((∀ k, k ≤ exCache.m_nMaxFailures →
          exCache.bucket k = exCache.hosts.filter (fun e => decide (e.m_nFailures = k))) ∧
        exCache.hostsAfterLast = [] ∧
        ∀ e ∈ exCache.hosts, 0 ≤ e.m_nFailures ∧ e.m_nFailures ≤ exCache.m_nMaxFailures) :=
  ⟨exCache_reachable, C1_buckets_hold_failures exWorld 0 exCache exCache_reachable⟩

/-- C2: in every reachable state, within every failure bucket any two consecutive hosts, and in
fact any two hosts in sequence order, have non-increasing timestamps. -/
theorem C2_buckets_sorted (W : World) (v : Nat) (s : G2HostCache) (h : Reachable W v s)
    (k : Nat) :
    (s.bucket k).Chain' (fun a b => b.m_tTimestamp ≤ a.m_tTimestamp) ∧
      (s.bucket k).Pairwise (fun a b => b.m_tTimestamp ≤ a.m_tTimestamp) :=
  ⟨(h.inv.bucket_sorted k).chain', h.inv.bucket_sorted k⟩

/-- The statement of C2 on the concrete cache `exCache`. -/
theorem C2_buckets_sorted_witness :
    Reachable exWorld 0 exCache ∧
      ((exCache.bucket 0).Chain' (fun a b => b.m_tTimestamp ≤ a.m_tTimestamp) ∧
        (exCache.bucket 0).Pairwise (fun a b => b.m_tTimestamp ≤ a.m_tTimestamp)) :=
  ⟨exCache_reachable, C2_buckets_sorted exWorld 0 exCache exCache_reachable 0⟩

theorem filter_length_le_one_of_nodup (l : List G2HostCacheHost)
    (h : (l.map (fun e => e.m_oAddress)).Nodup) (a : CEndPoint) :
    (l.filter (fun e => decide (e.m_oAddress = a))).length ≤ 1 := by
  induction l with
  | nil => simp
  | cons x l ih =>
    rw [List.map_cons, List.nodup_cons] at h
    by_cases hx : x.m_oAddress = a
    · have hnil : l.filter (fun e => decide (e.m_oAddress = a)) = [] := by
        rw [List.filter_eq_nil_iff]
        intro e he hea
        apply h.1
        rw [List.mem_map]
        exact ⟨e, he, by rw [hx]; simpa using hea⟩
      rw [List.filter_cons_of_pos (by simpa using hx), hnil]
      rfl
    · rw [List.filter_cons_of_neg (by simpa using hx)]
      exact ih h.2

/-- C3: in every reachable state no two hosts have the same address; in particular after an
add the address that was added is held by at most one host. -/
theorem C3_addresses_unique (W : World) (v : Nat) (s : G2HostCache) (h : Reachable W v s) :
    (s.hosts.map (fun e => e.m_oAddress)).Nodup ∧
      ∀ (isDenied : CEndPoint → Bool) (a : CEndPoint) (ts tNow : Nat),
        ((s.addSync W isDenied a ts tNow).1.hosts.filter
          (fun e => decide (e.m_oAddress = a))).length ≤ 1 :=
  ⟨h.inv.addresses_nodup, fun d a ts now =>
    filter_length_le_one_of_nodup _ (Reachable.add d a ts now s h).inv.addresses_nodup a⟩

/-- The statement of C3 on the concrete cache `exCache`. -/
theorem C3_addresses_unique_witness :
    Reachable exWorld 0 exCache ∧
      ((exCache.hosts.map (fun e => e.m_oAddress)).Nodup ∧
        ∀ (isDenied : CEndPoint → Bool) (a : CEndPoint) (ts tNow : Nat),
          ((exCache.addSync exWorld isDenied a ts tNow).1.hosts.filter
            (fun e => decide (e.m_oAddress = a))).length ≤ 1) :=
  ⟨exCache_reachable, C3_addresses_unique exWorld 0 exCache exCache_reachable⟩

/-- C4: in every reachable state the size counter equals the number of slots that are not
access points, and `requestHostInfo` returns `count()`. -/
theorem C4_size_counts_hosts (W : World) (v : Nat) (s : G2HostCache) (h : Reachable W v s) :
    s.m_nSizeAtomic = ((s.slots.filter Option.isSome).length : Nat) ∧
      (s.requestHostInfo : Int) = s.count := by
  have hs := h.inv.size_eq
  refine ⟨?_, ?_⟩
  · rw [hs, G2HostCache.slots, slots_filter_length]
  · rw [G2HostCache.count, hs]
    rfl

/-- The statement of C4 on the concrete cache `exCache`. -/
theorem C4_size_counts_hosts_witness :
    Reachable exWorld 0 exCache ∧
      (exCache.m_nSizeAtomic = ((exCache.slots.filter Option.isSome).length : Nat) ∧
        (exCache.requestHostInfo : Int) = exCache.count) :=
  ⟨exCache_reachable, C4_size_counts_hosts exWorld 0 exCache exCache_reachable⟩

theorem Inv.first_slot {s : G2HostCache} (hi : Inv s) :
    ∃ n r, s.m_lHosts = n :: r ∧ n.host = none ∧ s.m_pFailures[0]? = some n.id := by
  cases hl : s.m_lHosts with
  | nil =>
    have := hi.ap_len
    rw [hi.ap_eq, hl] at this
    simp [apIds] at this
  | cons n r =>
    have hb := hi.buckets
    rw [hl] at hb
    have hn := head_is_ap n r hb
    refine ⟨n, r, rfl, hn, ?_⟩
    rw [hi.ap_eq, hl, apIds_cons_ap n r hn, List.getElem?_cons_zero]

/-- C5: in every reachable state the sequence holds exactly `maxFailures + 2` access points,
`m_pFailures` lists their cells in sequence order, and `AP[0]` is the first slot.  A maintenance
pass ends for every configured limit up to 253 (for 254 and 255 the `quint8` loop counters never
reach their bound) and leaves `maxFailures` equal to the configured limit, with as many access
points; start-up does the same. -/
theorem C5_access_points (W : World) (v : Nat) (s : G2HostCache) (h : Reachable W v s) :
    (s.m_lHosts.filter Node.isAP).length = s.m_nMaxFailures + 2 ∧
      s.m_pFailures = (s.m_lHosts.filter Node.isAP).map Node.id ∧
      (s.m_lHosts.map Node.id).Nodup ∧
      (∃ n r, s.m_lHosts = n :: r ∧ n.host = none ∧ s.m_pFailures[0]? = some n.id) ∧
      (∀ (cfg : Settings) (tNow : Nat) (bWritten : Bool),
        (cfg.FailureLimit % 256 ≤ 253 → ∃ t, s.maintain cfg tNow bWritten = some t) ∧
        ∀ t, s.maintain cfg tNow bWritten = some t →
          t.m_nMaxFailures = cfg.FailureLimit % 256 ∧
          (t.m_lHosts.filter Node.isAP).length = cfg.FailureLimit % 256 + 2) ∧
      (∀ cfg : Settings,
        (cfg.FailureLimit % 256 ≤ 253 →
          ∃ t, G2HostCache.startUpSkeleton cfg G2HostCache.ctor = some t) ∧
        ∀ t, G2HostCache.startUpSkeleton cfg G2HostCache.ctor = some t →
          t.m_nMaxFailures = cfg.FailureLimit % 256 ∧
          (t.m_lHosts.filter Node.isAP).length = cfg.FailureLimit % 256 + 2) := by
  have hi := h.inv
  have hcount : ∀ t : G2HostCache, Inv t →
      (t.m_lHosts.filter Node.isAP).length = t.m_nMaxFailures + 2 := by
    intro t ht
    have := ht.ap_len
    rw [ht.ap_eq] at this
    simpa [apIds] using this
  refine ⟨hcount s hi, hi.ap_eq, hi.ids_nodup, hi.first_slot, ?_, ?_⟩
  · intro cfg tNow b
    obtain ⟨m1, m2⟩ := maintainInternal_spec hi cfg tNow b
    refine ⟨m1, fun t ht => ?_⟩
    obtain ⟨i1, i2⟩ := m2 t ht
    exact ⟨i2, by rw [hcount t i1, i2]⟩
  · intro cfg
    refine ⟨fun hle => ?_, fun t ht => ?_⟩
    · have : ¬ cfg.FailureLimit % 256 + 2 > 255 := by omega
      simp only [G2HostCache.startUpSkeleton, if_neg this]
      exact ⟨_, rfl⟩
    · have i1 := Inv.startUpSkeleton cfg t ht
      have i2 : t.m_nMaxFailures = cfg.FailureLimit % 256 := by
        unfold G2HostCache.startUpSkeleton at ht
        dsimp only at ht
        split_ifs at ht
        cases ht
        rfl
      exact ⟨i2, by rw [hcount t i1, i2]⟩

/-- The statement of C5 on the concrete cache `exCache`. -/
theorem C5_access_points_witness :
    Reachable exWorld 0 exCache ∧
      ((exCache.m_lHosts.filter Node.isAP).length = exCache.m_nMaxFailures + 2 ∧
        exCache.m_pFailures = (exCache.m_lHosts.filter Node.isAP).map Node.id ∧
        (exCache.m_lHosts.map Node.id).Nodup ∧
        (∃ n r, exCache.m_lHosts = n :: r ∧ n.host = none ∧
          exCache.m_pFailures[0]? = some n.id) ∧
        (∀ (cfg : Settings) (tNow : Nat) (bWritten : Bool),
          (cfg.FailureLimit % 256 ≤ 253 → ∃ t, exCache.maintain cfg tNow bWritten = some t) ∧
          ∀ t, exCache.maintain cfg tNow bWritten = some t →
            t.m_nMaxFailures = cfg.FailureLimit % 256 ∧
            (t.m_lHosts.filter Node.isAP).length = cfg.FailureLimit % 256 + 2) ∧
        (∀ cfg : Settings,
          (cfg.FailureLimit % 256 ≤ 253 →
            ∃ t, G2HostCache.startUpSkeleton cfg G2HostCache.ctor = some t) ∧
          ∀ t, G2HostCache.startUpSkeleton cfg G2HostCache.ctor = some t →
            t.m_nMaxFailures = cfg.FailureLimit % 256 ∧
            (t.m_lHosts.filter Node.isAP).length = cfg.FailureLimit % 256 + 2)) :=
  ⟨exCache_reachable, C5_access_points exWorld 0 exCache exCache_reachable⟩


/-! ## What addSyncHelper returns -/

theorem derefNode_append (it : Nat) (A : List Node) (n : Node) (B : List Node)
    (hA : it ∉ ids A) (hn : n.id = it) : derefNode it (A ++ n :: B) = some n := by
  induction A with
  | nil => simp [derefNode, hn]
  | cons m A ih =>
    simp only [ids, List.map_cons, List.mem_cons, not_or] at hA
    have hne : (m.id == it) = false := by simpa using fun e => hA.1 e.symm
    have := ih hA.2
    simp only [derefNode, List.cons_append, List.find?_cons, hne] at this ⊢
    exact this

/-- The state after `insert`: the new cell is where the returned iterator points, erasing it
gives back the old sequence, and the lookup by address finds it. -/
theorem insert_facts {s : G2HostCache} (hi : Inv s) (p : G2HostCacheHost)
    (hf : p.m_nFailures ≤ s.m_nMaxFailures)
    (hu : ∀ h, some h ∈ keys s.m_lHosts → h.address ≠ p.m_oAddress) :
    Inv (s.insert p) ∧
      derefNode s.m_nNextNode (s.insert p).m_lHosts = some ⟨s.m_nNextNode, some p⟩ ∧
      (s.insert p).get p.m_oAddress = some p ∧
      eraseNode s.m_nNextNode (s.insert p).m_lHosts = s.m_lHosts ∧
      (s.insert p).m_nSizeAtomic = s.m_nSizeAtomic + 1 ∧
      (s.insert p).m_nMaxFailures = s.m_nMaxFailures ∧
      (s.insert p).m_oLokalAddress = s.m_oLokalAddress ∧
      (s.insert p).m_pFailures = s.m_pFailures ∧
      (s.insert p).m_nNextNode = s.m_nNextNode + 1 ∧
      (⟨s.m_nNextNode, some p⟩ : Node) ∈ (s.insert p).m_lHosts := by
  have hinv := hi.insert p hf hu
  obtain ⟨pre, x, p1, p2, hl, hx, _, _, _, _, hins⟩ := insert_spec hi p hf
  have hmem : (⟨s.m_nNextNode, some p⟩ : Node) ∈ (s.insert p).m_lHosts := by
    rw [hins]
    simp
  have hA : s.m_nNextNode ∉ ids (pre ++ x :: p1) := by
    intro hm
    have hsub : ids (pre ++ x :: p1) ⊆ ids s.m_lHosts := by
      rw [hl]
      intro i hi'
      simp only [ids, List.map_append, List.map_cons, List.mem_append, List.mem_cons] at hi' ⊢
      tauto
    exact absurd (hi.ids_lt _ (hsub hm)) (Nat.lt_irrefl _)
  have hform : (s.insert p).m_lHosts = (pre ++ x :: p1) ++ ⟨s.m_nNextNode, some p⟩ :: p2 := by
    rw [hins]
    simp
  refine ⟨hinv, ?_, ?_, ?_, ?_, ?_, ?_, ?_, ?_, hmem⟩
  · rw [hform]
    exact derefNode_append _ _ _ _ hA rfl
  · unfold G2HostCache.get G2HostCache.find
    rw [findNode_of_mem p.m_oAddress _ hinv.addr_nodup _ hmem p rfl rfl]
  · rw [hform, eraseNode_append _ _ _ _ hA rfl, hl]
    simp
  · rw [hins]
  · rw [hins]
  · rw [hins]
  · rw [hins]
  · rw [hins]

/-- An accepted `addSyncHelper`: the old cell of the address, if any, is erased and a new entry
with the clamped timestamp is inserted. -/
theorem addSyncHelper_accept (W : World) (d : CEndPoint → Bool) {s : G2HostCache} (hi : Inv s)
    (a : CEndPoint) (ts now f : Nat)
    (h1 : W.isValid a = true) (h2 : W.isFirewalled a = false) (h3 : f ≤ s.m_nMaxFailures)
    (h4 : d a = false) (h5 : a ≠ s.m_oLokalAddress) :
    ∃ (X : G2HostCache) (p : G2HostCacheHost),
      s.addSyncHelper W d a ts now f = (X.insert p, some s.m_nNextNode) ∧
      Inv X ∧ (∀ h, some h ∈ keys X.m_lHosts → h.address ≠ p.m_oAddress) ∧
      p.m_oAddress = a ∧ p.m_nFailures = f ∧
      p.m_tTimestamp = (if ts > now then subU32 now 60 else ts) ∧
      X.m_nNextNode = s.m_nNextNode ∧ X.m_nMaxFailures = s.m_nMaxFailures ∧
      X.m_oLokalAddress = s.m_oLokalAddress ∧ X.m_pFailures = s.m_pFailures ∧
      ((s.find a = none ∧ X = s ∧
          p = G2HostCacheHost.create a (if ts > now then subU32 now 60 else ts) f) ∨
        (∃ n x, s.find a = some n ∧ n ∈ s.m_lHosts ∧ n.host = some x ∧ x.m_oAddress = a ∧
          X = s.remove n.id ∧ p = x.clone (if ts > now then subU32 now 60 else ts) f)) := by
  cases hf : s.find a with
  | none =>
    refine ⟨s, _, addSyncHelper_new W d hi a ts now f h1 h2 h3 h4 h5 hf, hi,
      no_addr_of_find_none a hf, rfl, rfl, rfl, rfl, rfl, rfl, rfl, Or.inl ⟨rfl, rfl, rfl⟩⟩
  | some n =>
    obtain ⟨hm, x, hx, hxa⟩ := findNode_some a s.m_lHosts n hf
    have hno := no_addr_after_erase hi n hm x hx
    refine ⟨s.remove n.id, _, addSyncHelper_update W d hi a ts now f h1 h2 h3 h4 h5 n x hf hx,
      hi.remove n hm x hx, hno, hxa, rfl, rfl, rfl, rfl, rfl, rfl,
      Or.inr ⟨n, x, rfl, hm, hx, hxa, rfl, rfl⟩⟩

/-- C6: on a reachable state `addSyncHelper` returns a NULL pointer and leaves the cache as it
is when the address is invalid, firewalled, denied, the cached local address, or when
`nFailures > m_nMaxFailures`; otherwise it returns an entry with the given address and failure
count that is in the cache. -/
theorem C6_addSyncHelper_result (W : World) (v : Nat) (s : G2HostCache) (h : Reachable W v s)
    (isDenied : CEndPoint → Bool) (a : CEndPoint) (ts tNow f : Nat) :
    ((W.isValid a = false ∨ W.isFirewalled a = true ∨ isDenied a = true ∨
        a = s.m_oLokalAddress ∨ f > s.m_nMaxFailures) →
      s.addSyncHelper W isDenied a ts tNow f = (s, none)) ∧
    (¬ (W.isValid a = false ∨ W.isFirewalled a = true ∨ isDenied a = true ∨
        a = s.m_oLokalAddress ∨ f > s.m_nMaxFailures) →
      ∃ it e, (s.addSyncHelper W isDenied a ts tNow f).2 = some it ∧
        derefNode it (s.addSyncHelper W isDenied a ts tNow f).1.m_lHosts = some ⟨it, some e⟩ ∧
        e.m_oAddress = a ∧ e.m_nFailures = f ∧
        e ∈ (s.addSyncHelper W isDenied a ts tNow f).1.hosts ∧
        (s.addSyncHelper W isDenied a ts tNow f).1.get a = some e) := by
  refine ⟨fun hr => ?_, fun hacc => ?_⟩
  · apply addSyncHelper_reject
    tauto
  · simp only [not_or, Bool.not_eq_false, Bool.not_eq_true, not_lt] at hacc
    obtain ⟨h1, h2, h4, h5, h3⟩ := hacc
    obtain ⟨X, p, e1, e2, e3, e4, e5, _, e7, e8, _, _, _⟩ :=
      addSyncHelper_accept W isDenied h.inv a ts tNow f h1 h2 h3 h4 h5
    obtain ⟨_, g2, g3, _, _, _, _, _, _, g10⟩ := insert_facts e2 p (by rw [e5, e8]; exact h3) e3
    rw [e1]
    refine ⟨s.m_nNextNode, p, rfl, ?_, e4, e5, ?_, ?_⟩
    · rw [← e7]
      exact g2
    · exact (mem_hosts_iff _ p).2 ⟨_, g10, rfl⟩
    · rw [← e4]
      exact g3

/-- The statement of C6 on the concrete cache `exCache`. -/
theorem C6_addSyncHelper_result_witness :
    Reachable exWorld 0 exCache ∧
      (((exWorld.isValid ⟨3, 6346⟩ = false ∨ exWorld.isFirewalled ⟨3, 6346⟩ = true ∨
          exDenied ⟨3, 6346⟩ = true ∨ (⟨3, 6346⟩ : CEndPoint) = exCache.m_oLokalAddress ∨
          2 > exCache.m_nMaxFailures) →
        exCache.addSyncHelper exWorld exDenied ⟨3, 6346⟩ 500 1000 2 = (exCache, none)) ∧
      (¬ (exWorld.isValid ⟨3, 6346⟩ = false ∨ exWorld.isFirewalled ⟨3, 6346⟩ = true ∨
          exDenied ⟨3, 6346⟩ = true ∨ (⟨3, 6346⟩ : CEndPoint) = exCache.m_oLokalAddress ∨
          2 > exCache.m_nMaxFailures) →
        ∃ it e, (exCache.addSyncHelper exWorld exDenied ⟨3, 6346⟩ 500 1000 2).2 = some it ∧
          derefNode it (exCache.addSyncHelper exWorld exDenied ⟨3, 6346⟩ 500 1000 2).1.m_lHosts =
            some ⟨it, some e⟩ ∧
          e.m_oAddress = ⟨3, 6346⟩ ∧ e.m_nFailures = 2 ∧
          e ∈ (exCache.addSyncHelper exWorld exDenied ⟨3, 6346⟩ 500 1000 2).1.hosts ∧
          (exCache.addSyncHelper exWorld exDenied ⟨3, 6346⟩ 500 1000 2).1.get ⟨3, 6346⟩ =
            some e)) :=
  ⟨exCache_reachable,
    C6_addSyncHelper_result exWorld 0 exCache exCache_reachable exDenied ⟨3, 6346⟩ 500 1000 2⟩


/-! ## The timestamp stored by addSyncHelper -/

theorem subU32_sixty (now : Nat) (h1 : 60 ≤ now) (h2 : now < 4294967296) :
    subU32 now 60 = now - 60 := by
  unfold subU32
  omega

theorem subU32_sixty_wrap (now : Nat) (h1 : now < 60) :
    subU32 now 60 = now + 4294967236 := by
  unfold subU32
  omega

/-- C7: for every accepted `addSyncHelper` on a reachable state, the entry stored for the
address has timestamp `tNow - 60` (a `quint32` difference, which is the integer `tNow - 60` from
`tNow = 60` on) when `ts > tNow`, and timestamp `ts` when `ts ≤ tNow`. -/
theorem C7_stored_timestamp (W : World) (v : Nat) (s : G2HostCache) (h : Reachable W v s)
    (isDenied : CEndPoint → Bool) (a : CEndPoint) (ts tNow f : Nat)
    (h1 : W.isValid a = true) (h2 : W.isFirewalled a = false) (h3 : f ≤ s.m_nMaxFailures)
    (h4 : isDenied a = false) (h5 : a ≠ s.m_oLokalAddress) :
    ∃ e, (s.addSyncHelper W isDenied a ts tNow f).1.get a = some e ∧
      (ts > tNow → e.m_tTimestamp = subU32 tNow 60) ∧
      (ts > tNow → 60 ≤ tNow → tNow < 4294967296 → e.m_tTimestamp = tNow - 60) ∧
      (ts ≤ tNow → e.m_tTimestamp = ts) := by
  obtain ⟨X, p, e1, e2, e3, e4, e5, e6, _, e8, _, _, _⟩ :=
    addSyncHelper_accept W isDenied h.inv a ts tNow f h1 h2 h3 h4 h5
  obtain ⟨_, _, g3, _⟩ := insert_facts e2 p (by rw [e5, e8]; exact h3) e3
  rw [e1]
  refine ⟨p, by rw [← e4]; exact g3, ?_, ?_, ?_⟩
  · intro hgt
    rw [e6, if_pos hgt]
  · intro hgt hlo hhi
    rw [e6, if_pos hgt, subU32_sixty tNow hlo hhi]
  · intro hle
    rw [e6, if_neg (by omega)]

/-- The statement of C7 on the concrete cache `exCache`. -/
theorem C7_stored_timestamp_witness :
    (exWorld.isValid ⟨3, 6346⟩ = true ∧ exWorld.isFirewalled ⟨3, 6346⟩ = false ∧
      0 ≤ exCache.m_nMaxFailures ∧ exDenied ⟨3, 6346⟩ = false ∧
      (⟨3, 6346⟩ : CEndPoint) ≠ exCache.m_oLokalAddress ∧ Reachable exWorld 0 exCache) ∧
    ∃ e, (exCache.addSyncHelper exWorld exDenied ⟨3, 6346⟩ 2000 1000 0).1.get ⟨3, 6346⟩ =
        some e ∧
      (2000 > 1000 → e.m_tTimestamp = subU32 1000 60) ∧
      (2000 > 1000 → 60 ≤ 1000 → 1000 < 4294967296 → e.m_tTimestamp = 1000 - 60) ∧
      (2000 ≤ 1000 → e.m_tTimestamp = 2000) :=
  ⟨⟨by decide, by decide, by decide, by decide, by decide, exCache_reachable⟩,
    C7_stored_timestamp exWorld 0 exCache exCache_reachable exDenied ⟨3, 6346⟩ 2000 1000 0
      (by decide) (by decide) (by decide) (by decide) (by decide)⟩

/-- C8 fails as stated: at `tNow = 0` the future timestamp 1 is replaced by `0 - 60`, which
wraps around to 4294967236 and is not `≤ tNow`. -/
theorem C8_counterexample :
    Reachable exWorld 0 exCache ∧ (1 : Nat) < 4294967296 ∧ (0 : Nat) < 4294967296 ∧
      (exCache.addSyncHelper exWorld exDenied ⟨3, 6346⟩ 1 0 0).2 = some exCache.m_nNextNode ∧
      (exCache.addSyncHelper exWorld exDenied ⟨3, 6346⟩ 1 0 0).1.get ⟨3, 6346⟩ =
        some (G2HostCacheHost.create ⟨3, 6346⟩ 4294967236 0) ∧
      ¬ (G2HostCacheHost.create ⟨3, 6346⟩ 4294967236 0).m_tTimestamp ≤ 0 :=
  ⟨exCache_reachable, by decide, by decide, by decide, by decide, by decide⟩

/-- C8, amended: for every `ts` and every `quint32` value `tNow` with `ts ≤ tNow` or `60 ≤ tNow`, the entry
stored by an accepted `addSyncHelper` on a reachable state has a timestamp `≤ tNow`; in the
remaining case (`tNow < ts` and `tNow < 60`) the stored timestamp is `tNow + 4294967236`. -/
theorem C8_timestamp_le_now (W : World) (v : Nat) (s : G2HostCache) (h : Reachable W v s)
    (isDenied : CEndPoint → Bool) (a : CEndPoint) (ts tNow f : Nat)
    (hnow : tNow < 4294967296)
    (h1 : W.isValid a = true) (h2 : W.isFirewalled a = false) (h3 : f ≤ s.m_nMaxFailures)
    (h4 : isDenied a = false) (h5 : a ≠ s.m_oLokalAddress) :
    ∃ e, (s.addSyncHelper W isDenied a ts tNow f).1.get a = some e ∧
      (ts ≤ tNow ∨ 60 ≤ tNow → e.m_tTimestamp ≤ tNow) ∧
      (tNow < ts → tNow < 60 → e.m_tTimestamp = tNow + 4294967236) := by
  obtain ⟨X, p, e1, e2, e3, e4, e5, e6, _, e8, _, _, _⟩ :=
    addSyncHelper_accept W isDenied h.inv a ts tNow f h1 h2 h3 h4 h5
  obtain ⟨_, _, g3, _⟩ := insert_facts e2 p (by rw [e5, e8]; exact h3) e3
  rw [e1]
  refine ⟨p, by rw [← e4]; exact g3, ?_, ?_⟩
  · intro hor
    rw [e6]
    by_cases hgt : ts > tNow
    · rw [if_pos hgt]
      have h60 : 60 ≤ tNow := by omega
      rw [subU32_sixty tNow h60 hnow]
      omega
    · rw [if_neg hgt]
      omega
  · intro hgt hlo
    rw [e6, if_pos hgt, subU32_sixty_wrap tNow hlo]

/-- The statement of C8 as amended on the concrete cache `exCache`. -/
theorem C8_timestamp_le_now_witness :
    ((1000 : Nat) < 4294967296 ∧
      exWorld.isValid ⟨3, 6346⟩ = true ∧ exWorld.isFirewalled ⟨3, 6346⟩ = false ∧
      0 ≤ exCache.m_nMaxFailures ∧ exDenied ⟨3, 6346⟩ = false ∧
      (⟨3, 6346⟩ : CEndPoint) ≠ exCache.m_oLokalAddress ∧ Reachable exWorld 0 exCache) ∧
    ∃ e, (exCache.addSyncHelper exWorld exDenied ⟨3, 6346⟩ 2000 1000 0).1.get ⟨3, 6346⟩ =
        some e ∧
      (2000 ≤ 1000 ∨ 60 ≤ 1000 → e.m_tTimestamp ≤ 1000) ∧
      (1000 < 2000 → 1000 < 60 → e.m_tTimestamp = 1000 + 4294967236) :=
  ⟨⟨by decide, by decide, by decide, by decide, by decide, by decide, exCache_reachable⟩,
    C8_timestamp_le_now exWorld 0 exCache exCache_reachable exDenied ⟨3, 6346⟩ 2000 1000 0
      (by decide) (by decide) (by decide) (by decide) (by decide) (by decide)⟩


/-! ## Adding an address that is cached -/

theorem mem_hosts_of_mem_bucket {s : G2HostCache} (hi : Inv s) (k : Nat) (x : G2HostCacheHost)
    (hx : x ∈ s.bucket k) : x ∈ s.hosts := by
  by_cases hk : k ≤ s.m_nMaxFailures
  · rw [hi.bucket_eq k hk] at hx
    exact (List.mem_filter.1 hx).1
  · have hnone : s.m_pFailures[k + 1]? = none := by
      rw [List.getElem?_eq_none_iff, hi.ap_len]
      omega
    have : s.bucket k = [] := by
      unfold G2HostCache.bucket
      rw [hnone]
      split <;> simp_all
    rw [this] at hx
    cases hx

/-- Erasing the cell of a host with address `a` does not change the slots of the other
addresses. -/
theorem filter_slots_erase (l : List Node) (hn : (ids l).Nodup) (m : Node) (hm : m ∈ l)
    (e : G2HostCacheHost) (he : m.host = some e) (a : CEndPoint) (ha : e.m_oAddress = a) :
    ((eraseNode m.id l).map Node.host).filter
        (fun o => decide (o.map (fun x => x.m_oAddress) ≠ some a)) =
      (l.map Node.host).filter (fun o => decide (o.map (fun x => x.m_oAddress) ≠ some a)) := by
  obtain ⟨A, B, hl, hE⟩ := eraseNode_split l hn m hm
  rw [hE, hl]
  simp [List.filter_append, List.filter_cons, he, ha]

theorem eq_singleton_of_length_le_one {α : Type} (l : List α) (x : α) (h : l.length ≤ 1)
    (hx : x ∈ l) : l = [x] := by
  cases l with
  | nil => cases hx
  | cons y r =>
    cases r with
    | nil =>
      rcases List.mem_cons.1 hx with rfl | h'
      · rfl
      · cases h'
    | cons z r => simp at h

/-- C9: if the address is cached, in whatever bucket, an accepted `add` leaves exactly one host
with that address; it lies in bucket 0 and has the clamped new timestamp, the size is unchanged,
and the slots of all other addresses, access points included, are the same sequence as before. -/
theorem C9_add_replaces (W : World) (v : Nat) (s : G2HostCache) (h : Reachable W v s)
    (isDenied : CEndPoint → Bool) (a : CEndPoint) (ts tNow : Nat)
    (h1 : W.isValid a = true) (h2 : W.isFirewalled a = false) (h4 : isDenied a = false)
    (h5 : a ≠ s.m_oLokalAddress) (k : Nat) (x : G2HostCacheHost) (hx : x ∈ s.bucket k)
    (hxa : x.m_oAddress = a) :
    ∃ e, (s.addSync W isDenied a ts tNow).1.hosts.filter
          (fun y => decide (y.m_oAddress = a)) = [e] ∧
      e ∈ (s.addSync W isDenied a ts tNow).1.bucket 0 ∧
      e.m_nFailures = 0 ∧
      e.m_tTimestamp = (if ts > tNow then subU32 tNow 60 else ts) ∧
      (s.addSync W isDenied a ts tNow).1.m_nSizeAtomic = s.m_nSizeAtomic ∧
      (s.addSync W isDenied a ts tNow).1.slots.filter
          (fun o => decide (o.map (fun y => y.m_oAddress) ≠ some a)) =
        s.slots.filter (fun o => decide (o.map (fun y => y.m_oAddress) ≠ some a)) := by
  have hi := h.inv
  obtain ⟨X, p, e1, e2, e3, e4, e5, e6, e7, e8, _, _, e11⟩ :=
    addSyncHelper_accept W isDenied hi a ts tNow 0 h1 h2 (Nat.zero_le _) h4 h5
  have hfound : ∃ n y, s.find a = some n ∧ n ∈ s.m_lHosts ∧ n.host = some y ∧
      y.m_oAddress = a ∧ X = s.remove n.id := by
    rcases e11 with ⟨hnone, _, _⟩ | ⟨n, y, g1, g2, g3, g4, g5, _⟩
    · exfalso
      obtain ⟨m, hm1, hm2⟩ := (mem_hosts_iff _ x).1 (mem_hosts_of_mem_bucket hi k x hx)
      exact findNode_none a s.m_lHosts hnone m hm1 x hm2 hxa
    · exact ⟨n, y, g1, g2, g3, g4, g5⟩
  obtain ⟨n, y, _, g2, g3, g4, g5⟩ := hfound
  obtain ⟨f1, _, _, f4, f5, _, _, _, _, f10⟩ :=
    insert_facts e2 p (by rw [e5]; exact Nat.zero_le _) e3
  unfold G2HostCache.addSync
  rw [e1]
  have hpm : p ∈ (X.insert p).hosts := (mem_hosts_iff _ p).2 ⟨_, f10, rfl⟩
  refine ⟨p, ?_, ?_, e5, e6, ?_, ?_⟩
  · apply eq_singleton_of_length_le_one
    · exact filter_length_le_one_of_nodup _ f1.addresses_nodup a
    · exact List.mem_filter.2 ⟨hpm, by simpa using e4⟩
  · rw [f1.bucket_eq 0 (Nat.zero_le _)]
    exact List.mem_filter.2 ⟨hpm, by simpa using e5⟩
  · show (X.insert p).m_nSizeAtomic = s.m_nSizeAtomic
    rw [f5, g5]
    show s.m_nSizeAtomic - 1 + 1 = s.m_nSizeAtomic
    omega
  · show ((X.insert p).m_lHosts.map Node.host).filter _ = (s.m_lHosts.map Node.host).filter _
    rw [← filter_slots_erase (X.insert p).m_lHosts f1.ids_nodup ⟨X.m_nNextNode, some p⟩ f10 p rfl
      a e4, ← filter_slots_erase s.m_lHosts hi.ids_nodup n g2 y g3 a g4]
    show ((eraseNode X.m_nNextNode (X.insert p).m_lHosts).map Node.host).filter _ = _
    rw [f4, g5]
    rfl

/-- The statement of C9 on the concrete cache `exCache`. -/
theorem C9_add_replaces_witness :
    (exWorld.isValid ⟨1, 6346⟩ = true ∧ exWorld.isFirewalled ⟨1, 6346⟩ = false ∧
      exDenied ⟨1, 6346⟩ = false ∧ (⟨1, 6346⟩ : CEndPoint) ≠ exCache.m_oLokalAddress ∧
      G2HostCacheHost.create ⟨1, 6346⟩ 300 0 ∈ exCache.bucket 0 ∧
      (G2HostCacheHost.create ⟨1, 6346⟩ 300 0).m_oAddress = ⟨1, 6346⟩ ∧
      Reachable exWorld 0 exCache) ∧
    ∃ e, (exCache.addSync exWorld exDenied ⟨1, 6346⟩ 500 1000).1.hosts.filter
          (fun y => decide (y.m_oAddress = ⟨1, 6346⟩)) = [e] ∧
      e ∈ (exCache.addSync exWorld exDenied ⟨1, 6346⟩ 500 1000).1.bucket 0 ∧
      e.m_nFailures = 0 ∧
      e.m_tTimestamp = (if 500 > 1000 then subU32 1000 60 else 500) ∧
      (exCache.addSync exWorld exDenied ⟨1, 6346⟩ 500 1000).1.m_nSizeAtomic =
        exCache.m_nSizeAtomic ∧
      (exCache.addSync exWorld exDenied ⟨1, 6346⟩ 500 1000).1.slots.filter
          (fun o => decide (o.map (fun y => y.m_oAddress) ≠ some ⟨1, 6346⟩)) =
        exCache.slots.filter
          (fun o => decide (o.map (fun y => y.m_oAddress) ≠ some ⟨1, 6346⟩)) :=
  ⟨⟨by decide, by decide, by decide, by decide, by decide, by decide, exCache_reachable⟩,
    C9_add_replaces exWorld 0 exCache exCache_reachable exDenied ⟨1, 6346⟩ 500 1000
      (by decide) (by decide) (by decide) (by decide) 0 (G2HostCacheHost.create ⟨1, 6346⟩ 300 0)
      (by decide) (by decide)⟩

/-! ## add is idempotent -/

theorem insertWalk_keys (n m : Node) (hk : n.key = m.key) (ts : Nat) (l : List Node) :
    keys (insertWalk n ts l) = keys (insertWalk m ts l) := by
  induction l with
  | nil => simp [insertWalk, keys, hk]
  | cons y r ih =>
    cases hy : y.host with
    | none => simp [insertWalk, hy, keys, hk]
    | some g =>
      by_cases ht : g.m_tTimestamp > ts
      · simp only [insertWalk, hy, if_pos ht, keys_cons, ih]
      · simp [insertWalk, hy, if_neg ht, keys, hk]

/-- The keys of the sequence after `insert` depend on the sequence, on the access points and
on the key of the new host only. -/
theorem insert_keys_congr (s t : G2HostCache) (p q : G2HostCacheHost)
    (hl : s.m_lHosts = t.m_lHosts) (hap : s.m_pFailures = t.m_pFailures) (hk : p.key = q.key) :
    keys (s.insert p).m_lHosts = keys (t.insert q).m_lHosts := by
  have hf : p.m_nFailures = q.m_nFailures := congrArg HostKey.failures hk
  have ht : p.m_tTimestamp = q.m_tTimestamp := congrArg HostKey.timestamp hk
  unfold G2HostCache.insert
  rw [hl, hap, hf, ht]
  cases t.m_pFailures[q.m_nFailures]? with
  | none => simp only [hl]
  | some ap =>
    simp only
    cases nodesFrom ap t.m_lHosts with
    | nil => simp only [hl]
    | cons x r =>
      simp only [keys_append, keys_cons]
      rw [insertWalk_keys ⟨s.m_nNextNode, some p⟩ ⟨t.m_nNextNode, some q⟩
        (by simp [Node.key, hk])]

/-- C10: on a reachable state, with the same clock reading and the same security rules, two
`add`s of one address and timestamp in a row give the same sequence of slots (access points
and hosts with address, timestamp and failures, in the same order) and the same size as one. -/
theorem C10_add_idempotent (W : World) (v : Nat) (s : G2HostCache) (h : Reachable W v s)
    (isDenied : CEndPoint → Bool) (a : CEndPoint) (ts tNow : Nat) :
    ((s.addSync W isDenied a ts tNow).1.addSync W isDenied a ts tNow).1.slots.map
        (Option.map G2HostCacheHost.key) =
      (s.addSync W isDenied a ts tNow).1.slots.map (Option.map G2HostCacheHost.key) ∧
    ((s.addSync W isDenied a ts tNow).1.addSync W isDenied a ts tNow).1.m_nSizeAtomic =
      (s.addSync W isDenied a ts tNow).1.m_nSizeAtomic := by
  have hi := h.inv
  have hkeys : ∀ t : G2HostCache, t.slots.map (Option.map G2HostCacheHost.key) =
      keys t.m_lHosts := by
    intro t
    simp [G2HostCache.slots, keys, Node.key]
  rw [hkeys, hkeys]
  unfold G2HostCache.addSync
  by_cases hrej : W.isValid a = false ∨ W.isFirewalled a = true ∨ 0 > s.m_nMaxFailures ∨
      isDenied a = true ∨ a = s.m_oLokalAddress
  · rw [addSyncHelper_reject W isDenied s a ts tNow 0 hrej]
    rw [addSyncHelper_reject W isDenied s a ts tNow 0 hrej]
    exact ⟨rfl, rfl⟩
  · simp only [not_or, Bool.not_eq_false, Bool.not_eq_true, not_lt] at hrej
    obtain ⟨h1, h2, h3, h4, h5⟩ := hrej
    obtain ⟨X, p, e1, e2, e3, e4, e5, e6, e7, e8, e9, e10, _⟩ :=
      addSyncHelper_accept W isDenied hi a ts tNow 0 h1 h2 h3 h4 h5
    obtain ⟨f1, _, _, f4, f5, f6, f7, f8, f9, f10⟩ :=
      insert_facts e2 p (by rw [e5]; exact Nat.zero_le _) e3
    rw [e1]
    have hfind : (X.insert p).find a = some ⟨X.m_nNextNode, some p⟩ :=
      findNode_of_mem a _ f1.addr_nodup _ f10 p rfl e4
    rw [addSyncHelper_update W isDenied f1 a ts tNow 0 h1 h2 (Nat.zero_le _) h4
      (by rw [f7, e9]; exact h5) ⟨X.m_nNextNode, some p⟩ p hfind rfl]
    have hkey : (p.clone (if ts > tNow then subU32 tNow 60 else ts) 0).key = p.key := by
      simp [G2HostCacheHost.clone, G2HostCacheHost.key, e5, e6]
    have hrem := f1.remove ⟨X.m_nNextNode, some p⟩ f10 p rfl
    obtain ⟨_, _, _, _, r5, _⟩ := insert_facts hrem
      (p.clone (if ts > tNow then subU32 tNow 60 else ts) 0) (Nat.zero_le _)
      (no_addr_after_erase f1 ⟨X.m_nNextNode, some p⟩ f10 p rfl)
    refine ⟨?_, ?_⟩
    · exact insert_keys_congr _ X _ p f4 f8 hkey
    · show (((X.insert p).remove X.m_nNextNode).insert _).m_nSizeAtomic = _
      rw [r5]
      show (X.insert p).m_nSizeAtomic - 1 + 1 = (X.insert p).m_nSizeAtomic
      omega

/-- The statement of C10 on the concrete cache `exCache`. -/
theorem C10_add_idempotent_witness :
    Reachable exWorld 0 exCache ∧
    (((exCache.addSync exWorld exDenied ⟨1, 6346⟩ 500 1000).1.addSync exWorld exDenied
          ⟨1, 6346⟩ 500 1000).1.slots.map (Option.map G2HostCacheHost.key) =
        (exCache.addSync exWorld exDenied ⟨1, 6346⟩ 500 1000).1.slots.map
          (Option.map G2HostCacheHost.key) ∧
      ((exCache.addSync exWorld exDenied ⟨1, 6346⟩ 500 1000).1.addSync exWorld exDenied
          ⟨1, 6346⟩ 500 1000).1.m_nSizeAtomic =
        (exCache.addSync exWorld exDenied ⟨1, 6346⟩ 500 1000).1.m_nSizeAtomic) :=
  ⟨exCache_reachable,
    C10_add_idempotent exWorld 0 exCache exCache_reachable exDenied ⟨1, 6346⟩ 500 1000⟩


/-! ## Moving and erasing one host -/

/-- The hosts of a well-formed sequence are ordered by failures, then by falling timestamp. -/
theorem hosts_ordered_aux (l : List Node) (k : Nat) (hb : bucketsFrom k (keys l))
    (hs : (keys l).Pairwise sortRel) :
    (l.filterMap Node.host).Pairwise (fun a b => a.m_nFailures < b.m_nFailures ∨
      (a.m_nFailures = b.m_nFailures ∧ b.m_tTimestamp ≤ a.m_tTimestamp)) := by
  induction l generalizing k with
  | nil => exact List.Pairwise.nil
  | cons n l ih =>
    rw [keys_cons, List.pairwise_cons] at hs
    cases hn : n.host with
    | none =>
      rw [keys_cons, (key_eq_none_iff n).2 hn, bucketsFrom_none] at hb
      rw [hosts_cons_ap n l hn]
      exact ih (k + 1) hb hs.2
    | some x =>
      rw [keys_cons, key_of_host n x hn, bucketsFrom_some] at hb
      rw [List.filterMap_cons, hn, List.pairwise_cons]
      refine ⟨?_, ih k hb.2 hs.2⟩
      intro e he
      have hek := key_mem_of_mem_hosts l e he
      have h1 := (bucketsFrom_bounds _ _ hb.2 e.key hek).1
      have h2 := hb.1
      simp only [G2HostCacheHost.key] at h1 h2
      by_cases hlt : x.m_nFailures < e.m_nFailures
      · exact Or.inl hlt
      · have heq : x.m_nFailures = e.m_nFailures := by omega
        exact Or.inr ⟨heq, hs.1 (some e.key) hek x.key e.key (key_of_host n x hn) rfl heq⟩

theorem Inv.hosts_ordered {s : G2HostCache} (hi : Inv s) :
    s.hosts.Pairwise (fun a b => a.m_nFailures < b.m_nFailures ∨
      (a.m_nFailures = b.m_nFailures ∧ b.m_tTimestamp ≤ a.m_tTimestamp)) :=
  hosts_ordered_aux s.m_lHosts 0 hi.buckets hi.sorted

/-- The state after `remove( it )` on the cell of a host. -/
theorem remove_facts {s : G2HostCache} (hi : Inv s) (n : Node) (hm : n ∈ s.m_lHosts)
    (x : G2HostCacheHost) (hx : n.host = some x) :
    Inv (s.remove n.id) ∧
      ∃ A B, s.m_lHosts = A ++ n :: B ∧ (s.remove n.id).m_lHosts = A ++ B ∧
        (s.remove n.id).m_nSizeAtomic = s.m_nSizeAtomic - 1 ∧
        ∀ e ∈ (s.remove n.id).hosts, e.m_oAddress ≠ x.m_oAddress := by
  obtain ⟨A, B, hl, he⟩ := eraseNode_split s.m_lHosts hi.ids_nodup n hm
  refine ⟨hi.remove n hm x hx, A, B, hl, he, rfl, ?_⟩
  intro e hmem
  have := no_addr_after_erase hi n hm x hx e.key (key_mem_of_mem_hosts _ e hmem)
  simpa [G2HostCacheHost.key] using this

/-- The state after a host is erased and reinserted with a new timestamp and failure count. -/
theorem reinsert_facts {s : G2HostCache} (hi : Inv s) (n : Node) (hm : n ∈ s.m_lHosts)
    (x : G2HostCacheHost) (hx : n.host = some x) (ts f : Nat) (hf : f ≤ s.m_nMaxFailures) :
    Inv ((s.remove n.id).insert (x.clone ts f)) ∧
      ∃ A B A' B', s.m_lHosts = A ++ n :: B ∧
        ((s.remove n.id).insert (x.clone ts f)).m_lHosts =
          A' ++ ⟨s.m_nNextNode, some (x.clone ts f)⟩ :: B' ∧
        A' ++ B' = A ++ B ∧
        ((s.remove n.id).insert (x.clone ts f)).m_nSizeAtomic = s.m_nSizeAtomic ∧
        ((s.remove n.id).insert (x.clone ts f)).m_nMaxFailures = s.m_nMaxFailures := by
  obtain ⟨i1, A, B, hl, he, _, _⟩ := remove_facts hi n hm x hx
  obtain ⟨f1, _, _, f4, f5, f6, _, _, _, f10⟩ :=
    insert_facts i1 (x.clone ts f) hf (no_addr_after_erase hi n hm x hx)
  obtain ⟨A', B', hl', he'⟩ := eraseNode_split _ f1.ids_nodup _ f10
  refine ⟨f1, A, B, A', B', hl, hl', ?_, ?_, f6⟩
  · have e1 : eraseNode s.m_nNextNode ((s.remove n.id).insert (x.clone ts f)).m_lHosts =
        A' ++ B' := he'
    have e2 : eraseNode s.m_nNextNode ((s.remove n.id).insert (x.clone ts f)).m_lHosts =
        (s.remove n.id).m_lHosts := f4
    rw [← e1, e2, he]
  · rw [f5]
    show s.m_nSizeAtomic - 1 + 1 = s.m_nSizeAtomic
    omega

theorem find_of_mem_hosts {s : G2HostCache} (x : G2HostCacheHost) (hx : x ∈ s.hosts) :
    ∃ n y, s.find x.m_oAddress = some n ∧ n ∈ s.m_lHosts ∧ n.host = some y ∧
      y.m_oAddress = x.m_oAddress := by
  cases hf : s.find x.m_oAddress with
  | none =>
    exfalso
    obtain ⟨m, hm1, hm2⟩ := (mem_hosts_iff _ x).1 hx
    exact findNode_none _ s.m_lHosts hf m hm1 x hm2 rfl
  | some n =>
    obtain ⟨hm, y, hy, hya⟩ := findNode_some _ s.m_lHosts n hf
    exact ⟨n, y, rfl, hm, hy, hya⟩

/-- With unique addresses the host found for the address of a cached host is that host. -/
theorem find_eq_of_mem_hosts {s : G2HostCache} (hi : Inv s) (x : G2HostCacheHost)
    (hx : x ∈ s.hosts) :
    ∃ n, s.find x.m_oAddress = some n ∧ n ∈ s.m_lHosts ∧ n.host = some x := by
  obtain ⟨m, hm1, hm2⟩ := (mem_hosts_iff _ x).1 hx
  exact ⟨m, findNode_of_mem _ _ hi.addr_nodup m hm1 x hm2 rfl, hm1, hm2⟩

theorem find_none_of_not_cached {s : G2HostCache} (a : CEndPoint)
    (h : ∀ e ∈ s.hosts, e.m_oAddress ≠ a) : s.find a = none := by
  cases hf : s.find a with
  | none => rfl
  | some n =>
    exfalso
    obtain ⟨hm, y, hy, hya⟩ := findNode_some _ s.m_lHosts n hf
    exact h y ((mem_hosts_iff _ y).2 ⟨n, hm, hy⟩) hya

theorem asyncOnFailure_bump {s : G2HostCache} (hi : Inv s) (a : CEndPoint) (n : Node)
    (x : G2HostCacheHost) (hf : s.find a = some n) (hx : n.host = some x)
    (hlt : x.m_nFailures < s.m_nMaxFailures) :
    s.asyncOnFailure a = (s.remove n.id).insert (x.clone x.m_tTimestamp (x.m_nFailures + 1)) := by
  have hm := hi.max_le
  have h6 : (x.m_nFailures + 1) % 256 = x.m_nFailures + 1 := Nat.mod_eq_of_lt (by omega)
  have hmax : (s.remove n.id).m_nMaxFailures = s.m_nMaxFailures := rfl
  simp only [G2HostCache.asyncOnFailure, hf, hx, hmax, if_pos hlt, h6]

theorem asyncOnFailure_drop {s : G2HostCache} (a : CEndPoint) (n : Node)
    (x : G2HostCacheHost) (hf : s.find a = some n) (hx : n.host = some x)
    (hge : ¬ x.m_nFailures < s.m_nMaxFailures) :
    s.asyncOnFailure a = s.remove n.id := by
  have hmax : (s.remove n.id).m_nMaxFailures = s.m_nMaxFailures := rfl
  simp only [G2HostCache.asyncOnFailure, hf, hx, hmax, if_neg hge]

theorem asyncOnFailure_absent {s : G2HostCache} (a : CEndPoint) (hf : s.find a = none) :
    s.asyncOnFailure a = s := by
  simp only [G2HostCache.asyncOnFailure, hf]

theorem asyncUpdateFailures_move {s : G2HostCache} (hi : Inv s) (a : CEndPoint) (n : Node)
    (x : G2HostCacheHost) (hf : s.find a = some n) (hx : n.host = some x) (f : Nat)
    (hle : f ≤ s.m_nMaxFailures) :
    s.asyncUpdateFailures a f = (s.remove n.id).insert (x.clone x.m_tTimestamp f) := by
  have hm := hi.max_le
  have h6 : f % 256 = f := Nat.mod_eq_of_lt (by omega)
  have hmax : (s.remove n.id).m_nMaxFailures = s.m_nMaxFailures := rfl
  simp only [G2HostCache.asyncUpdateFailures, hf, hx, hmax, if_pos hle, h6]

theorem asyncUpdateFailures_drop {s : G2HostCache} (a : CEndPoint) (n : Node)
    (x : G2HostCacheHost) (hf : s.find a = some n) (hx : n.host = some x) (f : Nat)
    (hgt : ¬ f ≤ s.m_nMaxFailures) :
    s.asyncUpdateFailures a f = s.remove n.id := by
  have hmax : (s.remove n.id).m_nMaxFailures = s.m_nMaxFailures := rfl
  simp only [G2HostCache.asyncUpdateFailures, hf, hx, hmax, if_neg hgt]

theorem asyncUpdateFailures_absent {s : G2HostCache} (a : CEndPoint) (f : Nat)
    (hf : s.find a = none) : s.asyncUpdateFailures a f = s := by
  simp only [G2HostCache.asyncUpdateFailures, hf]

/-- What a reinsertion looks like on the slots and hosts of the cache. -/
theorem reinsert_slots {s : G2HostCache} (hi : Inv s) (n : Node) (hm : n ∈ s.m_lHosts)
    (x : G2HostCacheHost) (hx : n.host = some x) (ts f : Nat) (hf : f ≤ s.m_nMaxFailures)
    (t : G2HostCache) (ht : t = (s.remove n.id).insert (x.clone ts f)) :
    Inv t ∧
      t.hosts.filter (fun y => decide (y.m_oAddress = x.m_oAddress)) = [x.clone ts f] ∧
      x.clone ts f ∈ t.bucket f ∧
      (∃ pre post, t.hosts = pre ++ x.clone ts f :: post ∧ ∀ y ∈ post, f ≤ y.m_nFailures) ∧
      t.m_nSizeAtomic = s.m_nSizeAtomic ∧
      ∃ A B A' B', s.slots = A ++ some x :: B ∧ t.slots = A' ++ some (x.clone ts f) :: B' ∧
        A' ++ B' = A ++ B := by
  subst ht
  obtain ⟨i1, A, B, A', B', hl, hl', hab, hsz, hmx⟩ := reinsert_facts hi n hm x hx ts f hf
  have hpm : x.clone ts f ∈ ((s.remove n.id).insert (x.clone ts f)).hosts :=
    (mem_hosts_iff _ _).2 ⟨⟨s.m_nNextNode, some (x.clone ts f)⟩, by rw [hl']; simp, rfl⟩
  refine ⟨i1, ?_, ?_, ?_, hsz, ?_⟩
  · apply eq_singleton_of_length_le_one
    · exact filter_length_le_one_of_nodup _ i1.addresses_nodup _
    · exact List.mem_filter.2 ⟨hpm, by simp [G2HostCacheHost.clone]⟩
  · rw [i1.bucket_eq f (by rw [hmx]; exact hf)]
    exact List.mem_filter.2 ⟨hpm, by simp [G2HostCacheHost.clone]⟩
  · have ho := i1.hosts_ordered
    have hh : ((s.remove n.id).insert (x.clone ts f)).hosts =
        A'.filterMap Node.host ++ x.clone ts f :: B'.filterMap Node.host := by
      unfold G2HostCache.hosts
      rw [hl', hosts_append, List.filterMap_cons]
    refine ⟨_, _, hh, ?_⟩
    intro y hy
    rw [hh, List.pairwise_append] at ho
    have := (List.pairwise_cons.1 ho.2.1).1 y hy
    simp only [G2HostCacheHost.clone] at this
    omega
  · refine ⟨A.map Node.host, B.map Node.host, A'.map Node.host, B'.map Node.host, ?_, ?_, ?_⟩
    · unfold G2HostCache.slots
      rw [hl, List.map_append, List.map_cons, hx]
    · unfold G2HostCache.slots
      rw [hl', List.map_append, List.map_cons]
    · rw [← List.map_append, ← List.map_append, hab]

/-- What erasing a host looks like on the slots of the cache. -/
theorem remove_slots {s : G2HostCache} (hi : Inv s) (n : Node) (hm : n ∈ s.m_lHosts)
    (x : G2HostCacheHost) (hx : n.host = some x) :
    Inv (s.remove n.id) ∧
      (∀ e ∈ (s.remove n.id).hosts, e.m_oAddress ≠ x.m_oAddress) ∧
      (s.remove n.id).m_nSizeAtomic = s.m_nSizeAtomic - 1 ∧
      ∃ A B, s.slots = A ++ some x :: B ∧ (s.remove n.id).slots = A ++ B := by
  obtain ⟨i1, A, B, hl, he, hsz, hno⟩ := remove_facts hi n hm x hx
  refine ⟨i1, hno, hsz, A.map Node.host, B.map Node.host, ?_, ?_⟩
  · unfold G2HostCache.slots
    rw [hl, List.map_append, List.map_cons, hx]
  · unfold G2HostCache.slots
    rw [he, List.map_append]


/-! ## onFailure, updateFailures, removeSync -/

theorem exCacheA_reachable : Reachable exWorld 0 exCacheA :=
  Reachable.add _ _ _ _ _ (Reachable.startUp exSettings _ exStart_eq)

theorem exCacheA1_reachable : Reachable exWorld 0 exCacheA1 :=
  Reachable.onFailure _ _ exCacheA_reachable

theorem exCacheA3_reachable : Reachable exWorld 0 exCacheA3 :=
  Reachable.onFailure _ _ (Reachable.onFailure _ _ (Reachable.onFailure _ _ exCacheA_reachable))

/-- C11: on a reachable state, `onFailure(addr)` for a cached host with `k < maxFailures`
failures leaves exactly one host with that address; it lies in bucket `k + 1`, has the same
timestamp, and no host with `k` or fewer failures follows it; the size is unchanged and the
sequence without that host is the same before and after.  If the address is not cached the cache
is unchanged. -/
theorem C11_onFailure_moves (W : World) (v : Nat) (s : G2HostCache) (h : Reachable W v s)
    (a : CEndPoint) :
    (∀ x ∈ s.hosts, x.m_oAddress = a → x.m_nFailures < s.m_nMaxFailures →
      ∃ e, (s.asyncOnFailure a).hosts.filter (fun y => decide (y.m_oAddress = a)) = [e] ∧
        e ∈ (s.asyncOnFailure a).bucket (x.m_nFailures + 1) ∧
        e.m_nFailures = x.m_nFailures + 1 ∧ e.m_tTimestamp = x.m_tTimestamp ∧
        (∃ pre post, (s.asyncOnFailure a).hosts = pre ++ e :: post ∧
          ∀ y ∈ post, x.m_nFailures < y.m_nFailures) ∧
        (s.asyncOnFailure a).m_nSizeAtomic = s.m_nSizeAtomic ∧
        ∃ A B A' B', s.slots = A ++ some x :: B ∧
          (s.asyncOnFailure a).slots = A' ++ some e :: B' ∧ A' ++ B' = A ++ B) ∧
    ((∀ x ∈ s.hosts, x.m_oAddress ≠ a) → s.asyncOnFailure a = s) := by
  have hi := h.inv
  refine ⟨fun x hx hxa hlt => ?_, fun hno => asyncOnFailure_absent a (find_none_of_not_cached a hno)⟩
  obtain ⟨n, hf, hm, hn⟩ := find_eq_of_mem_hosts hi x hx
  rw [hxa] at hf
  obtain ⟨_, r2, r3, ⟨pre, post, r4, r5⟩, r6, r7⟩ := reinsert_slots hi n hm x hn x.m_tTimestamp
    (x.m_nFailures + 1) hlt _ (asyncOnFailure_bump hi a n x hf hn hlt)
  rw [hxa] at r2
  exact ⟨_, r2, r3, rfl, rfl, ⟨pre, post, r4, fun y hy => r5 y hy⟩, r6, r7⟩

/-- The statement of C11 on the cache in which host A, added with timestamp 100 under a failure
limit of 3, has failed once; after the second `onFailure(A)` it is the one host of bucket 2. -/
theorem C11_onFailure_moves_witness :
    Reachable exWorld 0 exCacheA1 ∧
    ((∀ x ∈ exCacheA1.hosts, x.m_oAddress = ⟨7, 6346⟩ → x.m_nFailures < exCacheA1.m_nMaxFailures →
      ∃ e, (exCacheA1.asyncOnFailure ⟨7, 6346⟩).hosts.filter
            (fun y => decide (y.m_oAddress = ⟨7, 6346⟩)) = [e] ∧
        e ∈ (exCacheA1.asyncOnFailure ⟨7, 6346⟩).bucket (x.m_nFailures + 1) ∧
        e.m_nFailures = x.m_nFailures + 1 ∧ e.m_tTimestamp = x.m_tTimestamp ∧
        (∃ pre post, (exCacheA1.asyncOnFailure ⟨7, 6346⟩).hosts = pre ++ e :: post ∧
          ∀ y ∈ post, x.m_nFailures < y.m_nFailures) ∧
        (exCacheA1.asyncOnFailure ⟨7, 6346⟩).m_nSizeAtomic = exCacheA1.m_nSizeAtomic ∧
        ∃ A B A' B', exCacheA1.slots = A ++ some x :: B ∧
          (exCacheA1.asyncOnFailure ⟨7, 6346⟩).slots = A' ++ some e :: B' ∧
          A' ++ B' = A ++ B) ∧
    ((∀ x ∈ exCacheA1.hosts, x.m_oAddress ≠ ⟨7, 6346⟩) →
      exCacheA1.asyncOnFailure ⟨7, 6346⟩ = exCacheA1)) ∧
    exCacheA.m_nMaxFailures = 3 ∧
    exCacheA.hosts = [G2HostCacheHost.create ⟨7, 6346⟩ 100 0] ∧
    (exCacheA1.asyncOnFailure ⟨7, 6346⟩).bucket 2 = [G2HostCacheHost.create ⟨7, 6346⟩ 100 2] :=
  ⟨exCacheA1_reachable, C11_onFailure_moves exWorld 0 exCacheA1 exCacheA1_reachable ⟨7, 6346⟩,
    by decide, by decide, by decide⟩

/-- C12 fails as stated: host A of `exCacheA3` is at the failure limit 3, and `onFailure(A)`
erases it; the sequence and the size counter change. -/
theorem C12_counterexample :
    Reachable exWorld 0 exCacheA3 ∧
      exCacheA3.hosts = [G2HostCacheHost.create ⟨7, 6346⟩ 100 3] ∧
      exCacheA3.m_nMaxFailures = 3 ∧
      (exCacheA3.asyncOnFailure ⟨7, 6346⟩).hosts = [] ∧
      (exCacheA3.asyncOnFailure ⟨7, 6346⟩).slots ≠ exCacheA3.slots ∧
      (exCacheA3.asyncOnFailure ⟨7, 6346⟩).m_nSizeAtomic ≠ exCacheA3.m_nSizeAtomic :=
  ⟨exCacheA3_reachable, by decide, by decide, by decide, by decide, by decide⟩

/-- C12, amended: on a reachable state, `onFailure(addr)` for a cached host whose failures equal
`maxFailures` erases that host: no host with the address remains, the size counter decreases by
one, and the other slots, access points included, stay as they are. -/
theorem C12_onFailure_at_limit_erases (W : World) (v : Nat) (s : G2HostCache)
    (h : Reachable W v s) (a : CEndPoint) (x : G2HostCacheHost) (hx : x ∈ s.hosts)
    (hxa : x.m_oAddress = a) (hmax : x.m_nFailures = s.m_nMaxFailures) :
    (∀ e ∈ (s.asyncOnFailure a).hosts, e.m_oAddress ≠ a) ∧
      (s.asyncOnFailure a).m_nSizeAtomic = s.m_nSizeAtomic - 1 ∧
      ∃ A B, s.slots = A ++ some x :: B ∧ (s.asyncOnFailure a).slots = A ++ B := by
  have hi := h.inv
  obtain ⟨n, hf, hm, hn⟩ := find_eq_of_mem_hosts hi x hx
  rw [hxa] at hf
  rw [asyncOnFailure_drop a n x hf hn (by omega)]
  obtain ⟨_, r2, r3, r4⟩ := remove_slots hi n hm x hn
  rw [hxa] at r2
  exact ⟨r2, r3, r4⟩

/-- The statement of C12, as amended, on the cache `exCacheA3`. -/
theorem C12_onFailure_at_limit_erases_witness :
    (G2HostCacheHost.create ⟨7, 6346⟩ 100 3 ∈ exCacheA3.hosts ∧
      (G2HostCacheHost.create ⟨7, 6346⟩ 100 3).m_oAddress = ⟨7, 6346⟩ ∧
      (G2HostCacheHost.create ⟨7, 6346⟩ 100 3).m_nFailures = exCacheA3.m_nMaxFailures ∧
      Reachable exWorld 0 exCacheA3) ∧
    ((∀ e ∈ (exCacheA3.asyncOnFailure ⟨7, 6346⟩).hosts, e.m_oAddress ≠ ⟨7, 6346⟩) ∧
      (exCacheA3.asyncOnFailure ⟨7, 6346⟩).m_nSizeAtomic = exCacheA3.m_nSizeAtomic - 1 ∧
      ∃ A B, exCacheA3.slots = A ++ some (G2HostCacheHost.create ⟨7, 6346⟩ 100 3) :: B ∧
        (exCacheA3.asyncOnFailure ⟨7, 6346⟩).slots = A ++ B) :=
  ⟨⟨by decide, by decide, by decide, exCacheA3_reachable⟩,
    C12_onFailure_at_limit_erases exWorld 0 exCacheA3 exCacheA3_reachable ⟨7, 6346⟩
      (G2HostCacheHost.create ⟨7, 6346⟩ 100 3) (by decide) (by decide) (by decide)⟩

/-- C14: on a reachable state, for a cached host with address `addr` and timestamp `t`,
`updateFailures(addr, n)` with `n ≤ maxFailures` leaves exactly one host with the address, in
bucket `n` with timestamp `t`, and the size unchanged; with `n > maxFailures` it erases the host
and the size decreases by one.  In both cases the sequence without that host is the same before
and after, and if the address is not cached nothing changes. -/
theorem C14_updateFailures (W : World) (v : Nat) (s : G2HostCache) (h : Reachable W v s)
    (a : CEndPoint) (n : Nat) :
    (∀ x ∈ s.hosts, x.m_oAddress = a →
      (n ≤ s.m_nMaxFailures →
        ∃ e, (s.asyncUpdateFailures a n).hosts.filter (fun y => decide (y.m_oAddress = a)) = [e] ∧
          e ∈ (s.asyncUpdateFailures a n).bucket n ∧
          e.m_nFailures = n ∧ e.m_tTimestamp = x.m_tTimestamp ∧
          (s.asyncUpdateFailures a n).m_nSizeAtomic = s.m_nSizeAtomic ∧
          ∃ A B A' B', s.slots = A ++ some x :: B ∧
            (s.asyncUpdateFailures a n).slots = A' ++ some e :: B' ∧ A' ++ B' = A ++ B) ∧
      (n > s.m_nMaxFailures →
        (∀ e ∈ (s.asyncUpdateFailures a n).hosts, e.m_oAddress ≠ a) ∧
        (s.asyncUpdateFailures a n).m_nSizeAtomic = s.m_nSizeAtomic - 1 ∧
        ∃ A B, s.slots = A ++ some x :: B ∧ (s.asyncUpdateFailures a n).slots = A ++ B)) ∧
    ((∀ x ∈ s.hosts, x.m_oAddress ≠ a) → s.asyncUpdateFailures a n = s) := by
  have hi := h.inv
  refine ⟨fun x hx hxa => ⟨fun hle => ?_, fun hgt => ?_⟩,
    fun hno => asyncUpdateFailures_absent a n (find_none_of_not_cached a hno)⟩
  · obtain ⟨m, hf, hm, hn⟩ := find_eq_of_mem_hosts hi x hx
    rw [hxa] at hf
    obtain ⟨_, r2, r3, _, r6, r7⟩ := reinsert_slots hi m hm x hn x.m_tTimestamp n hle _
      (asyncUpdateFailures_move hi a m x hf hn n hle)
    rw [hxa] at r2
    exact ⟨_, r2, r3, rfl, rfl, r6, r7⟩
  · obtain ⟨m, hf, hm, hn⟩ := find_eq_of_mem_hosts hi x hx
    rw [hxa] at hf
    rw [asyncUpdateFailures_drop a m x hf hn n (by omega)]
    obtain ⟨_, r2, r3, r4⟩ := remove_slots hi m hm x hn
    rw [hxa] at r2
    exact ⟨r2, r3, r4⟩

/-- The statement of C14 on the concrete cache `exCache`, for `updateFailures` to 2. -/
theorem C14_updateFailures_witness :
    Reachable exWorld 0 exCache ∧
    ((∀ x ∈ exCache.hosts, x.m_oAddress = ⟨1, 6346⟩ →
      (2 ≤ exCache.m_nMaxFailures →
        ∃ e, (exCache.asyncUpdateFailures ⟨1, 6346⟩ 2).hosts.filter
              (fun y => decide (y.m_oAddress = ⟨1, 6346⟩)) = [e] ∧
          e ∈ (exCache.asyncUpdateFailures ⟨1, 6346⟩ 2).bucket 2 ∧
          e.m_nFailures = 2 ∧ e.m_tTimestamp = x.m_tTimestamp ∧
          (exCache.asyncUpdateFailures ⟨1, 6346⟩ 2).m_nSizeAtomic = exCache.m_nSizeAtomic ∧
          ∃ A B A' B', exCache.slots = A ++ some x :: B ∧
            (exCache.asyncUpdateFailures ⟨1, 6346⟩ 2).slots = A' ++ some e :: B' ∧
            A' ++ B' = A ++ B) ∧
      (2 > exCache.m_nMaxFailures →
        (∀ e ∈ (exCache.asyncUpdateFailures ⟨1, 6346⟩ 2).hosts, e.m_oAddress ≠ ⟨1, 6346⟩) ∧
        (exCache.asyncUpdateFailures ⟨1, 6346⟩ 2).m_nSizeAtomic = exCache.m_nSizeAtomic - 1 ∧
        ∃ A B, exCache.slots = A ++ some x :: B ∧
          (exCache.asyncUpdateFailures ⟨1, 6346⟩ 2).slots = A ++ B)) ∧
    ((∀ x ∈ exCache.hosts, x.m_oAddress ≠ ⟨1, 6346⟩) →
      exCache.asyncUpdateFailures ⟨1, 6346⟩ 2 = exCache)) :=
  ⟨exCache_reachable, C14_updateFailures exWorld 0 exCache exCache_reachable ⟨1, 6346⟩ 2⟩

/-- C15: on a reachable state, `removeSync(addr)` erases the host with the address if one is
cached, and the size decreases by exactly one; otherwise nothing changes.  In both cases every
access point and every other host stays in the sequence, in the same order and with the same
fields. -/
theorem C15_removeSync (W : World) (v : Nat) (s : G2HostCache) (h : Reachable W v s)
    (a : CEndPoint) :
    (∀ x ∈ s.hosts, x.m_oAddress = a →
      (∀ e ∈ (s.removeSync a).hosts, e.m_oAddress ≠ a) ∧
      (s.removeSync a).m_nSizeAtomic = s.m_nSizeAtomic - 1 ∧
      ∃ A B, s.slots = A ++ some x :: B ∧ (s.removeSync a).slots = A ++ B) ∧
    ((∀ x ∈ s.hosts, x.m_oAddress ≠ a) → s.removeSync a = s) := by
  have hi := h.inv
  refine ⟨fun x hx hxa => ?_, fun hno => ?_⟩
  · obtain ⟨m, hf, hm, hn⟩ := find_eq_of_mem_hosts hi x hx
    rw [hxa] at hf
    have he : s.removeSync a = s.remove m.id := by
      simp only [G2HostCache.removeSync, hf]
    rw [he]
    obtain ⟨_, r2, r3, r4⟩ := remove_slots hi m hm x hn
    rw [hxa] at r2
    exact ⟨r2, r3, r4⟩
  · simp only [G2HostCache.removeSync, find_none_of_not_cached a hno]

/-- The statement of C15 on the concrete cache `exCache`. -/
theorem C15_removeSync_witness :
    Reachable exWorld 0 exCache ∧
    ((∀ x ∈ exCache.hosts, x.m_oAddress = ⟨1, 6346⟩ →
      (∀ e ∈ (exCache.removeSync ⟨1, 6346⟩).hosts, e.m_oAddress ≠ ⟨1, 6346⟩) ∧
      (exCache.removeSync ⟨1, 6346⟩).m_nSizeAtomic = exCache.m_nSizeAtomic - 1 ∧
      ∃ A B, exCache.slots = A ++ some x :: B ∧ (exCache.removeSync ⟨1, 6346⟩).slots = A ++ B) ∧
    ((∀ x ∈ exCache.hosts, x.m_oAddress ≠ ⟨1, 6346⟩) →
      exCache.removeSync ⟨1, 6346⟩ = exCache)) :=
  ⟨exCache_reachable, C15_removeSync exWorld 0 exCache exCache_reachable ⟨1, 6346⟩⟩


/-! ## A maintenance pass adds no host -/

theorem removeWorst_sublist (s : G2HostCache) (nF : Nat) :
    (s.removeWorst nF).1.m_lHosts.Sublist s.m_lHosts := by
  unfold G2HostCache.removeWorst
  dsimp only
  generalize (if nF > s.m_nMaxFailures then s.m_nMaxFailures else nF) = nF'
  split
  · exact List.Sublist.refl _
  · rename_i ap hap
    obtain ⟨h1, _, _⟩ := removeWorstWalk_basic (nodesBefore ap s.m_lHosts).reverse nF'
    have hsplit := nodes_split ap s.m_lHosts
    show (_ ++ nodesFrom ap s.m_lHosts).Sublist s.m_lHosts
    have := h1.reverse
    rw [List.reverse_reverse] at this
    have h4 := this.append (List.Sublist.refl (nodesFrom ap s.m_lHosts))
    rw [hsplit] at h4
    exact h4

theorem evictAbove_sublist (nNew fuel : Nat) (s t : G2HostCache) (nF : Nat)
    (h : evictAbove nNew fuel s nF = some t) : t.m_lHosts.Sublist s.m_lHosts := by
  induction fuel generalizing s nF with
  | zero => simp [evictAbove] at h
  | succ fuel ih =>
    simp only [evictAbove] at h
    split at h
    · exact (ih _ _ h).trans (removeWorst_sublist s nF)
    · cases h
      exact List.Sublist.refl _

theorem evictDownTo_sublist (nMax fuel : Nat) (s t : G2HostCache) (nF : Nat)
    (h : evictDownTo nMax fuel s nF = some t) : t.m_lHosts.Sublist s.m_lHosts := by
  induction fuel generalizing s nF with
  | zero => simp [evictDownTo] at h
  | succ fuel ih =>
    simp only [evictDownTo] at h
    split at h
    · exact (ih _ _ h).trans (removeWorst_sublist s nF)
    · cases h
      exact List.Sublist.refl _

theorem reshape_keys_subset (nNew : Nat) (s t : G2HostCache) (h : reshape nNew s = some t) :
    ∀ k, some k ∈ keys t.m_lHosts → some k ∈ keys s.m_lHosts := by
  unfold G2HostCache.reshape at h
  have hev : ∀ s1, evictAbove nNew (s.m_lHosts.length + s.m_nMaxFailures + 1) s
      s.m_nMaxFailures = some s1 → ∀ k, some k ∈ keys
        (s1.m_lHosts.take (s1.m_lHosts.length - (s.m_nMaxFailures - nNew))) →
        some k ∈ keys s.m_lHosts := by
    intro s1 hs1 k hk
    have hsub := evictAbove_sublist _ _ _ _ _ hs1
    exact ((List.take_sublist _ _).trans hsub |>.map Node.key).subset hk
  split_ifs at h with h1 h2 h3 h4
  · cases h
    exact fun k hk => hk
  · split at h
    · cases h
    · cases h
  · split at h
    · cases h
    · rename_i s1 hs1
      cases h
      exact hev s1 hs1
  · cases h
    intro k hk
    have hk' : some k ∈ keys (s.m_lHosts ++
        (List.range' s.m_nNextNode (nNew - s.m_nMaxFailures)).map (fun i => ⟨i, none⟩)) := hk
    rw [keys_append, List.mem_append] at hk'
    rcases hk' with h' | h'
    · exact h'
    · cases keys_map_ap _ _ h'

theorem save_hosts (s : G2HostCache) (tNow : Nat) (b : Bool) :
    (s.save tNow b).m_lHosts = s.m_lHosts := by
  unfold G2HostCache.save
  dsimp only
  split_ifs <;> rfl

/-- The keys of the hosts after a maintenance pass are keys of hosts before it. -/
theorem maintainInternal_keys_subset (cfg : Settings) (tNow : Nat) (b : Bool)
    (s t : G2HostCache) (h : s.maintainInternal cfg tNow b = some t) :
    ∀ k, some k ∈ keys t.m_lHosts → some k ∈ keys s.m_lHosts := by
  unfold G2HostCache.maintainInternal at h
  cases hr : reshape (cfg.FailureLimit % 256) s with
  | none => simp [hr] at h
  | some s1 =>
    have hs1 := reshape_keys_subset _ s s1 hr
    simp only [hr] at h
    split_ifs at h with hcap hsave
    · cases he : evictDownTo (cfg.HostCacheSize % 4294967296 -
          cfg.HostCacheSize % 4294967296 / 4) (s1.m_lHosts.length + s1.m_nMaxFailures + 1) s1
          s1.m_nMaxFailures with
      | none => simp [he] at h
      | some s2 =>
        simp only [he, Option.some.injEq] at h
        subst h
        intro k hk
        apply hs1
        have hk' : some k ∈ keys (updateConnectable tNow (cfg.FailurePenalty % 65536)
            (Int.ofNat cfg.ConnectThrottle - Int.ofNat (cfg.FailurePenalty % 65536))
            (s2.save tNow b).m_lHosts) := hk
        rw [updateConnectable_keys, save_hosts] at hk'
        exact ((evictDownTo_sublist _ _ _ _ _ he).map Node.key).subset hk'
    · simp only [Option.some.injEq] at h
      subst h
      intro k hk
      apply hs1
      have hk' : some k ∈ keys (updateConnectable tNow (cfg.FailurePenalty % 65536)
          (Int.ofNat cfg.ConnectThrottle - Int.ofNat (cfg.FailurePenalty % 65536))
          (s1.save tNow b).m_lHosts) := hk
      rw [updateConnectable_keys, save_hosts] at hk'
      exact hk'
    · simp only [Option.some.injEq] at h
      subst h
      intro k hk
      apply hs1
      have hk' : some k ∈ keys (updateConnectable tNow (cfg.FailurePenalty % 65536)
          (Int.ofNat cfg.ConnectThrottle - Int.ofNat (cfg.FailurePenalty % 65536))
          s1.m_lHosts) := hk
      rw [updateConnectable_keys] at hk'
      exact hk'

theorem host_of_key_mem (l : List Node) (k : HostKey) (h : some k ∈ keys l) :
    ∃ e ∈ l.filterMap Node.host, e.key = k := by
  simp only [keys, List.mem_map] at h
  obtain ⟨n, hn1, hn2⟩ := h
  cases hx : n.host with
  | none => simp [Node.key, hx] at hn2
  | some x =>
    simp only [Node.key, hx, Option.map_some', Option.some.injEq] at hn2
    exact ⟨x, (mem_hosts_iff l x).2 ⟨n, hn1, hx⟩, hn2⟩

/-- After `j` calls of `onFailure(addr)` the address is gone or its host has at least `j`
failures. -/
theorem onFailure_iterate {s : G2HostCache} (hi : Inv s) (a : CEndPoint) (j : Nat) :
    Inv ((fun t : G2HostCache => t.asyncOnFailure a)^[j] s) ∧
      ((fun t : G2HostCache => t.asyncOnFailure a)^[j] s).m_nMaxFailures = s.m_nMaxFailures ∧
      ((∀ e ∈ ((fun t : G2HostCache => t.asyncOnFailure a)^[j] s).hosts, e.m_oAddress ≠ a) ∨
        ∃ e ∈ ((fun t : G2HostCache => t.asyncOnFailure a)^[j] s).hosts,
          e.m_oAddress = a ∧ j ≤ e.m_nFailures) := by
  induction j with
  | zero =>
    refine ⟨hi, rfl, ?_⟩
    by_cases hex : ∃ e ∈ s.hosts, e.m_oAddress = a
    · obtain ⟨e, he1, he2⟩ := hex
      exact Or.inr ⟨e, he1, he2, Nat.zero_le _⟩
    · left
      intro e he hea
      exact hex ⟨e, he, hea⟩
  | succ j ih =>
    rw [Function.iterate_succ_apply']
    generalize (fun t : G2HostCache => t.asyncOnFailure a)^[j] s = t at ih
    obtain ⟨it, hmax, hcase⟩ := ih
    rcases hcase with hno | ⟨e, he1, he2, he3⟩
    · rw [asyncOnFailure_absent a (find_none_of_not_cached a hno)]
      exact ⟨it, hmax, Or.inl hno⟩
    · obtain ⟨n, hf, hm, hn⟩ := find_eq_of_mem_hosts it e he1
      rw [he2] at hf
      by_cases hlt : e.m_nFailures < t.m_nMaxFailures
      · obtain ⟨r1, r2, _, _, _, _⟩ := reinsert_slots it n hm e hn e.m_tTimestamp
          (e.m_nFailures + 1) hlt _ (asyncOnFailure_bump it a n e hf hn hlt)
        obtain ⟨_, _, _, _, _, _, _, _, rmax⟩ := reinsert_facts it n hm e hn e.m_tTimestamp
          (e.m_nFailures + 1) hlt
        rw [asyncOnFailure_bump it a n e hf hn hlt]
        rw [asyncOnFailure_bump it a n e hf hn hlt] at r1 r2
        refine ⟨r1, by rw [rmax.2, hmax], Or.inr ⟨e.clone e.m_tTimestamp (e.m_nFailures + 1), ?_, ?_, ?_⟩⟩
        · have : e.clone e.m_tTimestamp (e.m_nFailures + 1) ∈
              [e.clone e.m_tTimestamp (e.m_nFailures + 1)] := List.mem_singleton.2 rfl
          rw [← r2] at this
          exact (List.mem_filter.1 this).1
        · exact he2
        · show j + 1 ≤ e.m_nFailures + 1
          omega
      · rw [asyncOnFailure_drop a n e hf hn hlt]
        obtain ⟨r1, r2, _, _⟩ := remove_slots it n hm e hn
        rw [he2] at r2
        exact ⟨r1, hmax, Or.inl r2⟩

/-- C13: on a reachable state, after `onFailure(addr)` has been applied `maxFailures + 1` times
no host with the address is cached; a maintenance pass with the unchanged failure limit then
ends, and no host with the address is cached after it. -/
theorem C13_onFailure_evicts (W : World) (v : Nat) (s : G2HostCache) (h : Reachable W v s)
    (a : CEndPoint) (x : G2HostCacheHost) (_hx : x ∈ s.hosts) (_hxa : x.m_oAddress = a)
    (cfg : Settings) (tNow : Nat) (bWritten : Bool)
    (hcfg : cfg.FailureLimit % 256 = s.m_nMaxFailures) :
    (∀ e ∈ ((fun t : G2HostCache => t.asyncOnFailure a)^[s.m_nMaxFailures + 1] s).hosts,
        e.m_oAddress ≠ a) ∧
      (∃ t, ((fun t : G2HostCache => t.asyncOnFailure a)^[s.m_nMaxFailures + 1] s).maintain
        cfg tNow bWritten = some t) ∧
      ∀ t, ((fun t : G2HostCache => t.asyncOnFailure a)^[s.m_nMaxFailures + 1] s).maintain
        cfg tNow bWritten = some t → ∀ e ∈ t.hosts, e.m_oAddress ≠ a := by
  have hi := h.inv
  obtain ⟨i1, m1, hcase⟩ := onFailure_iterate hi a (s.m_nMaxFailures + 1)
  have hgone : ∀ e ∈ ((fun t : G2HostCache => t.asyncOnFailure a)^[s.m_nMaxFailures + 1] s).hosts,
      e.m_oAddress ≠ a := by
    rcases hcase with hno | ⟨e, he1, _, he3⟩
    · exact hno
    · exfalso
      have := i1.host_failures_le e he1
      omega
  refine ⟨hgone, ?_, ?_⟩
  · exact (maintainInternal_spec i1 cfg tNow bWritten).1 (by have := hi.max_le; omega)
  · intro t ht e he hea
    have hk := maintainInternal_keys_subset cfg tNow bWritten _ t ht e.key
      (key_mem_of_mem_hosts _ e he)
    obtain ⟨e0, he0, hke⟩ := host_of_key_mem _ _ hk
    apply hgone e0 he0
    have : e0.key.address = e.key.address := by rw [hke]
    simpa [G2HostCacheHost.key, hea] using this

/-- The statement of C13 on the cache `exCacheA`: host A after four `onFailure(A)`. -/
theorem C13_onFailure_evicts_witness :
    (G2HostCacheHost.create ⟨7, 6346⟩ 100 0 ∈ exCacheA.hosts ∧
      (G2HostCacheHost.create ⟨7, 6346⟩ 100 0).m_oAddress = ⟨7, 6346⟩ ∧
      exSettings.FailureLimit % 256 = exCacheA.m_nMaxFailures ∧ Reachable exWorld 0 exCacheA) ∧
    ((∀ e ∈ ((fun t : G2HostCache => t.asyncOnFailure ⟨7, 6346⟩)^[exCacheA.m_nMaxFailures + 1]
          exCacheA).hosts, e.m_oAddress ≠ ⟨7, 6346⟩) ∧
      (∃ t, ((fun t : G2HostCache => t.asyncOnFailure ⟨7, 6346⟩)^[exCacheA.m_nMaxFailures + 1]
          exCacheA).maintain exSettings 2000 true = some t) ∧
      ∀ t, ((fun t : G2HostCache => t.asyncOnFailure ⟨7, 6346⟩)^[exCacheA.m_nMaxFailures + 1]
          exCacheA).maintain exSettings 2000 true = some t →
        ∀ e ∈ t.hosts, e.m_oAddress ≠ ⟨7, 6346⟩) :=
  ⟨⟨by decide, by decide, by decide, exCacheA_reachable⟩,
    C13_onFailure_evicts exWorld 0 exCacheA exCacheA_reachable ⟨7, 6346⟩
      (G2HostCacheHost.create ⟨7, 6346⟩ 100 0) (by decide) (by decide) exSettings 2000 true
      (by decide)⟩


/-! ## The scan of `getConnectable` -/

/-- A match of the scan is the first candidate of the list. -/
theorem scanConnectable_some (W : World) (ex : List Nat) (c : String) (l : List Node) (n : Node)
    (h : scanConnectable W ex (c != "ZZ") c l = some n) :
    ∃ pre post, l = pre ++ n :: post ∧ isCandidate W ex c n = true ∧
      ∀ m ∈ pre, isCandidate W ex c m = false := by
  induction l with
  | nil => simp [scanConnectable] at h
  | cons a r ih =>
    unfold scanConnectable at h
    cases hx : a.host with
    | none =>
      simp only [hx] at h
      obtain ⟨pre, post, h1, h2, h3⟩ := ih h
      refine ⟨a :: pre, post, by rw [h1]; rfl, h2, ?_⟩
      intro m hm
      rcases List.mem_cons.1 hm with rfl | hm
      · simp [isCandidate, hx]
      · exact h3 m hm
    | some x =>
      simp only [hx] at h
      split_ifs at h with c1 c2
      · obtain ⟨pre, post, h1, h2, h3⟩ := ih h
        refine ⟨a :: pre, post, by rw [h1]; rfl, h2, ?_⟩
        intro m hm
        rcases List.mem_cons.1 hm with rfl | hm
        · simp only [Bool.and_eq_true, bne_iff_ne, ne_eq] at c1
          simp [isCandidate, hx, c1.1, c1.2]
        · exact h3 m hm
      · cases h
        refine ⟨[], r, rfl, ?_, fun m hm => by cases hm⟩
        simp only [Bool.and_eq_true, bne_iff_ne, ne_eq, not_and, not_not] at c1
        simp only [isCandidate, hx, Bool.and_eq_true, Bool.or_eq_true, beq_iff_eq]
        refine ⟨by simpa using c2, ?_⟩
        by_cases hz : c = "ZZ"
        · exact Or.inl hz
        · exact Or.inr (c1 hz)
      · obtain ⟨pre, post, h1, h2, h3⟩ := ih h
        refine ⟨a :: pre, post, by rw [h1]; rfl, h2, ?_⟩
        intro m hm
        rcases List.mem_cons.1 hm with rfl | hm
        · simp only [isCandidate, hx]
          cases hb : (x.m_bConnectable && !ex.contains m.id) with
          | false => rfl
          | true => exact absurd hb c2
        · exact h3 m hm

/-- The second attempt of `getConnectable`: when the flag is clear, the first scan finds
nothing and the scan after the maintenance pass finds a host, that host is returned and the
flag stays set. -/
theorem getConnectable_second_attempt (W : World) (cfg : Settings) (tNow : Nat) (b : Bool)
    {s s1 : G2HostCache} (hi : Inv s) (ex : List Nat) (c : String) (n : Node)
    (hsz : s.m_nSizeAtomic ≠ 0) (hflag : s.bSecondAttempt = false)
    (h1 : scanConnectable W ex (c != "ZZ") c s.m_lHosts = none)
    (hm : s.maintainInternal cfg tNow b = some s1)
    (h2 : scanConnectable W ex false "ZZ" s1.m_lHosts = some n) :
    s.getConnectable W cfg tNow b ex c = some ({ s1 with bSecondAttempt := true }, some n) := by
  have i1 := ((maintainInternal_spec hi cfg tNow b).2 s1 hm).1
  have hz : ("ZZ" != "ZZ") = false := by decide
  obtain ⟨pre, post, hl, hc, _⟩ := scanConnectable_some W ex "ZZ" s1.m_lHosts n (by rw [hz]; exact h2)
  have hs1 : s1.m_nSizeAtomic ≠ 0 := by
    rw [i1.size_eq, hl]
    have hn : n.isHost = true := by
      unfold isCandidate at hc
      unfold Node.isHost
      cases hx : n.host with
      | none => simp [hx] at hc
      | some x => rfl
    simp [List.filter_append, List.filter_cons, hn]
    omega
  simp only [G2HostCache.getConnectable, G2HostCache.getConnectableAux, hsz, if_false, h1, hflag,
    hm, hs1, hz, h2]
  simp

/-- C16: when the first scan of `getConnectable(oExcept, sCountry)` on a reachable state finds
the cell `n`, the call returns `n`; `n` is the first cell in sequence order that is a real entry
flagged connectable, not in the except set and (unless the country is "ZZ") of the requested
country; and no other such entry has fewer failures, or equal failures and a strictly greater
timestamp. -/
theorem C16_first_scan (W : World) (v : Nat) (s : G2HostCache) (h : Reachable W v s)
    (cfg : Settings) (tNow : Nat) (bWritten : Bool) (oExcept : List Nat) (sCountry : String)
    (n : Node)
    (hscan : scanConnectable W oExcept (sCountry != "ZZ") sCountry s.m_lHosts = some n) :
    s.getConnectable W cfg tNow bWritten oExcept sCountry = some (s, some n) ∧
      isCandidate W oExcept sCountry n = true ∧
      (∃ pre post, s.m_lHosts = pre ++ n :: post ∧
        ∀ m ∈ pre, isCandidate W oExcept sCountry m = false) ∧
      ∀ m ∈ s.m_lHosts, isCandidate W oExcept sCountry m = true →
        ∀ x y, n.host = some x → m.host = some y →
          ¬ y.m_nFailures < x.m_nFailures ∧
            ¬ (y.m_nFailures = x.m_nFailures ∧ x.m_tTimestamp < y.m_tTimestamp) := by
  have hi := h.inv
  obtain ⟨pre, post, hl, hc, hpre⟩ := scanConnectable_some W oExcept sCountry s.m_lHosts n hscan
  have hn : n.isHost = true := by
    unfold isCandidate at hc
    unfold Node.isHost
    cases hx : n.host with
    | none => simp [hx] at hc
    | some x => rfl
  have hsz : s.m_nSizeAtomic ≠ 0 := by
    rw [hi.size_eq, hl]
    simp [List.filter_append, List.filter_cons, hn]
    omega
  refine ⟨?_, hc, ⟨pre, post, hl, hpre⟩, ?_⟩
  · simp only [G2HostCache.getConnectable, G2HostCache.getConnectableAux, hsz, if_false, hscan]
  · intro m hm hcm x y hx hy
    rw [hl] at hm
    rcases List.mem_append.1 hm with hm | hm
    · rw [hpre m hm] at hcm
      cases hcm
    · rcases List.mem_cons.1 hm with rfl | hm
      · rw [hx] at hy
        cases hy
        omega
      · have ho := hi.hosts_ordered
        unfold G2HostCache.hosts at ho
        rw [hl, hosts_append, List.filterMap_cons, hx] at ho
        have ho2 := (List.pairwise_append.1 ho).2.1
        have := (List.pairwise_cons.1 ho2).1 y ((mem_hosts_iff post y).2 ⟨m, hm, hy⟩)
        omega

theorem exCacheG_reachable : Reachable exWorld 0 exCacheG :=
  Reachable.getConnectable exSettings 2000 true [] "US" exCache exCacheG
    (some ⟨6, some { G2HostCacheHost.create ⟨2, 6346⟩ 400 0 with m_bConnectable := true }⟩)
    exCache_reachable (by decide)

/-- The statement of C16 on the cache `exCacheG`, whose two hosts are flagged connectable: the
scan returns the host with timestamp 400, which precedes the host with timestamp 300. -/
theorem C16_first_scan_witness :
    Reachable exWorld 0 exCacheG ∧
      scanConnectable exWorld [] ("ZZ" != "ZZ") "ZZ" exCacheG.m_lHosts =
        some ⟨6, some { G2HostCacheHost.create ⟨2, 6346⟩ 400 0 with m_bConnectable := true }⟩ ∧
      exCacheG.hosts =
        [{ G2HostCacheHost.create ⟨2, 6346⟩ 400 0 with m_bConnectable := true },
         { G2HostCacheHost.create ⟨1, 6346⟩ 300 0 with m_bConnectable := true }] ∧
      (exCacheG.getConnectable exWorld exSettings 2000 true [] "ZZ" = some (exCacheG,
          some ⟨6, some { G2HostCacheHost.create ⟨2, 6346⟩ 400 0 with m_bConnectable := true }⟩) ∧
        isCandidate exWorld [] "ZZ"
          ⟨6, some { G2HostCacheHost.create ⟨2, 6346⟩ 400 0 with m_bConnectable := true }⟩ = true ∧
        (∃ pre post, exCacheG.m_lHosts = pre ++
            (⟨6, some { G2HostCacheHost.create ⟨2, 6346⟩ 400 0 with m_bConnectable := true }⟩ :
              Node) :: post ∧
          ∀ m ∈ pre, isCandidate exWorld [] "ZZ" m = false) ∧
        ∀ m ∈ exCacheG.m_lHosts, isCandidate exWorld [] "ZZ" m = true →
          ∀ x y, (⟨6, some { G2HostCacheHost.create ⟨2, 6346⟩ 400 0 with
              m_bConnectable := true }⟩ : Node).host = some x → m.host = some y →
            ¬ y.m_nFailures < x.m_nFailures ∧
              ¬ (y.m_nFailures = x.m_nFailures ∧ x.m_tTimestamp < y.m_tTimestamp)) :=
  ⟨exCacheG_reachable, by decide, by decide,
    C16_first_scan exWorld 0 exCacheG exCacheG_reachable exSettings 2000 true [] "ZZ"
      ⟨6, some { G2HostCacheHost.create ⟨2, 6346⟩ 400 0 with m_bConnectable := true }⟩
      (by decide)⟩

/-- C17: the cache `exCacheG` is reached from `exCache` by `getConnectable(∅, "US")`, which
returned a host on its second attempt.  In `exCacheG` no entry has the country "US", a
maintenance pass at the current time leaves connectable entries outside the except set, and yet
`getConnectable(∅, "US")` returns the null pointer: the flag left set by the earlier call makes
it give up after the first scan. -/
theorem C17_second_call_returns_null :
    Reachable exWorld 0 exCacheG ∧
      exCache.getConnectable exWorld exSettings 2000 true [] "US" = some (exCacheG,
        some ⟨6, some { G2HostCacheHost.create ⟨2, 6346⟩ 400 0 with m_bConnectable := true }⟩) ∧
      exCacheG.bSecondAttempt = true ∧
      (∀ m ∈ exCacheG.m_lHosts, isCandidate exWorld [] "US" m = false) ∧
      (∃ t, exCacheG.maintainInternal exSettings 2000 true = some t ∧
        ∃ m ∈ t.m_lHosts, isCandidate exWorld [] "ZZ" m = true) ∧
      exCacheG.getConnectable exWorld exSettings 2000 true [] "US" =
        some ({ exCacheG with bSecondAttempt := false }, none) :=
  ⟨exCacheG_reachable, by decide, by decide, by decide,
    ⟨(exCacheG.maintainInternal exSettings 2000 true).getD exCacheG, by decide, by decide⟩,
    by decide⟩


/-! ## The header built by `getXTry` -/

theorem xTryAppend_data (f : CEndPoint → String) (g : Nat → String) (acc : String)
    (h : G2HostCacheHost) :
    (xTryAppend f g acc h).data = acc.data ++ ((xTryItem f g h).data ++ [',']) := by
  simp [xTryAppend, xTryItem, String.data_append]

theorem getXTryWalk_data (f : CEndPoint → String) (g : Nat → String) (l : List Node) (c : Nat)
    (nf : Int) (acc : String) :
    (getXTryWalk f g l c nf acc).data =
      acc.data ++ ((xTryHosts l c nf).map (fun h => (xTryItem f g h).data ++ [','])).flatten := by
  induction l generalizing c nf acc with
  | nil => simp [getXTryWalk, xTryHosts]
  | cons n r ih =>
    unfold getXTryWalk xTryHosts
    cases hx : n.host with
    | none =>
      dsimp only
      split_ifs
      · simp
      · exact ih _ _ _
    | some x =>
      dsimp only
      split_ifs
      · simp [xTryAppend_data]
      · rw [ih, xTryAppend_data]
        simp

theorem intercalate_go_data (sep : String) (acc : String) (l : List String) :
    (String.intercalate.go acc sep l).data =
      acc.data ++ (l.map (fun a => sep.data ++ a.data)).flatten := by
  induction l generalizing acc with
  | nil => simp [String.intercalate.go]
  | cons a r ih =>
    rw [String.intercalate.go, ih]
    simp [String.data_append]

theorem join_items_dropLast (d : G2HostCacheHost → List Char) (c : Char) (x : G2HostCacheHost)
    (xs : List G2HostCacheHost) :
    (((x :: xs).map (fun h => d h ++ [c])).flatten).dropLast =
      d x ++ (xs.map (fun h => c :: d h)).flatten := by
  induction xs generalizing x with
  | nil => simp
  | cons y ys ih =>
    have h1 : ((x :: y :: ys).map (fun h => d h ++ [c])).flatten =
        (d x ++ [c]) ++ ((y :: ys).map (fun h => d h ++ [c])).flatten := by simp
    have hne : ((y :: ys).map (fun h => d h ++ [c])).flatten ≠ [] := by simp
    rw [h1, List.dropLast_append_of_ne_nil _ hne, ih]
    simp

/-- The header for a non-empty list of emitted hosts: the items joined by commas. -/
theorem header_eq (f : CEndPoint → String) (g : Nat → String) (x : G2HostCacheHost)
    (xs : List G2HostCacheHost) (sReturn : String)
    (h : sReturn.data = ((x :: xs).map (fun h => (xTryItem f g h).data ++ [','])).flatten) :
    String.mk sReturn.data.dropLast = ",".intercalate ((x :: xs).map (xTryItem f g)) := by
  apply String.ext
  rw [h, join_items_dropLast]
  show _ = (String.intercalate.go (xTryItem f g x) "," (xs.map (xTryItem f g))).data
  rw [intercalate_go_data]
  simp [Function.comp_def]

/-- The member `getXTry` in terms of the hosts its loop emits. -/
theorem getXTry_eq (f : CEndPoint → String) (g : Nat → String) (s : G2HostCache) :
    getXTry f g s =
      if s.m_nSizeAtomic = 0 ∨ xTryHosts s.m_lHosts 0 (-1) = [] then ""
      else "X-Try-Hubs: " ++ ",".intercalate ((xTryHosts s.m_lHosts 0 (-1)).map (xTryItem f g)) := by
  unfold G2HostCache.getXTry
  by_cases hz : s.m_nSizeAtomic = 0
  · simp [hz]
  · have hd := getXTryWalk_data f g s.m_lHosts 0 (-1) ""
    simp only [hz, if_false, false_or]
    cases hh : xTryHosts s.m_lHosts 0 (-1) with
    | nil =>
      rw [hh] at hd
      have : getXTryWalk f g s.m_lHosts 0 (-1) "" = "" := String.ext (by rw [hd]; rfl)
      rw [this]
      rfl
    | cons x xs =>
      rw [hh] at hd
      have hne : getXTryWalk f g s.m_lHosts 0 (-1) "" ≠ "" := by
        intro he
        rw [he] at hd
        simp at hd
      have he : (getXTryWalk f g s.m_lHosts 0 (-1) "").isEmpty = false := by
        cases hb : (getXTryWalk f g s.m_lHosts 0 (-1) "").isEmpty with
        | false => rfl
        | true => exact absurd ((String.isEmpty_iff _).1 hb) hne
      simp only [he, if_false, Bool.false_eq_true, reduceCtorEq]
      rw [header_eq f g x xs _ (by simpa using hd)]

theorem xTryHosts_length (l : List Node) (c : Nat) (nf : Int) (hc : c < 10) :
    (xTryHosts l c nf).length + c ≤ 10 := by
  induction l generalizing c nf with
  | nil => simp [xTryHosts]; omega
  | cons n r ih =>
    unfold xTryHosts
    cases hx : n.host with
    | none =>
      dsimp only
      split_ifs
      · simp; omega
      · exact ih _ _ hc
    | some x =>
      dsimp only
      split_ifs with h10
      · simp; omega
      · have := ih (c + 1) nf (by omega)
        simp only [List.length_cons]
        omega

theorem xTryHosts_take (l : List Node) (c : Nat) (nf : Int) :
    xTryHosts l c nf = (l.filterMap Node.host).take (xTryHosts l c nf).length := by
  induction l generalizing c nf with
  | nil => simp [xTryHosts]
  | cons n r ih =>
    unfold xTryHosts
    cases hx : n.host with
    | none =>
      dsimp only
      rw [hosts_cons_ap n r hx]
      split_ifs
      · simp
      · exact ih _ _
    | some x =>
      dsimp only
      rw [List.filterMap_cons, hx]
      split_ifs
      · simp
      · simp only [List.length_cons, List.take_succ_cons]
        rw [← ih]

/-- Once the counter of access points is zero, the loop emits the hosts up to the next access
point, ten at most. -/
theorem xTryHosts_bucket (mid : List Node) (y : Node) (rest : List Node) (c : Nat)
    (hc : c < 10) (hmid : ∀ m ∈ mid, ∃ e, m.host = some e) (hy : y.host = none) :
    xTryHosts (mid ++ y :: rest) c 0 = (mid.filterMap Node.host).take (10 - c) := by
  induction mid generalizing c with
  | nil =>
    simp [xTryHosts, hy]
  | cons m r ih =>
    obtain ⟨e, he⟩ := hmid m (List.mem_cons_self _ _)
    rw [List.cons_append]
    unfold xTryHosts
    simp only [he, List.filterMap_cons]
    split_ifs with h10
    · have : 10 - c = 1 := by omega
      rw [this]
      simp
    · rw [ih (c + 1) (by omega) (fun m hm => hmid m (List.mem_cons_of_mem _ hm))]
      have : 10 - c = (10 - (c + 1)) + 1 := by omega
      rw [this, List.take_succ_cons]

/-- In a state that satisfies the invariant the loop of `getXTry` emits the first ten hosts of
bucket 0, and the hosts of the cache start with bucket 0. -/
theorem xTryHosts_inv {s : G2HostCache} (hi : Inv s) :
    xTryHosts s.m_lHosts 0 (-1) = (s.bucket 0).take 10 ∧
      ∃ rest, s.hosts = s.bucket 0 ++ rest := by
  obtain ⟨pre, x, mid, y, rest, h1, hx, hy, hpre, hmid, hbk⟩ := bucket_split hi 0 (Nat.zero_le _)
  obtain ⟨n, r, hn1, hn2, _⟩ := hi.first_slot
  have hp : pre = [] := by
    cases pre with
    | nil => rfl
    | cons p ps =>
      rw [hn1, List.cons_append] at h1
      have : n = p := (List.cons.inj h1).1
      rw [← this, apIds_cons_ap n ps hn2] at hpre
      simp at hpre
  subst hp
  rw [List.nil_append] at h1
  refine ⟨?_, rest.filterMap Node.host, ?_⟩
  · rw [h1, hbk]
    unfold xTryHosts
    simp only [hx]
    have : ((-1 : Int) = 0) = False := by simp
    simp only [this, if_false]
    exact xTryHosts_bucket mid y rest 0 (by omega) hmid hy
  · unfold G2HostCache.hosts
    rw [h1, hosts_cons_ap x _ hx, hosts_append, hosts_cons_ap y _ hy, hbk]

theorem length_filter_isHost (l : List Node) :
    (l.filter Node.isHost).length = (l.filterMap Node.host).length := by
  induction l with
  | nil => rfl
  | cons n r ih =>
    cases hx : n.host with
    | none => simp [List.filter_cons, List.filterMap_cons, Node.isHost, hx, ih]
    | some x => simp [List.filter_cons, List.filterMap_cons, Node.isHost, hx, ih]

theorem exCacheB_reachable : Reachable exWorld 0 exCacheB :=
  Reachable.onFailure _ _ exCache_reachable

/-- C18 as stated fails: in the reachable cache `exCacheB` bucket 0 and bucket 1 hold one host
each, so the first `min(10, n0 + n1)` real entries are both hosts, but `getXTry` emits the host
of bucket 0 only. -/
theorem C18_counterexample :
    Reachable exWorld 0 exCacheB ∧
      exCacheB.bucket 0 = [G2HostCacheHost.create ⟨2, 6346⟩ 400 0] ∧
      exCacheB.bucket 1 = [G2HostCacheHost.create ⟨1, 6346⟩ 300 1] ∧
      exCacheB.hosts.take (min 10 ((exCacheB.bucket 0).length + (exCacheB.bucket 1).length)) =
        [G2HostCacheHost.create ⟨2, 6346⟩ 400 0, G2HostCacheHost.create ⟨1, 6346⟩ 300 1] ∧
      getXTry exToStringWithPort exToTimeString exCacheB = "X-Try-Hubs: 2:6346 400" ∧
      getXTry exToStringWithPort exToTimeString exCacheB ≠
        "X-Try-Hubs: " ++ ",".intercalate ((exCacheB.hosts.take (min 10
          ((exCacheB.bucket 0).length + (exCacheB.bucket 1).length))).map
            (xTryItem exToStringWithPort exToTimeString)) :=
  ⟨exCacheB_reachable, by decide, by decide, by decide, by decide, by decide⟩

/-- C18 (amended): on a reachable state `getXTry` emits entries of the `failures == 0` bucket
only, stopping at the second access point: the header is empty when bucket 0 is empty, and
otherwise lists the first `min(10, n0)` real entries of the sequence, which are the first ten
hosts of bucket 0 and all have no failure. -/
theorem C18_getXTry_bucket_zero (f : CEndPoint → String) (g : Nat → String) (W : World)
    (v : Nat) (s : G2HostCache) (h : Reachable W v s) :
    getXTry f g s =
        (if s.bucket 0 = [] then ""
         else "X-Try-Hubs: " ++ ",".intercalate (((s.bucket 0).take 10).map (xTryItem f g))) ∧
      (s.bucket 0).take 10 = s.hosts.take (min 10 (s.bucket 0).length) ∧
      ∀ e ∈ (s.bucket 0).take 10, e.m_nFailures = 0 := by
  have hi := h.inv
  obtain ⟨h1, rest, h2⟩ := xTryHosts_inv hi
  refine ⟨?_, ?_, ?_⟩
  · rw [getXTry_eq, h1]
    by_cases hb : s.bucket 0 = []
    · simp [hb]
    · have hz : s.m_nSizeAtomic ≠ 0 := by
        rw [hi.size_eq]
        have hlen : (s.m_lHosts.filter Node.isHost).length = s.hosts.length :=
          length_filter_isHost s.m_lHosts
        cases hb0 : s.bucket 0 with
        | nil => exact absurd hb0 hb
        | cons a r =>
          rw [hlen, h2, hb0]
          simp
          omega
      have ht : ¬ (s.bucket 0).take 10 = [] := by
        cases hb0 : s.bucket 0 with
        | nil => exact absurd hb0 hb
        | cons a r => simp
      simp only [hz, ht, hb, if_false, false_or]
  · rw [h2, List.take_append_of_le_length (Nat.min_le_right _ _), List.take_eq_take]
    simp
  · intro e he
    have he' := List.mem_of_mem_take he
    rw [hi.bucket_eq 0 (Nat.zero_le _), List.mem_filter] at he'
    simpa using he'.2

/-- The statement of C18 (amended) on the cache `exCacheB`: only the host of bucket 0 is
listed. -/
theorem C18_getXTry_bucket_zero_witness :
    Reachable exWorld 0 exCacheB ∧
      exCacheB.bucket 0 = [G2HostCacheHost.create ⟨2, 6346⟩ 400 0] ∧
      (getXTry exToStringWithPort exToTimeString exCacheB =
          (if exCacheB.bucket 0 = [] then ""
           else "X-Try-Hubs: " ++ ",".intercalate (((exCacheB.bucket 0).take 10).map
             (xTryItem exToStringWithPort exToTimeString))) ∧
        (exCacheB.bucket 0).take 10 = exCacheB.hosts.take (min 10 (exCacheB.bucket 0).length) ∧
        ∀ e ∈ (exCacheB.bucket 0).take 10, e.m_nFailures = 0) :=
  ⟨exCacheB_reachable, by decide,
    C18_getXTry_bucket_zero exToStringWithPort exToTimeString exWorld 0 exCacheB
      exCacheB_reachable⟩

/-- C19: for every cache state `getXTry` returns the empty string, in particular when the size
is zero, or the text "X-Try-Hubs: " followed by between 1 and 10 items "address timestamp"
joined by single commas, with no trailing comma; the items are those of the first hosts in
sequence order, and in a reachable state their timestamps descend. -/
theorem C19_getXTry_format (f : CEndPoint → String) (g : Nat → String) (s : G2HostCache) :
    (s.m_nSizeAtomic = 0 → getXTry f g s = "") ∧
      (getXTry f g s = "" ∨
        ∃ hs : List G2HostCacheHost, 1 ≤ hs.length ∧ hs.length ≤ 10 ∧
          hs = s.hosts.take hs.length ∧
          getXTry f g s = "X-Try-Hubs: " ++ ",".intercalate (hs.map (xTryItem f g)) ∧
          ∀ (W : World) (v : Nat), Reachable W v s →
            hs.Pairwise (fun a b => b.m_tTimestamp ≤ a.m_tTimestamp)) := by
  refine ⟨fun hz => by simp [G2HostCache.getXTry, hz], ?_⟩
  rw [getXTry_eq]
  by_cases hc : s.m_nSizeAtomic = 0 ∨ xTryHosts s.m_lHosts 0 (-1) = []
  · left
    simp only [hc, if_true]
  · right
    simp only [hc, if_false]
    refine ⟨xTryHosts s.m_lHosts 0 (-1), ?_, ?_, xTryHosts_take _ _ _, rfl, ?_⟩
    · cases hh : xTryHosts s.m_lHosts 0 (-1) with
      | nil => exact absurd (Or.inr hh) hc
      | cons a r => simp
    · have := xTryHosts_length s.m_lHosts 0 (-1) (by omega)
      omega
    · intro W v hr
      rw [(xTryHosts_inv hr.inv).1]
      exact (hr.inv.bucket_sorted 0).sublist (List.take_sublist _ _)

/-- The statement of C19 on the cache `exCache`, whose two hosts have no failure and the
timestamps 300 and 400: the items are emitted in the order 400, 300. -/
theorem C19_getXTry_format_witness :
    Reachable exWorld 0 exCache ∧
      getXTry exToStringWithPort exToTimeString exCache = "X-Try-Hubs: 2:6346 400,1:6346 300" ∧
      ((exCache.m_nSizeAtomic = 0 → getXTry exToStringWithPort exToTimeString exCache = "") ∧
        (getXTry exToStringWithPort exToTimeString exCache = "" ∨
          ∃ hs : List G2HostCacheHost, 1 ≤ hs.length ∧ hs.length ≤ 10 ∧
            hs = exCache.hosts.take hs.length ∧
            getXTry exToStringWithPort exToTimeString exCache =
              "X-Try-Hubs: " ++ ",".intercalate
                (hs.map (xTryItem exToStringWithPort exToTimeString)) ∧
            ∀ (W : World) (v : Nat), Reachable W v exCache →
              hs.Pairwise (fun a b => b.m_tTimestamp ≤ a.m_tTimestamp))) :=
  ⟨exCache_reachable, by decide,
    C19_getXTry_format exToStringWithPort exToTimeString exCache⟩


/-! ## Every cached address was accepted by `addSyncHelper` -/

theorem AddrOK.of_subset_ok {W : World} {l l' : List Node} (h : AddrOK W l)
    (hs : ∀ k, some k ∈ keys l' → some k ∈ keys l) : AddrOK W l' :=
  fun k hk => h k (hs k hk)

theorem AddrOK.of_sublist_ok {W : World} {l l' : List Node} (h : AddrOK W l)
    (hs : l'.Sublist l) : AddrOK W l' :=
  h.of_subset_ok (fun _ hk => (hs.map Node.key).subset hk)

theorem AddrOK.of_keys_eq_ok {W : World} {l l' : List Node} (h : AddrOK W l)
    (hk : keys l' = keys l) : AddrOK W l' :=
  h.of_subset_ok (fun _ hm => by rw [← hk]; exact hm)

theorem AddrOK.of_host_ok {W : World} {l : List Node} (h : AddrOK W l) (n : Node) (hn : n ∈ l)
    (x : G2HostCacheHost) (hx : n.host = some x) :
    W.isValid x.m_oAddress = true ∧ W.isFirewalled x.m_oAddress = false := by
  have : some x.key ∈ keys l := by
    rw [← key_of_host n x hx]
    exact List.mem_map_of_mem _ hn
  exact h _ this

theorem AddrOK.insert_ok {W : World} {s : G2HostCache} (h : AddrOK W s.m_lHosts)
    (p : G2HostCacheHost)
    (hp : W.isValid p.m_oAddress = true ∧ W.isFirewalled p.m_oAddress = false) :
    AddrOK W (s.insert p).m_lHosts := by
  unfold G2HostCache.insert
  split
  · exact h
  · rename_i ap hap
    split
    · exact h
    · rename_i a r hr
      obtain ⟨p1, p2, h1, h2, _, _⟩ := insertWalk_spec ⟨s.m_nNextNode, some p⟩ p.m_tTimestamp r
      have hsplit := nodes_split ap s.m_lHosts
      rw [hr, h1] at hsplit
      intro k hk
      have hk' : some k ∈ keys (nodesBefore ap s.m_lHosts ++
          a :: insertWalk ⟨s.m_nNextNode, some p⟩ p.m_tTimestamp r) := hk
      rw [h2] at hk'
      simp only [keys, List.map_append, List.map_cons, List.mem_append, List.mem_cons] at hk'
      have hold : ∀ q, q ∈ keys s.m_lHosts → q = some k →
          W.isValid k.address = true ∧ W.isFirewalled k.address = false := by
        intro q hq he
        rw [he] at hq
        exact h k hq
      rw [← hsplit] at hold
      simp only [keys, List.map_append, List.map_cons, List.mem_append, List.mem_cons] at hold
      rcases hk' with hk' | hk' | hk' | hk' | hk'
      · exact hold _ (Or.inl hk') rfl
      · exact hold _ (Or.inr (Or.inl rfl)) hk'.symm
      · exact hold _ (Or.inr (Or.inr (Or.inl hk'))) rfl
      · have : k = p.key := by
          simpa [Node.key] using hk'
        rw [this]
        exact hp
      · exact hold _ (Or.inr (Or.inr (Or.inr hk'))) rfl

theorem AddrOK.remove_ok {W : World} {s : G2HostCache} (h : AddrOK W s.m_lHosts) (it : Nat) :
    AddrOK W (s.remove it).m_lHosts :=
  h.of_sublist_ok (eraseNode_sublist it s.m_lHosts)

theorem AddrOK.addSyncHelper_ok {W : World} {s : G2HostCache} (h : AddrOK W s.m_lHosts)
    (d : CEndPoint → Bool) (a : CEndPoint) (ts now f : Nat) :
    AddrOK W (s.addSyncHelper W d a ts now f).1.m_lHosts := by
  by_cases hr : W.isValid a = false ∨ W.isFirewalled a = true ∨ f > s.m_nMaxFailures ∨
      d a = true ∨ a = s.m_oLokalAddress
  · rw [addSyncHelper_reject W d s a ts now f hr]
    exact h
  · simp only [not_or, Bool.not_eq_false, Bool.not_eq_true, not_lt] at hr
    obtain ⟨c1, c2, c3, c4, c5⟩ := hr
    have key : ∀ ts', AddrOK W (match s.find a with
        | some itPrevious =>
          match itPrevious.host with
          | some pHost => s.update itPrevious.id pHost ts' f
          | none => (s, none)
        | none => (s.insert (G2HostCacheHost.create a ts' (f % 256)),
            some s.m_nNextNode)).1.m_lHosts := by
      intro ts'
      cases hn : s.find a with
      | none => exact AddrOK.insert_ok h _ ⟨c1, c2⟩
      | some n =>
        obtain ⟨hmem, x, hx, hxa⟩ := findNode_some a s.m_lHosts n hn
        dsimp only
        rw [hx]
        dsimp only
        unfold G2HostCache.update
        dsimp only
        rw [if_pos c3]
        show AddrOK W ((s.remove n.id).insert (x.clone ts' (f % 256))).m_lHosts
        exact AddrOK.insert_ok (h.remove_ok n.id) _ (by
          show W.isValid x.m_oAddress = true ∧ W.isFirewalled x.m_oAddress = false
          rw [hxa]
          exact ⟨c1, c2⟩)
    simp only [G2HostCache.addSyncHelper, c1, c2, c4, c5, Bool.not_true, Bool.false_eq_true,
      if_false, not_lt.2 c3]
    exact key _

theorem AddrOK.asyncOnFailure_ok {W : World} {s : G2HostCache} (h : AddrOK W s.m_lHosts)
    (a : CEndPoint) : AddrOK W (s.asyncOnFailure a).m_lHosts := by
  unfold G2HostCache.asyncOnFailure
  split
  · rename_i n hn
    obtain ⟨hmem, x, hx, hxa⟩ := findNode_some a s.m_lHosts n hn
    simp only [hx]
    split_ifs
    · exact AddrOK.insert_ok (h.remove_ok n.id) _ (h.of_host_ok n hmem x hx)
    · exact h.remove_ok n.id
  · exact h

theorem AddrOK.asyncUpdateFailures_ok {W : World} {s : G2HostCache} (h : AddrOK W s.m_lHosts)
    (a : CEndPoint) (f : Nat) : AddrOK W (s.asyncUpdateFailures a f).m_lHosts := by
  unfold G2HostCache.asyncUpdateFailures
  split
  · rename_i n hn
    obtain ⟨hmem, x, hx, hxa⟩ := findNode_some a s.m_lHosts n hn
    simp only [hx]
    split_ifs
    · exact AddrOK.insert_ok (h.remove_ok n.id) _ (h.of_host_ok n hmem x hx)
    · exact h.remove_ok n.id
  · exact h

theorem AddrOK.modify_ok {W : World} {l : List Node} (h : AddrOK W l) (it : Nat)
    (f : G2HostCacheHost → G2HostCacheHost) (hf : ∀ x, (f x).key = x.key) :
    AddrOK W (modifyHost it f l) :=
  h.of_keys_eq_ok (modifyHost_keys it f hf l)

theorem AddrOK.addXTryEntry_ok {W : World} {s : G2HostCache} (h : AddrOK W s.m_lHosts)
    (d : CEndPoint → Bool) (now : Nat) (e : String) :
    AddrOK W (s.addXTryEntry W d now e).m_lHosts := by
  unfold G2HostCache.addXTryEntry
  dsimp only
  repeat' split
  all_goals first | exact h | exact h.addSyncHelper_ok d _ _ now 0

theorem AddrOK.foldXTry_ok {W : World} (d : CEndPoint → Bool) (now : Nat) (es : List String)
    {s : G2HostCache} (h : AddrOK W s.m_lHosts) :
    AddrOK W (es.foldl (G2HostCache.addXTryEntry W d now) s).m_lHosts := by
  induction es generalizing s with
  | nil => exact h
  | cons e es ih => exact ih (h.addXTryEntry_ok d now e)

theorem AddrOK.loadRecord_ok {W : World} {s : G2HostCache} (h : AddrOK W s.m_lHosts)
    (d : CEndPoint → Bool) (now : Nat) (r : HostRecord) (ts : Nat) :
    AddrOK W (s.loadRecord W d now r ts).m_lHosts := by
  unfold G2HostCache.loadRecord
  dsimp only
  split
  · exact (h.addSyncHelper_ok d _ _ now _).modify_ok _ _ (fun _ => rfl)
  · exact h.addSyncHelper_ok d _ _ now _

theorem AddrOK.loadPastEnd_ok {W : World} (d : CEndPoint → Bool) (now : Nat) (e : HostRecord)
    (n : Nat) {s t : G2HostCache} (h : AddrOK W s.m_lHosts)
    (ht : loadPastEnd W d now e n s = some t) : AddrOK W t.m_lHosts := by
  induction n generalizing s with
  | zero =>
    simp only [G2HostCache.loadPastEnd, Option.some.injEq] at ht
    subst ht
    exact h
  | succ n ih =>
    simp only [G2HostCache.loadPastEnd] at ht
    split_ifs at ht
    exact ih (h.loadRecord_ok d now e _) ht

theorem AddrOK.loadLoop_ok {W : World} (d : CEndPoint → Bool) (now : Nat) (e : HostRecord)
    (rs : List HostRecord) (n : Nat) {s t : G2HostCache} (h : AddrOK W s.m_lHosts)
    (ht : loadLoop W d now e rs n s = some t) : AddrOK W t.m_lHosts := by
  induction rs generalizing s n with
  | nil =>
    cases n with
    | zero =>
      simp only [G2HostCache.loadLoop, Option.some.injEq] at ht
      subst ht
      exact h
    | succ n =>
      simp only [G2HostCache.loadLoop] at ht
      exact AddrOK.loadPastEnd_ok d now e _ h ht
  | cons r rs ih =>
    cases n with
    | zero =>
      simp only [G2HostCache.loadLoop, Option.some.injEq] at ht
      subst ht
      exact h
    | succ n =>
      simp only [G2HostCache.loadLoop] at ht
      split_ifs at ht
      · exact ih _ h ht
      · exact ih _ (h.loadRecord_ok d now r _) ht

theorem pruneOldHosts_sublist (cfg : Settings) (s : G2HostCache) (now : Nat) :
    (s.pruneOldHosts cfg now).m_lHosts.Sublist s.m_lHosts := by
  have := (pruneOldWalk_sublist (subU32 now cfg.HostExpire) s.m_lHosts.reverse).reverse
  rw [List.reverse_reverse] at this
  exact this

theorem AddrOK.load_ok {W : World} (d : CEndPoint → Bool) (cfg : Settings) (v now : Nat)
    (file : Option HostFile) {s t : G2HostCache} (h : AddrOK W s.m_lHosts)
    (ht : s.load W d cfg v now file = some t) : AddrOK W t.m_lHosts := by
  unfold G2HostCache.load at ht
  split at ht
  · cases ht
    exact h
  · rename_i f
    dsimp only at ht
    split at ht
    · cases ht
    · rename_i o s1 hs1
      cases ht
      have h1 : AddrOK W s1.m_lHosts := by
        split_ifs at hs1
        · exact AddrOK.loadLoop_ok d now _ _ _ h hs1
        · cases hs1
          exact h
      exact h1.of_sublist_ok (pruneOldHosts_sublist cfg s1 now)

theorem AddrOK.getConnectableAux_ok {W : World} (cfg : Settings) (now : Nat) (b : Bool)
    (fuel : Nat) {s t : G2HostCache} (h : AddrOK W s.m_lHosts) (ex : List Nat) (c : String)
    (r : Option Node) (ht : getConnectableAux W cfg now b fuel s ex c = some (t, r)) :
    AddrOK W t.m_lHosts := by
  induction fuel generalizing s c with
  | zero => simp [G2HostCache.getConnectableAux] at ht
  | succ fuel ih =>
    simp only [G2HostCache.getConnectableAux] at ht
    split at ht
    · cases ht
      exact h
    · split at ht
      · cases ht
        exact h
      · split at ht
        · cases ht
          exact h
        · split at ht
          · cases ht
          · rename_i s1 hs1
            have h1 : AddrOK W s1.m_lHosts :=
              h.of_subset_ok (maintainInternal_keys_subset cfg now b s s1 hs1)
            have h2 : AddrOK W ({ s1 with bSecondAttempt := true } : G2HostCache).m_lHosts := h1
            exact ih h2 _ ht

/-- In every reachable state the address of every host is valid and not firewalled. -/
theorem Reachable.addrOK {W : World} {v : Nat} {s : G2HostCache} (h : Reachable W v s) :
    AddrOK W s.m_lHosts := by
  induction h with
  | startUp cfg s hs =>
    unfold G2HostCache.startUpSkeleton at hs
    dsimp only at hs
    split_ifs at hs
    cases hs
    intro k hk
    have hk' : some k ∈ keys (([] : List Node) ++
        (List.range' 0 (cfg.FailureLimit % 256 + 2)).map (fun i => (⟨i, none⟩ : Node))) := hk
    rw [List.nil_append] at hk'
    cases keys_map_ap _ _ hk'
  | load d cfg now file s t _ ht ih => exact AddrOK.load_ok d cfg v now file ih ht
  | maintain cfg now b s t _ ht ih =>
    exact ih.of_subset_ok (maintainInternal_keys_subset cfg now b s t ht)
  | add d a ts now s _ ih => exact ih.addSyncHelper_ok d a ts now 0
  | addKey d a ts kh k now s _ ih =>
    unfold G2HostCache.addSyncKey
    dsimp only
    split
    · exact (ih.addSyncHelper_ok d a ts now 0).modify_ok _ _ (fun _ => rfl)
    · exact ih.addSyncHelper_ok d a ts now 0
  | addAck d a ts ack now s _ ih =>
    unfold G2HostCache.addSyncAck
    dsimp only
    split
    · exact (ih.addSyncHelper_ok d a ts now 0).modify_ok _ _ (fun _ => rfl)
    · exact ih.addSyncHelper_ok d a ts now 0
  | addXTry d now hdr s _ ih => exact AddrOK.foldXTry_ok d now _ ih
  | updateFailures a f s _ ih => exact ih.asyncUpdateFailures_ok a f
  | onFailure a s _ ih => exact ih.asyncOnFailure_ok a
  | remove a s _ ih =>
    unfold G2HostCache.removeSync
    split
    · exact ih.remove_ok _
    · exact ih
  | sanityCheck d s _ ih => exact ih.of_sublist_ok (List.filter_sublist _)
  | pruneOldHosts cfg now s _ ih => exact ih.of_sublist_ok (pruneOldHosts_sublist cfg s now)
  | pruneByQueryAck cfg now s _ ih => exact ih.of_sublist_ok (List.filter_sublist _)
  | removeWorst f s _ ih => exact ih.of_sublist_ok (removeWorst_sublist s f)
  | clear s _ ih => exact ih.of_sublist_ok (List.filter_sublist _)
  | localAddressChanged a s _ ih => exact ih
  | getConnectable cfg now b ex c s t r _ ht ih =>
    exact AddrOK.getConnectableAux_ok cfg now b 3 ih ex c r ht


/-! ## Loading the snapshot that `writeToFile` wrote -/

/-- When no record is denied and the count is the number of records, the loop of `load` takes
the records one by one. -/
theorem loadLoop_all (W : World) (d : CEndPoint → Bool) (now : Nat) (e : HostRecord)
    (rs : List HostRecord) (hd : ∀ r ∈ rs, d r.oAddress = false) (s : G2HostCache) :
    loadLoop W d now e rs rs.length s =
      some (rs.foldl (fun t r => t.loadRecord W d now r (loadClamp r.tTimeStamp now)) s) := by
  induction rs generalizing s with
  | nil => rfl
  | cons r rs ih =>
    simp only [List.length_cons, G2HostCache.loadLoop, hd r (List.mem_cons_self _ _),
      Bool.false_eq_true, if_false, List.foldl_cons]
    exact ih (fun r hr => hd r (List.mem_cons_of_mem _ hr)) _

theorem modifyHost_of_ne (it : Nat) (f : G2HostCacheHost → G2HostCacheHost) (l : List Node)
    (h : ∀ n ∈ l, n.id ≠ it) : modifyHost it f l = l := by
  induction l with
  | nil => rfl
  | cons n r ih =>
    simp only [modifyHost, List.map_cons, h n (List.mem_cons_self _ _), if_false]
    congr 1
    exact ih (fun m hm => h m (List.mem_cons_of_mem _ hm))

theorem modifyHost_append (it : Nat) (f : G2HostCacheHost → G2HostCacheHost) (a b : List Node) :
    modifyHost it f (a ++ b) = modifyHost it f a ++ modifyHost it f b := by
  simp [modifyHost]

/-- The entry `load` stores for a record that `addSyncHelper` accepts as new. -/
theorem loadRecord_new (W : World) (d : CEndPoint → Bool) (now : Nat) {t : G2HostCache}
    (hi : Inv t) (r : HostRecord) (ts : Nat)
    (h1 : W.isValid r.oAddress = true) (h2 : W.isFirewalled r.oAddress = false)
    (h3 : r.nFailures ≤ t.m_nMaxFailures) (h4 : d r.oAddress = false)
    (h5 : r.oAddress ≠ t.m_oLokalAddress) (hnew : ∀ e ∈ t.hosts, e.m_oAddress ≠ r.oAddress) :
    Inv (t.loadRecord W d now r ts) ∧
      (t.loadRecord W d now r ts).m_nMaxFailures = t.m_nMaxFailures ∧
      (t.loadRecord W d now r ts).m_oLokalAddress = t.m_oLokalAddress ∧
      (t.loadRecord W d now r ts).m_nSizeAtomic = t.m_nSizeAtomic + 1 ∧
      ∀ y, y ∈ (t.loadRecord W d now r ts).hosts ↔ y ∈ t.hosts ∨
        y = { G2HostCacheHost.create r.oAddress (if ts > now then subU32 now 60 else ts)
                r.nFailures with
              m_tLastConnect := if r.tLastConnect > now then subU32 now 60
                else r.tLastConnect } := by
  refine ⟨hi.loadRecord W d now r ts, ?_⟩
  have hf := find_none_of_not_cached r.oAddress hnew
  have hadd := addSyncHelper_new W d hi r.oAddress ts now r.nFailures h1 h2 h3 h4 h5 hf
  obtain ⟨pre, x, p1, p2, hl, hx, _, _, _, _, hins⟩ := insert_spec hi
    (G2HostCacheHost.create r.oAddress (if ts > now then subU32 now 60 else ts) r.nFailures) h3
  have hids : ∀ n ∈ t.m_lHosts, n.id ≠ t.m_nNextNode := by
    intro n hn he
    have := hi.ids_lt n.id (List.mem_map_of_mem _ hn)
    omega
  have hpre : ∀ n ∈ pre ++ x :: p1, n.id ≠ t.m_nNextNode := by
    intro n hn
    apply hids n
    rw [hl]
    simp only [List.mem_append, List.mem_cons] at hn ⊢
    tauto
  have hp2 : ∀ n ∈ p2, n.id ≠ t.m_nNextNode := by
    intro n hn
    apply hids n
    rw [hl]
    simp only [List.mem_append, List.mem_cons]
    tauto
  have hlist : (t.loadRecord W d now r ts).m_lHosts =
      (pre ++ x :: p1) ++ ⟨t.m_nNextNode, some
        { G2HostCacheHost.create r.oAddress (if ts > now then subU32 now 60 else ts)
            r.nFailures with
          m_tLastConnect := if r.tLastConnect > now then subU32 now 60
            else r.tLastConnect }⟩ :: p2 := by
    unfold G2HostCache.loadRecord
    simp only [hadd, hins]
    show modifyHost t.m_nNextNode _ (pre ++ x :: (p1 ++ _ :: p2)) = _
    have e1 : pre ++ x :: (p1 ++ (⟨t.m_nNextNode, some (G2HostCacheHost.create r.oAddress
        (if ts > now then subU32 now 60 else ts) r.nFailures)⟩ : Node) :: p2) =
        (pre ++ x :: p1) ++ [⟨t.m_nNextNode, some (G2HostCacheHost.create r.oAddress
        (if ts > now then subU32 now 60 else ts) r.nFailures)⟩] ++ p2 := by simp
    rw [e1, modifyHost_append, modifyHost_append, modifyHost_of_ne _ _ _ hpre,
      modifyHost_of_ne _ _ _ hp2]
    simp [modifyHost]
  have hrest : (t.loadRecord W d now r ts).m_nMaxFailures = t.m_nMaxFailures ∧
      (t.loadRecord W d now r ts).m_oLokalAddress = t.m_oLokalAddress ∧
      (t.loadRecord W d now r ts).m_nSizeAtomic = t.m_nSizeAtomic + 1 := by
    unfold G2HostCache.loadRecord
    simp only [hadd, hins]
    simp
  refine ⟨hrest.1, hrest.2.1, hrest.2.2, ?_⟩
  intro y
  unfold G2HostCache.hosts
  rw [hlist, hl]
  simp only [List.filterMap_append, List.filterMap_cons, List.mem_append, List.mem_cons, hx]
  tauto

theorem loadFold_spec (W : World) (d : CEndPoint → Bool) (now : Nat) (rs : List HostRecord)
    {t : G2HostCache} (hi : Inv t)
    (hok : ∀ r ∈ rs, W.isValid r.oAddress = true ∧ W.isFirewalled r.oAddress = false ∧
      r.nFailures ≤ t.m_nMaxFailures ∧ d r.oAddress = false ∧
      r.oAddress ≠ t.m_oLokalAddress ∧ ∀ e ∈ t.hosts, e.m_oAddress ≠ r.oAddress)
    (hnd : (rs.map (fun r => r.oAddress)).Nodup) :
    Inv (rs.foldl (fun t r => t.loadRecord W d now r (loadClamp r.tTimeStamp now)) t) ∧
      (rs.foldl (fun t r => t.loadRecord W d now r (loadClamp r.tTimeStamp now))
        t).m_nSizeAtomic = t.m_nSizeAtomic + (rs.length : Nat) ∧
      ∀ y, y ∈ (rs.foldl (fun t r => t.loadRecord W d now r (loadClamp r.tTimeStamp now))
        t).hosts ↔ y ∈ t.hosts ∨ ∃ r ∈ rs, y = loadedHost now r := by
  induction rs generalizing t with
  | nil =>
    refine ⟨hi, by simp, fun y => ?_⟩
    simp
  | cons r rs ih =>
    obtain ⟨c1, c2, c3, c4, c5, c6⟩ := hok r (List.mem_cons_self _ _)
    obtain ⟨j1, j2, j3, j4, j5⟩ := loadRecord_new W d now hi r (loadClamp r.tTimeStamp now)
      c1 c2 c3 c4 c5 c6
    rw [List.map_cons, List.nodup_cons] at hnd
    have hok' : ∀ q ∈ rs, W.isValid q.oAddress = true ∧ W.isFirewalled q.oAddress = false ∧
        q.nFailures ≤ (t.loadRecord W d now r (loadClamp r.tTimeStamp now)).m_nMaxFailures ∧
        d q.oAddress = false ∧
        q.oAddress ≠ (t.loadRecord W d now r (loadClamp r.tTimeStamp now)).m_oLokalAddress ∧
        ∀ e ∈ (t.loadRecord W d now r (loadClamp r.tTimeStamp now)).hosts,
          e.m_oAddress ≠ q.oAddress := by
      intro q hq
      obtain ⟨q1, q2, q3, q4, q5, q6⟩ := hok q (List.mem_cons_of_mem _ hq)
      rw [j2, j3]
      refine ⟨q1, q2, q3, q4, q5, ?_⟩
      intro e he
      rcases (j5 e).1 he with he | he
      · exact q6 e he
      · rw [he]
        intro hc
        apply hnd.1
        have : r.oAddress = q.oAddress := hc
        rw [this]
        exact List.mem_map_of_mem (fun r => r.oAddress) hq
    obtain ⟨k1, k2, k3⟩ := ih j1 hok' hnd.2
    rw [List.foldl_cons]
    refine ⟨k1, ?_, ?_⟩
    · rw [k2, j4, List.length_cons]
      push_cast
      omega
    · intro y
      rw [k3 y, j5 y]
      simp only [List.mem_cons, exists_eq_or_imp]
      constructor
      · rintro ((h | h) | h)
        · exact Or.inl h
        · exact Or.inr (Or.inl h)
        · exact Or.inr (Or.inr h)
      · rintro (h | h | h)
        · exact Or.inl (Or.inl h)
        · exact Or.inl (Or.inr h)
        · exact Or.inr h

theorem pruneOldWalk_keep (e : Nat) (l : List Node)
    (h : ∀ n ∈ l, ∀ x, n.host = some x → x.m_tTimestamp > e) : pruneOldWalk e l = l := by
  induction l with
  | nil => rfl
  | cons a r ih =>
    cases r with
    | nil => rfl
    | cons b r =>
      have ih' := ih (fun n hn => h n (List.mem_cons_of_mem _ hn))
      unfold pruneOldWalk
      cases hx : a.host with
      | none =>
        dsimp only
        rw [ih']
      | some x =>
        dsimp only
        rw [if_pos (h a (List.mem_cons_self _ _) x hx), ih']

theorem pruneOldHosts_keep (cfg : Settings) (s : G2HostCache) (now : Nat)
    (h : ∀ x ∈ s.hosts, x.m_tTimestamp > subU32 now cfg.HostExpire) :
    s.pruneOldHosts cfg now = s := by
  have hk : pruneOldWalk (subU32 now cfg.HostExpire) s.m_lHosts.reverse = s.m_lHosts.reverse := by
    apply pruneOldWalk_keep
    intro n hn x hx
    exact h x ((mem_hosts_iff _ x).2 ⟨n, List.mem_reverse.1 hn, hx⟩)
  unfold G2HostCache.pruneOldHosts
  dsimp only
  rw [hk, List.reverse_reverse]
  cases s
  simp

/-- What `writeToFile` writes in a state that satisfies the invariant and has fewer than 2^32
hosts. -/
theorem writeToFile_eq {s : G2HostCache} (hi : Inv s) (v : Nat)
    (hlen : s.hosts.length < 4294967296) :
    writeToFile v s = (v % 65536, s.hosts.length, s.hosts.map toRecord) := by
  have hsz : s.m_nSizeAtomic = (s.hosts.length : Nat) := by
    rw [hi.size_eq, length_filter_isHost]
    rfl
  have hc : (s.m_nSizeAtomic % 4294967296).toNat = s.hosts.length := by
    rw [hsz]
    omega
  have hm : s.m_lHosts.filterMap (fun n => n.host.map toRecord) = s.hosts.map toRecord := by
    unfold G2HostCache.hosts
    rw [List.map_filterMap]
  unfold G2HostCache.writeToFile
  simp only [hc, hm]
  by_cases h0 : s.hosts.length = 0
  · have : s.hosts = [] := List.length_eq_zero.1 h0
    simp [this]
  · simp [h0]

theorem loadedHost_facts (now : Nat) (h : G2HostCacheHost) :
    (loadedHost now (toRecord h)).m_oAddress = h.m_oAddress ∧
      (loadedHost now (toRecord h)).m_nFailures = h.m_nFailures ∧
      (loadedHost now (toRecord h)).m_tLastConnect =
        (if h.m_tLastConnect > now then subU32 now 60 else h.m_tLastConnect) ∧
      (h.m_tTimestamp = now → (loadedHost now (toRecord h)).m_tTimestamp = now) ∧
      (h.m_tTimestamp > now → (loadedHost now (toRecord h)).m_tTimestamp = subU32 now 60) ∧
      ((loadedHost now (toRecord h)).m_tTimestamp = h.m_tTimestamp ∨
        (loadedHost now (toRecord h)).m_tTimestamp = subU32 now 60) := by
  refine ⟨rfl, rfl, rfl, ?_, ?_, ?_⟩
  · intro he
    show (if loadClamp h.m_tTimestamp now > now then subU32 now 60
      else loadClamp h.m_tTimestamp now) = now
    have : loadClamp h.m_tTimestamp now = now := by
      unfold loadClamp subU32
      rw [he]
      have : (now % 4294967296 + 4294967296 - now % 4294967296) % 4294967296 = 0 := by omega
      simp [this]
    rw [this]
    simp
  · intro hgt
    show (if loadClamp h.m_tTimestamp now > now then subU32 now 60
      else loadClamp h.m_tTimestamp now) = subU32 now 60
    unfold loadClamp
    split_ifs <;> rfl
  · show (if loadClamp h.m_tTimestamp now > now then subU32 now 60
      else loadClamp h.m_tTimestamp now) = h.m_tTimestamp ∨
      (if loadClamp h.m_tTimestamp now > now then subU32 now 60
      else loadClamp h.m_tTimestamp now) = subU32 now 60
    unfold loadClamp
    split_ifs <;> simp

theorem exCacheL_reachable : Reachable exWorld 0 exCacheL :=
  Reachable.load exDenied exSettings 1060 (some exFile) exStart exCacheL
    (Reachable.startUp exSettings _ exStart_eq) (by decide)

/-- C20 as stated fails: the reachable cache `exCacheL` holds the tuple
(1:6346, 0, 1000, 1050); at load time 1000 its entry is neither denied nor expired and its
timestamp is not greater than the load time, yet the cache loaded from what `writeToFile`
wrote holds the tuple (1:6346, 0, 1000, 940): the last connect was clamped. -/
theorem C20_counterexample :
    Reachable exWorld 0 exCacheL ∧
      exCacheL.hosts.map toRecord = [⟨⟨1, 6346⟩, 0, 1000, 1050⟩] ∧
      exCacheL.m_nMaxFailures = exStart.m_nMaxFailures ∧
      (∀ h ∈ exCacheL.hosts, exDenied h.m_oAddress = false ∧
        h.m_tTimestamp > subU32 1000 exSettings.HostExpire ∧ ¬ h.m_tTimestamp > 1000) ∧
      (exStart.load exWorld exDenied exSettings 0 1000
        (some (fileOf (writeToFile 0 exCacheL) ⟨⟨0, 0⟩, 0, 0, 0⟩))).map
          (fun t => t.hosts.map toRecord) = some [⟨⟨1, 6346⟩, 0, 1000, 940⟩] ∧
      (exStart.load exWorld exDenied exSettings 0 1000
        (some (fileOf (writeToFile 0 exCacheL) ⟨⟨0, 0⟩, 0, 0, 0⟩))).map
          (fun t => t.hosts.map toRecord) ≠ some (exCacheL.hosts.map toRecord) :=
  ⟨exCacheL_reachable, by decide, by decide, by decide, by decide, by decide⟩

/-- C20 (amended): save then load round trip.  Let `S` be a reachable state with fewer than
2^32 hosts, none of which is denied, expired at `now` or the local address of the fresh cache
`F`, which was started with the failure limit of `S`; let the clamp value `now - 60` not be
expired either.  Loading what `writeToFile` wrote into `F` at time `now` ends, and the loaded
cache has the size of `S`, one entry for every entry of `S` and no entry with another address.
The loaded entry has the same address and failures; its last connect is that of `S` when that
is not greater than `now` and `now - 60` otherwise; its timestamp is that of `S` when that equals
`now`, and `now - 60` when that is greater than `now`. -/
theorem C20_round_trip (W : World) (v : Nat) (S : G2HostCache) (hS : Reachable W v S)
    (isDenied : CEndPoint → Bool) (cfg : Settings) (now : Nat) (F : G2HostCache)
    (pastEnd : HostRecord) (hv : v < 65536) (hlen : S.hosts.length < 4294967296)
    (hF : startUpSkeleton cfg ctor = some F) (hmax : cfg.FailureLimit % 256 = S.m_nMaxFailures)
    (hloc : ∀ h ∈ S.hosts, h.m_oAddress ≠ F.m_oLokalAddress)
    (hden : ∀ h ∈ S.hosts, isDenied h.m_oAddress = false)
    (hexp : ∀ h ∈ S.hosts, h.m_tTimestamp > subU32 now cfg.HostExpire)
    (hclamp : subU32 now 60 > subU32 now cfg.HostExpire) :
    ∃ T, F.load W isDenied cfg v now (some (fileOf (writeToFile v S) pastEnd)) = some T ∧
      T.m_nSizeAtomic = S.m_nSizeAtomic ∧
      (∀ h ∈ S.hosts, ∃ e ∈ T.hosts, e.m_oAddress = h.m_oAddress ∧
        e.m_nFailures = h.m_nFailures ∧
        e.m_tLastConnect = (if h.m_tLastConnect > now then subU32 now 60
          else h.m_tLastConnect) ∧
        (h.m_tTimestamp = now → e.m_tTimestamp = now) ∧
        (h.m_tTimestamp > now → e.m_tTimestamp = subU32 now 60)) ∧
      ∀ e ∈ T.hosts, ∃ h ∈ S.hosts, h.m_oAddress = e.m_oAddress := by
  have hi := hS.inv
  have hok := hS.addrOK
  have iF : Inv F := Inv.startUpSkeleton cfg F hF
  have hFf : F.m_nMaxFailures = cfg.FailureLimit % 256 ∧ F.hosts = [] ∧ F.m_nSizeAtomic = 0 := by
    unfold G2HostCache.startUpSkeleton at hF
    dsimp only at hF
    split_ifs at hF
    cases hF
    refine ⟨rfl, ?_, rfl⟩
    have h0 : ∀ (L : List Nat), (L.map (fun i => (⟨i, none⟩ : Node))).filterMap Node.host = [] := by
      intro L
      induction L with
      | nil => rfl
      | cons i L ih => rw [List.map_cons, List.filterMap_cons]; exact ih
    exact h0 _
  obtain ⟨hFmax, hFh, hFs⟩ := hFf
  have hw := writeToFile_eq hi v hlen
  have hrs : ∀ r ∈ S.hosts.map toRecord, W.isValid r.oAddress = true ∧
      W.isFirewalled r.oAddress = false ∧ r.nFailures ≤ F.m_nMaxFailures ∧
      isDenied r.oAddress = false ∧ r.oAddress ≠ F.m_oLokalAddress ∧
      ∀ e ∈ F.hosts, e.m_oAddress ≠ r.oAddress := by
    intro r hr
    obtain ⟨h, hh, rfl⟩ := List.mem_map.1 hr
    have hvld := hok h.key (key_mem_of_mem_hosts _ h hh)
    refine ⟨hvld.1, hvld.2, ?_, hden h hh, hloc h hh, ?_⟩
    · rw [hFmax, hmax]
      exact hi.host_failures_le h hh
    · rw [hFh]
      intro e he
      cases he
  have hnd : ((S.hosts.map toRecord).map (fun r => r.oAddress)).Nodup := by
    rw [List.map_map]
    exact hi.addresses_nodup
  obtain ⟨k1, k2, k3⟩ := loadFold_spec W isDenied now (S.hosts.map toRecord) iF hrs hnd
  have hdn : ∀ r ∈ S.hosts.map toRecord, isDenied r.oAddress = false :=
    fun r hr => (hrs r hr).2.2.2.1
  have hloop := loadLoop_all W isDenied now pastEnd (S.hosts.map toRecord) hdn F
  rw [List.length_map] at hloop
  have hkeep : ∀ x ∈ ((S.hosts.map toRecord).foldl
      (fun t r => t.loadRecord W isDenied now r (loadClamp r.tTimeStamp now)) F).hosts,
      x.m_tTimestamp > subU32 now cfg.HostExpire := by
    intro x hx
    rcases (k3 x).1 hx with hx | ⟨r, hr, hx⟩
    · rw [hFh] at hx
      cases hx
    · obtain ⟨h, hh, rfl⟩ := List.mem_map.1 hr
      rw [hx]
      rcases (loadedHost_facts now h).2.2.2.2.2 with he | he
      · rw [he]
        exact hexp h hh
      · rw [he]
        exact hclamp
  refine ⟨(S.hosts.map toRecord).foldl
      (fun t r => t.loadRecord W isDenied now r (loadClamp r.tTimeStamp now)) F, ?_, ?_, ?_, ?_⟩
  · unfold G2HostCache.load
    simp only [hw, G2HostCache.fileOf, Nat.mod_eq_of_lt hv, if_true, hloop]
    rw [pruneOldHosts_keep cfg _ now hkeep]
  · rw [k2, hFs, List.length_map, hi.size_eq, length_filter_isHost]
    simp [G2HostCache.hosts]
  · intro h hh
    obtain ⟨f1, f2, f3, f4, f5, _⟩ := loadedHost_facts now h
    exact ⟨loadedHost now (toRecord h),
      (k3 _).2 (Or.inr ⟨toRecord h, List.mem_map_of_mem _ hh, rfl⟩), f1, f2, f3, f4, f5⟩
  · intro e he
    rcases (k3 e).1 he with he | ⟨r, hr, he⟩
    · rw [hFh] at he
      cases he
    · obtain ⟨h, hh, rfl⟩ := List.mem_map.1 hr
      exact ⟨h, hh, by rw [he]; rfl⟩

/-- The statement of C20 (amended) on the cache `exCacheL`, loaded back at time 1000. -/
theorem C20_round_trip_witness :
    (Reachable exWorld 0 exCacheL ∧ (0 : Nat) < 65536 ∧ exCacheL.hosts.length < 4294967296 ∧
      startUpSkeleton exSettings ctor = some exStart ∧
      exSettings.FailureLimit % 256 = exCacheL.m_nMaxFailures ∧
      (∀ h ∈ exCacheL.hosts, h.m_oAddress ≠ exStart.m_oLokalAddress) ∧
      (∀ h ∈ exCacheL.hosts, exDenied h.m_oAddress = false) ∧
      (∀ h ∈ exCacheL.hosts, h.m_tTimestamp > subU32 1000 exSettings.HostExpire) ∧
      subU32 1000 60 > subU32 1000 exSettings.HostExpire) ∧
    ∃ T, exStart.load exWorld exDenied exSettings 0 1000
        (some (fileOf (writeToFile 0 exCacheL) ⟨⟨0, 0⟩, 0, 0, 0⟩)) = some T ∧
      T.m_nSizeAtomic = exCacheL.m_nSizeAtomic ∧
      (∀ h ∈ exCacheL.hosts, ∃ e ∈ T.hosts, e.m_oAddress = h.m_oAddress ∧
        e.m_nFailures = h.m_nFailures ∧
        e.m_tLastConnect = (if h.m_tLastConnect > 1000 then subU32 1000 60
          else h.m_tLastConnect) ∧
        (h.m_tTimestamp = 1000 → e.m_tTimestamp = 1000) ∧
        (h.m_tTimestamp > 1000 → e.m_tTimestamp = subU32 1000 60)) ∧
      ∀ e ∈ T.hosts, ∃ h ∈ exCacheL.hosts, h.m_oAddress = e.m_oAddress :=
  ⟨⟨exCacheL_reachable, by decide, by decide, exStart_eq, by decide, by decide, by decide,
      by decide, by decide⟩,
    C20_round_trip exWorld 0 exCacheL exCacheL_reachable exDenied exSettings 1000 exStart
      ⟨⟨0, 0⟩, 0, 0, 0⟩ (by decide) (by decide) exStart_eq (by decide) (by decide) (by decide)
      (by decide) (by decide)⟩


/-! ## What `removeWorst` erases -/

theorem removeWorst_clamp (s : G2HostCache) (nF : Nat) :
    s.removeWorst nF = s.removeWorst (min nF s.m_nMaxFailures) := by
  unfold G2HostCache.removeWorst
  have h1 : (if nF > s.m_nMaxFailures then s.m_nMaxFailures else nF) = min nF s.m_nMaxFailures := by
    split_ifs <;> omega
  have h2 : (if min nF s.m_nMaxFailures > s.m_nMaxFailures then s.m_nMaxFailures
      else min nF s.m_nMaxFailures) = min nF s.m_nMaxFailures := by
    split_ifs <;> omega
  simp only [h1, h2]

theorem host_key_mem (l : List Node) (n : Node) (hn : n ∈ l) (e : G2HostCacheHost)
    (he : n.host = some e) : some e.key ∈ keys l := by
  rw [← key_of_host n e he]
  exact List.mem_map_of_mem _ hn

/-- The cells around the host that `removeWorst(nF)` erases, for `nF` within the failure
limit: the erased host `xh` is the last host before the access point `nF + 1`, every host after
it has more than `nF` failures, every host before it comes before it in priority order, and the
reference parameter is left at the failures of `xh`.  If there is no such host nothing
changes. -/
theorem removeWorst_core {s : G2HostCache} (hi : Inv s) (nF : Nat)
    (hle : nF ≤ s.m_nMaxFailures) :
    (∃ P x xh Q, s.m_lHosts = P ++ x :: Q ∧ x.host = some xh ∧ xh.m_nFailures ≤ nF ∧
        (∀ n ∈ P, ∀ e, n.host = some e → e.m_nFailures < xh.m_nFailures ∨
          (e.m_nFailures = xh.m_nFailures ∧ xh.m_tTimestamp ≤ e.m_tTimestamp)) ∧
        (∀ n ∈ Q, ∀ e, n.host = some e → nF < e.m_nFailures) ∧
        (s.removeWorst nF).1 =
          { s with m_lHosts := P ++ Q, m_nSizeAtomic := s.m_nSizeAtomic - 1 } ∧
        (s.removeWorst nF).2 = xh.m_nFailures) ∨
      ((∀ n ∈ s.m_lHosts, ∀ e, n.host = some e → nF < e.m_nFailures) ∧
        (s.removeWorst nF).1 = s ∧ (s.removeWorst nF).2 = 0) := by
  have hlen : nF + 1 < s.m_pFailures.length := by
    rw [hi.ap_len]
    omega
  obtain ⟨a, ha⟩ : ∃ a, s.m_pFailures[nF + 1]? = some a := ⟨_, List.getElem?_eq_getElem hlen⟩
  have ha' : (apIds s.m_lHosts)[nF + 1]? = some a := by
    rw [← hi.ap_eq]
    exact ha
  obtain ⟨pre, x, post, h1, h2, h3, h4, h5, h6⟩ := ap_split s.m_lHosts hi.ids_nodup (nF + 1) a ha'
  have hmax := hi.max_le
  have hb := hi.buckets
  rw [h1, keys_append, bucketsFrom_append, ← length_apIds, h6, keys_cons,
    (key_eq_none_iff x).2 h3, bucketsFrom_none] at hb
  obtain ⟨hb1, hb2⟩ := hb
  have hpost : ∀ n ∈ post, ∀ e, n.host = some e → nF < e.m_nFailures := by
    intro n hn e he
    have e1 := (bucketsFrom_bounds _ _ hb2 e.key (host_key_mem post n hn e he)).1
    have : e.key.failures = e.m_nFailures := rfl
    omega
  have hlast : ∃ b, pre.reverse.getLast? = some b ∧ b.host = none := by
    cases hp : pre with
    | nil => rw [hp] at h6; simp [apIds] at h6
    | cons b r =>
      refine ⟨b, by simp, ?_⟩
      rw [hp] at hb1
      exact head_is_ap b r hb1
  obtain ⟨S, T, g1, g2, g3, g4⟩ := removeWorstWalk_spec pre.reverse nF
    (by rw [apIds_reverse, List.length_reverse, h6]) (by omega) hlast
  have hpre : pre = T.reverse ++ S.reverse := by
    have := congrArg List.reverse g1
    rw [List.reverse_reverse, List.reverse_append] at this
    exact this
  have hun : s.removeWorst nF =
      ({ s with
          m_lHosts := (removeWorstWalk pre.reverse nF).1.reverse ++ x :: post
          m_nSizeAtomic := if (removeWorstWalk pre.reverse nF).2.2 then s.m_nSizeAtomic - 1
            else s.m_nSizeAtomic },
        (removeWorstWalk pre.reverse nF).2.1) := by
    have hnot : ¬ nF > s.m_nMaxFailures := by omega
    simp only [G2HostCache.removeWorst, if_neg hnot, ha, h4, h5]
  have hSap : ∀ n ∈ S.reverse, n.host = none := fun n hn => g2 n (List.mem_reverse.1 hn)
  rcases g4 with ⟨x', h', T', e1, e2, e3, e4⟩ | ⟨b, e1, e2, e3, e4⟩
  · left
    have hl : s.m_lHosts = T'.reverse ++ x' :: (S.reverse ++ x :: post) := by
      rw [h1, hpre, e1]
      simp
    have hcount : h'.m_nFailures + 1 + S.length = nF + 1 := by
      rw [hpre, e1, List.reverse_cons, List.append_assoc, keys_append] at hb1
      have hb1' := (bucketsFrom_append _ _ _).1 hb1
      have hb2' := hb1'.2
      rw [List.singleton_append, keys_cons, key_of_host x' h' e2,
        bucketsFrom_some] at hb2'
      have e5 := hb2'.1
      rw [← length_apIds] at e5
      have e6 : (apIds pre).length = (apIds T'.reverse).length + S.length := by
        rw [hpre, e1, List.reverse_cons, apIds_append, apIds_append, List.length_append,
          List.length_append, apIds_reverse S, List.length_reverse, apIds_all_ap S g2]
        have : apIds [x'] = [] := apIds_cons_host x' [] h' e2
        rw [this]
        rfl
      have : h'.key.failures = h'.m_nFailures := rfl
      omega
    refine ⟨T'.reverse, x', h', S.reverse ++ x :: post, hl, e2, by omega, ?_, ?_, ?_, ?_⟩
    · intro n hn e he
      have ho := hi.hosts_ordered
      unfold G2HostCache.hosts at ho
      rw [hl, hosts_append, List.filterMap_cons, e2] at ho
      have ho2 := (List.pairwise_append.1 ho).2.2 e ((mem_hosts_iff _ e).2 ⟨n, hn, he⟩) h'
        (List.mem_cons_self _ _)
      exact ho2
    · intro n hn e he
      rcases List.mem_append.1 hn with hn | hn
      · rw [hSap n hn] at he
        cases he
      · rcases List.mem_cons.1 hn with hn | hn
        · rw [hn, h3] at he
          cases he
        · exact hpost n hn e he
    · rw [hun]
      simp only [e3, e4, if_true, List.reverse_append, List.append_assoc]
    · rw [hun]
      show (removeWorstWalk pre.reverse nF).2.1 = h'.m_nFailures
      omega
  · right
    have hpreap : ∀ n ∈ pre, n.host = none := by
      intro n hn
      rw [hpre, e1] at hn
      rcases List.mem_append.1 hn with hn | hn
      · simp only [List.reverse_cons, List.reverse_nil, List.nil_append,
          List.mem_singleton] at hn
        rw [hn]
        exact e2
      · exact hSap n hn
    refine ⟨?_, ?_, ?_⟩
    · intro n hn e he
      rw [h1] at hn
      rcases List.mem_append.1 hn with hn | hn
      · rw [hpreap n hn] at he
        cases he
      · rcases List.mem_cons.1 hn with hn | hn
        · rw [hn, h3] at he
          cases he
        · exact hpost n hn e he
    · rw [hun]
      simp only [e3, e4, Bool.false_eq_true, if_false, List.reverse_reverse, ← h1]
    · rw [hun]
      show (removeWorstWalk pre.reverse nF).2.1 = 0
      have e6 : (apIds pre).length = S.length + 1 := by
        rw [hpre, e1, apIds_append, List.length_append, apIds_reverse S, List.length_reverse,
          apIds_all_ap S g2]
        have : apIds [b].reverse = [b.id] := apIds_cons_ap b [] e2
        rw [this]
        simp
        omega
      omega

theorem hosts_filter_nil_of_gt (l : List Node) (k b : Nat) (hk : k ≤ b)
    (h : ∀ n ∈ l, ∀ e, n.host = some e → b < e.m_nFailures) :
    (l.filterMap Node.host).filter (fun e => decide (e.m_nFailures = k)) = [] := by
  rw [List.filter_eq_nil_iff]
  intro e he
  obtain ⟨n, hn, hx⟩ := (mem_hosts_iff l e).1 he
  have := h n hn e hx
  simp only [decide_eq_true_eq]
  omega

/-- C26: on a reachable state let `f' = min(f, maxFailures)`.  If some bucket `k ≤ f'` is not
empty, `removeWorst(f)` erases exactly one host `x`: the last host of the highest non-empty
bucket `k ≤ f'`, whose timestamp is minimal in that bucket; the other slots stay in order, the
size decreases by one and the reference parameter is left at `k`, the failures of `x`.  If all
buckets up to `f'` are empty the state is unchanged. -/
theorem C26_removeWorst (W : World) (v : Nat) (s : G2HostCache) (h : Reachable W v s)
    (f : Nat) :
    ((∃ k, k ≤ min f s.m_nMaxFailures ∧ s.bucket k ≠ []) →
      ∃ x init A B, x.m_nFailures ≤ min f s.m_nMaxFailures ∧
        s.bucket x.m_nFailures = init ++ [x] ∧
        (∀ j, x.m_nFailures < j → j ≤ min f s.m_nMaxFailures → s.bucket j = []) ∧
        (∀ e ∈ s.bucket x.m_nFailures, x.m_tTimestamp ≤ e.m_tTimestamp) ∧
        s.slots = A ++ some x :: B ∧ (s.removeWorst f).1.slots = A ++ B ∧
        (s.removeWorst f).1.m_nSizeAtomic = s.m_nSizeAtomic - 1 ∧
        (s.removeWorst f).2 = x.m_nFailures) ∧
      ((∀ k, k ≤ min f s.m_nMaxFailures → s.bucket k = []) →
        (s.removeWorst f).1.slots = s.slots ∧
          (s.removeWorst f).1.m_nSizeAtomic = s.m_nSizeAtomic) := by
  have hi := h.inv
  rw [removeWorst_clamp]
  have hle : min f s.m_nMaxFailures ≤ s.m_nMaxFailures := Nat.min_le_right _ _
  generalize min f s.m_nMaxFailures = f' at hle
  rcases removeWorst_core hi f' hle with
    ⟨P, x, xh, Q, hl, hx, hxf, hP, hQ, hst, href⟩ | ⟨hall, hst, _⟩
  · have hhosts : s.hosts = P.filterMap Node.host ++ xh :: Q.filterMap Node.host := by
      unfold G2HostCache.hosts
      rw [hl, hosts_append, List.filterMap_cons, hx]
    have hbk : ∀ k, k ≤ f' → s.bucket k =
        (P.filterMap Node.host).filter (fun e => decide (e.m_nFailures = k)) ++
          (if xh.m_nFailures = k then [xh] else []) := by
      intro k hk
      rw [hi.bucket_eq k (by omega), hhosts, List.filter_append, List.filter_cons,
        hosts_filter_nil_of_gt Q k f' hk hQ]
      by_cases hxk : xh.m_nFailures = k
      · simp [hxk]
      · simp [hxk]
    constructor
    · intro _
      refine ⟨xh, (P.filterMap Node.host).filter (fun e => decide (e.m_nFailures = xh.m_nFailures)),
        P.map Node.host, Q.map Node.host, hxf, ?_, ?_, ?_, ?_, ?_, ?_, href⟩
      · rw [hbk _ hxf]
        simp
      · intro j hj1 hj2
        rw [hbk j hj2, if_neg (by omega), List.append_nil, List.filter_eq_nil_iff]
        intro e he
        obtain ⟨n, hn, hne⟩ := (mem_hosts_iff P e).1 he
        have := hP n hn e hne
        simp only [decide_eq_true_eq]
        omega
      · intro e he
        rw [hbk _ hxf, if_pos rfl, List.mem_append, List.mem_singleton] at he
        rcases he with he | he
        · obtain ⟨he1, he2⟩ := List.mem_filter.1 he
          obtain ⟨n, hn, hne⟩ := (mem_hosts_iff P e).1 he1
          have he3 : e.m_nFailures = xh.m_nFailures := by simpa using he2
          rcases hP n hn e hne with h1 | h1
          · omega
          · exact h1.2
        · rw [he]
      · unfold G2HostCache.slots
        rw [hl, List.map_append, List.map_cons, hx]
      · rw [hst]
        unfold G2HostCache.slots
        exact List.map_append _ _ _
      · rw [hst]
    · intro hempty
      exfalso
      have := hempty xh.m_nFailures hxf
      rw [hbk _ hxf, if_pos rfl] at this
      simp at this
  · constructor
    · rintro ⟨k, hk, hne⟩
      exfalso
      apply hne
      rw [hi.bucket_eq k (by omega)]
      exact hosts_filter_nil_of_gt s.m_lHosts k f' hk hall
    · intro _
      rw [hst]
      exact ⟨rfl, rfl⟩

/-- The statement of C26 on the cache `exCacheB`: `removeWorst(3)` erases the host of bucket 1
and leaves 1 in the reference parameter. -/
theorem C26_removeWorst_witness :
    Reachable exWorld 0 exCacheB ∧
      exCacheB.bucket 1 = [G2HostCacheHost.create ⟨1, 6346⟩ 300 1] ∧
      (exCacheB.removeWorst 3).1.hosts = [G2HostCacheHost.create ⟨2, 6346⟩ 400 0] ∧
      (exCacheB.removeWorst 3).2 = 1 ∧
      (exStart.removeWorst 3).1 = exStart ∧
      (((∃ k, k ≤ min 3 exCacheB.m_nMaxFailures ∧ exCacheB.bucket k ≠ []) →
        ∃ x init A B, x.m_nFailures ≤ min 3 exCacheB.m_nMaxFailures ∧
          exCacheB.bucket x.m_nFailures = init ++ [x] ∧
          (∀ j, x.m_nFailures < j → j ≤ min 3 exCacheB.m_nMaxFailures →
            exCacheB.bucket j = []) ∧
          (∀ e ∈ exCacheB.bucket x.m_nFailures, x.m_tTimestamp ≤ e.m_tTimestamp) ∧
          exCacheB.slots = A ++ some x :: B ∧ (exCacheB.removeWorst 3).1.slots = A ++ B ∧
          (exCacheB.removeWorst 3).1.m_nSizeAtomic = exCacheB.m_nSizeAtomic - 1 ∧
          (exCacheB.removeWorst 3).2 = x.m_nFailures) ∧
        ((∀ k, k ≤ min 3 exCacheB.m_nMaxFailures → exCacheB.bucket k = []) →
          (exCacheB.removeWorst 3).1.slots = exCacheB.slots ∧
            (exCacheB.removeWorst 3).1.m_nSizeAtomic = exCacheB.m_nSizeAtomic)) :=
  ⟨exCacheB_reachable, by decide, by decide, by decide, by decide,
    C26_removeWorst exWorld 0 exCacheB exCacheB_reachable 3⟩


/-! ## The eviction loop of the size cap -/

/-- When no host has more than `nF` failures, `removeWorst(nF)` erases the last host of the
sequence. -/
theorem removeWorst_last {s : G2HostCache} (hi : Inv s) (nF : Nat)
    (hle : nF ≤ s.m_nMaxFailures)
    (hall : ∀ h, some h ∈ keys s.m_lHosts → h.failures ≤ nF) (hne : s.hosts ≠ []) :
    (s.removeWorst nF).1.hosts = s.hosts.dropLast ∧
      (s.removeWorst nF).1.m_lHosts.Sublist s.m_lHosts ∧
      (s.removeWorst nF).1.m_nSizeAtomic = s.m_nSizeAtomic - 1 ∧
      (s.removeWorst nF).2 ≤ nF ∧
      ∀ h, some h ∈ keys (s.removeWorst nF).1.m_lHosts → h.failures ≤ (s.removeWorst nF).2 := by
  rcases removeWorst_core hi nF hle with
    ⟨P, x, xh, Q, hl, hx, hxf, hP, hQ, hst, href⟩ | ⟨hnone, _, _⟩
  · have hQ0 : Q.filterMap Node.host = [] := by
      rw [List.eq_nil_iff_forall_not_mem]
      intro e he
      obtain ⟨n, hn, hne⟩ := (mem_hosts_iff Q e).1 he
      have h1 := hQ n hn e hne
      have h2 := hall e.key (host_key_mem s.m_lHosts n (by rw [hl]; simp [hn]) e hne)
      have : e.key.failures = e.m_nFailures := rfl
      omega
    refine ⟨?_, ?_, ?_, ?_, ?_⟩
    · rw [hst]
      unfold G2HostCache.hosts
      rw [hl, hosts_append, hosts_append, List.filterMap_cons, hx, hQ0]
      simp
    · rw [hst, hl]
      exact List.Sublist.append (List.Sublist.refl _) (List.sublist_cons_self _ _)
    · rw [hst]
    · rw [href]
      exact hxf
    · intro k hk
      rw [hst] at hk
      have hk' : some k ∈ keys (P ++ Q) := hk
      obtain ⟨e, he, hek⟩ := host_of_key_mem _ _ hk'
      rw [hosts_append, hQ0, List.append_nil] at he
      obtain ⟨n, hn, hne⟩ := (mem_hosts_iff P e).1 he
      have := hP n hn e hne
      rw [href, ← hek]
      show e.m_nFailures ≤ xh.m_nFailures
      omega
  · exfalso
    apply hne
    unfold G2HostCache.hosts
    rw [List.eq_nil_iff_forall_not_mem]
    intro e he
    obtain ⟨n, hn, hne⟩ := (mem_hosts_iff _ e).1 he
    have h1 := hnone n hn e hne
    have h2 := hall e.key (host_key_mem s.m_lHosts n hn e hne)
    have : e.key.failures = e.m_nFailures := rfl
    omega

theorem size_eq_hosts {s : G2HostCache} (hi : Inv s) :
    s.m_nSizeAtomic = (s.hosts.length : Nat) := by
  rw [hi.size_eq, length_filter_isHost]
  rfl

/-- The loop `while ( size > nMax ) removeWorst( nFailure )` ends and keeps the first `nMax`
hosts of the sequence. -/
theorem evictDownTo_take (nMax : Nat) (fuel : Nat) {s : G2HostCache} (hi : Inv s) (nF : Nat)
    (hle : nF ≤ s.m_nMaxFailures)
    (hall : ∀ h, some h ∈ keys s.m_lHosts → h.failures ≤ nF)
    (hfuel : s.hosts.length < fuel) (hlen : s.hosts.length < 4294967296) :
    ∃ t, evictDownTo nMax fuel s nF = some t ∧ Inv t ∧ t.m_nMaxFailures = s.m_nMaxFailures ∧
      t.hosts = s.hosts.take nMax ∧ t.m_lHosts.Sublist s.m_lHosts := by
  induction fuel generalizing s nF with
  | zero => omega
  | succ fuel ih =>
    have hsz : (s.m_nSizeAtomic % 4294967296).toNat = s.hosts.length := by
      rw [size_eq_hosts hi]
      omega
    simp only [G2HostCache.evictDownTo, hsz]
    by_cases hgt : s.hosts.length > nMax
    · simp only [hgt, if_true]
      have hne : s.hosts ≠ [] := by
        intro h0
        rw [h0] at hgt
        simp at hgt
      obtain ⟨r1, r2, r3, r4, r5⟩ := removeWorst_last hi nF hle hall hne
      have hi' := hi.removeWorst nF
      have hlen' : (s.removeWorst nF).1.hosts.length = s.hosts.length - 1 := by
        rw [r1, List.length_dropLast]
      obtain ⟨t, t1, t2, t3, t4, t5⟩ := ih hi' (s.removeWorst nF).2
        (by rw [removeWorst_max]; omega) r5 (by omega) (by omega)
      refine ⟨t, t1, t2, by rw [t3, removeWorst_max], ?_, t5.trans r2⟩
      rw [t4, r1, List.dropLast_eq_take, List.take_take]
      congr 1
      omega
    · simp only [hgt, if_false]
      refine ⟨s, rfl, hi, rfl, ?_, List.Sublist.refl _⟩
      rw [List.take_of_length_le (by omega)]

/-! ## The failure limit is raised or unchanged -/

theorem hosts_append_aps (l : List Node) (F : List Nat) :
    (l ++ F.map (fun i => (⟨i, none⟩ : Node))).filterMap Node.host = l.filterMap Node.host := by
  rw [hosts_append]
  have h0 : (F.map (fun i => (⟨i, none⟩ : Node))).filterMap Node.host = [] := by
    induction F with
    | nil => rfl
    | cons i F ih => rw [List.map_cons, List.filterMap_cons]; exact ih
  rw [h0, List.append_nil]

/-- When the new failure limit is not below the old one, the first part of `maintainInternal`
appends the missing access points and touches nothing else. -/
theorem reshape_raise {s : G2HostCache} (hi : Inv s) (nNew : Nat)
    (h1 : s.m_nMaxFailures ≤ nNew) (h2 : nNew ≤ 253) :
    ∃ t, reshape nNew s = some t ∧ Inv t ∧ t.m_nMaxFailures = nNew ∧
      t.m_lHosts = s.m_lHosts ++
        (List.range' s.m_nNextNode (nNew - s.m_nMaxFailures)).map (fun i => ⟨i, none⟩) ∧
      t.m_nSizeAtomic = s.m_nSizeAtomic ∧ t.m_tLastSave = s.m_tLastSave ∧
      t.hosts = s.hosts := by
  obtain ⟨r1, r2⟩ := reshape_spec hi nNew
  obtain ⟨t, ht⟩ := r1 h2
  obtain ⟨it, mt⟩ := r2 t ht
  refine ⟨t, ht, it, mt, ?_⟩
  unfold G2HostCache.reshape at ht
  by_cases heq : s.m_nMaxFailures = nNew
  · simp only [heq, if_true, Option.some.injEq] at ht
    subst ht
    rw [heq]
    simp
  · have hgt : ¬ s.m_nMaxFailures > nNew := by omega
    have h255 : ¬ nNew + 2 > 255 := by omega
    simp only [heq, hgt, h255, if_false, Option.some.injEq] at ht
    subst ht
    refine ⟨rfl, rfl, rfl, ?_⟩
    exact hosts_append_aps _ _

/-! ## The last loop of `maintainInternal` -/

theorem updateConnectable_eq (cfg : Settings) (tNow : Nat) (l : List Node) (k : Nat)
    (hb : bucketsFrom k (keys l)) :
    updateConnectable tNow (cfg.FailurePenalty % 65536)
        ((Int.ofNat cfg.ConnectThrottle - Int.ofNat (cfg.FailurePenalty % 65536)) +
          (k : Int) * Int.ofNat (cfg.FailurePenalty % 65536)) l =
      l.map (fun n => { n with host := n.host.map (updatedHost cfg tNow) }) := by
  induction l generalizing k with
  | nil => rfl
  | cons n r ih =>
    unfold updateConnectable
    cases hx : n.host with
    | none =>
      rw [keys_cons, (key_eq_none_iff n).2 hx, bucketsFrom_none] at hb
      have := ih (k + 1) hb
      simp only [List.map_cons, hx, Option.map_none']
      have e0 : ∀ (A P : Int), A + (k : Int) * P + P = A + ((k + 1 : Nat) : Int) * P := by
        intro A P
        push_cast
        ring
      have e : (Int.ofNat cfg.ConnectThrottle - Int.ofNat (cfg.FailurePenalty % 65536)) +
          (k : Int) * Int.ofNat (cfg.FailurePenalty % 65536) +
          ((cfg.FailurePenalty % 65536 : Nat) : Int) =
          (Int.ofNat cfg.ConnectThrottle - Int.ofNat (cfg.FailurePenalty % 65536)) +
          ((k + 1 : Nat) : Int) * Int.ofNat (cfg.FailurePenalty % 65536) := e0 _ _
      rw [e, this]
      congr 1
      cases n
      simp only at hx
      subst hx
      rfl
    | some x =>
      rw [keys_cons, key_of_host n x hx, bucketsFrom_some] at hb
      have hk : x.m_nFailures + 1 = k := hb.1
      have := ih k hb.2
      simp only [List.map_cons, hx, Option.map_some']
      rw [this]
      congr 1
      unfold G2HostCache.updatedHost
      by_cases hc : x.m_bConnectable = true
      · simp only [hc, if_true]
        cases n
        simp only at hx
        subst hx
        rfl
      · simp only [hc, Bool.false_eq_true, if_false, hk]

theorem updatedHost_fields (cfg : Settings) (tNow : Nat) (h : G2HostCacheHost) :
    { updatedHost cfg tNow h with m_bConnectable := h.m_bConnectable } = h ∧
      (updatedHost cfg tNow h).m_oAddress = h.m_oAddress ∧
      (updatedHost cfg tNow h).m_nFailures = h.m_nFailures ∧
      (updatedHost cfg tNow h).key = h.key := by
  unfold G2HostCache.updatedHost
  split_ifs <;> exact ⟨rfl, rfl, rfl, rfl⟩


/-! ## The stages of a maintenance pass -/

theorem hosts_map_updated (cfg : Settings) (tNow : Nat) (l : List Node) :
    (l.map (fun n => ({ n with host := n.host.map (updatedHost cfg tNow) } : Node))).filterMap
        Node.host = (l.filterMap Node.host).map (updatedHost cfg tNow) := by
  induction l with
  | nil => rfl
  | cons n r ih =>
    cases hx : n.host with
    | none => simp [List.filterMap_cons, hx, ih]
    | some x => simp [List.filterMap_cons, hx, ih]

theorem reshape_hosts_sublist (nNew : Nat) (s t : G2HostCache) (h : reshape nNew s = some t) :
    t.hosts.Sublist s.hosts := by
  unfold G2HostCache.reshape at h
  have hev : ∀ s1, evictAbove nNew (s.m_lHosts.length + s.m_nMaxFailures + 1) s
      s.m_nMaxFailures = some s1 →
        ((s1.m_lHosts.take (s1.m_lHosts.length - (s.m_nMaxFailures - nNew))).filterMap
          Node.host).Sublist (s.m_lHosts.filterMap Node.host) := by
    intro s1 hs1
    have hsub := evictAbove_sublist _ _ _ _ _ hs1
    exact ((List.take_sublist _ _).trans hsub).filterMap _
  split_ifs at h with h1 h2 h3 h4
  · cases h
    exact List.Sublist.refl _
  · split at h
    · cases h
    · cases h
  · split at h
    · cases h
    · rename_i s1 hs1
      cases h
      exact hev s1 hs1
  · cases h
    unfold G2HostCache.hosts
    show ((s.m_lHosts ++ (List.range' s.m_nNextNode (nNew - s.m_nMaxFailures)).map
      (fun i => (⟨i, none⟩ : Node))).filterMap Node.host).Sublist _
    rw [hosts_append_aps]

/-- The stages of `maintainInternal`: `s1` after the failure limit was followed, `s2` after the
size cap was enforced, and the last loop over the hosts of `s2`. -/
theorem maintainInternal_stages (cfg : Settings) (tNow : Nat) (b : Bool) {s t : G2HostCache}
    (hi : Inv s) (h : s.maintainInternal cfg tNow b = some t) :
    ∃ s1 s2, reshape (cfg.FailureLimit % 256) s = some s1 ∧ Inv s1 ∧ Inv s2 ∧
      s2.m_lHosts.Sublist s1.m_lHosts ∧
      ((cfg.HostCacheSize % 4294967296 ≠ 0 ∧
          (s1.m_nSizeAtomic % 4294967296).toNat > cfg.HostCacheSize % 4294967296) →
        evictDownTo (cfg.HostCacheSize % 4294967296 - cfg.HostCacheSize % 4294967296 / 4)
          (s1.m_lHosts.length + s1.m_nMaxFailures + 1) s1 s1.m_nMaxFailures = some s2) ∧
      (¬ (cfg.HostCacheSize % 4294967296 ≠ 0 ∧
          (s1.m_nSizeAtomic % 4294967296).toNat > cfg.HostCacheSize % 4294967296) →
        s2 = s1) ∧
      t.m_lHosts = s2.m_lHosts.map
        (fun n => { n with host := n.host.map (updatedHost cfg tNow) }) ∧
      t.hosts = s2.hosts.map (updatedHost cfg tNow) ∧
      t.m_nSizeAtomic = s2.m_nSizeAtomic ∧ t.m_nMaxFailures = s2.m_nMaxFailures ∧
      t.m_pFailures = s2.m_pFailures ∧ s2.m_nMaxFailures = cfg.FailureLimit % 256 := by
  have hthr : (Int.ofNat cfg.ConnectThrottle - Int.ofNat (cfg.FailurePenalty % 65536)) =
      (Int.ofNat cfg.ConnectThrottle - Int.ofNat (cfg.FailurePenalty % 65536)) +
        ((0 : Nat) : Int) * Int.ofNat (cfg.FailurePenalty % 65536) := by simp
  have fin : ∀ s2 : G2HostCache, Inv s2 →
      updateConnectable tNow (cfg.FailurePenalty % 65536)
          (Int.ofNat cfg.ConnectThrottle - Int.ofNat (cfg.FailurePenalty % 65536))
          s2.m_lHosts = s2.m_lHosts.map
        (fun n => { n with host := n.host.map (updatedHost cfg tNow) }) := by
    intro s2 i2
    rw [hthr]
    exact updateConnectable_eq cfg tNow s2.m_lHosts 0 i2.buckets
  have save_size : ∀ s3 : G2HostCache, (s3.save tNow b).m_nSizeAtomic = s3.m_nSizeAtomic := by
    intro s3
    unfold G2HostCache.save
    dsimp only
    split_ifs <;> rfl
  have save_ap : ∀ s3 : G2HostCache, (s3.save tNow b).m_pFailures = s3.m_pFailures := by
    intro s3
    unfold G2HostCache.save
    dsimp only
    split_ifs <;> rfl
  unfold G2HostCache.maintainInternal at h
  cases hr : reshape (cfg.FailureLimit % 256) s with
  | none => simp [hr] at h
  | some s1 =>
    obtain ⟨i1, m1⟩ := (reshape_spec hi (cfg.FailureLimit % 256)).2 s1 hr
    simp only [hr] at h
    by_cases hcap : cfg.HostCacheSize % 4294967296 ≠ 0 ∧
        (s1.m_nSizeAtomic % 4294967296).toNat > cfg.HostCacheSize % 4294967296
    · simp only [if_pos hcap] at h
      obtain ⟨s2, e1, i2, e3⟩ := evictDownTo_spec
        (cfg.HostCacheSize % 4294967296 - cfg.HostCacheSize % 4294967296 / 4)
        (s1.m_lHosts.length + s1.m_nMaxFailures + 1) i1 s1.m_nMaxFailures (Nat.le_refl _)
        (fun k hk => i1.fail_le k hk) (by omega)
      simp only [e1, Option.some.injEq] at h
      subst h
      have hl : updateConnectable tNow (cfg.FailurePenalty % 65536)
          (Int.ofNat cfg.ConnectThrottle - Int.ofNat (cfg.FailurePenalty % 65536))
          (s2.save tNow b).m_lHosts = s2.m_lHosts.map
            (fun n => { n with host := n.host.map (updatedHost cfg tNow) }) := by
        rw [save_hosts]
        exact fin s2 i2
      refine ⟨s1, s2, rfl, i1, i2, evictDownTo_sublist _ _ _ _ _ e1, fun _ => e1,
        fun hn => absurd hcap hn, hl, ?_, save_size s2, save_max s2 tNow b, save_ap s2,
        by rw [e3, m1]⟩
      show List.filterMap Node.host (updateConnectable _ _ _ _) = _
      rw [hl, hosts_map_updated]
      rfl
    · simp only [if_neg hcap] at h
      split_ifs at h with hsave
      · simp only [Option.some.injEq] at h
        subst h
        have hl : updateConnectable tNow (cfg.FailurePenalty % 65536)
            (Int.ofNat cfg.ConnectThrottle - Int.ofNat (cfg.FailurePenalty % 65536))
            (s1.save tNow b).m_lHosts = s1.m_lHosts.map
              (fun n => { n with host := n.host.map (updatedHost cfg tNow) }) := by
          rw [save_hosts]
          exact fin s1 i1
        refine ⟨s1, s1, rfl, i1, i1, List.Sublist.refl _, fun hc => absurd hc hcap,
          fun _ => rfl, hl, ?_, save_size s1, save_max s1 tNow b, save_ap s1, m1⟩
        show List.filterMap Node.host (updateConnectable _ _ _ _) = _
        rw [hl, hosts_map_updated]
        rfl
      · simp only [Option.some.injEq] at h
        subst h
        have hl := fin s1 i1
        refine ⟨s1, s1, rfl, i1, i1, List.Sublist.refl _, fun hc => absurd hc hcap,
          fun _ => rfl, hl, ?_, rfl, rfl, rfl, m1⟩
        show List.filterMap Node.host (updateConnectable _ _ _ _) = _
        rw [hl, hosts_map_updated]
        rfl

theorem eq_of_address_eq {s : G2HostCache} (hi : Inv s) (a b : G2HostCacheHost)
    (ha : a ∈ s.hosts) (hb : b ∈ s.hosts) (h : a.m_oAddress = b.m_oAddress) : a = b :=
  List.inj_on_of_nodup_map hi.addresses_nodup ha hb h


/-! ## The size cap -/

theorem reachable_foldl_add (W : World) (v : Nat) (d : CEndPoint → Bool) (now : Nat)
    (l : List (CEndPoint × Nat)) (s : G2HostCache) (h : Reachable W v s) :
    Reachable W v (l.foldl (fun t a => (t.addSync W d a.1 a.2 now).1) s) := by
  induction l generalizing s with
  | nil => exact h
  | cons a l ih => exact ih _ (Reachable.add d a.1 a.2 now s h)

theorem exCacheT_reachable : Reachable exWorld 0 exCacheT :=
  reachable_foldl_add exWorld 0 exDenied 1000 exTen exStart
    (Reachable.startUp exSettings _ exStart_eq)

theorem exCacheT2_reachable : Reachable exWorld 0 exCacheT2 :=
  Reachable.onFailure _ _ (Reachable.onFailure _ _ exCacheT_reachable)

/-- A maintenance pass whose failure limit is not lowered, on a cache above the size cap: the
pass ends and keeps the first `c - c / 4` hosts, with the connectable flag recomputed. -/
theorem maintain_cap {s : G2HostCache} (hi : Inv s) (cfg : Settings) (tNow : Nat) (b : Bool)
    (hc : 0 < cfg.HostCacheSize % 4294967296) (hlen : s.hosts.length < 4294967296)
    (hsize : ((cfg.HostCacheSize % 4294967296 : Nat) : Int) < s.m_nSizeAtomic)
    (hm : s.m_nMaxFailures ≤ cfg.FailureLimit % 256) (h253 : cfg.FailureLimit % 256 ≤ 253) :
    ∃ t, s.maintain cfg tNow b = some t ∧ Inv t ∧
      t.hosts = (s.hosts.take (cfg.HostCacheSize % 4294967296 -
        cfg.HostCacheSize % 4294967296 / 4)).map (updatedHost cfg tNow) ∧
      t.m_nSizeAtomic = ((cfg.HostCacheSize % 4294967296 -
        cfg.HostCacheSize % 4294967296 / 4 : Nat) : Int) := by
  obtain ⟨t, ht⟩ := (maintainInternal_spec hi cfg tNow b).1 h253
  have it := ((maintainInternal_spec hi cfg tNow b).2 t ht).1
  obtain ⟨s1, s2, g1, i1, i2, _, g4, _, _, g7, g8, _, _, _⟩ :=
    maintainInternal_stages cfg tNow b hi ht
  obtain ⟨s1', r1, _, r3, r4, r5, _, r7⟩ := reshape_raise hi (cfg.FailureLimit % 256) hm h253
  rw [g1] at r1
  cases r1
  have hsz := size_eq_hosts hi
  have hgt : cfg.HostCacheSize % 4294967296 < s.hosts.length := by
    rw [hsz] at hsize
    exact_mod_cast hsize
  have hcap : cfg.HostCacheSize % 4294967296 ≠ 0 ∧
      (s1.m_nSizeAtomic % 4294967296).toNat > cfg.HostCacheSize % 4294967296 := by
    refine ⟨by omega, ?_⟩
    rw [r5, hsz]
    omega
  have e2 := g4 hcap
  have hfl : s1.hosts.length ≤ s1.m_lHosts.length := List.length_filterMap_le _ _
  obtain ⟨t2, t21, _, _, t24, _⟩ := evictDownTo_take
    (cfg.HostCacheSize % 4294967296 - cfg.HostCacheSize % 4294967296 / 4)
    (s1.m_lHosts.length + s1.m_nMaxFailures + 1) i1 s1.m_nMaxFailures (Nat.le_refl _)
    (fun k hk => i1.fail_le k hk) (by omega) (by rw [r7]; exact hlen)
  rw [e2] at t21
  cases t21
  refine ⟨t, ht, it, by rw [g7, t24, r7], ?_⟩
  rw [g8, size_eq_hosts i2, t24, r7, List.length_take]
  congr 1
  omega

/-- C21 as stated fails: the reachable cache `exCacheT2` holds ten hosts, more than the cap 8,
but the pass with the failure limit lowered from 3 to 0 first drops the hosts above the new
limit, finds the size below the cap and leaves seven hosts, more than `8 - 8 / 4 = 6`. -/
theorem C21_counterexample :
    Reachable exWorld 0 exCacheT2 ∧ exCacheT2.m_nSizeAtomic = 10 ∧
      exSettingsLow.HostCacheSize = 8 ∧ exCacheT2.m_nMaxFailures = 3 ∧
      exSettingsLow.FailureLimit = 0 ∧
      (exCacheT2.maintain exSettingsLow 2000 true).map (fun t => t.m_nSizeAtomic) = some 7 ∧
      ¬ ((7 : Int) ≤ ((8 - 8 / 4 : Nat) : Int)) :=
  ⟨exCacheT2_reachable, by decide, by decide, by decide, by decide, by decide, by decide⟩

/-- C21 (amended): for every size cap `c > 0` and every reachable state with fewer than 2^32
hosts whose size exceeds `c`, a maintenance pass whose configured failure limit is not below
the current one leaves a size of at most `c - c / 4`; the pass ends for every configured limit
up to 253. -/
theorem C21_size_cap (W : World) (v : Nat) (s : G2HostCache) (h : Reachable W v s)
    (cfg : Settings) (tNow : Nat) (bWritten : Bool)
    (hc : 0 < cfg.HostCacheSize % 4294967296) (hlen : s.hosts.length < 4294967296)
    (hsize : ((cfg.HostCacheSize % 4294967296 : Nat) : Int) < s.m_nSizeAtomic)
    (hm : s.m_nMaxFailures ≤ cfg.FailureLimit % 256) :
    (cfg.FailureLimit % 256 ≤ 253 → ∃ t, s.maintain cfg tNow bWritten = some t) ∧
      ∀ t, s.maintain cfg tNow bWritten = some t →
        t.m_nSizeAtomic ≤ ((cfg.HostCacheSize % 4294967296 -
          cfg.HostCacheSize % 4294967296 / 4 : Nat) : Int) := by
  have hi := h.inv
  refine ⟨(maintainInternal_spec hi cfg tNow bWritten).1, fun t ht => ?_⟩
  obtain ⟨it, mt⟩ := (maintainInternal_spec hi cfg tNow bWritten).2 t ht
  have h253 : cfg.FailureLimit % 256 ≤ 253 := by
    rw [← mt]
    exact it.max_le
  obtain ⟨t', ht', _, _, hs⟩ := maintain_cap hi cfg tNow bWritten hc hlen hsize hm h253
  rw [ht] at ht'
  cases ht'
  rw [hs]

/-- The statement of C21 (amended) on the cache `exCacheT`: cap 8 and ten hosts without
failures give a size of 6. -/
theorem C21_size_cap_witness :
    (Reachable exWorld 0 exCacheT ∧ 0 < exSettings.HostCacheSize % 4294967296 ∧
      exCacheT.hosts.length < 4294967296 ∧
      ((exSettings.HostCacheSize % 4294967296 : Nat) : Int) < exCacheT.m_nSizeAtomic ∧
      exCacheT.m_nMaxFailures ≤ exSettings.FailureLimit % 256) ∧
    exCacheT.hosts.length = 10 ∧
    (exCacheT.maintain exSettings 2000 true).map (fun t => t.m_nSizeAtomic) = some 6 ∧
    ((exSettings.FailureLimit % 256 ≤ 253 →
        ∃ t, exCacheT.maintain exSettings 2000 true = some t) ∧
      ∀ t, exCacheT.maintain exSettings 2000 true = some t →
        t.m_nSizeAtomic ≤ ((exSettings.HostCacheSize % 4294967296 -
          exSettings.HostCacheSize % 4294967296 / 4 : Nat) : Int)) :=
  ⟨⟨exCacheT_reachable, by decide, by decide, by decide, by decide⟩, by decide, by decide,
    C21_size_cap exWorld 0 exCacheT exCacheT_reachable exSettings 2000 true (by decide)
      (by decide) (by decide) (by decide)⟩

/-- C27 as stated fails: the reachable cache `exCacheT2` holds ten hosts, more than the cap 8,
but after the pass with the failure limit lowered from 3 to 0 it holds seven hosts, not
`8 - 8 / 4 = 6`, and they are not the first six hosts of the previous sequence. -/
theorem C27_counterexample :
    Reachable exWorld 0 exCacheT2 ∧ exCacheT2.hosts.length = 10 ∧
      exSettingsLow.HostCacheSize = 8 ∧
      (exCacheT2.maintain exSettingsLow 2000 true).map
        (fun t => t.hosts.map (fun e => e.m_oAddress)) =
          some [⟨10, 6346⟩, ⟨9, 6346⟩, ⟨8, 6346⟩, ⟨7, 6346⟩, ⟨6, 6346⟩, ⟨5, 6346⟩, ⟨4, 6346⟩] ∧
      (exCacheT2.hosts.take (8 - 8 / 4)).map (fun e => e.m_oAddress) =
        [⟨10, 6346⟩, ⟨9, 6346⟩, ⟨8, 6346⟩, ⟨7, 6346⟩, ⟨6, 6346⟩, ⟨5, 6346⟩] :=
  ⟨exCacheT2_reachable, by decide, by decide, by decide, by decide⟩

/-- C27 (amended): for a cap `c > 0` and a reachable state with `n > c` hosts (`n < 2^32`),
after a maintenance pass whose configured failure limit is not below the current one the cache
holds exactly `c - c / 4` hosts: the first `c - c / 4` hosts of the previous sequence in the
same order, changed in nothing but the recomputed connectable flag; every evicted host came
after every surviving host in priority order.  The pass ends for every configured limit up to
253. -/
theorem C27_cap_keeps_first (W : World) (v : Nat) (s : G2HostCache) (h : Reachable W v s)
    (cfg : Settings) (tNow : Nat) (bWritten : Bool)
    (hc : 0 < cfg.HostCacheSize % 4294967296) (hlen : s.hosts.length < 4294967296)
    (hsize : cfg.HostCacheSize % 4294967296 < s.hosts.length)
    (hm : s.m_nMaxFailures ≤ cfg.FailureLimit % 256) :
    (cfg.FailureLimit % 256 ≤ 253 → ∃ t, s.maintain cfg tNow bWritten = some t) ∧
      ∀ t, s.maintain cfg tNow bWritten = some t →
        t.hosts.length =
          cfg.HostCacheSize % 4294967296 - cfg.HostCacheSize % 4294967296 / 4 ∧
        t.hosts = (s.hosts.take (cfg.HostCacheSize % 4294967296 -
          cfg.HostCacheSize % 4294967296 / 4)).map (updatedHost cfg tNow) ∧
        (∀ x, { updatedHost cfg tNow x with m_bConnectable := x.m_bConnectable } = x) ∧
        ∀ a ∈ s.hosts.take (cfg.HostCacheSize % 4294967296 -
            cfg.HostCacheSize % 4294967296 / 4),
          ∀ e ∈ s.hosts.drop (cfg.HostCacheSize % 4294967296 -
            cfg.HostCacheSize % 4294967296 / 4),
            a.m_nFailures < e.m_nFailures ∨
              (a.m_nFailures = e.m_nFailures ∧ e.m_tTimestamp ≤ a.m_tTimestamp) := by
  have hi := h.inv
  refine ⟨(maintainInternal_spec hi cfg tNow bWritten).1, fun t ht => ?_⟩
  obtain ⟨it, mt⟩ := (maintainInternal_spec hi cfg tNow bWritten).2 t ht
  have h253 : cfg.FailureLimit % 256 ≤ 253 := by
    rw [← mt]
    exact it.max_le
  have hsize' : ((cfg.HostCacheSize % 4294967296 : Nat) : Int) < s.m_nSizeAtomic := by
    rw [size_eq_hosts hi]
    exact_mod_cast hsize
  obtain ⟨t', ht', _, hh, _⟩ := maintain_cap hi cfg tNow bWritten hc hlen hsize' hm h253
  rw [ht] at ht'
  cases ht'
  refine ⟨?_, hh, fun x => (updatedHost_fields cfg tNow x).1, ?_⟩
  · rw [hh, List.length_map, List.length_take]
    omega
  · intro a ha e he
    have ho := hi.hosts_ordered
    rw [← List.take_append_drop (cfg.HostCacheSize % 4294967296 -
      cfg.HostCacheSize % 4294967296 / 4) s.hosts] at ho
    exact (List.pairwise_append.1 ho).2.2 a ha e he

/-- The statement of C27 (amended) on the cache `exCacheT`: of the ten hosts the six with the
highest timestamps stay. -/
theorem C27_cap_keeps_first_witness :
    (Reachable exWorld 0 exCacheT ∧ 0 < exSettings.HostCacheSize % 4294967296 ∧
      exCacheT.hosts.length < 4294967296 ∧
      exSettings.HostCacheSize % 4294967296 < exCacheT.hosts.length ∧
      exCacheT.m_nMaxFailures ≤ exSettings.FailureLimit % 256) ∧
    (exCacheT.maintain exSettings 2000 true).map
      (fun t => t.hosts.map (fun e => e.m_oAddress)) =
        some [⟨10, 6346⟩, ⟨9, 6346⟩, ⟨8, 6346⟩, ⟨7, 6346⟩, ⟨6, 6346⟩, ⟨5, 6346⟩] ∧
    ((exSettings.FailureLimit % 256 ≤ 253 →
        ∃ t, exCacheT.maintain exSettings 2000 true = some t) ∧
      ∀ t, exCacheT.maintain exSettings 2000 true = some t →
        t.hosts.length = exSettings.HostCacheSize % 4294967296 -
          exSettings.HostCacheSize % 4294967296 / 4 ∧
        t.hosts = (exCacheT.hosts.take (exSettings.HostCacheSize % 4294967296 -
          exSettings.HostCacheSize % 4294967296 / 4)).map (updatedHost exSettings 2000) ∧
        (∀ x, { updatedHost exSettings 2000 x with m_bConnectable := x.m_bConnectable } = x) ∧
        ∀ a ∈ exCacheT.hosts.take (exSettings.HostCacheSize % 4294967296 -
            exSettings.HostCacheSize % 4294967296 / 4),
          ∀ e ∈ exCacheT.hosts.drop (exSettings.HostCacheSize % 4294967296 -
            exSettings.HostCacheSize % 4294967296 / 4),
            a.m_nFailures < e.m_nFailures ∨
              (a.m_nFailures = e.m_nFailures ∧ e.m_tTimestamp ≤ a.m_tTimestamp)) :=
  ⟨⟨exCacheT_reachable, by decide, by decide, by decide, by decide⟩, by decide,
    C27_cap_keeps_first exWorld 0 exCacheT exCacheT_reachable exSettings 2000 true (by decide)
      (by decide) (by decide) (by decide)⟩

/-! ## The failure limit is lowered or raised -/

/-- C22: the reachable cache `exCacheB` has the failure limit 3 and holds host `2:6346` without
failures and host `1:6346` with one failure; the size cap 8 is not exceeded.  The maintenance
pass with the limit lowered to 0 leaves no host: host `2:6346`, whose failures do not exceed the
new limit, is evicted as well. -/
theorem C22_lowered_limit_evicts_one_more :
    Reachable exWorld 0 exCacheB ∧ exCacheB.m_nMaxFailures = 3 ∧
      exCacheB.hosts = [G2HostCacheHost.create ⟨2, 6346⟩ 400 0,
        G2HostCacheHost.create ⟨1, 6346⟩ 300 1] ∧
      exSettingsLow.FailureLimit % 256 = 0 ∧
      ¬ (exSettingsLow.HostCacheSize % 4294967296 ≠ 0 ∧
        (exCacheB.m_nSizeAtomic % 4294967296).toNat > exSettingsLow.HostCacheSize % 4294967296) ∧
      (evictAbove 0 (exCacheB.m_lHosts.length + 4) exCacheB 3).map (fun t => t.hosts) =
        some [] ∧
      (exCacheB.maintain exSettingsLow 2000 true).map (fun t => t.hosts) = some [] :=
  ⟨exCacheB_reachable, by decide, by decide, by decide, by decide, by decide, by decide⟩

/-- C28 as stated fails: in the reachable cache `exCacheB` no host is flagged connectable; the
maintenance pass at time 2000 with the failure limit raised from 3 to 5, the size cap of 8 not
exceeded, ends with the two new access points at the tail, but the slots up to the old tail
access point are not the old slots: the last loop of the pass has flagged both hosts
connectable. -/
theorem C28_counterexample :
    Reachable exWorld 0 exCacheB ∧
      exCacheB.m_nMaxFailures = 3 ∧ exSettingsHigh.FailureLimit % 256 = 5 ∧
      ¬ (exSettingsHigh.HostCacheSize % 4294967296 ≠ 0 ∧
        (exCacheB.m_nSizeAtomic % 4294967296).toNat >
          exSettingsHigh.HostCacheSize % 4294967296) ∧
      exCacheB.hosts.map (fun e => (e.m_oAddress, e.m_bConnectable)) =
        [(⟨2, 6346⟩, false), (⟨1, 6346⟩, false)] ∧
      (exCacheB.maintain exSettingsHigh 2000 true).map
        (fun t => t.hosts.map (fun e => (e.m_oAddress, e.m_bConnectable))) =
          some [(⟨2, 6346⟩, true), (⟨1, 6346⟩, true)] ∧
      (exCacheB.maintain exSettingsHigh 2000 true).map
        (fun t => t.slots.drop exCacheB.slots.length) = some [none, none] ∧
      (exCacheB.maintain exSettingsHigh 2000 true).map
        (fun t => t.slots.take exCacheB.slots.length) ≠ some exCacheB.slots :=
  ⟨exCacheB_reachable, by decide, by decide, by decide, by decide, by decide, by decide,
    by decide⟩

/-- C28 (amended): on a reachable state, when the configured failure limit rises from `m` to
`m' > m` and the size cap is not exceeded, the maintenance pass removes and reorders nothing:
the slots up to the old tail access point keep their place and their cells, their hosts changed
in nothing but the recomputed connectable flag; `m' - m` access points are appended at the
tail; the size is unchanged and the buckets `m + 1` to `m'` are empty.  The pass ends for every
configured limit up to 253. -/
theorem C28_limit_raised (W : World) (v : Nat) (s : G2HostCache) (h : Reachable W v s)
    (cfg : Settings) (tNow : Nat) (bWritten : Bool)
    (hraise : s.m_nMaxFailures < cfg.FailureLimit % 256)
    (hcap : ¬ (cfg.HostCacheSize % 4294967296 ≠ 0 ∧
      (s.m_nSizeAtomic % 4294967296).toNat > cfg.HostCacheSize % 4294967296)) :
    (cfg.FailureLimit % 256 ≤ 253 → ∃ t, s.maintain cfg tNow bWritten = some t) ∧
      ∀ t, s.maintain cfg tNow bWritten = some t →
        t.m_nMaxFailures = cfg.FailureLimit % 256 ∧
        t.slots = s.slots.map (Option.map (updatedHost cfg tNow)) ++
          List.replicate (cfg.FailureLimit % 256 - s.m_nMaxFailures) none ∧
        (∀ x, { updatedHost cfg tNow x with m_bConnectable := x.m_bConnectable } = x) ∧
        ids t.m_lHosts = ids s.m_lHosts ++
          List.range' s.m_nNextNode (cfg.FailureLimit % 256 - s.m_nMaxFailures) ∧
        t.hosts = s.hosts.map (updatedHost cfg tNow) ∧
        t.m_nSizeAtomic = s.m_nSizeAtomic ∧
        ∀ k, s.m_nMaxFailures < k → k ≤ cfg.FailureLimit % 256 → t.bucket k = [] := by
  have hi := h.inv
  refine ⟨(maintainInternal_spec hi cfg tNow bWritten).1, fun t ht => ?_⟩
  obtain ⟨it, mt⟩ := (maintainInternal_spec hi cfg tNow bWritten).2 t ht
  have h253 : cfg.FailureLimit % 256 ≤ 253 := by
    rw [← mt]
    exact it.max_le
  obtain ⟨s1, s2, g1, i1, i2, _, _, g5, g6, g7, g8, g9, _, g11⟩ :=
    maintainInternal_stages cfg tNow bWritten hi ht
  obtain ⟨s1', r1, _, r3, r4, r5, _, r7⟩ :=
    reshape_raise hi (cfg.FailureLimit % 256) (by omega) h253
  rw [g1] at r1
  cases r1
  have hs2 : s2 = s1 := g5 (by rw [r5]; exact hcap)
  subst hs2
  have hth : t.hosts = s.hosts.map (updatedHost cfg tNow) := by rw [g7, r7]
  refine ⟨by rw [g9, g11], ?_, fun x => (updatedHost_fields cfg tNow x).1, ?_, hth,
    by rw [g8, r5], ?_⟩
  · unfold G2HostCache.slots
    rw [g6, r4]
    simp only [List.map_append, List.map_map]
    congr 1
    rw [List.eq_replicate_iff]
    refine ⟨by simp, ?_⟩
    intro o ho
    simp only [List.mem_map, Function.comp] at ho
    obtain ⟨i, _, hio⟩ := ho
    rw [← hio]
    rfl
  · rw [g6, r4]
    simp only [ids, List.map_append, List.map_map]
    congr 1
    simp [Function.comp_def]
  · intro k hk1 hk2
    rw [it.bucket_eq k (by rw [g9, g11]; exact hk2), hth, List.filter_eq_nil_iff]
    intro e he
    obtain ⟨e0, he0, hee⟩ := List.mem_map.1 he
    have hf := hi.host_failures_le e0 he0
    have := (updatedHost_fields cfg tNow e0).2.2.1
    rw [hee] at this
    simp only [decide_eq_true_eq]
    omega

/-- The statement of C28 (amended) on the cache `exCacheB` with the failure limit raised from 3
to 5. -/
theorem C28_limit_raised_witness :
    (Reachable exWorld 0 exCacheB ∧ exCacheB.m_nMaxFailures < exSettingsHigh.FailureLimit % 256 ∧
      ¬ (exSettingsHigh.HostCacheSize % 4294967296 ≠ 0 ∧
        (exCacheB.m_nSizeAtomic % 4294967296).toNat >
          exSettingsHigh.HostCacheSize % 4294967296)) ∧
    (exCacheB.maintain exSettingsHigh 2000 true).map (fun t => t.slots.length) =
      some (exCacheB.slots.length + 2) ∧
    ((exSettingsHigh.FailureLimit % 256 ≤ 253 →
        ∃ t, exCacheB.maintain exSettingsHigh 2000 true = some t) ∧
      ∀ t, exCacheB.maintain exSettingsHigh 2000 true = some t →
        t.m_nMaxFailures = exSettingsHigh.FailureLimit % 256 ∧
        t.slots = exCacheB.slots.map (Option.map (updatedHost exSettingsHigh 2000)) ++
          List.replicate (exSettingsHigh.FailureLimit % 256 - exCacheB.m_nMaxFailures) none ∧
        (∀ x, { updatedHost exSettingsHigh 2000 x with
          m_bConnectable := x.m_bConnectable } = x) ∧
        ids t.m_lHosts = ids exCacheB.m_lHosts ++
          List.range' exCacheB.m_nNextNode
            (exSettingsHigh.FailureLimit % 256 - exCacheB.m_nMaxFailures) ∧
        t.hosts = exCacheB.hosts.map (updatedHost exSettingsHigh 2000) ∧
        t.m_nSizeAtomic = exCacheB.m_nSizeAtomic ∧
        ∀ k, exCacheB.m_nMaxFailures < k → k ≤ exSettingsHigh.FailureLimit % 256 →
          t.bucket k = []) :=
  ⟨⟨exCacheB_reachable, by decide, by decide⟩, by decide,
    C28_limit_raised exWorld 0 exCacheB exCacheB_reachable exSettingsHigh 2000 true (by decide)
      (by decide)⟩

/-! ## The connectable flag -/

/-- A host of the cache after a maintenance pass is the updated copy of the host with the same
address before the pass. -/
theorem maintain_host {s t : G2HostCache} (hi : Inv s) (cfg : Settings) (tNow : Nat) (b : Bool)
    (ht : s.maintain cfg tNow b = some t) (e0 : G2HostCacheHost) (he0 : e0 ∈ s.hosts)
    (e : G2HostCacheHost) (he : e ∈ t.hosts) (hadr : e.m_oAddress = e0.m_oAddress) :
    e = updatedHost cfg tNow e0 ∧ Inv t := by
  have it := ((maintainInternal_spec hi cfg tNow b).2 t ht).1
  obtain ⟨s1, s2, g1, _, _, g3, _, _, _, g7, _⟩ := maintainInternal_stages cfg tNow b hi ht
  rw [g7] at he
  obtain ⟨e1, he1, hee⟩ := List.mem_map.1 he
  have hsub : s2.hosts.Sublist s.hosts :=
    (g3.filterMap Node.host).trans (reshape_hosts_sublist _ s s1 g1)
  have he1s := hsub.subset he1
  have hadr1 : e1.m_oAddress = e0.m_oAddress := by
    rw [← hadr, ← hee]
    exact ((updatedHost_fields cfg tNow e1).2.1).symm
  have := eq_of_address_eq hi e1 e0 he1s he0 hadr1
  rw [this] at hee
  exact ⟨hee.symm, it⟩

/-- C29: a maintenance pass with a failure limit of at most 253 ends.  After a pass at time
`now`, every host that was not flagged connectable before the pass and is still cached lies in
the bucket of its failures `k`, is unchanged except for the flag, and, when
`lastConnect + connectThrottle + k * failurePenalty` does not overflow the `quint32` and the
penalty fits its `quint16`, has the flag `now > lastConnect + connectThrottle +
k * failurePenalty`. -/
theorem C29_connectable_recomputed (W : World) (v : Nat) (s : G2HostCache)
    (h : Reachable W v s) (cfg : Settings) (tNow : Nat) (bWritten : Bool) :
    (cfg.FailureLimit % 256 ≤ 253 → ∃ t, s.maintain cfg tNow bWritten = some t) ∧
      ∀ t, s.maintain cfg tNow bWritten = some t →
        ∀ e0 ∈ s.hosts, e0.m_bConnectable = false →
          ∀ e ∈ t.hosts, e.m_oAddress = e0.m_oAddress →
            e ∈ t.bucket e0.m_nFailures ∧ e.m_nFailures = e0.m_nFailures ∧
              e = { e0 with m_bConnectable := e.m_bConnectable } ∧
              (cfg.FailurePenalty < 65536 →
                e0.m_tLastConnect + cfg.ConnectThrottle +
                  e0.m_nFailures * cfg.FailurePenalty < 4294967296 →
                e.m_bConnectable = decide (tNow > e0.m_tLastConnect + cfg.ConnectThrottle +
                  e0.m_nFailures * cfg.FailurePenalty)) := by
  have hi := h.inv
  refine ⟨(maintainInternal_spec hi cfg tNow bWritten).1, ?_⟩
  intro t ht e0 he0 hnc e he hadr
  obtain ⟨hee, it⟩ := maintain_host hi cfg tNow bWritten ht e0 he0 e he hadr
  have hf : e.m_nFailures = e0.m_nFailures := by
    rw [hee]
    exact (updatedHost_fields cfg tNow e0).2.2.1
  have hflag : e.m_bConnectable = decide (tNow > (((e0.m_tLastConnect : Int) +
      ((Int.ofNat cfg.ConnectThrottle - Int.ofNat (cfg.FailurePenalty % 65536)) +
        ((e0.m_nFailures + 1 : Nat) : Int) * Int.ofNat (cfg.FailurePenalty % 65536))) %
          4294967296).toNat) := by
    rw [hee]
    unfold G2HostCache.updatedHost
    simp only [hnc, Bool.false_eq_true, if_false]
  refine ⟨?_, hf, ?_, ?_⟩
  · rw [it.bucket_eq _ (by rw [← hf]; exact it.host_failures_le e he), List.mem_filter]
    exact ⟨he, by simpa using hf⟩
  · rw [hee]
    unfold G2HostCache.updatedHost
    simp only [hnc, Bool.false_eq_true, if_false]
  · intro hpen hov
    rw [hflag, Nat.mod_eq_of_lt hpen]
    have e1 : ((e0.m_tLastConnect : Int) +
        ((Int.ofNat cfg.ConnectThrottle - Int.ofNat cfg.FailurePenalty) +
          ((e0.m_nFailures + 1 : Nat) : Int) * Int.ofNat cfg.FailurePenalty)) =
        ((e0.m_tLastConnect + cfg.ConnectThrottle +
          e0.m_nFailures * cfg.FailurePenalty : Nat) : Int) := by
      simp only [Int.ofNat_eq_coe]
      push_cast
      ring
    rw [e1]
    have e2 : (((e0.m_tLastConnect + cfg.ConnectThrottle +
        e0.m_nFailures * cfg.FailurePenalty : Nat) : Int) % 4294967296).toNat =
        e0.m_tLastConnect + cfg.ConnectThrottle + e0.m_nFailures * cfg.FailurePenalty := by
      omega
    rw [e2]

/-- The statement of C29 on the cache `exCache` at time 2000: both hosts, never connected, are
flagged connectable by the pass. -/
theorem C29_connectable_recomputed_witness :
    Reachable exWorld 0 exCache ∧
      (exCache.maintain exSettings 2000 true).map
        (fun t => t.hosts.map (fun e => e.m_bConnectable)) = some [true, true] ∧
      (exCache.maintain exSettings 10 true).map
        (fun t => t.hosts.map (fun e => e.m_bConnectable)) = some [false, false] ∧
      ((exSettings.FailureLimit % 256 ≤ 253 → ∃ t, exCache.maintain exSettings 2000 true = some t) ∧
        ∀ t, exCache.maintain exSettings 2000 true = some t →
          ∀ e0 ∈ exCache.hosts, e0.m_bConnectable = false →
            ∀ e ∈ t.hosts, e.m_oAddress = e0.m_oAddress →
              e ∈ t.bucket e0.m_nFailures ∧ e.m_nFailures = e0.m_nFailures ∧
                e = { e0 with m_bConnectable := e.m_bConnectable } ∧
                (exSettings.FailurePenalty < 65536 →
                  e0.m_tLastConnect + exSettings.ConnectThrottle +
                    e0.m_nFailures * exSettings.FailurePenalty < 4294967296 →
                  e.m_bConnectable = decide (2000 > e0.m_tLastConnect +
                    exSettings.ConnectThrottle + e0.m_nFailures * exSettings.FailurePenalty))) :=
  ⟨exCache_reachable, by decide, by decide,
    C29_connectable_recomputed exWorld 0 exCache exCache_reachable exSettings 2000 true⟩

/-- C30: a maintenance pass with a failure limit of at most 253 ends, and it never revokes
connectability: every host that is flagged connectable before the pass and is still cached
afterwards is unchanged, so still flagged connectable, whatever its last connect, the time and
the throttle settings are. -/
theorem C30_connectable_kept (W : World) (v : Nat) (s : G2HostCache) (h : Reachable W v s)
    (cfg : Settings) (tNow : Nat) (bWritten : Bool) :
    (cfg.FailureLimit % 256 ≤ 253 → ∃ t, s.maintain cfg tNow bWritten = some t) ∧
      ∀ t, s.maintain cfg tNow bWritten = some t →
        ∀ e0 ∈ s.hosts, e0.m_bConnectable = true →
          ∀ e ∈ t.hosts, e.m_oAddress = e0.m_oAddress →
            e = e0 ∧ e.m_bConnectable = true := by
  have hi := h.inv
  refine ⟨(maintainInternal_spec hi cfg tNow bWritten).1, ?_⟩
  intro t ht e0 he0 hc e he hadr
  obtain ⟨hee, _⟩ := maintain_host hi cfg tNow bWritten ht e0 he0 e he hadr
  have : updatedHost cfg tNow e0 = e0 := by
    unfold G2HostCache.updatedHost
    simp only [hc, if_true]
  rw [this] at hee
  exact ⟨hee, by rw [hee]; exact hc⟩

/-- The statement of C30 on the cache `exCacheG`, whose hosts are flagged connectable: a pass
at time 0, when no host would be found connectable, leaves the flags set. -/
theorem C30_connectable_kept_witness :
    Reachable exWorld 0 exCacheG ∧
      exCacheG.hosts.map (fun e => e.m_bConnectable) = [true, true] ∧
      (exCacheG.maintain exSettings 0 true).map
        (fun t => t.hosts.map (fun e => e.m_bConnectable)) = some [true, true] ∧
      ((exSettings.FailureLimit % 256 ≤ 253 → ∃ t, exCacheG.maintain exSettings 0 true = some t) ∧
        ∀ t, exCacheG.maintain exSettings 0 true = some t →
          ∀ e0 ∈ exCacheG.hosts, e0.m_bConnectable = true →
            ∀ e ∈ t.hosts, e.m_oAddress = e0.m_oAddress →
              e = e0 ∧ e.m_bConnectable = true) :=
  ⟨exCacheG_reachable, by decide, by decide,
    C30_connectable_kept exWorld 0 exCacheG exCacheG_reachable exSettings 0 true⟩


/-! ## Firewalled, local and denied addresses -/

theorem exCacheLoc_reachable : Reachable exWorld 0 exCacheLoc :=
  Reachable.localAddressChanged _ _ exCache_reachable

/-- C23 as stated fails: `exCacheLoc` is reached from `exCache` by `localAddressChanged`, and
its host `1:6346` has the cached local address; and after the security manager has begun to
deny `1:6346`, the reachable cache `exCache`, filled while nothing was denied, holds a host
with a denied address. -/
theorem C23_counterexample :
    Reachable exWorld 0 exCacheLoc ∧
      (∃ e ∈ exCacheLoc.hosts, e.m_oAddress = exCacheLoc.m_oLokalAddress) ∧
      Reachable exWorld 0 exCache ∧
      (∃ e ∈ exCache.hosts, exDenyOne e.m_oAddress = true) :=
  ⟨exCacheLoc_reachable, by decide, exCache_reachable, by decide⟩

/-- C23 (amended): in every reachable state no host has a firewalled address.  `addSyncHelper`
returns an entry only for an address that is not firewalled, not the cached local address and
not denied by the security manager at that time, and after `sanityCheck` no host has a newly
denied address. -/
theorem C23_addresses (W : World) (v : Nat) (s : G2HostCache) (h : Reachable W v s) :
    (∀ e ∈ s.hosts, W.isFirewalled e.m_oAddress = false) ∧
      (∀ (isDenied : CEndPoint → Bool) (a : CEndPoint) (ts tNow f : Nat),
        (s.addSyncHelper W isDenied a ts tNow f).2 ≠ none →
          W.isFirewalled a = false ∧ a ≠ s.m_oLokalAddress ∧ isDenied a = false) ∧
      ∀ (isNewlyDenied : CEndPoint → Bool),
        ∀ e ∈ (s.sanityCheck isNewlyDenied).hosts, isNewlyDenied e.m_oAddress = false := by
  refine ⟨?_, ?_, ?_⟩
  · intro e he
    exact (h.addrOK e.key (key_mem_of_mem_hosts _ e he)).2
  · intro d a ts now f hne
    by_cases hr : W.isValid a = false ∨ W.isFirewalled a = true ∨ f > s.m_nMaxFailures ∨
        d a = true ∨ a = s.m_oLokalAddress
    · rw [addSyncHelper_reject W d s a ts now f hr] at hne
      exact absurd rfl hne
    · simp only [not_or, Bool.not_eq_false, Bool.not_eq_true, not_lt] at hr
      exact ⟨hr.2.1, hr.2.2.2.2, hr.2.2.2.1⟩
  · intro nd e he
    obtain ⟨n, hn, hx⟩ := (mem_hosts_iff _ e).1 he
    have hn' : n ∈ s.m_lHosts.filter (fun n =>
        match n.host with
        | some h => !nd h.m_oAddress
        | none => true) := hn
    have := (List.mem_filter.1 hn').2
    simp only [hx] at this
    simpa using this

/-- The statement of C23 (amended) on the cache `exCache`. -/
theorem C23_addresses_witness :
    Reachable exWorld 0 exCache ∧
      (exCache.sanityCheck exDenyOne).hosts = [G2HostCacheHost.create ⟨2, 6346⟩ 400 0] ∧
      ((∀ e ∈ exCache.hosts, exWorld.isFirewalled e.m_oAddress = false) ∧
        (∀ (isDenied : CEndPoint → Bool) (a : CEndPoint) (ts tNow f : Nat),
          (exCache.addSyncHelper exWorld isDenied a ts tNow f).2 ≠ none →
            exWorld.isFirewalled a = false ∧ a ≠ exCache.m_oLokalAddress ∧
              isDenied a = false) ∧
        ∀ (isNewlyDenied : CEndPoint → Bool),
          ∀ e ∈ (exCache.sanityCheck isNewlyDenied).hosts,
            isNewlyDenied e.m_oAddress = false) :=
  ⟨exCache_reachable, by decide, C23_addresses exWorld 0 exCache exCache_reachable⟩

/-! ## The header handed to `asyncAddXTry` -/

theorem splitOnAux_singleton (s : String) (c : Char) (n : Nat) :
    ∀ (b i : String.Pos) (r : List String), s.endPos.byteIdx - i.byteIdx = n →
      String.splitOnAux s (String.singleton c) b i 0 r =
        String.splitAux s (fun x => x == c) b i r := by
  induction n using Nat.strong_induction_on with
  | _ n ih =>
    intro b i r hn
    rw [String.splitOnAux, String.splitAux]
    by_cases hend : s.atEnd i = true
    · simp [hend]
    · have hlt : i.byteIdx < s.endPos.byteIdx := by
        simpa [String.atEnd, String.endPos] using hend
      have hnext : s.endPos.byteIdx - (s.next i).byteIdx < n := by
        have := String.lt_next s i
        have h2 : i.byteIdx < (s.next i).byteIdx := this
        omega
      have hget : (String.singleton c).get 0 = c := rfl
      have hnx : (String.singleton c).next 0 = ⟨c.utf8Size⟩ := by
        apply String.Pos.ext
        show (0 : Nat) + ((String.singleton c).get 0).utf8Size = c.utf8Size
        rw [hget]
        omega
      have hat : (String.singleton c).atEnd ⟨c.utf8Size⟩ = true := by
        simp [String.atEnd, String.endPos, String.utf8ByteSize, String.singleton,
          String.utf8ByteSize.go]
      simp only [hend, Bool.false_eq_true, if_false, hget, hnx, hat, if_true]
      by_cases hc : (s.get i == c) = true
      · simp only [hc, if_true]
        have hc' : s.get i = c := by simpa using hc
        have hsub : s.next i - (⟨c.utf8Size⟩ : String.Pos) = i := by
          apply String.Pos.ext
          show (i.byteIdx + (s.get i).utf8Size) - c.utf8Size = i.byteIdx
          rw [hc']
          omega
        rw [hsub]
        exact ih _ hnext _ _ _ rfl
      · simp only [hc, Bool.false_eq_true, if_false]
        have hz : i - (0 : String.Pos) = i := by
          apply String.Pos.ext
          show i.byteIdx - 0 = i.byteIdx
          omega
        rw [hz]
        exact ih _ hnext _ _ _ rfl

/-- Splitting at a separator of one character is splitting the list of characters at that
character. -/
theorem splitOn_singleton (s : String) (c : Char) :
    s.splitOn (String.singleton c) = (s.data.splitOnP (fun x => x == c)).map String.mk := by
  rw [← String.split_of_valid]
  unfold String.splitOn String.split
  have hne : (String.singleton c == "") = false := by
    have : String.singleton c ≠ "" := by
      intro h
      have := congrArg String.data h
      simp [String.singleton] at this
    simpa using this
  simp only [hne, Bool.false_eq_true, if_false]
  exact splitOnAux_singleton s c _ 0 0 [] rfl

theorem exHeader_entries : exHeader.splitOn "," =
    ["5.6.7.8:1 2010-02-23T16:17Z", " bad 2010", " 9.9.9.9:2"] := by
  rw [show ("," : String) = String.singleton ',' from rfl, splitOn_singleton]
  decide

theorem exHeader_first : "5.6.7.8:1 2010-02-23T16:17Z".splitOn " " =
    ["5.6.7.8:1", "2010-02-23T16:17Z"] := by
  rw [show (" " : String) = String.singleton ' ' from rfl, splitOn_singleton]
  decide

theorem exHeader_second : " bad 2010".splitOn " " = ["", "bad", "2010"] := by
  rw [show (" " : String) = String.singleton ' ' from rfl, splitOn_singleton]
  decide

theorem exHeader_third : " 9.9.9.9:2".splitOn " " = ["", "9.9.9.9:2"] := by
  rw [show (" " : String) = String.singleton ' ' from rfl, splitOn_singleton]
  decide

/-- What `asyncAddXTry` does with the header of the example: the first item is handed to
`addSyncHelper`, the second splits into three parts and is skipped, the third splits into an
empty address text and the text "9.9.9.9:2" in the place of the timestamp. -/
theorem asyncAddXTry_exHeader (W : World) (d : CEndPoint → Bool) (now : Nat)
    (s : G2HostCache) :
    s.asyncAddXTry W d now exHeader =
      (s.addXTryEntry W d now "5.6.7.8:1 2010-02-23T16:17Z").addXTryEntry W d now
        " 9.9.9.9:2" ∧
      s.addXTryEntry W d now "5.6.7.8:1 2010-02-23T16:17Z" =
        (if !W.isValid (W.parseEndPoint "5.6.7.8:1") || d (W.parseEndPoint "5.6.7.8:1") then s
         else (s.addSyncHelper W d (W.parseEndPoint "5.6.7.8:1")
          (match W.parseTimeStamp "2010-02-23T16:17Z" with
            | some t => t
            | none => now) now 0).1) ∧
      s.addXTryEntry W d now " 9.9.9.9:2" =
        (if !W.isValid (W.parseEndPoint "") || d (W.parseEndPoint "") then s
         else (s.addSyncHelper W d (W.parseEndPoint "")
          (match W.parseTimeStamp "9.9.9.9:2" with
            | some t => t
            | none => now) now 0).1) := by
  refine ⟨?_, ?_, ?_⟩
  · unfold G2HostCache.asyncAddXTry
    rw [exHeader_entries]
    simp only [List.foldl_cons, List.foldl_nil]
    congr 1
    unfold G2HostCache.addXTryEntry
    rw [exHeader_second]
  · unfold G2HostCache.addXTryEntry
    rw [exHeader_first]
  · unfold G2HostCache.addXTryEntry
    rw [exHeader_third]

/-- C24 as stated fails: on the empty cache `exStart`, in the world `exWorldX` where both
addresses are valid, not firewalled, not denied and not local, `asyncAddXTry` adds one host,
`5.6.7.8:1` with the parsed timestamp; `9.9.9.9:2` is not added.  In the world `exWorldXF`,
where the addresses are valid but firewalled, nothing is added. -/
theorem C24_counterexample :
    Reachable exWorldX 0 exStart ∧ exStart.hosts = [] ∧
      exWorldX.isValid ⟨84281096, 1⟩ = true ∧ exWorldX.isValid ⟨151587081, 2⟩ = true ∧
      exDenied ⟨84281096, 1⟩ = false ∧ exDenied ⟨151587081, 2⟩ = false ∧
      exStart.m_oLokalAddress ≠ ⟨84281096, 1⟩ ∧ exStart.m_oLokalAddress ≠ ⟨151587081, 2⟩ ∧
      (exStart.asyncAddXTry exWorldX exDenied 1300000000 exHeader).hosts =
        [G2HostCacheHost.create ⟨84281096, 1⟩ 1266941820 0] ∧
      (exStart.asyncAddXTry exWorldXF exDenied 1300000000 exHeader).hosts = [] := by
  refine ⟨Reachable.startUp exSettings _ exStart_eq, by decide, by decide, by decide,
    by decide, by decide, by decide, by decide, ?_, ?_⟩
  · obtain ⟨h1, h2, h3⟩ := asyncAddXTry_exHeader exWorldX exDenied 1300000000 exStart
    obtain ⟨_, _, k3⟩ := asyncAddXTry_exHeader exWorldX exDenied 1300000000
      (exStart.addXTryEntry exWorldX exDenied 1300000000 "5.6.7.8:1 2010-02-23T16:17Z")
    rw [h1, k3, h2]
    decide
  · obtain ⟨h1, h2, h3⟩ := asyncAddXTry_exHeader exWorldXF exDenied 1300000000 exStart
    obtain ⟨_, _, k3⟩ := asyncAddXTry_exHeader exWorldXF exDenied 1300000000
      (exStart.addXTryEntry exWorldXF exDenied 1300000000 "5.6.7.8:1 2010-02-23T16:17Z")
    rw [h1, k3, h2]
    decide

/-- C24 (amended): on a reachable cache without hosts, when `5.6.7.8:1` is valid, not
firewalled, not denied and not the local address, its timestamp text parses to `ts`, and the
empty text is no valid end point, `asyncAddXTry` with the header of the example adds exactly
one host: `5.6.7.8:1` with the timestamp `ts` (or `now - 60` if `ts` lies in the future).  The
middle item adds nothing, and neither does the last item, whose text after the comma starts
with a blank and so splits into an empty address and the text "9.9.9.9:2". -/
theorem C24_addXTry_adds_one (W : World) (v : Nat) (s : G2HostCache) (h : Reachable W v s)
    (isDenied : CEndPoint → Bool) (tNow ts : Nat) (hempty : s.hosts = [])
    (hvalid : W.isValid (W.parseEndPoint "5.6.7.8:1") = true)
    (hfw : W.isFirewalled (W.parseEndPoint "5.6.7.8:1") = false)
    (hden : isDenied (W.parseEndPoint "5.6.7.8:1") = false)
    (hloc : W.parseEndPoint "5.6.7.8:1" ≠ s.m_oLokalAddress)
    (hts : W.parseTimeStamp "2010-02-23T16:17Z" = some ts)
    (hnone : W.isValid (W.parseEndPoint "") = false) :
    (s.asyncAddXTry W isDenied tNow exHeader).hosts =
      [G2HostCacheHost.create (W.parseEndPoint "5.6.7.8:1")
        (if ts > tNow then subU32 tNow 60 else ts) 0] := by
  have hi := h.inv
  obtain ⟨h1, h2, _⟩ := asyncAddXTry_exHeader W isDenied tNow s
  obtain ⟨_, _, k3⟩ := asyncAddXTry_exHeader W isDenied tNow
    (s.addXTryEntry W isDenied tNow "5.6.7.8:1 2010-02-23T16:17Z")
  rw [h1, k3]
  simp only [hnone, Bool.not_false, Bool.true_or, if_true]
  rw [h2]
  simp only [hvalid, hden, Bool.not_true, Bool.or_self, Bool.false_eq_true, if_false, hts]
  have hf := find_none_of_not_cached (W.parseEndPoint "5.6.7.8:1") (s := s)
    (by rw [hempty]; intro e he; cases he)
  rw [addSyncHelper_new W isDenied hi _ ts tNow 0 hvalid hfw (Nat.zero_le _) hden hloc hf]
  obtain ⟨pre, x, p1, p2, hl, hx, _, _, _, _, hins⟩ := insert_spec hi
    (G2HostCacheHost.create (W.parseEndPoint "5.6.7.8:1")
      (if ts > tNow then subU32 tNow 60 else ts) 0) (Nat.zero_le _)
  have hnil : pre.filterMap Node.host = [] ∧ p1.filterMap Node.host = [] ∧
      p2.filterMap Node.host = [] := by
    have := hempty
    unfold G2HostCache.hosts at this
    rw [hl, hosts_append, hosts_cons_ap x _ hx, hosts_append] at this
    simp only [List.append_eq_nil] at this
    exact ⟨this.1, this.2.1, this.2.2⟩
  show List.filterMap Node.host (G2HostCache.insert s _).m_lHosts = _
  rw [hins]
  show List.filterMap Node.host (pre ++ x :: (p1 ++ _ :: p2)) = _
  rw [hosts_append, hosts_cons_ap x _ hx, hosts_append, List.filterMap_cons, hnil.1, hnil.2.1,
    hnil.2.2]
  rfl

/-- The statement of C24 (amended) on the empty cache `exStart` in the world `exWorldX`. -/
theorem C24_addXTry_adds_one_witness :
    (Reachable exWorldX 0 exStart ∧ exStart.hosts = [] ∧
      exWorldX.isValid (exWorldX.parseEndPoint "5.6.7.8:1") = true ∧
      exWorldX.isFirewalled (exWorldX.parseEndPoint "5.6.7.8:1") = false ∧
      exDenied (exWorldX.parseEndPoint "5.6.7.8:1") = false ∧
      exWorldX.parseEndPoint "5.6.7.8:1" ≠ exStart.m_oLokalAddress ∧
      exWorldX.parseTimeStamp "2010-02-23T16:17Z" = some 1266941820 ∧
      exWorldX.isValid (exWorldX.parseEndPoint "") = false) ∧
    (exStart.asyncAddXTry exWorldX exDenied 1300000000 exHeader).hosts =
      [G2HostCacheHost.create (exWorldX.parseEndPoint "5.6.7.8:1")
        (if 1266941820 > 1300000000 then subU32 1300000000 60 else 1266941820) 0] :=
  ⟨⟨Reachable.startUp exSettings _ exStart_eq, by decide, by decide, by decide, by decide,
      by decide, by decide, by decide⟩,
    C24_addXTry_adds_one exWorldX 0 exStart (Reachable.startUp exSettings _ exStart_eq)
      exDenied 1300000000 1266941820 (by decide) (by decide) (by decide) (by decide)
      (by decide) (by decide) (by decide)⟩


/-! ## Equal timestamps on insert -/

/-- C25 as stated fails: host `1:6346` was added with timestamp 300; inserting host `2:6346`
with the same timestamp and failures places it before host `1:6346`, not after it. -/
theorem C25_counterexample :
    Reachable exWorld 0 exCacheE ∧
      (exStart.addSync exWorld exDenied ⟨1, 6346⟩ 300 1000).1.hosts =
        [G2HostCacheHost.create ⟨1, 6346⟩ 300 0] ∧
      ((exStart.addSync exWorld exDenied ⟨1, 6346⟩ 300 1000).1.insert
        (G2HostCacheHost.create ⟨2, 6346⟩ 300 0)).hosts =
          [G2HostCacheHost.create ⟨2, 6346⟩ 300 0, G2HostCacheHost.create ⟨1, 6346⟩ 300 0] ∧
      exCacheE.bucket 0 =
        [G2HostCacheHost.create ⟨2, 6346⟩ 300 0, G2HostCacheHost.create ⟨1, 6346⟩ 300 0] :=
  ⟨Reachable.add _ _ _ _ _ (Reachable.add _ _ _ _ _ (Reachable.startUp exSettings _ exStart_eq)),
    by decide, by decide, by decide⟩

/-- C25 (amended): tie-break on insert.  On a reachable state, `insert` of an entry `p` with
`failures ≤ maxFailures` places it into the sequence of hosts so that every host before it
with the same failures has a strictly greater timestamp; the hosts of its bucket with the same
timestamp as `p`, like those with a smaller one, all come after `p`. -/
theorem C25_insert_before_equals (W : World) (v : Nat) (s : G2HostCache) (h : Reachable W v s)
    (p : G2HostCacheHost) (hf : p.m_nFailures ≤ s.m_nMaxFailures) :
    ∃ H1 H2, s.hosts = H1 ++ H2 ∧ (s.insert p).hosts = H1 ++ p :: H2 ∧
      (∀ e ∈ H1, e.m_nFailures = p.m_nFailures → p.m_tTimestamp < e.m_tTimestamp) ∧
      ∀ e ∈ s.bucket p.m_nFailures, e.m_tTimestamp ≤ p.m_tTimestamp → e ∈ H2 := by
  have hi := h.inv
  obtain ⟨pre, x, p1, p2, hl, hx, _, hpre, hp1, _, hins⟩ := insert_spec hi p hf
  have hb := hi.buckets
  rw [hl, keys_append, bucketsFrom_append] at hb
  have hprelt : ∀ e ∈ pre.filterMap Node.host, e.m_nFailures < p.m_nFailures := by
    intro e he
    have := (bucketsFrom_bounds _ _ hb.1 e.key (key_mem_of_mem_hosts _ e he)).2
    rw [← length_apIds, hpre] at this
    have h2 : e.key.failures = e.m_nFailures := rfl
    omega
  have hhosts : s.hosts = (pre.filterMap Node.host ++ p1.filterMap Node.host) ++
      p2.filterMap Node.host := by
    unfold G2HostCache.hosts
    rw [hl, hosts_append, hosts_cons_ap x _ hx, hosts_append, List.append_assoc]
  have hH1 : ∀ e ∈ pre.filterMap Node.host ++ p1.filterMap Node.host,
      e.m_nFailures = p.m_nFailures → p.m_tTimestamp < e.m_tTimestamp := by
    intro e he hef
    rcases List.mem_append.1 he with he | he
    · have := hprelt e he
      omega
    · obtain ⟨n, hn, hne⟩ := (mem_hosts_iff p1 e).1 he
      obtain ⟨e', he', hlt⟩ := hp1 n hn
      rw [hne] at he'
      cases he'
      exact hlt
  refine ⟨pre.filterMap Node.host ++ p1.filterMap Node.host, p2.filterMap Node.host, hhosts,
    ?_, hH1, ?_⟩
  · rw [hins]
    show List.filterMap Node.host (pre ++ x :: (p1 ++ _ :: p2)) = _
    rw [hosts_append, hosts_cons_ap x _ hx, hosts_append, List.filterMap_cons]
    simp
  · intro e he hle
    rw [hi.bucket_eq _ hf, List.mem_filter] at he
    obtain ⟨he1, he2⟩ := he
    have hef : e.m_nFailures = p.m_nFailures := by simpa using he2
    rw [hhosts] at he1
    rcases List.mem_append.1 he1 with he1 | he1
    · have := hH1 e he1 hef
      omega
    · exact he1

/-- The statement of C25 (amended) on the cache that holds host `1:6346` with timestamp 300,
for the insertion of host `2:6346` with the same timestamp. -/
theorem C25_insert_before_equals_witness :
    (Reachable exWorld 0 (exStart.addSync exWorld exDenied ⟨1, 6346⟩ 300 1000).1 ∧
      (G2HostCacheHost.create ⟨2, 6346⟩ 300 0).m_nFailures ≤
        (exStart.addSync exWorld exDenied ⟨1, 6346⟩ 300 1000).1.m_nMaxFailures) ∧
    ∃ H1 H2, (exStart.addSync exWorld exDenied ⟨1, 6346⟩ 300 1000).1.hosts = H1 ++ H2 ∧
      ((exStart.addSync exWorld exDenied ⟨1, 6346⟩ 300 1000).1.insert
        (G2HostCacheHost.create ⟨2, 6346⟩ 300 0)).hosts =
          H1 ++ G2HostCacheHost.create ⟨2, 6346⟩ 300 0 :: H2 ∧
      (∀ e ∈ H1, e.m_nFailures = (G2HostCacheHost.create ⟨2, 6346⟩ 300 0).m_nFailures →
        (G2HostCacheHost.create ⟨2, 6346⟩ 300 0).m_tTimestamp < e.m_tTimestamp) ∧
      ∀ e ∈ (exStart.addSync exWorld exDenied ⟨1, 6346⟩ 300 1000).1.bucket
          (G2HostCacheHost.create ⟨2, 6346⟩ 300 0).m_nFailures,
        e.m_tTimestamp ≤ (G2HostCacheHost.create ⟨2, 6346⟩ 300 0).m_tTimestamp → e ∈ H2 :=
  ⟨⟨Reachable.add _ _ _ _ _ (Reachable.startUp exSettings _ exStart_eq), by decide⟩,
    C25_insert_before_equals exWorld 0 _
      (Reachable.add _ _ _ _ _ (Reachable.startUp exSettings _ exStart_eq))
      (G2HostCacheHost.create ⟨2, 6346⟩ 300 0) (by decide)⟩


/-! ## Pruning by age and by query acknowledgement -/

theorem pruneOldWalk_filter (e : Nat) (b : Node) (l : List Node) :
    pruneOldWalk e (l ++ [b]) =
      l.filter (fun n =>
        match n.host with
        | none => true
        | some h => decide (e < h.m_tTimestamp)) ++ [b] := by
  induction l with
  | nil => rfl
  | cons x r ih =>
    obtain ⟨y, t, hyt⟩ : ∃ y t, r ++ [b] = y :: t := by
      cases r with
      | nil => exact ⟨b, [], rfl⟩
      | cons y t => exact ⟨y, t ++ [b], rfl⟩
    have hstep : pruneOldWalk e (x :: (r ++ [b])) =
        match x.host with
        | none => x :: pruneOldWalk e (r ++ [b])
        | some h =>
          if h.m_tTimestamp > e then x :: pruneOldWalk e (r ++ [b])
          else pruneOldWalk e (r ++ [b]) := by
      rw [hyt]
      rfl
    rw [List.cons_append, hstep, ih]
    cases hx : x.host with
    | none => simp [List.filter_cons, hx]
    | some h =>
      by_cases c : h.m_tTimestamp > e
      · simp [List.filter_cons, hx, c]
      · simp [List.filter_cons, hx, c]

theorem pruneOldHosts_filter (cfg : Settings) (s : G2HostCache) (now : Nat)
    (hb : s.slots.head? = some none) :
    (s.pruneOldHosts cfg now).m_lHosts =
      s.m_lHosts.filter (fun n =>
        match n.host with
        | none => true
        | some h => decide (subU32 now cfg.HostExpire < h.m_tTimestamp)) := by
  cases hl : s.m_lHosts with
  | nil => simp [slots, hl] at hb
  | cons b r =>
    have hbn : b.host = none := by simpa [slots, hl] using hb
    show (pruneOldWalk _ s.m_lHosts.reverse).reverse = _
    rw [hl, List.reverse_cons, pruneOldWalk_filter, List.reverse_append, List.reverse_singleton,
      List.singleton_append, ← List.filter_reverse, List.reverse_reverse, List.filter_cons]
    simp [hbn]

theorem hosts_filter (p : G2HostCacheHost → Bool) (l : List Node) :
    (l.filter (fun n =>
      match n.host with
      | none => true
      | some h => p h)).filterMap Node.host = (l.filterMap Node.host).filter p := by
  induction l with
  | nil => rfl
  | cons x r ih =>
    cases hx : x.host with
    | none => simp [List.filter_cons, hx, ih]
    | some h =>
      by_cases c : p h = true
      · simp [List.filter_cons, hx, c, ih]
      · simp [List.filter_cons, hx, c, ih]

theorem length_filter_cells (p : G2HostCacheHost → Bool) (l : List Node) :
    l.length - (l.filter (fun n =>
      match n.host with
      | none => true
      | some h => p h)).length = ((l.filterMap Node.host).filter (fun h => !p h)).length := by
  induction l with
  | nil => rfl
  | cons x r ih =>
    have hle := List.length_filter_le (fun n : Node =>
      match n.host with
      | none => true
      | some h => p h) r
    cases hx : x.host with
    | none =>
      simp only [List.filter_cons, hx, List.filterMap_cons, if_true, List.length_cons]
      omega
    | some h =>
      by_cases c : p h = true
      · simp only [List.filter_cons, hx, c, List.filterMap_cons, if_true, List.length_cons,
          Bool.not_true, Bool.false_eq_true, if_false]
        omega
      · simp only [List.filter_cons, hx, c, List.filterMap_cons, if_false, List.length_cons,
          Bool.not_eq_true] at *
        simp only [c, Bool.not_false, if_true, List.length_cons, Bool.false_eq_true, if_false]
        omega


/-- C31 fails for a host on the bound: in the reachable cache `exCache` the host `1:6346` has
timestamp 300, and at time 1300 with `HostExpire = 1000` the bound `tNow - HostExpire` is 300,
so the host is not older than the bound; `pruneOldHosts` erases it all the same, because it
keeps a host only when `timestamp() > tExpire`.  The host `2:6346` with timestamp 400 and all
access points stay. -/
theorem C31_boundary_host_erased :
    Reachable exWorld 0 exCache ∧
      exCache.hosts.map (fun e => (e.m_oAddress, e.m_tTimestamp)) =
        [(⟨2, 6346⟩, 400), (⟨1, 6346⟩, 300)] ∧
      subU32 1300 exSettings.HostExpire = 300 ∧
      ¬ (300 < subU32 1300 exSettings.HostExpire) ∧
      (exCache.pruneOldHosts exSettings 1300).hosts.map (fun e => (e.m_oAddress, e.m_tTimestamp)) =
        [(⟨2, 6346⟩, 400)] ∧
      (exCache.pruneOldHosts exSettings 1300).slots =
        [none, some (G2HostCacheHost.create ⟨2, 6346⟩ 400 0), none, none, none, none] :=
  ⟨exCache_reachable, by decide, by decide, by decide, by decide, by decide⟩

/-- What `pruneOldHosts(now)` does in a reachable state: the sequence afterwards is the
sequence before without the hosts whose timestamp is at most `now - HostExpire`, the `quint32`
difference the code computes; the hosts with a timestamp above the bound keep their place, and
so do all access points. -/
theorem pruneOldHosts_cells (W : World) (v : Nat) (s : G2HostCache) (h : Reachable W v s)
    (cfg : Settings) (now : Nat) :
    (s.pruneOldHosts cfg now).m_lHosts =
        s.m_lHosts.filter (fun n =>
          match n.host with
          | none => true
          | some e => decide (subU32 now cfg.HostExpire < e.m_tTimestamp)) ∧
      (∀ n ∈ s.m_lHosts, ∀ e, n.host = some e → e.m_tTimestamp ≤ subU32 now cfg.HostExpire →
        n ∉ (s.pruneOldHosts cfg now).m_lHosts) ∧
      (∀ n ∈ s.m_lHosts, ∀ e, n.host = some e → subU32 now cfg.HostExpire < e.m_tTimestamp →
        n ∈ (s.pruneOldHosts cfg now).m_lHosts) ∧
      (∀ n ∈ s.m_lHosts, n.host = none → n ∈ (s.pruneOldHosts cfg now).m_lHosts) ∧
      (s.pruneOldHosts cfg now).m_lHosts.Sublist s.m_lHosts ∧
      apIds (s.pruneOldHosts cfg now).m_lHosts = apIds s.m_lHosts := by
  obtain ⟨n0, r0, hl, hn0, -⟩ := h.inv.first_slot
  have hb : s.slots.head? = some none := by simp [slots, hl, hn0]
  have hf := pruneOldHosts_filter cfg s now hb
  refine ⟨hf, ?_, ?_, ?_, ?_, ?_⟩
  · intro n _ e he hle hmem
    rw [hf] at hmem
    have := (List.mem_filter.1 hmem).2
    simp only [he, decide_eq_true_eq] at this
    omega
  · intro n hn e he hlt
    rw [hf]
    exact List.mem_filter.2 ⟨hn, by simp only [he, decide_eq_true_eq]; exact hlt⟩
  · intro n hn he
    rw [hf]
    exact List.mem_filter.2 ⟨hn, by simp only [he]⟩
  · rw [hf]
    exact List.filter_sublist _
  · exact (h.inv.pruneOldHosts cfg now).ap_eq.symm.trans (h.inv.ap_eq ▸ rfl)

/-- C32: `pruneOldHosts(now)` is a total function of the state (the walk from the last cell
down to `begin()` ends), and in any state whose first slot is an access point it examines
every host: afterwards the hosts are the hosts before with a timestamp above
`now - HostExpire`, so no remaining host, wherever it stands, has a timestamp at or below
the bound (the `quint32` difference of the code, which for a `quint32` time is never below the
difference of the integers), and the size counter has decreased by the number of erased hosts. -/
theorem C32_prune_examines_all (cfg : Settings) (s : G2HostCache) (now : Nat)
    (hb : s.slots.head? = some none) :
    (s.pruneOldHosts cfg now).hosts =
        s.hosts.filter (fun e => decide (subU32 now cfg.HostExpire < e.m_tTimestamp)) ∧
      (∀ e ∈ (s.pruneOldHosts cfg now).hosts, ¬ e.m_tTimestamp ≤ subU32 now cfg.HostExpire) ∧
      (now < 4294967296 → ∀ e ∈ (s.pruneOldHosts cfg now).hosts,
        ¬ (e.m_tTimestamp : Int) ≤ (now : Int) - (cfg.HostExpire : Int)) ∧
      (s.pruneOldHosts cfg now).slots.filter (fun o => o.isNone) =
        s.slots.filter (fun o => o.isNone) ∧
      (s.pruneOldHosts cfg now).m_nSizeAtomic = s.m_nSizeAtomic -
        ((s.hosts.filter (fun e => decide (e.m_tTimestamp ≤ subU32 now cfg.HostExpire))).length
          : Nat) ∧
      (s.pruneOldHosts cfg now).hosts.length + (s.hosts.filter (fun e =>
        decide (e.m_tTimestamp ≤ subU32 now cfg.HostExpire))).length = s.hosts.length := by
  have hf := pruneOldHosts_filter cfg s now hb
  have hh : (s.pruneOldHosts cfg now).hosts =
      s.hosts.filter (fun e => decide (subU32 now cfg.HostExpire < e.m_tTimestamp)) := by
    show (s.pruneOldHosts cfg now).m_lHosts.filterMap Node.host = _
    rw [hf]
    exact hosts_filter (fun e => decide (subU32 now cfg.HostExpire < e.m_tTimestamp)) s.m_lHosts
  have hneg : (fun e : G2HostCacheHost =>
      !decide (subU32 now cfg.HostExpire < e.m_tTimestamp)) =
      (fun e => decide (e.m_tTimestamp ≤ subU32 now cfg.HostExpire)) := by
    funext e
    by_cases c : subU32 now cfg.HostExpire < e.m_tTimestamp
    · simp [c]
    · simp [c, Nat.le_of_not_lt c]
  have hgt : ∀ e ∈ (s.pruneOldHosts cfg now).hosts,
      subU32 now cfg.HostExpire < e.m_tTimestamp := by
    intro e he
    rw [hh] at he
    simpa using (List.mem_filter.1 he).2
  refine ⟨hh, ?_, ?_, ?_, ?_, ?_⟩
  · intro e he
    have := hgt e he
    omega
  · intro hnow e he
    have := hgt e he
    unfold subU32 at this
    omega
  · show ((s.pruneOldHosts cfg now).m_lHosts.map Node.host).filter _ =
      (s.m_lHosts.map Node.host).filter _
    rw [hf]
    generalize s.m_lHosts = l
    induction l with
    | nil => rfl
    | cons x r ih =>
      cases hx : x.host with
      | none => simp [List.filter_cons, hx, ih]
      | some e =>
        by_cases c : subU32 now cfg.HostExpire < e.m_tTimestamp
        · simp [List.filter_cons, hx, c, ih]
        · simp [List.filter_cons, hx, c, ih]
  · show s.m_nSizeAtomic - ((s.m_lHosts.length - (s.pruneOldHosts cfg now).m_lHosts.length : Nat)
      : Int) = _
    rw [hf, length_filter_cells
      (fun e => decide (subU32 now cfg.HostExpire < e.m_tTimestamp)) s.m_lHosts, hneg]
    rfl
  · rw [hh, ← hneg]
    have := @List.length_eq_length_filter_add _ s.hosts
      (fun e : G2HostCacheHost => decide (subU32 now cfg.HostExpire < e.m_tTimestamp))
    omega

/-- The statement of C32 on the cache `exCache` at time 1300, where the host erased stands
directly before an access point and the host kept directly after the first slot. -/
theorem C32_prune_examines_all_witness :
    exCache.slots.head? = some none ∧
      (exCache.pruneOldHosts exSettings 1300).m_nSizeAtomic = 1 ∧
      ((exCache.pruneOldHosts exSettings 1300).hosts =
          exCache.hosts.filter
            (fun e => decide (subU32 1300 exSettings.HostExpire < e.m_tTimestamp)) ∧
        (∀ e ∈ (exCache.pruneOldHosts exSettings 1300).hosts,
          ¬ e.m_tTimestamp ≤ subU32 1300 exSettings.HostExpire) ∧
        ((1300 : Nat) < 4294967296 → ∀ e ∈ (exCache.pruneOldHosts exSettings 1300).hosts,
          ¬ (e.m_tTimestamp : Int) ≤ ((1300 : Nat) : Int) - (exSettings.HostExpire : Int)) ∧
        (exCache.pruneOldHosts exSettings 1300).slots.filter (fun o => o.isNone) =
          exCache.slots.filter (fun o => o.isNone) ∧
        (exCache.pruneOldHosts exSettings 1300).m_nSizeAtomic = exCache.m_nSizeAtomic -
          ((exCache.hosts.filter (fun e =>
            decide (e.m_tTimestamp ≤ subU32 1300 exSettings.HostExpire))).length : Nat) ∧
        (exCache.pruneOldHosts exSettings 1300).hosts.length + (exCache.hosts.filter (fun e =>
          decide (e.m_tTimestamp ≤ subU32 1300 exSettings.HostExpire))).length =
            exCache.hosts.length) :=
  ⟨by decide, by decide, C32_prune_examines_all exSettings exCache 1300 (by decide)⟩


theorem filter_cells_aps (p : G2HostCacheHost → Bool) (l : List Node) :
    ((l.filter (fun n =>
      match n.host with
      | none => true
      | some h => p h)).map Node.host).filter (fun o => o.isNone) =
      (l.map Node.host).filter (fun o => o.isNone) := by
  induction l with
  | nil => rfl
  | cons x r ih =>
    cases hx : x.host with
    | none => simp [List.filter_cons, hx, ih]
    | some e =>
      by_cases c : p e = true
      · simp [List.filter_cons, hx, c, ih]
      · simp [List.filter_cons, hx, c, ih]

theorem pruneByQueryAck_filter (cfg : Settings) (s : G2HostCache) (now : Nat) :
    (s.pruneByQueryAck cfg now).m_lHosts =
      s.m_lHosts.filter (fun n =>
        match n.host with
        | none => true
        | some e => !(e.m_tAck != 0 && decide (e.m_tAck < subU32 now cfg.QueryHostDeadline))) := by
  show s.m_lHosts.filter _ = _
  congr 1
  funext n
  cases n.host <;> rfl

theorem sanityCheck_filter (isNewlyDenied : CEndPoint → Bool) (s : G2HostCache) :
    (s.sanityCheck isNewlyDenied).m_lHosts =
      s.m_lHosts.filter (fun n =>
        match n.host with
        | none => true
        | some e => !isNewlyDenied e.m_oAddress) := by
  show s.m_lHosts.filter _ = _
  congr 1
  funext n
  cases n.host <;> rfl

/-- C33: `pruneByQueryAck(now)` removes exactly the hosts with `ack ≠ 0` and
`ack < now - QueryHostDeadline`, the `quint32` difference the code computes: a cell of the
sequence is there afterwards exactly when it is not such a host, the remaining cells keep
their order, every host with `ack = 0` and every access point stays, and the size counter
decreases by the number of hosts removed. -/
theorem C33_prune_by_query_ack (cfg : Settings) (s : G2HostCache) (now : Nat) :
    (∀ n ∈ s.m_lHosts, (n ∈ (s.pruneByQueryAck cfg now).m_lHosts ↔
        ¬ ∃ e, n.host = some e ∧ e.m_tAck ≠ 0 ∧ e.m_tAck < subU32 now cfg.QueryHostDeadline)) ∧
      (s.pruneByQueryAck cfg now).m_lHosts.Sublist s.m_lHosts ∧
      (s.pruneByQueryAck cfg now).hosts = s.hosts.filter (fun e =>
        !(e.m_tAck != 0 && decide (e.m_tAck < subU32 now cfg.QueryHostDeadline))) ∧
      (∀ e ∈ s.hosts, e.m_tAck = 0 → e ∈ (s.pruneByQueryAck cfg now).hosts) ∧
      (s.pruneByQueryAck cfg now).slots.filter (fun o => o.isNone) =
        s.slots.filter (fun o => o.isNone) ∧
      (s.pruneByQueryAck cfg now).m_nSizeAtomic = s.m_nSizeAtomic -
        ((s.hosts.filter (fun e =>
          e.m_tAck != 0 && decide (e.m_tAck < subU32 now cfg.QueryHostDeadline))).length : Nat) := by
  have hf := pruneByQueryAck_filter cfg s now
  have hh : (s.pruneByQueryAck cfg now).hosts = s.hosts.filter (fun e =>
      !(e.m_tAck != 0 && decide (e.m_tAck < subU32 now cfg.QueryHostDeadline))) := by
    show (s.pruneByQueryAck cfg now).m_lHosts.filterMap Node.host = _
    rw [hf]
    exact hosts_filter _ s.m_lHosts
  refine ⟨?_, ?_, hh, ?_, ?_, ?_⟩
  · intro n hn
    rw [hf, List.mem_filter]
    cases hx : n.host with
    | none => simp [hn]
    | some e =>
      simp only [hn, true_and, Option.some.injEq, exists_eq_left', Bool.not_eq_true',
        Bool.and_eq_false_imp, bne_iff_ne, ne_eq, decide_eq_false_iff_not, not_and]
  · rw [hf]
    exact List.filter_sublist _
  · intro e he h0
    rw [hh]
    exact List.mem_filter.2 ⟨he, by simp [h0]⟩
  · show ((s.pruneByQueryAck cfg now).m_lHosts.map Node.host).filter _ = _
    rw [hf]
    exact filter_cells_aps _ s.m_lHosts
  · show s.m_nSizeAtomic -
      ((s.m_lHosts.length - (s.pruneByQueryAck cfg now).m_lHosts.length : Nat) : Int) = _
    have h1 := length_filter_cells (fun e =>
      !(e.m_tAck != 0 && decide (e.m_tAck < subU32 now cfg.QueryHostDeadline))) s.m_lHosts
    simp only [Bool.not_not] at h1
    rw [hf]
    exact congrArg (fun k : Nat => s.m_nSizeAtomic - (k : Int)) h1

/-- The statement of C33 on the cache `exCacheQ` at time 1100 with a deadline of 100: the
host acknowledged at 950 goes, the two hosts never acknowledged stay. -/
theorem C33_prune_by_query_ack_witness :
    exCacheQ.hosts.map (fun e => (e.m_oAddress, e.m_tAck)) =
        [(⟨2, 6346⟩, 0), (⟨3, 6346⟩, 950), (⟨1, 6346⟩, 0)] ∧
      subU32 1100 exSettings.QueryHostDeadline = 1000 ∧
      (exCacheQ.pruneByQueryAck exSettings 1100).hosts.map (fun e => (e.m_oAddress, e.m_tAck)) =
        [(⟨2, 6346⟩, 0), (⟨1, 6346⟩, 0)] ∧
      (exCacheQ.pruneByQueryAck exSettings 1100).m_nSizeAtomic = 2 ∧
      (exCacheQ.pruneByQueryAck exSettings 1100).m_nSizeAtomic = exCacheQ.m_nSizeAtomic -
        ((exCacheQ.hosts.filter (fun e =>
          e.m_tAck != 0 && decide (e.m_tAck < subU32 1100 exSettings.QueryHostDeadline))).length
            : Nat) :=
  ⟨by decide, by decide, by decide, by decide,
    (C33_prune_by_query_ack exSettings exCacheQ 1100).2.2.2.2.2⟩

/-! ## The sanity pass -/

/-- C38: after `sanityCheck` no host has an address for which `isNewlyDenied` holds; a cell of
the sequence is there afterwards exactly when it is not a host with a newly denied address, the
remaining hosts and access points keep their order, and the size counter decreases by the
number of hosts removed. -/
theorem C38_sanity_check (isNewlyDenied : CEndPoint → Bool) (s : G2HostCache) :
    (∀ e ∈ (s.sanityCheck isNewlyDenied).hosts, isNewlyDenied e.m_oAddress = false) ∧
      (∀ n ∈ s.m_lHosts, (n ∈ (s.sanityCheck isNewlyDenied).m_lHosts ↔
        ¬ ∃ e, n.host = some e ∧ isNewlyDenied e.m_oAddress = true)) ∧
      (s.sanityCheck isNewlyDenied).m_lHosts.Sublist s.m_lHosts ∧
      (s.sanityCheck isNewlyDenied).hosts =
        s.hosts.filter (fun e => !isNewlyDenied e.m_oAddress) ∧
      (s.sanityCheck isNewlyDenied).slots.filter (fun o => o.isNone) =
        s.slots.filter (fun o => o.isNone) ∧
      (s.sanityCheck isNewlyDenied).m_nSizeAtomic = s.m_nSizeAtomic -
        ((s.hosts.filter (fun e => isNewlyDenied e.m_oAddress)).length : Nat) := by
  have hf := sanityCheck_filter isNewlyDenied s
  have hh : (s.sanityCheck isNewlyDenied).hosts =
      s.hosts.filter (fun e => !isNewlyDenied e.m_oAddress) := by
    show (s.sanityCheck isNewlyDenied).m_lHosts.filterMap Node.host = _
    rw [hf]
    exact hosts_filter _ s.m_lHosts
  refine ⟨?_, ?_, ?_, hh, ?_, ?_⟩
  · intro e he
    rw [hh] at he
    simpa using (List.mem_filter.1 he).2
  · intro n hn
    rw [hf, List.mem_filter]
    cases hx : n.host with
    | none => simp [hn]
    | some e => simp [hn]
  · rw [hf]
    exact List.filter_sublist _
  · show ((s.sanityCheck isNewlyDenied).m_lHosts.map Node.host).filter _ = _
    rw [hf]
    exact filter_cells_aps _ s.m_lHosts
  · have h1 := length_filter_cells (fun e => !isNewlyDenied e.m_oAddress) s.m_lHosts
    simp only [Bool.not_not] at h1
    show s.m_nSizeAtomic -
      ((s.m_lHosts.length - (s.sanityCheck isNewlyDenied).m_lHosts.length : Nat) : Int) = _
    rw [hf]
    exact congrArg (fun k : Nat => s.m_nSizeAtomic - (k : Int)) h1

/-- The statement of C38 on the cache `exCache` when the address `1:6346` is newly denied. -/
theorem C38_sanity_check_witness :
    exCache.slots = [none, some (G2HostCacheHost.create ⟨2, 6346⟩ 400 0),
        some (G2HostCacheHost.create ⟨1, 6346⟩ 300 0), none, none, none, none] ∧
      (exCache.sanityCheck exDenyOne).slots =
        [none, some (G2HostCacheHost.create ⟨2, 6346⟩ 400 0), none, none, none, none] ∧
      (exCache.sanityCheck exDenyOne).m_nSizeAtomic = 1 ∧
      (exCache.sanityCheck exDenyOne).m_nSizeAtomic = exCache.m_nSizeAtomic -
        ((exCache.hosts.filter (fun e => exDenyOne e.m_oAddress)).length : Nat) :=
  ⟨by decide, by decide, by decide, (C38_sanity_check exDenyOne exCache).2.2.2.2.2⟩


/-! ## The snapshot written by `writeToFile` -/

/-- C37: in every reachable state (with fewer than 2^32 hosts, the count being a `quint32`)
`writeToFile` writes the version, then a count equal to the number of hosts, which is also the
value it returns, then exactly that many records, the `i`-th one made of the address, failures,
timestamp and last connect of the `i`-th host of the sequence; access points produce no
record. -/
theorem C37_write_to_file (W : World) (v : Nat) (s : G2HostCache) (h : Reachable W v s)
    (nCodeVersion : Nat) (hlen : s.hosts.length < 4294967296) :
    (writeToFile nCodeVersion s).1 = nCodeVersion % 65536 ∧
      (writeToFile nCodeVersion s).2.1 = s.hosts.length ∧
      ((writeToFile nCodeVersion s).2.1 : Int) = s.count ∧
      (writeToFile nCodeVersion s).2.2.length = (writeToFile nCodeVersion s).2.1 ∧
      (writeToFile nCodeVersion s).2.2 = s.hosts.map toRecord ∧
      (writeToFile nCodeVersion s).2.2 = (s.slots.filterMap id).map (fun e =>
        ⟨e.m_oAddress, e.m_nFailures, e.m_tTimestamp, e.m_tLastConnect⟩) ∧
      ∀ (i : Nat) (e : G2HostCacheHost), s.hosts[i]? = some e →
        (writeToFile nCodeVersion s).2.2[i]? =
          some ⟨e.m_oAddress, e.m_nFailures, e.m_tTimestamp, e.m_tLastConnect⟩ := by
  have hw := writeToFile_eq h.inv nCodeVersion hlen
  rw [hw]
  refine ⟨rfl, rfl, ?_, ?_, rfl, ?_, ?_⟩
  · exact (size_eq_hosts h.inv).symm
  · simp
  · show s.hosts.map toRecord = _
    have : s.slots.filterMap id = s.hosts := by
      simp [slots, hosts, List.filterMap_map]
    rw [this]
    rfl
  · intro i e hi
    show (s.hosts.map toRecord)[i]? = _
    rw [List.getElem?_map, hi]
    rfl

/-- The statement of C37 on the cache `exCache`, written with version 7. -/
theorem C37_write_to_file_witness :
    Reachable exWorld 0 exCache ∧ exCache.hosts.length < 4294967296 ∧
      writeToFile 7 exCache = (7, 2, [⟨⟨2, 6346⟩, 0, 400, 0⟩, ⟨⟨1, 6346⟩, 0, 300, 0⟩]) ∧
      (writeToFile 7 exCache).2.2 = (exCache.slots.filterMap id).map (fun e =>
        ⟨e.m_oAddress, e.m_nFailures, e.m_tTimestamp, e.m_tLastConnect⟩) :=
  ⟨exCache_reachable, by decide, by decide,
    (C37_write_to_file exWorld 0 exCache exCache_reachable 7 (by decide)).2.2.2.2.2.1⟩


/-! ## The assertions of `insert` -/

theorem Inv.skeleton {s : G2HostCache} (hi : Inv s) : Skeleton s := by
  obtain ⟨n, r, hl, hn, -⟩ := hi.first_slot
  exact ⟨hi.ids_nodup, hi.ap_eq, hi.ap_len, by simp [slots, hl, hn]⟩

theorem insertStop_walk (n : Node) (ts : Nat) (hs : List Node) (z : Node) (q2 : List Node)
    (hh : ∀ m ∈ hs, m.host ≠ none) (hz : z.host = none) :
    ∃ p1 q1, hs = p1 ++ q1 ∧ insertStop ts (hs ++ z :: q2) = (q1 ++ [z]).head? ∧
      insertWalk n ts (hs ++ z :: q2) = p1 ++ n :: (q1 ++ z :: q2) ∧
      (∀ m ∈ p1, ∃ h, m.host = some h ∧ ts < h.m_tTimestamp) ∧
      (∀ m h, (q1 ++ [z]).head? = some m → m.host = some h → h.m_tTimestamp ≤ ts) := by
  induction hs with
  | nil =>
    refine ⟨[], [], rfl, by simp [insertStop, hz], by simp [insertWalk, hz], by simp, ?_⟩
    intro m h hm hmh
    simp only [List.nil_append, List.head?_cons, Option.some.injEq] at hm
    rw [← hm, hz] at hmh
    cases hmh
  | cons y r ih =>
    obtain ⟨g, hg⟩ : ∃ g, y.host = some g := by
      cases hy : y.host with
      | none => exact absurd hy (hh y (List.mem_cons_self _ _))
      | some g => exact ⟨g, rfl⟩
    by_cases c : g.m_tTimestamp > ts
    · obtain ⟨p1, q1, h1, h2, h3, h4, h5⟩ := ih (fun m hm => hh m (List.mem_cons_of_mem _ hm))
      refine ⟨y :: p1, q1, by rw [h1]; rfl, ?_, ?_, ?_, h5⟩
      · simp only [List.cons_append, insertStop, hg, c, if_true]
        exact h2
      · simp only [List.cons_append, insertWalk, hg, c, if_true]
        exact congrArg (List.cons y) h3
      · intro m hm
        rcases List.mem_cons.1 hm with rfl | hm
        · exact ⟨g, hg, c⟩
        · exact h4 m hm
    · refine ⟨[], y :: r, rfl, ?_, ?_, by simp, ?_⟩
      · simp [insertStop, hg, c]
      · simp [insertWalk, hg, c]
      · intro m h hm hmh
        simp only [List.cons_append, List.head?_cons, Option.some.injEq] at hm
        rw [← hm, hg] at hmh
        cases hmh
        omega

theorem hosts_of_apIds_nil (l : List Node) (h : (apIds l).length = 0) :
    ∀ m ∈ l, m.host ≠ none := by
  intro m hm hn
  have : m.id ∈ apIds l := by
    unfold apIds
    exact List.mem_map.2 ⟨m, List.mem_filter.2 ⟨hm, by simp [Node.isAP, hn]⟩, rfl⟩
  rw [List.length_eq_zero.1 h] at this
  cases this

/-- C39: in every state with the skeleton of access points, `insert` of an entry with at most
`m_nMaxFailures` failures passes all its assertions.  The list is `pre ++ x :: (p1 ++ q1 ++ z ::
q2)` where `x` is the access point `m_pFailures[f]`, `z` the access point `m_pFailures[f + 1]`
and `p1 ++ q1` holds hosts only; the walk that starts behind `x` passes the hosts `p1`, whose
timestamps are above the new one, and stops at the first cell of `q1 ++ [z]`, which is neither
the first cell of the list nor its end, and the new cell is put in front of it, between `x` and
`z`. -/
theorem C39_insert_asserts (s : G2HostCache) (hs : Skeleton s) (pNew : G2HostCacheHost)
    (hf : pNew.m_nFailures ≤ s.m_nMaxFailures) :
    s.insertAsserts pNew = true ∧
      ∃ pre x p1 q1 z q2, s.m_lHosts = pre ++ x :: (p1 ++ q1 ++ z :: q2) ∧
        x.host = none ∧ z.host = none ∧
        s.m_pFailures[pNew.m_nFailures]? = some x.id ∧
        s.m_pFailures[pNew.m_nFailures + 1]? = some z.id ∧
        (∀ m ∈ p1 ++ q1, m.host ≠ none) ∧
        (∀ m ∈ p1, ∃ h, m.host = some h ∧ pNew.m_tTimestamp < h.m_tTimestamp) ∧
        (∃ y, insertStop pNew.m_tTimestamp (p1 ++ q1 ++ z :: q2) = some y ∧
          (q1 ++ [z]).head? = some y ∧ s.m_lHosts.head?.map Node.id ≠ some y.id ∧
          ∀ h, y.host = some h → h.m_tTimestamp ≤ pNew.m_tTimestamp) ∧
        (s.insert pNew).m_lHosts =
          pre ++ x :: (p1 ++ ⟨s.m_nNextNode, some pNew⟩ :: (q1 ++ z :: q2)) := by
  have hlen : pNew.m_nFailures + 1 < (apIds s.m_lHosts).length := by
    rw [← hs.ap_eq, hs.ap_len]
    omega
  obtain ⟨a, ha⟩ : ∃ a, (apIds s.m_lHosts)[pNew.m_nFailures]? = some a :=
    ⟨_, List.getElem?_eq_getElem (by omega)⟩
  obtain ⟨pre, x, post, h1, h2, h3, h4, h5, h6⟩ :=
    ap_split s.m_lHosts hs.ids_nodup pNew.m_nFailures a ha
  have hnd : (ids pre ++ x.id :: ids post).Nodup := by
    have := hs.ids_nodup
    rw [h1, ids_append] at this
    exact this
  have hndpost : (ids post).Nodup := ((List.nodup_append.1 hnd).2.1).of_cons
  obtain ⟨b, hb⟩ : ∃ b, (apIds post)[0]? = some b := by
    have hl := hlen
    rw [h1, apIds_append, apIds_cons_ap x post h3, List.length_append, List.length_cons, h6] at hl
    exact ⟨_, List.getElem?_eq_getElem (by omega)⟩
  obtain ⟨hsl, z, q2, g1, g2, g3, -, -, g6⟩ := ap_split post hndpost 0 b hb
  have hhs := hosts_of_apIds_nil hsl g6
  obtain ⟨p1, q1, k1, k2, k3, k4, k5⟩ :=
    insertStop_walk ⟨s.m_nNextNode, some pNew⟩ pNew.m_tTimestamp hsl z q2 hhs g3
  have hxf : s.m_pFailures[pNew.m_nFailures]? = some x.id := by
    rw [hs.ap_eq, ha, h2]
  have hzf : s.m_pFailures[pNew.m_nFailures + 1]? = some z.id := by
    rw [hs.ap_eq, h1, apIds_append, apIds_cons_ap x post h3,
      List.getElem?_append_right (by omega), h6, Nat.add_sub_cancel_left,
      List.getElem?_cons_succ, hb, g2]
  obtain ⟨y, hy⟩ : ∃ y, (q1 ++ [z]).head? = some y := by
    cases q1 with
    | nil => exact ⟨z, rfl⟩
    | cons y t => exact ⟨y, rfl⟩
  have hymem : y ∈ post := by
    rw [g1, k1]
    cases q1 with
    | nil =>
      simp only [List.nil_append, List.head?_cons, Option.some.injEq] at hy
      simp [← hy]
    | cons y' t =>
      simp only [List.cons_append, List.head?_cons, Option.some.injEq] at hy
      simp [← hy]
  have hyid : y.id ∈ ids post := List.mem_map.2 ⟨y, hymem, rfl⟩
  have hhead : s.m_lHosts.head?.map Node.id ≠ some y.id := by
    rw [h1]
    intro hc
    have hmem : y.id ∈ ids pre ++ [x.id] := by
      cases pre with
      | nil =>
        simp only [List.nil_append, List.head?_cons, Option.map_some', Option.some.injEq] at hc
        simp [ids, hc]
      | cons p t =>
        simp only [List.cons_append, List.head?_cons, Option.map_some', Option.some.injEq] at hc
        simp [ids, hc]
    have hdis : (ids pre ++ [x.id] ++ ids post).Nodup := by
      simpa using hnd
    exact (List.nodup_append.1 hdis).2.2 hmem hyid
  have hpost : post = p1 ++ q1 ++ z :: q2 := by rw [g1, k1]
  have hstop : insertStop pNew.m_tTimestamp post = some y := by
    rw [g1, k2, hy]
  refine ⟨?_, pre, x, p1, q1, z, q2, by rw [h1, hpost], h3, g3, hxf, hzf, ?_, k4,
    ⟨y, by rw [← hpost]; exact hstop, hy, hhead, fun h hh => k5 y h hy hh⟩, ?_⟩
  · unfold insertAsserts
    rw [hxf]
    simp only
    have h5' : nodesFrom x.id s.m_lHosts = x :: post := by rw [h2]; exact h5
    rw [h5']
    simp only [h3, Option.isNone_none, Bool.true_and, hstop]
    simpa using hhead
  · rw [← k1]
    exact hhs
  · unfold G2HostCache.insert
    rw [hxf]
    simp only
    have h5' : nodesFrom x.id s.m_lHosts = x :: post := by rw [h2]; exact h5
    have h4' : nodesBefore x.id s.m_lHosts = pre := by rw [h2]; exact h4
    rw [h5']
    simp only [h4', g1, k3]

/-- The statement of C39 on the cache `exCache` and a new entry with timestamp 350 and no
failure, which goes between the hosts with timestamps 400 and 300; with
`m_nMaxFailures + 1 = 4` failures the walk starts behind the last access point and the
assertion fails. -/
theorem C39_insert_asserts_witness :
    Skeleton exCache ∧
      (G2HostCacheHost.create ⟨9, 6346⟩ 350 0).m_nFailures ≤ exCache.m_nMaxFailures ∧
      (exCache.insert (G2HostCacheHost.create ⟨9, 6346⟩ 350 0)).slots =
        [none, some (G2HostCacheHost.create ⟨2, 6346⟩ 400 0),
          some (G2HostCacheHost.create ⟨9, 6346⟩ 350 0),
          some (G2HostCacheHost.create ⟨1, 6346⟩ 300 0), none, none, none, none] ∧
      exCache.insertAsserts (G2HostCacheHost.create ⟨9, 6346⟩ 350 4) = false ∧
      exCache.insertAsserts (G2HostCacheHost.create ⟨9, 6346⟩ 350 0) = true :=
  ⟨exCache_reachable.inv.skeleton, by decide, by decide, by decide,
    (C39_insert_asserts exCache exCache_reachable.inv.skeleton
      (G2HostCacheHost.create ⟨9, 6346⟩ 350 0) (by decide)).1⟩


/-! ## The cost of `getConnectable` -/

theorem getConnectableCost_aux (W : World) (cfg : Settings) (tNow : Nat) (b : Bool) (fuel : Nat)
    (s : G2HostCache) (ex : List Nat) (c : String) :
    (getConnectableCost W cfg tNow b fuel s ex c).map (fun x => (x.1, x.2.1)) =
      getConnectableAux W cfg tNow b fuel s ex c := by
  induction fuel generalizing s c with
  | zero => rfl
  | succ fuel ih =>
    simp only [getConnectableCost, getConnectableAux]
    split
    · rfl
    · split
      · rfl
      · split
        · rfl
        · split
          · rfl
          · rename_i s1 _
            rw [← ih]
            cases getConnectableCost W cfg tNow b fuel { s1 with bSecondAttempt := true } ex "ZZ" with
            | none => rfl
            | some x => rfl

/-- A call made while the flag is set does not recurse. -/
theorem getConnectableCost_flag (W : World) (cfg : Settings) (tNow : Nat) (b : Bool) (fuel : Nat)
    (s : G2HostCache) (ex : List Nat) (c : String) (hflag : s.bSecondAttempt = true) :
    ∃ t r k, getConnectableCost W cfg tNow b (fuel + 1) s ex c = some (t, r, k) ∧
      getConnectableCost W cfg tNow b 1 s ex c = some (t, r, k) ∧
      k.nScans ≤ 1 ∧ k.nMaintain = 0 ∧ k.nRecursive = 0 ∧
      (scanConnectable W ex (c != "ZZ") c s.m_lHosts = none → r = none) := by
  simp only [getConnectableCost]
  by_cases hz : s.m_nSizeAtomic = 0
  · simp only [hz, if_true]
    exact ⟨_, _, _, rfl, rfl, by simp, rfl, rfl, fun _ => rfl⟩
  · simp only [hz, if_false]
    cases hsc : scanConnectable W ex (c != "ZZ") c s.m_lHosts with
    | some n =>
      exact ⟨_, _, _, rfl, rfl, by simp, rfl, rfl, fun hc => by cases hc⟩
    | none =>
      simp only [hflag, if_true]
      exact ⟨_, _, _, rfl, rfl, by simp, rfl, rfl, fun _ => rfl⟩

theorem getConnectableCost_fuel (W : World) (cfg : Settings) (tNow : Nat) (b : Bool) (fuel : Nat)
    (s : G2HostCache) (ex : List Nat) (c : String) :
    getConnectableCost W cfg tNow b (fuel + 2) s ex c =
      getConnectableCost W cfg tNow b 2 s ex c := by
  rw [getConnectableCost]
  conv_rhs => rw [getConnectableCost]
  by_cases hz : s.m_nSizeAtomic = 0
  · simp only [hz, if_true]
  · simp only [hz, if_false]
    cases hsc : scanConnectable W ex (c != "ZZ") c s.m_lHosts with
    | some n => rfl
    | none =>
      by_cases hflag : s.bSecondAttempt = true
      · simp only [hflag, if_true]
      · simp only [hflag, if_false, Bool.false_eq_true]
        cases hm : s.maintainInternal cfg tNow b with
        | none => rfl
        | some s1 =>
          obtain ⟨t, r, k, h1, h2, -⟩ := getConnectableCost_flag W cfg tNow b fuel
            { s1 with bSecondAttempt := true } ex "ZZ" rfl
          simp only [h1, h2]

/-- The counted body of `getConnectable` in a reachable state: it returns whenever the failure
limit is at most 253, room for more than two nested calls changes nothing, and it returns what
`getConnectable` returns.  A call that returns has scanned the sequence at most twice, has run
`maintainInternal` at most once and has called itself at most once.  It returns null when the
cache is empty, and when neither the scan of the call nor the scan after the maintenance pass
finds a host. -/
theorem getConnectable_bounds (W : World) (v : Nat) (s : G2HostCache)
    (h : Reachable W v s) (cfg : Settings) (tNow : Nat) (bWritten : Bool) (oExcept : List Nat)
    (sCountry : String) :
    (cfg.FailureLimit % 256 ≤ 253 →
        ∃ t r k, getConnectableCost W cfg tNow bWritten 2 s oExcept sCountry = some (t, r, k)) ∧
      (∀ fuel, 2 ≤ fuel → getConnectableCost W cfg tNow bWritten fuel s oExcept sCountry =
        getConnectableCost W cfg tNow bWritten 2 s oExcept sCountry) ∧
      (getConnectableCost W cfg tNow bWritten 2 s oExcept sCountry).map (fun x => (x.1, x.2.1)) =
        s.getConnectable W cfg tNow bWritten oExcept sCountry ∧
      (∀ t r k, getConnectableCost W cfg tNow bWritten 2 s oExcept sCountry = some (t, r, k) →
        k.nScans ≤ 2 ∧ k.nMaintain ≤ 1 ∧ k.nRecursive ≤ 1) ∧
      (s.hosts = [] → s.getConnectable W cfg tNow bWritten oExcept sCountry = some (s, none)) ∧
      ∀ t r, s.getConnectable W cfg tNow bWritten oExcept sCountry = some (t, r) →
        scanConnectable W oExcept (sCountry != "ZZ") sCountry s.m_lHosts = none →
        (∀ s1, s.maintainInternal cfg tNow bWritten = some s1 →
          scanConnectable W oExcept false "ZZ" s1.m_lHosts = none) → r = none := by
  have hfuel : ∀ fuel, 2 ≤ fuel → getConnectableCost W cfg tNow bWritten fuel s oExcept sCountry =
      getConnectableCost W cfg tNow bWritten 2 s oExcept sCountry := by
    intro fuel hf
    obtain ⟨n, rfl⟩ : ∃ n, fuel = n + 2 := ⟨fuel - 2, by omega⟩
    exact getConnectableCost_fuel W cfg tNow bWritten n s oExcept sCountry
  have hget : (getConnectableCost W cfg tNow bWritten 2 s oExcept sCountry).map
      (fun x => (x.1, x.2.1)) = s.getConnectable W cfg tNow bWritten oExcept sCountry := by
    rw [← hfuel 3 (by omega)]
    exact getConnectableCost_aux W cfg tNow bWritten 3 s oExcept sCountry
  have hzz : (("ZZ" : String) != "ZZ") = false := by decide
  -- the body with room for two nested calls, by cases
  have key : (cfg.FailureLimit % 256 ≤ 253 →
        ∃ t r k, getConnectableCost W cfg tNow bWritten 2 s oExcept sCountry = some (t, r, k)) ∧
      ∀ t r k, getConnectableCost W cfg tNow bWritten 2 s oExcept sCountry = some (t, r, k) →
        (k.nScans ≤ 2 ∧ k.nMaintain ≤ 1 ∧ k.nRecursive ≤ 1) ∧
        (scanConnectable W oExcept (sCountry != "ZZ") sCountry s.m_lHosts = none →
          (∀ s1, s.maintainInternal cfg tNow bWritten = some s1 →
            scanConnectable W oExcept false "ZZ" s1.m_lHosts = none) → r = none) := by
    rw [getConnectableCost]
    by_cases hz : s.m_nSizeAtomic = 0
    · simp only [hz, if_true]
      refine ⟨fun _ => ⟨_, _, _, rfl⟩, ?_⟩
      intro t r k hk
      cases hk
      exact ⟨by simp, fun _ _ => rfl⟩
    · simp only [hz, if_false]
      cases hsc : scanConnectable W oExcept (sCountry != "ZZ") sCountry s.m_lHosts with
      | some n =>
        refine ⟨fun _ => ⟨_, _, _, rfl⟩, ?_⟩
        intro t r k hk
        cases hk
        exact ⟨by simp, fun hc => by cases hc⟩
      | none =>
        by_cases hflag : s.bSecondAttempt = true
        · simp only [hflag, if_true]
          refine ⟨fun _ => ⟨_, _, _, rfl⟩, ?_⟩
          intro t r k hk
          cases hk
          exact ⟨by simp, fun _ _ => rfl⟩
        · simp only [hflag, if_false, Bool.false_eq_true]
          obtain ⟨m1, -⟩ := maintainInternal_spec h.inv cfg tNow bWritten
          cases hm : s.maintainInternal cfg tNow bWritten with
          | none =>
            refine ⟨fun h253 => ?_, fun t r k hk => by cases hk⟩
            obtain ⟨t, ht⟩ := m1 h253
            rw [hm] at ht
            cases ht
          | some s1 =>
            obtain ⟨t, r, k, -, h2, k1, k2, k3, k4⟩ := getConnectableCost_flag W cfg tNow bWritten 0
              { s1 with bSecondAttempt := true } oExcept "ZZ" rfl
            simp only [h2]
            refine ⟨fun _ => ⟨_, _, _, rfl⟩, ?_⟩
            intro t' r' k' hk
            cases hk
            refine ⟨⟨by simp; omega, by simp; omega, by simp; omega⟩, fun _ h2nd => ?_⟩
            apply k4
            rw [hzz]
            exact h2nd s1 rfl
  refine ⟨key.1, hfuel, hget, fun t r k hk => (key.2 t r k hk).1, ?_, ?_⟩
  · intro he
    have hz : s.m_nSizeAtomic = 0 := by
      rw [size_eq_hosts h.inv, he]
      rfl
    unfold G2HostCache.getConnectable
    rw [getConnectableAux]
    simp only [hz, if_true]
  · intro t r hr hs1 hs2
    rw [← hget] at hr
    cases hc : getConnectableCost W cfg tNow bWritten 2 s oExcept sCountry with
    | none =>
      rw [hc] at hr
      cases hr
    | some x =>
      obtain ⟨t', r', k'⟩ := x
      rw [hc] at hr
      simp only [Option.map_some', Option.some.injEq, Prod.mk.injEq] at hr
      rw [← hr.2]
      exact (key.2 t' r' k' hc).2 hs1 hs2

/-- C34 as stated fails: the cache `exCache` is reachable and holds two hosts, none flagged
connectable, and the flag `bSecondAttempt` is clear.  With the failure limit 254 the call
`getConnectable(∅, "ZZ")` finds nothing in its first scan and runs `maintainInternal`, whose
loop `while ( i < nNewMaxFailures + 2 )` over a `quint8` counter never ends: the call does
not return, whatever the room for nested calls. -/
theorem C34_counterexample :
    Reachable exWorld 0 exCache ∧ exCache.m_nSizeAtomic = 2 ∧ exCache.bSecondAttempt = false ∧
      exCache.m_nMaxFailures = 3 ∧ exSettings254.FailureLimit % 256 = 254 ∧
      scanConnectable exWorld [] false "ZZ" exCache.m_lHosts = none ∧
      exCache.maintainInternal exSettings254 2000 true = none ∧
      exCache.getConnectable exWorld exSettings254 2000 true [] "ZZ" = none ∧
      ∀ fuel, getConnectableCost exWorld exSettings254 2000 true fuel exCache [] "ZZ" = none := by
  refine ⟨exCache_reachable, by decide, by decide, by decide, by decide, by decide, by decide,
    by decide, fun fuel => ?_⟩
  match fuel with
  | 0 => rfl
  | 1 => decide
  | n + 2 =>
    rw [getConnectableCost_fuel]
    decide

/-- C34 (amended): in every reachable state a call `getConnectable(oExcept, sCountry)` made
with a failure limit of at most 253 ends: with room for two nested calls the counted body
returns, with more room it returns the same, and that is what `getConnectable` returns.  The
call has scanned the sequence at most twice, has run `maintainInternal` at most once and has
called itself at most once.  It returns null when the cache is empty, and when neither the scan
of the call nor the scan after the maintenance pass finds a host. -/
theorem C34_get_connectable_bounds (W : World) (v : Nat) (s : G2HostCache)
    (h : Reachable W v s) (cfg : Settings) (tNow : Nat) (bWritten : Bool) (oExcept : List Nat)
    (sCountry : String) (h253 : cfg.FailureLimit % 256 ≤ 253) :
    ∃ t r k, getConnectableCost W cfg tNow bWritten 2 s oExcept sCountry = some (t, r, k) ∧
      (∀ fuel, 2 ≤ fuel →
        getConnectableCost W cfg tNow bWritten fuel s oExcept sCountry = some (t, r, k)) ∧
      s.getConnectable W cfg tNow bWritten oExcept sCountry = some (t, r) ∧
      k.nScans ≤ 2 ∧ k.nMaintain ≤ 1 ∧ k.nRecursive ≤ 1 ∧
      (s.hosts = [] → t = s ∧ r = none ∧ k.nScans = 0) ∧
      (scanConnectable W oExcept (sCountry != "ZZ") sCountry s.m_lHosts = none →
        (∀ s1, s.maintainInternal cfg tNow bWritten = some s1 →
          scanConnectable W oExcept false "ZZ" s1.m_lHosts = none) → r = none) := by
  obtain ⟨g1, g2, g3, g4, g5, g6⟩ :=
    getConnectable_bounds W v s h cfg tNow bWritten oExcept sCountry
  obtain ⟨t, r, k, hk⟩ := g1 h253
  have hget : s.getConnectable W cfg tNow bWritten oExcept sCountry = some (t, r) := by
    rw [← g3, hk]
    rfl
  refine ⟨t, r, k, hk, fun fuel hf => by rw [g2 fuel hf, hk], hget, (g4 t r k hk).1,
    (g4 t r k hk).2.1, (g4 t r k hk).2.2, ?_, fun h1 h2 => g6 t r hget h1 h2⟩
  intro he
  have hz : s.m_nSizeAtomic = 0 := by
    rw [size_eq_hosts h.inv, he]
    rfl
  have hc : getConnectableCost W cfg tNow bWritten 2 s oExcept sCountry =
      some (s, none, ⟨0, 0, 0⟩) := by
    rw [getConnectableCost]
    simp only [hz, if_true]
  rw [hc] at hk
  simp only [Option.some.injEq, Prod.mk.injEq] at hk
  obtain ⟨k1, k2, k3⟩ := hk
  exact ⟨k1.symm, k2.symm, by rw [← k3]⟩

/-- The statement of C34 (amended) on the cache `exCache`, whose hosts are not flagged
connectable before the maintenance pass: the call for the country "US" at time 2000 with the
failure limit 3 scans twice, runs the maintenance pass once, calls itself once and returns a
host. -/
theorem C34_get_connectable_bounds_witness :
    Reachable exWorld 0 exCache ∧ exSettings.FailureLimit % 256 ≤ 253 ∧
      (getConnectableCost exWorld exSettings 2000 true 2 exCache [] "US").map (fun x => x.2.2) =
        some ⟨2, 1, 1⟩ ∧
      ∃ t r k, getConnectableCost exWorld exSettings 2000 true 2 exCache [] "US" =
          some (t, r, k) ∧
        (∀ fuel, 2 ≤ fuel →
          getConnectableCost exWorld exSettings 2000 true fuel exCache [] "US" =
            some (t, r, k)) ∧
        exCache.getConnectable exWorld exSettings 2000 true [] "US" = some (t, r) ∧
        k.nScans ≤ 2 ∧ k.nMaintain ≤ 1 ∧ k.nRecursive ≤ 1 ∧
        (exCache.hosts = [] → t = exCache ∧ r = none ∧ k.nScans = 0) ∧
        (scanConnectable exWorld [] ("US" != "ZZ") "US" exCache.m_lHosts = none →
          (∀ s1, exCache.maintainInternal exSettings 2000 true = some s1 →
            scanConnectable exWorld [] false "ZZ" s1.m_lHosts = none) → r = none) :=
  ⟨exCache_reachable, by decide, by decide,
    C34_get_connectable_bounds exWorld 0 exCache exCache_reachable exSettings 2000 true []
      "US" (by decide)⟩

/-! ## Reading a snapshot -/

/-- The test `tTimeStamp - tNow > 0` of `load` holds for every `quint32` timestamp other than
`tNow`. -/
theorem loadClamp_ne (ts now : Nat) (h1 : ts < 4294967296) (h2 : now < 4294967296)
    (hne : ts ≠ now) : loadClamp ts now = subU32 now 60 := by
  unfold loadClamp
  rw [if_pos]
  unfold subU32
  omega

/-- C35 fails for a timestamp in the past: the snapshot `exFileP` holds one record with
timestamp 500 and last connect 400, and is loaded at time 1000.  The record is accepted, and
`load` stores the timestamp 940, which is `tNow - 60`, not 500: the test
`tTimeStamp - tNow > 0` is made on `quint32` values and holds for every timestamp other than
`tNow`.  The last connect, tested by `tLastConnect > tNow`, is stored unchanged. -/
theorem C35_load_clamps_past_timestamp :
    exFileP.records = [⟨⟨1, 6346⟩, 0, 500, 400⟩] ∧ 500 ≤ 1000 ∧
      loadClamp 500 1000 = 940 ∧
      (exStart.load exWorld exDenied exSettings 0 1000 (some exFileP)).map
        (fun t => t.hosts.map toRecord) = some [⟨⟨1, 6346⟩, 0, 940, 400⟩] :=
  ⟨by decide, by decide, by decide, by decide⟩

/-- When no record of the stream is denied the loop with count `n` reads `n` records. -/
theorem loadReads_none_denied (d : CEndPoint → Bool) (e : HostRecord) (rs : List HostRecord)
    (hd : ∀ r ∈ rs, d r.oAddress = false) (n : Nat) (hn : n ≤ rs.length) :
    loadReads d e rs n = some n := by
  induction rs generalizing n with
  | nil =>
    have : n = 0 := by simpa using hn
    subst this
    rfl
  | cons r rs ih =>
    cases n with
    | zero => rfl
    | succ n =>
      simp only [loadReads, hd r (List.mem_cons_self _ _), Bool.false_eq_true, if_false]
      rw [ih (fun r hr => hd r (List.mem_cons_of_mem _ hr)) n
        (by simpa using hn)]
      rfl

/-- C36 fails for a denied record: the stream `exFileD` has the header count 2 and the
records of 1:6346, 2:6346 and 3:6346, and the security manager denies 1:6346.  The loop of
`load` reads three records, not two, and the host 3:6346, which lies behind the two records
of the snapshot, is in the cache afterwards: `continue` skips the denied record without
`--nCount`.  With a security manager that denies every address the loop on the one record
snapshot `exFile` does not end. -/
theorem C36_denied_record_not_counted :
    exFileD.nCount = 2 ∧
      exFileD.records.map (fun r => exDenyOne r.oAddress) = [true, false, false] ∧
      loadReads exDenyOne exFileD.pastEnd exFileD.records exFileD.nCount = some 3 ∧
      (exStart.load exWorld exDenyOne exSettings 0 1000 (some exFileD)).map
        (fun t => t.hosts.map (fun e => e.m_oAddress)) = some [⟨3, 6346⟩, ⟨2, 6346⟩] ∧
      loadReads exDenied exFileD.pastEnd exFileD.records exFileD.nCount = some 2 ∧
      (exStart.load exWorld exDenied exSettings 0 1000 (some exFileD)).map
        (fun t => t.hosts.map (fun e => e.m_oAddress)) = some [⟨2, 6346⟩, ⟨1, 6346⟩] ∧
      loadReads exDenyAll exFile.pastEnd exFile.records exFile.nCount = none ∧
      exStart.load exWorld exDenyAll exSettings 0 1060 (some exFile) = none :=
  ⟨by decide, by decide, by decide, by decide, by decide, by decide, by decide, by decide⟩

end Quazaa
